import Mathlib

/-!
# Hash tables of COMP20007 Project 2: linear probing, cuckoo, extendible cuckoo

Shallow embedding of `src/tables/linear.c`, `src/tables/cuckoo.c` and
`src/tables/xuckoo.c`.

* C arrays are lists, read with `List.getD` and written with `List.set`.
* `int` values are natural numbers: every size is asserted below
  `MAX_TABLE_SIZE = 2^27`, so no arithmetic of the tables overflows.
* A failed `assert` is `Err.assertion`.  Loops and recursive calls take a
  recursion budget; exhausting it is `Err.fuel`.  On tables reachable from a
  fresh table no budget is ever exhausted (`lin_insert_returns`,
  `cu_insert_returns`, `xu_insert_returns`).
* The hash functions `h1`, `h2` are parameters (`int64 → int`, non-negative).
* `malloc` does not initialise memory: a fresh key cell number `i` holds
  `junk i`, for an arbitrary parameter `junk`.
* The `time` statistics (readings of `clock()`) are left out.
-/

/-- Keys are `int64` (`uint64_t`) values; they are only compared and hashed. -/
abbrev Key := Nat

/-- The constant `MAX_TABLE_SIZE` of `inthash.h`. -/
def MAX_TABLE_SIZE : Nat := 134217728

/-- The ways a call can fail to return. -/
inductive Err where
  | assertion
  | fuel
deriving DecidableEq, Repr

/-- Bound on the depth of nested insert calls: every nested call is made on a
table at least twice as large, and sizes are asserted below `2^27`. -/
def INSERT_DEPTH : Nat := 28

/-! ## linear.c -/

namespace Linear

/-- The macro `STEP_SIZE`. -/
def STEP_SIZE : Nat := 1

/-- The `struct stats` of linear.c (`total_probe` is a `double` holding a sum
of integers). -/
structure Stats where
  collisions : Nat
  total_probe : Nat
  is_recorded_collisions : Nat
deriving DecidableEq, Repr

/-- The `struct linear_table`. -/
structure LinearHashTable where
  slots : List Key
  inuse : List Bool
  size : Nat
  load : Nat
  stats : Stats
deriving DecidableEq, Repr

/-- Function `initialise_table`: fresh arrays of `size` cells, none in use. -/
def initialise_table (junk : Nat → Key) (table : LinearHashTable) (size : Nat) :
    Except Err LinearHashTable :=
  if size < MAX_TABLE_SIZE then
    .ok { table with
      slots := (List.range size).map junk
      inuse := List.replicate size false
      size := size
      load := 0 }
  else .error .assertion

/-- The `while (table->inuse[h])` loop of `reinsert_key`; returns `(h, steps)`. -/
def reinsert_loop (table : LinearHashTable) : Nat → Nat → Nat → Except Err (Nat × Nat)
  | 0, _, _ => .error .fuel
  | fuel + 1, h, steps =>
    if table.inuse.getD h false = true then
      reinsert_loop table fuel ((h + STEP_SIZE) % table.size) (steps + 1)
    else .ok (h, steps)

/-- Function `reinsert_key` of linear.c. -/
def reinsert_key (h1 : Key → Nat) (table : LinearHashTable) (key : Key) :
    Except Err LinearHashTable :=
  match reinsert_loop table (table.size + 1) (h1 key % table.size) 0 with
  | .error e => .error e
  | .ok (h, steps) =>
    .ok { table with
      slots := table.slots.set h key
      inuse := table.inuse.set h true
      load := table.load + 1
      stats := { table.stats with total_probe := table.stats.total_probe + (steps + 1) } }

/-- The `for` loop of `double_table` over the old arrays, from index `i` on. -/
def rehash_loop (h1 : Key → Nat) (oldslots : List Key) (oldinuse : List Bool) :
    List Nat → LinearHashTable → Except Err LinearHashTable
  | [], table => .ok table
  | i :: is, table =>
    if oldinuse.getD i false = true then
      match reinsert_key h1 table (oldslots.getD i 0) with
      | .error e => .error e
      | .ok table => rehash_loop h1 oldslots oldinuse is table
    else rehash_loop h1 oldslots oldinuse is table

/-- Function `double_table` of linear.c. -/
def double_table (h1 : Key → Nat) (junk : Nat → Key) (table : LinearHashTable) :
    Except Err LinearHashTable :=
  match initialise_table junk table (table.size * 2) with
  | .error e => .error e
  | .ok fresh => rehash_loop h1 table.slots table.inuse (List.range table.size) fresh

/-- Function `new_linear_hash_table`. -/
def new_linear_hash_table (junk : Nat → Key) (size : Nat) : Except Err LinearHashTable :=
  initialise_table junk
    { slots := [], inuse := [], size := 0, load := 0,
      stats := { collisions := 0, total_probe := 0, is_recorded_collisions := 0 } } size

/-- State of the probing loop of `linear_hash_table_insert`. -/
structure Probe where
  table : LinearHashTable
  h : Nat
  steps : Nat
  found : Bool
deriving DecidableEq, Repr

/-- The `while (table->inuse[h] && steps < table->size)` loop of
`linear_hash_table_insert`; `found` records the `return false` inside it. -/
def insert_loop (key : Key) : Nat → LinearHashTable → Nat → Nat → Except Err Probe
  | 0, _, _, _ => .error .fuel
  | fuel + 1, table, h, steps =>
    if table.inuse.getD h false = true ∧ steps < table.size then
      if table.slots.getD h 0 = key then
        .ok { table := table, h := h, steps := steps, found := true }
      else
        let table :=
          if steps = 0 ∧ table.stats.is_recorded_collisions = 0 then
            { table with stats := { table.stats with collisions := table.stats.collisions + 1 } }
          else table
        insert_loop key fuel table ((h + STEP_SIZE) % table.size) (steps + 1)
    else .ok { table := table, h := h, steps := steps, found := false }

/-- Function `linear_hash_table_insert`, with a budget for the recursive call. -/
def linear_hash_table_insert_fuel (h1 : Key → Nat) (junk : Nat → Key) :
    Nat → LinearHashTable → Key → Except Err (LinearHashTable × Bool)
  | 0, _, _ => .error .fuel
  | fuel + 1, table, key =>
    match insert_loop key (table.size + 1) table (h1 key % table.size) 0 with
    | .error e => .error e
    | .ok p =>
      if p.found = true then .ok (p.table, false)
      else if p.steps = p.table.size then
        let table := { p.table with stats := { p.table.stats with is_recorded_collisions := 1 } }
        match double_table h1 junk table with
        | .error e => .error e
        | .ok table => linear_hash_table_insert_fuel h1 junk fuel table key
      else
        .ok ({ p.table with
              slots := p.table.slots.set p.h key
              inuse := p.table.inuse.set p.h true
              load := p.table.load + 1
              stats := { p.table.stats with
                total_probe := p.table.stats.total_probe + (p.steps + 1)
                is_recorded_collisions := 0 } }, true)

/-- Function `linear_hash_table_insert`. -/
def linear_hash_table_insert (h1 : Key → Nat) (junk : Nat → Key) (table : LinearHashTable)
    (key : Key) : Except Err (LinearHashTable × Bool) :=
  linear_hash_table_insert_fuel h1 junk INSERT_DEPTH table key

/-- The loop of `linear_hash_table_lookup`, from address `h` after `steps` steps. -/
def lookup_loop (table : LinearHashTable) (key : Key) : Nat → Nat → Nat → Except Err Bool
  | 0, _, _ => .error .fuel
  | fuel + 1, h, steps =>
    if table.inuse.getD h false = true ∧ steps < table.size then
      if table.slots.getD h 0 = key then .ok true
      else lookup_loop table key fuel ((h + STEP_SIZE) % table.size) (steps + 1)
    else .ok false

/-- Function `linear_hash_table_lookup`. -/
def linear_hash_table_lookup (h1 : Key → Nat) (table : LinearHashTable) (key : Key) :
    Except Err Bool :=
  lookup_loop table key (table.size + 1) (h1 key % table.size) 0

/-- Insert the keys of a list one after the other, collecting the results. -/
def insert_all (h1 : Key → Nat) (junk : Nat → Key) :
    LinearHashTable → List Key → Except Err (LinearHashTable × List Bool)
  | table, [] => .ok (table, [])
  | table, k :: ks =>
    match linear_hash_table_insert h1 junk table k with
    | .error e => .error e
    | .ok (table, b) =>
      match insert_all h1 junk table ks with
      | .error e => .error e
      | .ok (table, bs) => .ok (table, b :: bs)

end Linear

/-! ## cuckoo.c -/

namespace Cuckoo

/-- The `struct inner_table` of cuckoo.c: two parallel arrays. -/
structure InnerTable where
  slots : List Key
  inuse : List Bool
deriving DecidableEq, Repr

/-- The `struct stats` of cuckoo.c, without `time`. -/
structure Stats where
  load_table1 : Nat
  load_table2 : Nat
deriving DecidableEq, Repr

/-- The `struct cuckoo_table`. -/
structure CuckooHashTable where
  table1 : InnerTable
  table2 : InnerTable
  size : Nat
  load : Nat
  stats : Stats
deriving DecidableEq, Repr

/-- The inner table a pointer `temp_table` refers to, by its number (1 or 2). -/
def CuckooHashTable.inner (table : CuckooHashTable) (n : Nat) : InnerTable :=
  if n = 1 then table.table1 else table.table2

/-- Write through the pointer `temp_table`. -/
def CuckooHashTable.setInner (table : CuckooHashTable) (n : Nat) (it : InnerTable) :
    CuckooHashTable :=
  if n = 1 then { table with table1 := it } else { table with table2 := it }

/-- Functions `initialise_cuckoo_table` and `initialise_inner_table`. -/
def initialise_cuckoo_table (junk : Nat → Key) (table : CuckooHashTable) (size : Nat) :
    Except Err CuckooHashTable :=
  if size < MAX_TABLE_SIZE then
    .ok { table with
      table1 := { slots := (List.range size).map junk, inuse := List.replicate size false }
      table2 := { slots := (List.range size).map junk, inuse := List.replicate size false }
      size := size
      load := 0
      stats := { load_table1 := 0, load_table2 := 0 } }
  else .error .assertion

/-- Function `new_cuckoo_hash_table`. -/
def new_cuckoo_hash_table (junk : Nat → Key) (size : Nat) : Except Err CuckooHashTable :=
  initialise_cuckoo_table junk
    { table1 := { slots := [], inuse := [] }, table2 := { slots := [], inuse := [] },
      size := 0, load := 0, stats := { load_table1 := 0, load_table2 := 0 } } size

/-- Local variables of the eviction loop of `cuckoo_hash_table_insert`;
`temp_table` always points at inner table number `insert_table`. -/
structure Kick where
  table : CuckooHashTable
  key : Key
  H : Nat
  insert_table : Nat
  time_kicked_keys : Nat
deriving DecidableEq, Repr

/-- The `while (temp_table->inuse[H] == USED && time_kicked_keys != 2*size)`
loop of `cuckoo_hash_table_insert`. -/
def kick_loop (h1 h2 : Key → Nat) : Nat → Kick → Except Err Kick
  | 0, _ => .error .fuel
  | fuel + 1, s =>
    let temp_table := s.table.inner s.insert_table
    if temp_table.inuse.getD s.H false = true ∧ s.time_kicked_keys ≠ 2 * s.table.size then
      let kick_key := temp_table.slots.getD s.H 0
      let table := s.table.setInner s.insert_table
        { temp_table with slots := temp_table.slots.set s.H s.key }
      if s.insert_table = 1 then
        kick_loop h1 h2 fuel
          { table := table, key := kick_key, H := h2 kick_key % table.size,
            insert_table := 2, time_kicked_keys := s.time_kicked_keys + 1 }
      else if s.insert_table = 2 then
        kick_loop h1 h2 fuel
          { table := table, key := kick_key, H := h1 kick_key % table.size,
            insert_table := 1, time_kicked_keys := s.time_kicked_keys + 1 }
      else
        kick_loop h1 h2 fuel
          { s with table := table, key := kick_key, time_kicked_keys := s.time_kicked_keys + 1 }
    else .ok s

/-- One conditional re-insertion of the loop of `double_cuckoo_table`. -/
def reinsert_if (ins : CuckooHashTable → Key → Except Err (CuckooHashTable × Bool))
    (used : Bool) (key : Key) (table : CuckooHashTable) : Except Err CuckooHashTable :=
  if used = true then
    match ins table key with
    | .error e => .error e
    | .ok (table, _) => .ok table
  else .ok table

/-- The `for` loop of `double_cuckoo_table` over the old arrays; `ins` is the
(recursive) call of `cuckoo_hash_table_insert`. -/
def reinsert_loop (ins : CuckooHashTable → Key → Except Err (CuckooHashTable × Bool))
    (old1 old2 : InnerTable) : List Nat → CuckooHashTable → Except Err CuckooHashTable
  | [], table => .ok table
  | i :: is, table =>
    match reinsert_if ins (old1.inuse.getD i false) (old1.slots.getD i 0) table with
    | .error e => .error e
    | .ok table =>
      match reinsert_if ins (old2.inuse.getD i false) (old2.slots.getD i 0) table with
      | .error e => .error e
      | .ok table => reinsert_loop ins old1 old2 is table

/-- Function `double_cuckoo_table`; `ins` is the call of `cuckoo_hash_table_insert`. -/
def double_cuckoo_table (ins : CuckooHashTable → Key → Except Err (CuckooHashTable × Bool))
    (junk : Nat → Key) (table : CuckooHashTable) : Except Err CuckooHashTable :=
  match initialise_cuckoo_table junk table (table.size * 2) with
  | .error e => .error e
  | .ok fresh => reinsert_loop ins table.table1 table.table2 (List.range table.size) fresh

/-- Function `cuckoo_hash_table_insert`, with a budget for the nested calls. -/
def cuckoo_hash_table_insert_fuel (h1 h2 : Key → Nat) (junk : Nat → Key) :
    Nat → CuckooHashTable → Key → Except Err (CuckooHashTable × Bool)
  | 0, _, _ => .error .fuel
  | fuel + 1, table, key =>
    let H1 := h1 key % table.size
    let H2 := h2 key % table.size
    if table.load = 2 * table.size - 1 then
      match double_cuckoo_table (cuckoo_hash_table_insert_fuel h1 h2 junk fuel) junk table with
      | .error e => .error e
      | .ok table => cuckoo_hash_table_insert_fuel h1 h2 junk fuel table key
    else if table.table1.slots.getD H1 0 = key ∧ table.table1.inuse.getD H1 false = true then
      .ok (table, false)
    else if table.table2.slots.getD H2 0 = key ∧ table.table2.inuse.getD H2 false = true then
      .ok (table, false)
    else
      match kick_loop h1 h2 (2 * table.size + 1)
          { table := table, key := key, H := H1, insert_table := 1, time_kicked_keys := 0 } with
      | .error e => .error e
      | .ok s =>
        if s.time_kicked_keys = 2 * s.table.size then
          match double_cuckoo_table (cuckoo_hash_table_insert_fuel h1 h2 junk fuel) junk s.table with
          | .error e => .error e
          | .ok table => cuckoo_hash_table_insert_fuel h1 h2 junk fuel table s.key
        else
          let temp_table := s.table.inner s.insert_table
          let table := s.table.setInner s.insert_table
            { slots := temp_table.slots.set s.H s.key, inuse := temp_table.inuse.set s.H true }
          let table := { table with load := table.load + 1 }
          let table :=
            if s.insert_table = 1 then
              { table with stats := { table.stats with load_table1 := table.stats.load_table1 + 1 } }
            else if s.insert_table = 2 then
              { table with stats := { table.stats with load_table2 := table.stats.load_table2 + 1 } }
            else table
          .ok (table, true)

/-- Function `cuckoo_hash_table_insert`. -/
def cuckoo_hash_table_insert (h1 h2 : Key → Nat) (junk : Nat → Key) (table : CuckooHashTable)
    (key : Key) : Except Err (CuckooHashTable × Bool) :=
  cuckoo_hash_table_insert_fuel h1 h2 junk INSERT_DEPTH table key

/-- Function `cuckoo_hash_table_lookup`. -/
def cuckoo_hash_table_lookup (h1 h2 : Key → Nat) (table : CuckooHashTable) (key : Key) : Bool :=
  let H1 := h1 key % table.size
  let H2 := h2 key % table.size
  if table.table1.slots.getD H1 0 = key ∧ table.table1.inuse.getD H1 false = true then true
  else if table.table2.slots.getD H2 0 = key ∧ table.table2.inuse.getD H2 false = true then true
  else false

/-- Insert the keys of a list one after the other, collecting the results. -/
def insert_all (h1 h2 : Key → Nat) (junk : Nat → Key) :
    CuckooHashTable → List Key → Except Err (CuckooHashTable × List Bool)
  | table, [] => .ok (table, [])
  | table, k :: ks =>
    match cuckoo_hash_table_insert h1 h2 junk table k with
    | .error e => .error e
    | .ok (table, b) =>
      match insert_all h1 h2 junk table ks with
      | .error e => .error e
      | .ok (table, bs) => .ok (table, b :: bs)

end Cuckoo

/-! ## xuckoo.c -/

namespace Xuckoo

/-- The macro `rightmostnbits(n, x)`: `(x) & ((1 << (n)) - 1)`. -/
def rightmostnbits (n x : Nat) : Nat := x &&& ((1 <<< n) - 1)

/-- The `struct bucket`. -/
structure Bucket where
  id : Nat
  depth : Nat
  full : Bool
  key : Key
deriving DecidableEq, Repr

/-- The `struct inner_table` of xuckoo.c.  `buckets` is the array of bucket
pointers; a pointer is the index of its bucket in `mem`, the buckets
allocated for this table in order of allocation. -/
structure InnerTable where
  buckets : List Nat
  size : Nat
  depth : Nat
  nkeys : Nat
  mem : List Bucket
deriving DecidableEq, Repr

/-- The `struct xuckoo_table`, without the `time` statistic. -/
structure XuckooHashTable where
  table1 : InnerTable
  table2 : InnerTable
deriving DecidableEq, Repr

/-- The bucket at pointer `p`. -/
def InnerTable.deref (t : InnerTable) (p : Nat) : Bucket :=
  t.mem.getD p { id := 0, depth := 0, full := false, key := 0 }

/-- The bucket read by `innertable->buckets[address]`. -/
def InnerTable.bucket (t : InnerTable) (address : Nat) : Bucket :=
  t.deref (t.buckets.getD address 0)

/-- Write a bucket through pointer `p`. -/
def InnerTable.store (t : InnerTable) (p : Nat) (b : Bucket) : InnerTable :=
  { t with mem := t.mem.set p b }

/-- Write through `innertable->buckets[address]`. -/
def InnerTable.storeAt (t : InnerTable) (address : Nat) (b : Bucket) : InnerTable :=
  t.store (t.buckets.getD address 0) b

/-- The inner table a pointer `innertable` refers to, by its number (1 or 2). -/
def XuckooHashTable.inner (table : XuckooHashTable) (n : Nat) : InnerTable :=
  if n = 1 then table.table1 else table.table2

/-- Write through the pointer `innertable`. -/
def XuckooHashTable.setInner (table : XuckooHashTable) (n : Nat) (it : InnerTable) :
    XuckooHashTable :=
  if n = 1 then { table with table1 := it } else { table with table2 := it }

/-- Function `new_bucket`: the bucket is allocated at the end of `mem`; its
key is not initialised.  Returns the table and the new pointer. -/
def new_bucket (junk : Nat → Key) (t : InnerTable) (first_address depth : Nat) :
    InnerTable × Nat :=
  ({ t with mem := t.mem ++
      [{ id := first_address, depth := depth, full := false, key := junk t.mem.length }] },
   t.mem.length)

/-- Function `initialise_inner_table` of xuckoo.c. -/
def initialise_inner_table (junk : Nat → Key) : InnerTable :=
  let t : InnerTable := { buckets := [0], size := 1, depth := 0, nkeys := 0, mem := [] }
  (new_bucket junk t 0 0).1

/-- Function `new_xuckoo_hash_table`. -/
def new_xuckoo_hash_table (junk : Nat → Key) : XuckooHashTable :=
  { table1 := initialise_inner_table junk, table2 := initialise_inner_table junk }

/-- Function `double_table` of xuckoo.c: entry `size + i` receives the
pointer of entry `i`. -/
def double_table (innertable : InnerTable) : Except Err InnerTable :=
  let size := innertable.size * 2
  if size < MAX_TABLE_SIZE then
    .ok { innertable with
      buckets := innertable.buckets.take innertable.size ++
        (List.range innertable.size).map (fun i => innertable.buckets.getD i 0)
      size := size
      depth := innertable.depth + 1 }
  else .error .assertion

/-- Function `reinsert_key` of xuckoo.c. -/
def reinsert_key (h1 h2 : Key → Nat) (innertable : InnerTable) (key : Key) (table_no : Nat) :
    InnerTable :=
  let hash := if table_no = 2 then h2 key else h1 key
  let address := rightmostnbits innertable.depth hash
  innertable.storeAt address { innertable.bucket address with key := key, full := true }

/-- The `for (prefix = 0; prefix < maxprefix; prefix++)` loop of `split_bucket`. -/
def redirect_loop (new_depth suffix newbucket : Nat) : List Nat → List Nat → List Nat
  | [], buckets => buckets
  | p :: ps, buckets =>
    redirect_loop new_depth suffix newbucket ps
      (buckets.set ((p <<< new_depth) ||| suffix) newbucket)

/-- The parts SECOND and THIRD of `split_bucket`: deepen the bucket at
`address`, allocate its sibling and redirect every second pointer to the
sibling.  Returns the table and the pointer `bucket`. -/
def split_pointers (junk : Nat → Key) (innertable : InnerTable) (address : Nat) :
    InnerTable × Nat :=
  let bucket := innertable.buckets.getD address 0
  let depth := (innertable.deref bucket).depth
  let first_address := (innertable.deref bucket).id
  let new_depth := depth + 1
  let innertable := innertable.store bucket { innertable.deref bucket with depth := new_depth }
  let new_first_address := (1 <<< depth) ||| first_address
  let (innertable, newbucket) := new_bucket junk innertable new_first_address new_depth
  let bit_address := rightmostnbits depth first_address
  let suffix := (1 <<< depth) ||| bit_address
  let maxprefix := 1 <<< (innertable.depth - new_depth)
  ({ innertable with
      buckets := redirect_loop new_depth suffix newbucket (List.range maxprefix)
        innertable.buckets }, bucket)

/-- Function `split_bucket`: grow the table if the bucket is down to its last
pointer, split the pointers, then remove the key of the old bucket and
reinsert it. -/
def split_bucket (h1 h2 : Key → Nat) (junk : Nat → Key) (innertable : InnerTable)
    (address table_no : Nat) : Except Err InnerTable :=
  match (if (innertable.bucket address).depth = innertable.depth then double_table innertable
         else .ok innertable) with
  | .error e => .error e
  | .ok innertable =>
    let (innertable, bucket) := split_pointers junk innertable address
    let key := (innertable.deref bucket).key
    let innertable := innertable.store bucket { innertable.deref bucket with full := false }
    .ok (reinsert_key h1 h2 innertable key table_no)

/-- Local variables of `xuckoo_hash_table_insert`; `innertable` is the number
(1 or 2) of the inner table the pointer `innertable` refers to. -/
structure Cursor where
  table : XuckooHashTable
  innertable : Nat
  address : Nat
  key : Key
  insert_table : Nat
  total_kicked_keys : Nat
deriving DecidableEq, Repr

/-- The eviction loop `while (innertable->buckets[address]->full &&
total_kicked_keys != 2*(table->table1->size))`. -/
def kick_loop (h1 h2 : Key → Nat) : Nat → Cursor → Except Err Cursor
  | 0, _ => .error .fuel
  | fuel + 1, s =>
    let innertable := s.table.inner s.innertable
    if (innertable.bucket s.address).full = true ∧
        s.total_kicked_keys ≠ 2 * s.table.table1.size then
      let kick_key := (innertable.bucket s.address).key
      let table := s.table.setInner s.innertable
        (innertable.storeAt s.address { innertable.bucket s.address with key := s.key })
      if s.insert_table = 1 then
        kick_loop h1 h2 fuel
          { table := table, innertable := 2,
            address := rightmostnbits table.table2.depth (h2 kick_key),
            key := kick_key, insert_table := 2, total_kicked_keys := s.total_kicked_keys + 1 }
      else if s.insert_table = 2 then
        kick_loop h1 h2 fuel
          { table := table, innertable := 1,
            address := rightmostnbits table.table1.depth (h1 kick_key),
            key := kick_key, insert_table := 1, total_kicked_keys := s.total_kicked_keys + 1 }
      else
        kick_loop h1 h2 fuel
          { s with table := table, key := kick_key, total_kicked_keys := s.total_kicked_keys + 1 }
    else .ok s

/-- The splitting loop `while (innertable->buckets[address]->full)`. -/
def split_loop (h1 h2 : Key → Nat) (junk : Nat → Key) : Nat → Cursor → Except Err Cursor
  | 0, _ => .error .fuel
  | fuel + 1, s =>
    if ((s.table.inner s.innertable).bucket s.address).full = true then
      if s.table.table1.size ≤ s.table.table2.size then
        let hash := h1 s.key
        let address := rightmostnbits s.table.table1.depth hash
        match split_bucket h1 h2 junk s.table.table1 address 1 with
        | .error e => .error e
        | .ok innertable =>
          split_loop h1 h2 junk fuel
            { s with table := { s.table with table1 := innertable }, innertable := 1,
                     address := rightmostnbits innertable.depth hash, insert_table := 1 }
      else
        let hash := h2 s.key
        let address := rightmostnbits s.table.table2.depth hash
        match split_bucket h1 h2 junk s.table.table2 address 2 with
        | .error e => .error e
        | .ok innertable =>
          split_loop h1 h2 junk fuel
            { s with table := { s.table with table2 := innertable }, innertable := 2,
                     address := rightmostnbits innertable.depth hash, insert_table := 2 }
    else .ok s

/-- Budget of the splitting loop: a split deepens the target bucket of one of
the two directories, whose depths stay below 27. -/
def SPLIT_FUEL : Nat := 64

/-- The part of `xuckoo_hash_table_insert` after the two duplicate checks:
the eviction loop and, after `2*size` kicks, the splitting loop. -/
def find_slot (h1 h2 : Key → Nat) (junk : Nat → Key) (table : XuckooHashTable) (key : Key) :
    Except Err Cursor :=
  let address_1 := rightmostnbits table.table1.depth (h1 key)
  let insert_table := if table.table1.nkeys > table.table2.nkeys then 2 else 1
  match kick_loop h1 h2 (2 * table.table1.size + 1)
      { table := table, innertable := 1, address := address_1, key := key,
        insert_table := insert_table, total_kicked_keys := 0 } with
  | .error e => .error e
  | .ok s =>
    if s.total_kicked_keys = 2 * s.table.table1.size then
      split_loop h1 h2 junk SPLIT_FUEL s
    else .ok s

/-- Function `xuckoo_hash_table_insert`. -/
def xuckoo_hash_table_insert (h1 h2 : Key → Nat) (junk : Nat → Key) (table : XuckooHashTable)
    (key : Key) : Except Err (XuckooHashTable × Bool) :=
  let address_1 := rightmostnbits table.table1.depth (h1 key)
  let address_2 := rightmostnbits table.table2.depth (h2 key)
  if (table.table1.bucket address_1).full = true ∧ (table.table1.bucket address_1).key = key then
    .ok (table, false)
  else if (table.table2.bucket address_2).full = true ∧
      (table.table2.bucket address_2).key = key then
    .ok (table, false)
  else
    match find_slot h1 h2 junk table key with
    | .error e => .error e
    | .ok s =>
      let innertable := s.table.inner s.innertable
      let innertable := innertable.storeAt s.address
        { innertable.bucket s.address with key := s.key, full := true }
      let innertable := { innertable with nkeys := innertable.nkeys + 1 }
      .ok (s.table.setInner s.innertable innertable, true)

/-- Function `xuckoo_hash_table_lookup`. -/
def xuckoo_hash_table_lookup (h1 h2 : Key → Nat) (table : XuckooHashTable) (key : Key) : Bool :=
  let address_table1 := rightmostnbits table.table1.depth (h1 key)
  let address_table2 := rightmostnbits table.table2.depth (h2 key)
  if (table.table1.bucket address_table1).full = true ∧
      (table.table1.bucket address_table1).key = key then true
  else if (table.table2.bucket address_table2).full = true ∧
      (table.table2.bucket address_table2).key = key then true
  else false

/-- Insert the keys of a list one after the other, collecting the results. -/
def insert_all (h1 h2 : Key → Nat) (junk : Nat → Key) :
    XuckooHashTable → List Key → Except Err (XuckooHashTable × List Bool)
  | table, [] => .ok (table, [])
  | table, k :: ks =>
    match xuckoo_hash_table_insert h1 h2 junk table k with
    | .error e => .error e
    | .ok (table, b) =>
      match insert_all h1 h2 junk table ks with
      | .error e => .error e
      | .ok (table, bs) => .ok (table, b :: bs)

end Xuckoo

/-! ## Specification vocabulary for linear.c -/

namespace Linear

/-- Key `k` is held by an in-use slot of the table. -/
def holds (t : LinearHashTable) (k : Key) : Prop :=
  ∃ i, i < t.size ∧ t.inuse.getD i false = true ∧ t.slots.getD i 0 = k

/-- The first `s` cells probed from address `a` are all in use. -/
def run (t : LinearHashTable) (a s : Nat) : Prop :=
  ∀ j, j < s → t.inuse.getD ((a + j) % t.size) false = true

/-- Key `k` is met by probing from address `a` before any free cell. -/
def FoundAt (t : LinearHashTable) (a : Nat) (k : Key) : Prop :=
  ∃ s, s < t.size ∧ run t a (s + 1) ∧ t.slots.getD ((a + s) % t.size) 0 = k

/-- The number of cells in use. -/
def used (t : LinearHashTable) : Nat := t.inuse.count true

/-- Representation invariant of a linear probing table: between the home
address of a stored key and the slot holding it, every cell is in use. -/
structure Inv (h1 : Key → Nat) (t : LinearHashTable) : Prop where
  size_pos : 0 < t.size
  slots_len : t.slots.length = t.size
  inuse_len : t.inuse.length = t.size
  nogap : ∀ i, i < t.size → t.inuse.getD i false = true →
    ∀ j, j < t.size → (h1 (t.slots.getD i 0) + j) % t.size = i → run t (h1 (t.slots.getD i 0)) j

/-- Tables reachable from `new_linear_hash_table size`, `size ≥ 1`, by
completed inserts. -/
inductive Reachable (h1 : Key → Nat) (junk : Nat → Key) : LinearHashTable → Prop
  | init (size : Nat) (t : LinearHashTable) (hs : 1 ≤ size)
      (h : new_linear_hash_table junk size = .ok t) : Reachable h1 junk t
  | step (t t' : LinearHashTable) (k : Key) (b : Bool) (hr : Reachable h1 junk t)
      (h : linear_hash_table_insert h1 junk t k = .ok (t', b)) : Reachable h1 junk t'

end Linear

/-! ## Specification vocabulary for cuckoo.c -/

namespace Cuckoo

/-- The hash function of inner table number `n`: `h1` for table 1, `h2` for table 2. -/
def hash_of (h1 h2 : Key → Nat) (n : Nat) : Key → Nat := if n = 1 then h1 else h2

/-- Key `k` is held by an in-use slot of inner table number `n`. -/
def storedIn (t : CuckooHashTable) (n : Nat) (k : Key) : Prop :=
  ∃ i, i < t.size ∧ (t.inner n).inuse.getD i false = true ∧ (t.inner n).slots.getD i 0 = k

/-- Key `k` is held by an in-use slot of one of the two arrays. -/
def holds (t : CuckooHashTable) (k : Key) : Prop := storedIn t 1 k ∨ storedIn t 2 k

/-- Representation invariant of a cuckoo table: every in-use slot holds a key
whose hash for that array is the slot's address, and no key is in both arrays. -/
structure Inv (h1 h2 : Key → Nat) (t : CuckooHashTable) : Prop where
  size_pos : 0 < t.size
  len_s : ∀ n, (t.inner n).slots.length = t.size
  len_u : ∀ n, (t.inner n).inuse.length = t.size
  addr : ∀ n i, i < t.size → (t.inner n).inuse.getD i false = true →
    hash_of h1 h2 n ((t.inner n).slots.getD i 0) % t.size = i
  disj : ∀ k, ¬ (storedIn t 1 k ∧ storedIn t 2 k)

/-- What a call of `cuckoo_hash_table_insert` guarantees when it returns. -/
def InsSpec (h1 h2 : Key → Nat)
    (ins : CuckooHashTable → Key → Except Err (CuckooHashTable × Bool)) : Prop :=
  ∀ t t' k b, Inv h1 h2 t → ins t k = .ok (t', b) →
    Inv h1 h2 t' ∧ (∀ x, holds t' x ↔ holds t x ∨ x = k) ∧ (b = true ↔ ¬ holds t k)

/-- What a call of `cuckoo_hash_table_insert` with enough budget does on a
table of size at least `n`: it returns a table that is not smaller, or an
assertion fails. -/
def Total (n : Nat) (ins : CuckooHashTable → Key → Except Err (CuckooHashTable × Bool)) :
    Prop :=
  ∀ t k, n ≤ t.size → 0 < t.size → t.size < MAX_TABLE_SIZE →
    (∃ t' b, ins t k = .ok (t', b) ∧ t.size ≤ t'.size ∧ t'.size < MAX_TABLE_SIZE) ∨
    ins t k = .error .assertion

/-- Local state of the eviction loop in which the held key is not in the table
and `H` is its address in the array under the cursor. -/
structure KInv (h1 h2 : Key → Nat) (s : Kick) : Prop where
  inv : Inv h1 h2 s.table
  tbl : s.insert_table = 1 ∨ s.insert_table = 2
  addr : s.H = hash_of h1 h2 s.insert_table s.key % s.table.size
  fresh : ¬ holds s.table s.key

/-- Tables reachable from `new_cuckoo_hash_table size`, `size ≥ 1`, by
completed inserts. -/
inductive Reachable (h1 h2 : Key → Nat) (junk : Nat → Key) : CuckooHashTable → Prop
  | init (size : Nat) (t : CuckooHashTable) (hs : 1 ≤ size)
      (h : new_cuckoo_hash_table junk size = .ok t) : Reachable h1 h2 junk t
  | step (t t' : CuckooHashTable) (k : Key) (b : Bool) (hr : Reachable h1 h2 junk t)
      (h : cuckoo_hash_table_insert h1 h2 junk t k = .ok (t', b)) : Reachable h1 h2 junk t'

/-- Reachable tables together with the list of keys whose insertion produced them. -/
inductive ReachableBy (h1 h2 : Key → Nat) (junk : Nat → Key) :
    List Key → CuckooHashTable → Prop
  | init (size : Nat) (t : CuckooHashTable) (hs : 1 ≤ size)
      (h : new_cuckoo_hash_table junk size = .ok t) : ReachableBy h1 h2 junk [] t
  | step (ks : List Key) (t t' : CuckooHashTable) (k : Key) (b : Bool)
      (hr : ReachableBy h1 h2 junk ks t)
      (h : cuckoo_hash_table_insert h1 h2 junk t k = .ok (t', b)) :
      ReachableBy h1 h2 junk (k :: ks) t'

end Cuckoo

/-! ## Specification vocabulary for xuckoo.c -/

namespace Xuckoo

/-- The hash function of inner table number `n`: `h1` for table 1, `h2` for table 2. -/
def hash_of (h1 h2 : Key → Nat) (n : Nat) : Key → Nat := if n = 1 then h1 else h2

/-- Directory alias consistency: entries whose indices agree on the low
`local depth` bits of the bucket at the first index are the same pointer. -/
def AliasConsistent (T : InnerTable) : Prop :=
  ∀ i j, i < T.size → j < T.size →
    j % 2 ^ (T.bucket i).depth = i % 2 ^ (T.bucket i).depth →
    T.buckets.getD j 0 = T.buckets.getD i 0

/-- Well-formed directory: `2^depth` valid pointers, local depths bounded by
the directory depth, bucket ids equal to the low bits of the addresses that
reach them, and alias consistency. -/
structure Dir (T : InnerTable) : Prop where
  len : T.buckets.length = T.size
  size_eq : T.size = 2 ^ T.depth
  ptr_lt : ∀ i, i < T.size → T.buckets.getD i 0 < T.mem.length
  depth_le : ∀ i, i < T.size → (T.bucket i).depth ≤ T.depth
  id_eq : ∀ i, i < T.size → (T.bucket i).id = i % 2 ^ (T.bucket i).depth
  aliased : AliasConsistent T

/-- Every full bucket of the directory holds a key whose hash has the bucket's
id as its low `local depth` bits. -/
def KeysAt (h : Key → Nat) (T : InnerTable) : Prop :=
  ∀ i, i < T.size → (T.bucket i).full = true →
    h (T.bucket i).key % 2 ^ (T.bucket i).depth = (T.bucket i).id

/-- Key `k` is held by a full bucket referenced from the directory. -/
def stored (T : InnerTable) (k : Key) : Prop :=
  ∃ i, i < T.size ∧ (T.bucket i).full = true ∧ (T.bucket i).key = k

/-- Key `k` is held by a full bucket of one of the two directories. -/
def holds (t : XuckooHashTable) (k : Key) : Prop :=
  stored (t.inner 1) k ∨ stored (t.inner 2) k

/-- Representation invariant of an extendible cuckoo table. -/
structure Inv (h1 h2 : Key → Nat) (t : XuckooHashTable) : Prop where
  dir : ∀ n, Dir (t.inner n)
  keys : ∀ n, KeysAt (hash_of h1 h2 n) (t.inner n)
  disj : ∀ k, ¬ (stored (t.inner 1) k ∧ stored (t.inner 2) k)

/-- The table handed to `reinsert_key` by `split_bucket`: the pointers are
split and the old bucket is emptied. -/
def split_cleared (junk : Nat → Key) (T : InnerTable) (a : Nat) : InnerTable :=
  (split_pointers junk T a).1.store (split_pointers junk T a).2
    { (split_pointers junk T a).1.deref (split_pointers junk T a).2 with full := false }

/-- The number of the other inner table. -/
def other (n : Nat) : Nat := if n = 1 then 2 else 1

/-- Local state of `xuckoo_hash_table_insert` in which the held key is not in
the table and `address` is its address in the directory under the cursor;
after a first kick `innertable` and `insert_table` agree, and after a second
kick the held key's bucket in the other directory is full. -/
structure XInv (h1 h2 : Key → Nat) (s : Cursor) : Prop where
  inv : Inv h1 h2 s.table
  tbl : s.innertable = 1 ∨ s.innertable = 2
  ins : s.insert_table = 1 ∨ s.insert_table = 2
  addr : s.address =
    rightmostnbits (s.table.inner s.innertable).depth (hash_of h1 h2 s.innertable s.key)
  fresh : ¬ holds s.table s.key

/-- The bucket of key `k` in directory `n`, at the low `depth` bits of its hash, is full. -/
def TargetFull (h1 h2 : Key → Nat) (t : XuckooHashTable) (n : Nat) (k : Key) : Prop :=
  ((t.inner n).bucket (rightmostnbits (t.inner n).depth (hash_of h1 h2 n k))).full = true

/-- The local depth of the bucket of key `k` in directory `n`. -/
def target_depth (h1 h2 : Key → Nat) (t : XuckooHashTable) (n : Nat) (k : Key) : Nat :=
  ((t.inner n).bucket (rightmostnbits (t.inner n).depth (hash_of h1 h2 n k))).depth

/-- The bucket of the held key in the directory that is not under the cursor is full. -/
def OtherFull (h1 h2 : Key → Nat) (s : Cursor) : Prop :=
  TargetFull h1 h2 s.table (other s.innertable) s.key

/-- Tables reachable from `new_xuckoo_hash_table` by completed inserts. -/
inductive Reachable (h1 h2 : Key → Nat) (junk : Nat → Key) : XuckooHashTable → Prop
  | init : Reachable h1 h2 junk (new_xuckoo_hash_table junk)
  | step (t t' : XuckooHashTable) (k : Key) (b : Bool) (hr : Reachable h1 h2 junk t)
      (h : xuckoo_hash_table_insert h1 h2 junk t k = .ok (t', b)) : Reachable h1 h2 junk t'

/-- Reachable tables together with the list of keys whose insertion produced them. -/
inductive ReachableBy (h1 h2 : Key → Nat) (junk : Nat → Key) :
    List Key → XuckooHashTable → Prop
  | init : ReachableBy h1 h2 junk [] (new_xuckoo_hash_table junk)
  | step (ks : List Key) (t t' : XuckooHashTable) (k : Key) (b : Bool)
      (hr : ReachableBy h1 h2 junk ks t)
      (h : xuckoo_hash_table_insert h1 h2 junk t k = .ok (t', b)) :
      ReachableBy h1 h2 junk (k :: ks) t'

end Xuckoo

/-! ## Concrete tables used in the worked examples

The examples use `h1 k = k`, a second hash `k / 2` (cuckoo) or `k / 4`
(extendible cuckoo), and uninitialised cells holding 0. -/

namespace Linear

/-- The table `new_linear_hash_table 1`. -/
def demo_empty : LinearHashTable :=
  { slots := [0], inuse := [false], size := 1, load := 0,
    stats := { collisions := 0, total_probe := 0, is_recorded_collisions := 0 } }

/-- The table of size 1 after inserting key 1. -/
def demo_one : LinearHashTable :=
  { slots := [1], inuse := [true], size := 1, load := 1,
    stats := { collisions := 0, total_probe := 1, is_recorded_collisions := 0 } }

/-- The table after inserting 1 and then 3: the second insert doubled it. -/
def demo_two : LinearHashTable :=
  { slots := [3, 1], inuse := [true, true], size := 2, load := 2,
    stats := { collisions := 1, total_probe := 4, is_recorded_collisions := 0 } }

end Linear

namespace Cuckoo

/-- The table `new_cuckoo_hash_table 1`. -/
def demo_empty : CuckooHashTable :=
  { table1 := { slots := [0], inuse := [false] },
    table2 := { slots := [0], inuse := [false] },
    size := 1, load := 0, stats := { load_table1 := 0, load_table2 := 0 } }

/-- The table of size 1 after inserting key 1. -/
def demo_one : CuckooHashTable :=
  { table1 := { slots := [1], inuse := [true] },
    table2 := { slots := [0], inuse := [false] },
    size := 1, load := 1, stats := { load_table1 := 1, load_table2 := 0 } }

/-- The table after inserting 1 and then 3: the second insert doubled the
arrays and kicked key 1 into the second array. -/
def demo_two : CuckooHashTable :=
  { table1 := { slots := [0, 3], inuse := [false, true] },
    table2 := { slots := [1, 0], inuse := [true, false] },
    size := 2, load := 2, stats := { load_table1 := 1, load_table2 := 1 } }

end Cuckoo

namespace Xuckoo

/-- The table after inserting key 0 into the fresh table. -/
def demo_one : XuckooHashTable :=
  { table1 := { buckets := [0], size := 1, depth := 0, nkeys := 1,
                mem := [{ id := 0, depth := 0, full := true, key := 0 }] },
    table2 := { buckets := [0], size := 1, depth := 0, nkeys := 0,
                mem := [{ id := 0, depth := 0, full := false, key := 0 }] } }

/-- The table after inserting 0, 1. -/
def demo_two : XuckooHashTable :=
  { table1 := { buckets := [0], size := 1, depth := 0, nkeys := 1,
                mem := [{ id := 0, depth := 0, full := true, key := 0 }] },
    table2 := { buckets := [0], size := 1, depth := 0, nkeys := 1,
                mem := [{ id := 0, depth := 0, full := true, key := 1 }] } }

/-- The table after inserting 0, 1, 3: the third insert kicked twice, then
split directory 1, directory 2 and directory 1 again. -/
def demo_three : XuckooHashTable :=
  { table1 := { buckets := [0, 1, 0, 2], size := 4, depth := 2, nkeys := 2,
                mem := [{ id := 0, depth := 1, full := false, key := 3 },
                        { id := 1, depth := 2, full := true, key := 1 },
                        { id := 3, depth := 2, full := true, key := 3 }] },
    table2 := { buckets := [0, 1], size := 2, depth := 1, nkeys := 1,
                mem := [{ id := 0, depth := 1, full := true, key := 0 },
                        { id := 1, depth := 1, full := false, key := 0 }] } }

/-- The table after inserting 0, 1, 3, 4. -/
def demo_four : XuckooHashTable :=
  { table1 := { buckets := [0, 1, 0, 2], size := 4, depth := 2, nkeys := 3,
                mem := [{ id := 0, depth := 1, full := true, key := 4 },
                        { id := 1, depth := 2, full := true, key := 1 },
                        { id := 3, depth := 2, full := true, key := 3 }] },
    table2 := { buckets := [0, 1], size := 2, depth := 1, nkeys := 1,
                mem := [{ id := 0, depth := 1, full := true, key := 0 },
                        { id := 1, depth := 1, full := false, key := 0 }] } }

end Xuckoo

/-! ## Further specification vocabulary for cuckoo.c -/

namespace Cuckoo

/-- The guard of the eviction loop of `cuckoo_hash_table_insert`. -/
def kick_guard (s : Kick) : Prop :=
  (s.table.inner s.insert_table).inuse.getD s.H false = true ∧
    s.time_kicked_keys ≠ 2 * s.table.size

/-- One execution of the body of the eviction loop (one kick): the held key is
written over the occupant of slot `H`, the occupant becomes the held key and
the cursor moves to the occupant's slot in the other array. -/
def kick (h1 h2 : Key → Nat) (s : Kick) : Kick :=
  let temp_table := s.table.inner s.insert_table
  let kick_key := temp_table.slots.getD s.H 0
  let table := s.table.setInner s.insert_table
    { temp_table with slots := temp_table.slots.set s.H s.key }
  if s.insert_table = 1 then
    { table := table, key := kick_key, H := h2 kick_key % table.size,
      insert_table := 2, time_kicked_keys := s.time_kicked_keys + 1 }
  else if s.insert_table = 2 then
    { table := table, key := kick_key, H := h1 kick_key % table.size,
      insert_table := 1, time_kicked_keys := s.time_kicked_keys + 1 }
  else
    { s with table := table, key := kick_key, time_kicked_keys := s.time_kicked_keys + 1 }

/-- The state of the eviction loop after `n` kicks. -/
def kicks (h1 h2 : Key → Nat) : Nat → Kick → Kick
  | 0, s => s
  | n + 1, s => kicks h1 h2 n (kick h1 h2 s)

/-- The state in which `cuckoo_hash_table_insert` enters its eviction loop. -/
def chain_start (h1 : Key → Nat) (table : CuckooHashTable) (key : Key) : Kick :=
  { table := table, key := key, H := h1 key % table.size, insert_table := 1,
    time_kicked_keys := 0 }

/-- The table in which the held key of `s` is stored in the slot under the
cursor: the `else` branch that ends `cuckoo_hash_table_insert`. -/
def place (s : Kick) : CuckooHashTable :=
  let temp_table := s.table.inner s.insert_table
  let table := s.table.setInner s.insert_table
    { slots := temp_table.slots.set s.H s.key, inuse := temp_table.inuse.set s.H true }
  let table := { table with load := table.load + 1 }
  if s.insert_table = 1 then
    { table with stats := { table.stats with load_table1 := table.stats.load_table1 + 1 } }
  else if s.insert_table = 2 then
    { table with stats := { table.stats with load_table2 := table.stats.load_table2 + 1 } }
  else table

/-- The number of in-use slots over both arrays. -/
def inuse_count (t : CuckooHashTable) : Nat :=
  t.table1.inuse.count true + t.table2.inuse.count true

/-- The keys in the in-use slots of an array of length `size`, in slot order. -/
def keysOf (it : InnerTable) (size : Nat) : List Key :=
  ((List.range size).filter (fun i => it.inuse.getD i false)).map (fun i => it.slots.getD i 0)

/-- The keys in the in-use slots of both arrays. -/
def keys (t : CuckooHashTable) : List Key := keysOf t.table1 t.size ++ keysOf t.table2 t.size

/-- Every key of array 2 got there by a kick out of array 1: its slot in
array 1 is in use. -/
def Kicked (h1 : Key → Nat) (t : CuckooHashTable) : Prop :=
  ∀ i, i < t.size → t.table2.inuse.getD i false = true →
    t.table1.inuse.getD (h1 (t.table2.slots.getD i 0) % t.size) false = true

/-- Load invariant of a cuckoo table. -/
structure LInv (h1 : Key → Nat) (t : CuckooHashTable) : Prop where
  load_eq : t.load = inuse_count t
  load_le : t.load ≤ 2 * t.size - 1
  kicked : Kicked h1 t

/-- What a call of `cuckoo_hash_table_insert` guarantees about the load. -/
def InsSpec2 (h1 h2 : Key → Nat)
    (ins : CuckooHashTable → Key → Except Err (CuckooHashTable × Bool)) : Prop :=
  ∀ t t' k b, Inv h1 h2 t → LInv h1 t → ins t k = .ok (t', b) →
    LInv h1 t' ∧ t'.load = t.load + (if b = true then 1 else 0)

/-- Local state of the eviction loop: the cursor is on array 1 after an even
number of kicks, and once a key has been kicked the slot of the held key in
array 1 is in use. -/
structure KInv2 (h1 : Key → Nat) (s : Kick) : Prop where
  kicked : Kicked h1 s.table
  parity : s.insert_table = 1 ↔ s.time_kicked_keys % 2 = 0
  origin : 0 < s.time_kicked_keys →
    s.table.table1.inuse.getD (h1 s.key % s.table.size) false = true

end Cuckoo

namespace Cuckoo

/-- The retry of `cuckoo_hash_table_insert` after a cycle or on a full table:
`double_cuckoo_table(table)` followed by the nested call
`cuckoo_hash_table_insert(table, key)`, with budget `fuel` for nested calls. -/
def retry (h1 h2 : Key → Nat) (junk : Nat → Key) (fuel : Nat) (table : CuckooHashTable)
    (key : Key) : Except Err (CuckooHashTable × Bool) :=
  match double_cuckoo_table (cuckoo_hash_table_insert_fuel h1 h2 junk fuel) junk table with
  | .error e => .error e
  | .ok table => cuckoo_hash_table_insert_fuel h1 h2 junk fuel table key

/-- The table `new_cuckoo_hash_table 2`. -/
def demo_cycle_empty : CuckooHashTable :=
  { table1 := { slots := [0, 0], inuse := [false, false] },
    table2 := { slots := [0, 0], inuse := [false, false] },
    size := 2, load := 0, stats := { load_table1 := 0, load_table2 := 0 } }

/-- The table of size 2 after inserting key 1, both hash functions being `2 * k`. -/
def demo_cycle_one : CuckooHashTable :=
  { table1 := { slots := [1, 0], inuse := [true, false] },
    table2 := { slots := [0, 0], inuse := [false, false] },
    size := 2, load := 1, stats := { load_table1 := 1, load_table2 := 0 } }

/-- The table of size 2 after inserting keys 1 and 2, both hash functions
being `2 * k`: every key has address 0 in both arrays. -/
def demo_cycle : CuckooHashTable :=
  { table1 := { slots := [2, 0], inuse := [true, false] },
    table2 := { slots := [1, 0], inuse := [true, false] },
    size := 2, load := 2, stats := { load_table1 := 1, load_table2 := 1 } }

/-- The state in which the eviction loop of the insert of key 3 into
`demo_cycle` stops: four kicks were made and key 2 is held. -/
def demo_cycle_end : Kick :=
  { table :=
      { table1 := { slots := [1, 0], inuse := [true, false] },
        table2 := { slots := [3, 0], inuse := [true, false] },
        size := 2, load := 2, stats := { load_table1 := 1, load_table2 := 1 } },
    key := 2, H := 0, insert_table := 1, time_kicked_keys := 4 }

/-- The table returned by the insert of key 3 into `demo_cycle`. -/
def demo_cycle_three : CuckooHashTable :=
  { table1 := { slots := [2, 0, 3, 0], inuse := [true, false, true, false] },
    table2 := { slots := [0, 0, 1, 0], inuse := [false, false, true, false] },
    size := 4, load := 3, stats := { load_table1 := 2, load_table2 := 1 } }

/-- The table returned by a second insert of key 1 into `demo_one`
(`h1 k = k`, `h2 k = k / 2`): the arrays were doubled. -/
def demo_dup : CuckooHashTable :=
  { table1 := { slots := [0, 1], inuse := [false, true] },
    table2 := { slots := [0, 0], inuse := [false, false] },
    size := 2, load := 1, stats := { load_table1 := 1, load_table2 := 0 } }

end Cuckoo

/-! ## Further specification vocabulary for xuckoo.c -/

namespace Xuckoo

/-- The guard of the eviction loop of `xuckoo_hash_table_insert`. -/
def kick_guard (s : Cursor) : Prop :=
  ((s.table.inner s.innertable).bucket s.address).full = true ∧
    s.total_kicked_keys ≠ 2 * s.table.table1.size

/-- One execution of the body of the eviction loop (one kick). -/
def kick (h1 h2 : Key → Nat) (s : Cursor) : Cursor :=
  let innertable := s.table.inner s.innertable
  let kick_key := (innertable.bucket s.address).key
  let table := s.table.setInner s.innertable
    (innertable.storeAt s.address { innertable.bucket s.address with key := s.key })
  if s.insert_table = 1 then
    { table := table, innertable := 2,
      address := rightmostnbits table.table2.depth (h2 kick_key),
      key := kick_key, insert_table := 2, total_kicked_keys := s.total_kicked_keys + 1 }
  else if s.insert_table = 2 then
    { table := table, innertable := 1,
      address := rightmostnbits table.table1.depth (h1 kick_key),
      key := kick_key, insert_table := 1, total_kicked_keys := s.total_kicked_keys + 1 }
  else
    { s with table := table, key := kick_key, total_kicked_keys := s.total_kicked_keys + 1 }

/-- The state of the eviction loop after `n` kicks. -/
def kicks (h1 h2 : Key → Nat) : Nat → Cursor → Cursor
  | 0, s => s
  | n + 1, s => kicks h1 h2 n (kick h1 h2 s)

/-- The state in which `xuckoo_hash_table_insert` enters its eviction loop. -/
def chain_start (h1 : Key → Nat) (table : XuckooHashTable) (key : Key) : Cursor :=
  { table := table, innertable := 1, address := rightmostnbits table.table1.depth (h1 key),
    key := key, insert_table := if table.table1.nkeys > table.table2.nkeys then 2 else 1,
    total_kicked_keys := 0 }

/-- One pass of the splitting loop as the specification describes it: the
directory whose size is currently smaller (directory 1 when the sizes are
equal) is chosen, the target bucket of the held key in it is split, and the
cursor is put on the held key's target bucket in that directory. -/
def SplitStep (h1 h2 : Key → Nat) (junk : Nat → Key) (s s' : Cursor) : Prop :=
  ∃ n T, n = (if s.table.table1.size ≤ s.table.table2.size then 1 else 2) ∧
    split_bucket h1 h2 junk (s.table.inner n)
      (rightmostnbits (s.table.inner n).depth (hash_of h1 h2 n s.key)) n = .ok T ∧
    s' = { s with table := s.table.setInner n T, innertable := n,
                  address := rightmostnbits T.depth (hash_of h1 h2 n s.key),
                  insert_table := n }

/-- A run of the splitting loop as the specification describes it: passes are
made as long as the bucket under the cursor is full. -/
inductive SplitRun (h1 h2 : Key → Nat) (junk : Nat → Key) : Cursor → Cursor → Prop
  | stop (s : Cursor)
      (h : ((s.table.inner s.innertable).bucket s.address).full = false) :
      SplitRun h1 h2 junk s s
  | pass (s s1 s' : Cursor)
      (h : ((s.table.inner s.innertable).bucket s.address).full = true)
      (hstep : SplitStep h1 h2 junk s s1) (hrun : SplitRun h1 h2 junk s1 s') :
      SplitRun h1 h2 junk s s'

/-- The table in which the held key of `s` is stored in the bucket under the
cursor and that directory's key counter is incremented: the end of
`xuckoo_hash_table_insert`. -/
def place (s : Cursor) : XuckooHashTable :=
  let innertable := s.table.inner s.innertable
  let innertable := innertable.storeAt s.address
    { innertable.bucket s.address with key := s.key, full := true }
  let innertable := { innertable with nkeys := innertable.nkeys + 1 }
  s.table.setInner s.innertable innertable

/-- The number of distinct full buckets referenced from the directory. -/
def full_buckets (T : InnerTable) : Nat :=
  (T.buckets.dedup.filter (fun p => (T.deref p).full)).length

/-- The keys held by the full buckets referenced from the directory. -/
def keyset (T : InnerTable) : Finset Key :=
  (T.buckets.toFinset.filter (fun p => (T.deref p).full = true)).image
    (fun p => (T.deref p).key)

/-- The key counter of each directory is its number of distinct full buckets. -/
def NInv (t : XuckooHashTable) : Prop :=
  ∀ n, (t.inner n).nkeys = full_buckets (t.inner n)

end Xuckoo

/-! ## Scenario A and the statistics of linear.c -/

namespace Linear

/-- The hash function of Scenario A: `h1(k) = k mod 4`. -/
def scenario_a_hash : Key → Nat := fun k => k % 4

/-- The table `new_linear_hash_table 4` (uninitialised cells holding 0). -/
def scenario_a_empty : LinearHashTable :=
  { slots := [0, 0, 0, 0], inuse := [false, false, false, false], size := 4, load := 0,
    stats := { collisions := 0, total_probe := 0, is_recorded_collisions := 0 } }

end Linear

/-- The value of a C `double` expression, as far as the statistics need it: a
finite number, or what an overflow or a division by zero yields.  Every value
in this program is non-negative, so no sign is kept. -/
inductive CDouble where
  | finite (q : ℚ)
  | infinite
  | nan
deriving DecidableEq

/-- Rounding of a rational to a nearest integer, a tie going to the even one. -/
def CDouble.rne (m : ℚ) : ℤ :=
  if 2 * (m - ⌊m⌋) < 1 then ⌊m⌋
  else if 1 < 2 * (m - ⌊m⌋) then ⌊m⌋ + 1
  else if ⌊m⌋ % 2 = 0 then ⌊m⌋ else ⌊m⌋ + 1

/-- The spacing of the doubles around a positive rational `q`: `2 ^ (e - 52)`
where `2 ^ e ≤ q < 2 ^ (e + 1)` (a significand of 53 bits), and never less
than `2 ^ (-1074)`, the spacing of the subnormal numbers. -/
def CDouble.ulp (q : ℚ) : ℚ := 2 ^ (max (Int.log 2 q) (-1022) - 52)

/-- The double that a non-negative rational is rounded to (IEEE 754 binary64,
round to nearest, ties to even): the nearest multiple of the spacing, and
infinite when that multiple reaches `2 ^ 1024`. -/
def CDouble.round (q : ℚ) : CDouble :=
  if q = 0 then .finite 0
  else if (CDouble.rne (q / CDouble.ulp q) : ℚ) * CDouble.ulp q < 2 ^ 1024 then
    .finite ((CDouble.rne (q / CDouble.ulp q) : ℚ) * CDouble.ulp q)
  else .infinite

/-- Division `a / b` of a non-negative double by a non-negative finite double:
a zero divisor gives no finite number (`0.0 / 0.0` is not a number, `a / 0.0`
is infinite), any other divisor the rounded quotient. -/
def CDouble.div : CDouble → ℚ → CDouble
  | .finite a, b => if b = 0 then (if a = 0 then .nan else .infinite) else CDouble.round (a / b)
  | .infinite, _ => .infinite
  | .nan, _ => .nan

/-- Product of a non-negative double and a non-negative finite double: the
rounded product. -/
def CDouble.mul : CDouble → ℚ → CDouble
  | .finite q, c => CDouble.round (q * c)
  | .infinite, c => if c = 0 then .nan else .infinite
  | .nan, _ => .nan

namespace Linear

/-- The values `linear_hash_table_stats` passes to its `printf` calls, in the
order of the calls. -/
structure Report where
  size : Nat
  load : Nat
  load_factor : CDouble
  step_size : Nat
  collisions : Nat
  average_probe : CDouble
deriving DecidableEq

/-- Function `linear_hash_table_stats`: `load_factor` is
`table->load * 100.0 / table->size` and the average probe is
`table->stats.total_probe/table->load*1.0`.  The `int` operands `load` and
`size` are converted to `double`; `total_probe` is a `double`. -/
def linear_hash_table_stats (table : LinearHashTable) : Report :=
  { size := table.size
    load := table.load
    load_factor := ((CDouble.round (table.load : ℚ)).mul 100).div (table.size : ℚ)
    step_size := STEP_SIZE
    collisions := table.stats.collisions
    average_probe :=
      ((CDouble.finite (table.stats.total_probe : ℚ)).div (table.load : ℚ)).mul 1 }

/-- The table of size 4 after the insert of 0 (with `h1 k = k`, uninitialised
cells holding 0). -/
def probe_one : LinearHashTable :=
  { slots := [0, 0, 0, 0], inuse := [true, false, false, false], size := 4, load := 1,
    stats := { collisions := 0, total_probe := 1, is_recorded_collisions := 0 } }

/-- The table after the inserts of 0 and 4: key 4 met 0 at its home address 0. -/
def probe_two : LinearHashTable :=
  { slots := [0, 4, 0, 0], inuse := [true, true, false, false], size := 4, load := 2,
    stats := { collisions := 1, total_probe := 3, is_recorded_collisions := 0 } }

/-- The table after the inserts of 0, 4 and 1: key 1 met 4 at its home address
1; three keys took five probes. -/
def probe_three : LinearHashTable :=
  { slots := [0, 4, 1, 0], inuse := [true, true, true, false], size := 4, load := 3,
    stats := { collisions := 2, total_probe := 5, is_recorded_collisions := 0 } }

end Linear

/-! ## Releasing the buckets of xuckoo.c -/

namespace Xuckoo

/-- The `for` loop of `free_xuckoo_innertable` over the indices `is`: the
pointers handed to `free`, in the order of the calls. -/
def free_loop (T : InnerTable) : List Nat → List Nat
  | [] => []
  | i :: is =>
    if (T.bucket i).id = i then T.buckets.getD i 0 :: free_loop T is else free_loop T is

/-- Function `free_xuckoo_innertable`: the loop runs from `size - 1` down to 0. -/
def free_xuckoo_innertable (T : InnerTable) : List Nat :=
  free_loop T (List.range T.size).reverse

end Xuckoo

namespace Xuckoo

/-- Directory 1 of `demo_two` after `split_bucket` at address 0: the
directory was doubled and the key 0 stayed in the old bucket. -/
def demo_split : InnerTable :=
  { buckets := [0, 1], size := 2, depth := 1, nkeys := 1,
    mem := [{ id := 0, depth := 1, full := true, key := 0 },
            { id := 1, depth := 1, full := false, key := 0 }] }

/-- Directory 1 of `demo_four` after `split_bucket` at address 0: the bucket
of depth 1 got the sibling with id 2, and the key 4 stayed in the old bucket. -/
def demo_sibling : InnerTable :=
  { buckets := [0, 1, 3, 2], size := 4, depth := 2, nkeys := 3,
    mem := [{ id := 0, depth := 2, full := true, key := 4 },
            { id := 1, depth := 2, full := true, key := 1 },
            { id := 3, depth := 2, full := true, key := 3 },
            { id := 2, depth := 2, full := false, key := 0 }] }

end Xuckoo

/-! ## Vocabulary for the counters, the address invariant and the nested calls -/

namespace Cuckoo

/-- The per-array counters of the statistics agree with the arrays. -/
def CInv (t : CuckooHashTable) : Prop :=
  t.stats.load_table1 = t.table1.inuse.count true ∧
  t.stats.load_table2 = t.table2.inuse.count true

/-- What a call of `cuckoo_hash_table_insert` guarantees about the per-array
counters. -/
def InsSpec3 (h1 h2 : Key → Nat)
    (ins : CuckooHashTable → Key → Except Err (CuckooHashTable × Bool)) : Prop :=
  ∀ t t' k b, Inv h1 h2 t → LInv h1 t → CInv t → ins t k = .ok (t', b) → CInv t'

/-- Well-formed arrays: the size is positive and the four arrays have `size`
cells. -/
def Shape (t : CuckooHashTable) : Prop :=
  0 < t.size ∧ t.table1.slots.length = t.size ∧ t.table1.inuse.length = t.size ∧
  t.table2.slots.length = t.size ∧ t.table2.inuse.length = t.size

/-- The address invariant in the words of the specification: every in-use
slot `i` of array 1 holds a key `k` with `h1 k % size = i`, every in-use slot
`j` of array 2 holds a key `k` with `h2 k % size = j`, and no key is held by
two in-use slots. -/
def AddressInv (h1 h2 : Key → Nat) (t : CuckooHashTable) : Prop :=
  (∀ i, i < t.size → t.table1.inuse.getD i false = true →
    h1 (t.table1.slots.getD i 0) % t.size = i) ∧
  (∀ j, j < t.size → t.table2.inuse.getD j false = true →
    h2 (t.table2.slots.getD j 0) % t.size = j) ∧
  (∀ i j, i < t.size → j < t.size → t.table1.inuse.getD i false = true →
    t.table1.inuse.getD j false = true →
    t.table1.slots.getD i 0 = t.table1.slots.getD j 0 → i = j) ∧
  (∀ i j, i < t.size → j < t.size → t.table2.inuse.getD i false = true →
    t.table2.inuse.getD j false = true →
    t.table2.slots.getD i 0 = t.table2.slots.getD j 0 → i = j) ∧
  (∀ i j, i < t.size → j < t.size → t.table1.inuse.getD i false = true →
    t.table2.inuse.getD j false = true →
    t.table1.slots.getD i 0 ≠ t.table2.slots.getD j 0)

/-- The body of `cuckoo_hash_table_insert` with its recursive calls made
through `ins`: the direct calls after a doubling and, inside
`double_cuckoo_table`, the nested calls that re-insert the keys. -/
def insert_step (h1 h2 : Key → Nat) (junk : Nat → Key)
    (ins : CuckooHashTable → Key → Except Err (CuckooHashTable × Bool))
    (table : CuckooHashTable) (key : Key) : Except Err (CuckooHashTable × Bool) :=
  let H1 := h1 key % table.size
  let H2 := h2 key % table.size
  if table.load = 2 * table.size - 1 then
    match double_cuckoo_table ins junk table with
    | .error e => .error e
    | .ok table => ins table key
  else if table.table1.slots.getD H1 0 = key ∧ table.table1.inuse.getD H1 false = true then
    .ok (table, false)
  else if table.table2.slots.getD H2 0 = key ∧ table.table2.inuse.getD H2 false = true then
    .ok (table, false)
  else
    match kick_loop h1 h2 (2 * table.size + 1)
        { table := table, key := key, H := H1, insert_table := 1, time_kicked_keys := 0 } with
    | .error e => .error e
    | .ok s =>
      if s.time_kicked_keys = 2 * s.table.size then
        match double_cuckoo_table ins junk s.table with
        | .error e => .error e
        | .ok table => ins table s.key
      else
        let temp_table := s.table.inner s.insert_table
        let table := s.table.setInner s.insert_table
          { slots := temp_table.slots.set s.H s.key, inuse := temp_table.inuse.set s.H true }
        let table := { table with load := table.load + 1 }
        let table :=
          if s.insert_table = 1 then
            { table with stats := { table.stats with load_table1 := table.stats.load_table1 + 1 } }
          else if s.insert_table = 2 then
            { table with stats := { table.stats with load_table2 := table.stats.load_table2 + 1 } }
          else table
        .ok (table, true)

/-- A call of `ins` that is only allowed on tables larger than `n`: on any
other table it stops with `Err.fuel`. -/
def guarded (n : Nat) (ins : CuckooHashTable → Key → Except Err (CuckooHashTable × Bool)) :
    CuckooHashTable → Key → Except Err (CuckooHashTable × Bool) :=
  fun table key => if n < table.size then ins table key else .error .fuel

/-- The function `cuckoo_hash_table_insert` in which every recursive call,
direct or nested in `double_cuckoo_table`, is checked to be made on a table
strictly larger than the table of the calling invocation. -/
def insert_checked (h1 h2 : Key → Nat) (junk : Nat → Key) :
    Nat → CuckooHashTable → Key → Except Err (CuckooHashTable × Bool)
  | 0, _, _ => .error .fuel
  | fuel + 1, table, key =>
    insert_step h1 h2 junk (guarded table.size (insert_checked h1 h2 junk fuel)) table key

end Cuckoo

namespace Linear

/-- The table in which `key` is stored at the free slot the probing loop
stopped at: the `else` branch that ends `linear_hash_table_insert`. -/
def place (p : Probe) (key : Key) : LinearHashTable :=
  { p.table with
    slots := p.table.slots.set p.h key
    inuse := p.table.inuse.set p.h true
    load := p.table.load + 1
    stats := { p.table.stats with
      total_probe := p.table.stats.total_probe + (p.steps + 1)
      is_recorded_collisions := 0 } }

end Linear

namespace Xuckoo

/-- The splitting loop `while (innertable->buckets[address]->full)` together
with the list of its calls of `split_bucket`: each entry is the directory and
the address passed, as they are at the moment of the call. -/
def split_trace (h1 h2 : Key → Nat) (junk : Nat → Key) :
    Nat → Cursor → Except Err Cursor × List (InnerTable × Nat)
  | 0, _ => (.error .fuel, [])
  | fuel + 1, s =>
    if ((s.table.inner s.innertable).bucket s.address).full = true then
      if s.table.table1.size ≤ s.table.table2.size then
        let hash := h1 s.key
        let address := rightmostnbits s.table.table1.depth hash
        match split_bucket h1 h2 junk s.table.table1 address 1 with
        | .error e => (.error e, [(s.table.table1, address)])
        | .ok innertable =>
          let r := split_trace h1 h2 junk fuel
            { s with table := { s.table with table1 := innertable }, innertable := 1,
                     address := rightmostnbits innertable.depth hash, insert_table := 1 }
          (r.1, (s.table.table1, address) :: r.2)
      else
        let hash := h2 s.key
        let address := rightmostnbits s.table.table2.depth hash
        match split_bucket h1 h2 junk s.table.table2 address 2 with
        | .error e => (.error e, [(s.table.table2, address)])
        | .ok innertable =>
          let r := split_trace h1 h2 junk fuel
            { s with table := { s.table with table2 := innertable }, innertable := 2,
                     address := rightmostnbits innertable.depth hash, insert_table := 2 }
          (r.1, (s.table.table2, address) :: r.2)
    else (.ok s, [])

end Xuckoo

namespace Xuckoo

/-- The state in which the eviction loop of the insert of key 3 into
`demo_two` stops: two kicks were made and key 1 is held. -/
def demo_chain_end : Cursor :=
  { table :=
      { table1 := { buckets := [0], size := 1, depth := 0, nkeys := 1,
                    mem := [{ id := 0, depth := 0, full := true, key := 3 }] },
        table2 := { buckets := [0], size := 1, depth := 0, nkeys := 1,
                    mem := [{ id := 0, depth := 0, full := true, key := 0 }] } },
    innertable := 1, address := 0, key := 1, insert_table := 1, total_kicked_keys := 2 }

end Xuckoo

namespace Linear

/-- The counters of a table agree with its arrays: the load is the number of
cells in use, every stored key has cost at least one probe, and the sum of
the probes is bounded through the size. -/
def ProbeInv (t : LinearHashTable) : Prop :=
  0 < t.size ∧ t.inuse.length = t.size ∧ t.size < MAX_TABLE_SIZE ∧
  t.load = used t ∧ t.load ≤ t.stats.total_probe ∧
  t.stats.total_probe ≤ used t * (t.size + 1) + t.size * t.size

end Linear

/-! # Proofs -/

/-! ## Auxiliary facts on lists and modular arithmetic -/

theorem aux_getD_set {α} (l : List α) (i j : Nat) (a d : α) :
    (l.set i a).getD j d = if i = j ∧ i < l.length then a else l.getD j d := by
  simp only [List.getD_eq_getElem?_getD, List.getElem?_set]
  by_cases h : i = j
  · subst h
    by_cases h2 : i < l.length
    · simp [h2]
    · have hn : l[i]? = none := List.getElem?_eq_none (by omega)
      simp [h2, hn]
  · simp [h]

theorem aux_getD_replicate_false (n j : Nat) : (List.replicate n false).getD j false = false := by
  simp only [List.getD_eq_getElem?_getD, List.getElem?_replicate]
  by_cases h : j < n <;> simp [h]

theorem aux_succ_mod (a s n : Nat) : ((a + s) % n + 1) % n = (a + (s + 1)) % n := by
  rw [Nat.add_mod ((a + s) % n) 1 n, Nat.mod_mod, ← Nat.add_mod, Nat.add_assoc]

theorem aux_offset_exists (a i n : Nat) (hi : i < n) : ∃ j, j < n ∧ (a + j) % n = i := by
  have hr : a % n < n := Nat.mod_lt _ (by omega)
  have ha : a = n * (a / n) + a % n := (Nat.div_add_mod a n).symm
  by_cases h : a % n ≤ i
  · refine ⟨i - a % n, by omega, ?_⟩
    have : a + (i - a % n) = i + n * (a / n) := by omega
    rw [this, Nat.add_mul_mod_self_left, Nat.mod_eq_of_lt hi]
  · refine ⟨i + n - a % n, by omega, ?_⟩
    have : a + (i + n - a % n) = i + n * (a / n + 1) := by
      rw [Nat.mul_add]; omega
    rw [this, Nat.add_mul_mod_self_left, Nat.mod_eq_of_lt hi]

theorem aux_offset_unique (a n j j' : Nat) (hj : j < n) (hj' : j' < n)
    (h : (a + j) % n = (a + j') % n) : j = j' := by
  have key : ∀ x y, x < n → y < n → x ≤ y → (a + x) % n = (a + y) % n → x = y := by
    intro x y hx hy hxy hh
    have h1 : (a + y) % n = ((a + x) + (y - x)) % n := by congr 1; omega
    have h2 : (y - x) % n = 0 := by
      have := Nat.ModEq.add_left_cancel (show (a + x) ≡ (a + x) [MOD n] from rfl)
        (show (a + x) + 0 ≡ (a + x) + (y - x) [MOD n] by
          show ((a + x) + 0) % n = ((a + x) + (y - x)) % n
          rw [← h1]; simpa using hh)
      exact this.symm
    rw [Nat.mod_eq_of_lt (by omega)] at h2
    omega
  rcases Nat.le_total j j' with hle | hle
  · exact key j j' hj hj' hle h
  · exact (key j' j hj' hj hle h.symm).symm

namespace Linear

theorem lin_holds_iff_foundAt {h1 : Key → Nat} {t : LinearHashTable} (hI : Inv h1 t) (k : Key) :
    holds t k ↔ FoundAt t (h1 k) k := by
  constructor
  · rintro ⟨i, hi, hu, hk⟩
    obtain ⟨j, hj, hji⟩ := aux_offset_exists (h1 k) i t.size hi
    refine ⟨j, hj, ?_, by rw [hji]; exact hk⟩
    intro j' hj'
    by_cases hlt : j' < j
    · have := hI.nogap i hi hu j hj (by rw [hk]; exact hji) j' hlt
      rw [hk] at this; exact this
    · have : j' = j := by omega
      subst this; rw [hji]; exact hu
  · rintro ⟨s, hs, hrun, hk⟩
    exact ⟨(h1 k + s) % t.size, Nat.mod_lt _ hI.size_pos, hrun s (by omega), hk⟩

theorem lin_lookup_loop_spec (t : LinearHashTable) (k : Key) (a : Nat) :
    ∀ fuel steps, t.size < fuel + steps → steps ≤ t.size →
      (∀ s, s < steps → t.inuse.getD ((a + s) % t.size) false = true ∧
        t.slots.getD ((a + s) % t.size) 0 ≠ k) →
      ∃ b, lookup_loop t k fuel ((a + steps) % t.size) steps = .ok b ∧
        (b = true ↔ FoundAt t a k) := by
  intro fuel
  induction fuel with
  | zero =>
    intro steps hf hle hprev
    omega
  | succ fuel ih =>
    intro steps hf hle hprev
    unfold lookup_loop
    by_cases hc : t.inuse.getD ((a + steps) % t.size) false = true ∧ steps < t.size
    · rw [if_pos hc]
      by_cases hk : t.slots.getD ((a + steps) % t.size) 0 = k
      · rw [if_pos hk]
        refine ⟨true, rfl, ?_⟩
        simp only [true_iff]
        refine ⟨steps, hc.2, ?_, hk⟩
        intro j hj
        by_cases hlt : j < steps
        · exact (hprev j hlt).1
        · have : j = steps := by omega
          subst this; exact hc.1
      · rw [if_neg hk]
        have := ih (steps + 1) (by omega) (by omega) (by
          intro s hs
          by_cases hlt : s < steps
          · exact hprev s hlt
          · have : s = steps := by omega
            subst this; exact ⟨hc.1, hk⟩)
        simp only [STEP_SIZE]
        rw [aux_succ_mod]
        exact this
    · rw [if_neg hc]
      refine ⟨false, rfl, ?_⟩
      simp only [Bool.false_eq_true, false_iff]
      rintro ⟨s, hs, hrun, hks⟩
      by_cases hlt : s < steps
      · exact (hprev s hlt).2 hks
      · have := hrun steps (by omega)
        exact hc ⟨this, by omega⟩

end Linear

namespace Linear

theorem lin_lookup_spec {h1 : Key → Nat} {t : LinearHashTable} (hI : Inv h1 t) (k : Key) :
    ∃ b, linear_hash_table_lookup h1 t k = .ok b ∧ (b = true ↔ holds t k) := by
  have h := lin_lookup_loop_spec t k (h1 k) (t.size + 1) 0 (by omega) (by omega)
    (by intro s hs; omega)
  obtain ⟨b, hb, hiff⟩ := h
  refine ⟨b, ?_, ?_⟩
  · unfold linear_hash_table_lookup
    simpa using hb
  · rw [hiff, lin_holds_iff_foundAt hI]

theorem lin_insert_loop_spec (key : Key) (a : Nat) :
    ∀ fuel (table : LinearHashTable) steps, table.size < fuel + steps → steps ≤ table.size →
      (∀ s, s < steps → table.inuse.getD ((a + s) % table.size) false = true ∧
        table.slots.getD ((a + s) % table.size) 0 ≠ key) →
      ∃ p, insert_loop key fuel table ((a + steps) % table.size) steps = .ok p ∧
        p.table.slots = table.slots ∧ p.table.inuse = table.inuse ∧
        p.table.size = table.size ∧ p.table.load = table.load ∧
        (p.found = true ↔ FoundAt table a key) ∧
        (p.found = false → p.h = (a + p.steps) % table.size ∧ p.steps ≤ table.size ∧
          run table a p.steps ∧
          (p.steps ≠ table.size → table.inuse.getD p.h false = false)) := by
  intro fuel
  induction fuel with
  | zero => intro table steps hf hle hprev; omega
  | succ fuel ih =>
    intro table steps hf hle hprev
    unfold insert_loop
    by_cases hc : table.inuse.getD ((a + steps) % table.size) false = true ∧ steps < table.size
    · rw [if_pos hc]
      by_cases hk : table.slots.getD ((a + steps) % table.size) 0 = key
      · rw [if_pos hk]
        refine ⟨_, rfl, rfl, rfl, rfl, rfl, ?_, ?_⟩
        · simp only [true_iff]
          refine ⟨steps, hc.2, ?_, hk⟩
          intro j hj
          by_cases hlt : j < steps
          · exact (hprev j hlt).1
          · have : j = steps := by omega
            subst this; exact hc.1
        · intro h; simp at h
      · rw [if_neg hk]
        have hprev' : ∀ s, s < steps + 1 →
            table.inuse.getD ((a + s) % table.size) false = true ∧
            table.slots.getD ((a + s) % table.size) 0 ≠ key := by
          intro s hs
          by_cases hlt : s < steps
          · exact hprev s hlt
          · have : s = steps := by omega
            subst this; exact ⟨hc.1, hk⟩
        simp only [STEP_SIZE]
        by_cases hcol : steps = 0 ∧ table.stats.is_recorded_collisions = 0
        · simp only [hcol, and_self, if_true]
          have := ih { table with stats := { table.stats with
            collisions := table.stats.collisions + 1 } } (steps + 1) (by simpa using (by omega))
            (by simpa using (by omega)) hprev'
          rw [← aux_succ_mod] at this
          simpa [hcol] using this
        · rw [if_neg hcol]
          have := ih table (steps + 1) (by omega) (by omega) hprev'
          rw [← aux_succ_mod] at this
          exact this
    · rw [if_neg hc]
      refine ⟨_, rfl, rfl, rfl, rfl, rfl, ?_, ?_⟩
      · simp only [Bool.false_eq_true, false_iff]
        rintro ⟨s, hs, hrun, hks⟩
        by_cases hlt : s < steps
        · exact (hprev s hlt).2 hks
        · have := hrun steps (by omega)
          exact hc ⟨this, by omega⟩
      · intro _
        refine ⟨rfl, hle, fun j hj => (hprev j hj).1, ?_⟩
        intro hne
        have hne' : steps ≠ table.size := hne
        by_contra hcon
        exact hc ⟨by simpa using hcon, by omega⟩

theorem lin_place_spec {h1 : Key → Nat} {t : LinearHashTable} (hI : Inv h1 t)
    (t' : LinearHashTable) (key : Key)
    (h steps : Nat) (hh : h = (h1 key + steps) % t.size) (hlt : steps < t.size)
    (hrun : run t (h1 key) steps) (hfree : t.inuse.getD h false = false)
    (hs : t'.slots = t.slots.set h key) (hu : t'.inuse = t.inuse.set h true)
    (hsz : t'.size = t.size) :
    Inv h1 t' ∧ ∀ x, holds t' x ↔ holds t x ∨ x = key := by
  have hhlt : h < t.size := by rw [hh]; exact Nat.mod_lt _ hI.size_pos
  have hmono : ∀ x, t.inuse.getD x false = true → t'.inuse.getD x false = true := by
    intro x hx
    rw [hu, aux_getD_set]
    split
    · rfl
    · exact hx
  have hin : ∀ x, x ≠ h → t'.inuse.getD x false = t.inuse.getD x false := by
    intro x hx
    rw [hu, aux_getD_set, if_neg (by intro hc; exact hx hc.1.symm)]
  have hsl : ∀ x, x ≠ h → t'.slots.getD x 0 = t.slots.getD x 0 := by
    intro x hx
    rw [hs, aux_getD_set, if_neg (by intro hc; exact hx hc.1.symm)]
  have hslh : t'.slots.getD h 0 = key := by
    rw [hs, aux_getD_set, if_pos ⟨rfl, by rw [hI.slots_len]; exact hhlt⟩]
  have hinh : t'.inuse.getD h false = true := by
    rw [hu, aux_getD_set, if_pos ⟨rfl, by rw [hI.inuse_len]; exact hhlt⟩]
  refine ⟨⟨by rw [hsz]; exact hI.size_pos, by rw [hs, List.length_set, hsz]; exact hI.slots_len,
    by rw [hu, List.length_set, hsz]; exact hI.inuse_len, ?_⟩, ?_⟩
  · intro i hi hiu j hj hji j' hj'
    rw [hsz] at hi hj hji ⊢
    by_cases hih : i = h
    · subst hih
      rw [hslh] at hji ⊢
      have : j = steps := aux_offset_unique (h1 key) t.size j steps hj hlt (by rw [hji, hh])
      subst this
      exact hmono _ (hrun j' hj')
    · rw [hsl i hih] at hji ⊢
      rw [hin i hih] at hiu
      exact hmono _ (hI.nogap i hi hiu j hj hji j' hj')
  · intro x
    constructor
    · rintro ⟨i, hi, hiu, hix⟩
      by_cases hih : i = h
      · subst hih; right; rw [← hix, hslh]
      · left
        exact ⟨i, by rw [← hsz]; exact hi, by rw [← hin i hih]; exact hiu,
          by rw [← hsl i hih]; exact hix⟩
    · rintro (⟨i, hi, hiu, hix⟩ | rfl)
      · have hih : i ≠ h := by
          intro hc; subst hc; rw [hfree] at hiu; exact Bool.noConfusion hiu
        exact ⟨i, by rw [hsz]; exact hi, by rw [hin i hih]; exact hiu,
          by rw [hsl i hih]; exact hix⟩
      · exact ⟨h, by rw [hsz]; exact hhlt, hinh, hslh⟩

end Linear

namespace Linear

theorem lin_reinsert_loop_spec (table : LinearHashTable) (a : Nat) :
    ∀ fuel steps h s, run table a steps →
      reinsert_loop table fuel ((a + steps) % table.size) steps = .ok (h, s) →
      h = (a + s) % table.size ∧ run table a s ∧ table.inuse.getD h false = false := by
  intro fuel
  induction fuel with
  | zero => intro steps h s _ hr; simp [reinsert_loop] at hr
  | succ fuel ih =>
    intro steps h s hrun hr
    unfold reinsert_loop at hr
    by_cases hc : table.inuse.getD ((a + steps) % table.size) false = true
    · rw [if_pos hc] at hr
      simp only [STEP_SIZE] at hr
      rw [aux_succ_mod] at hr
      refine ih (steps + 1) h s ?_ hr
      intro j hj
      by_cases hlt : j < steps
      · exact hrun j hlt
      · have : j = steps := by omega
        subst this; exact hc
    · rw [if_neg hc] at hr
      simp only [Except.ok.injEq, Prod.mk.injEq] at hr
      obtain ⟨rfl, rfl⟩ := hr
      exact ⟨rfl, hrun, by simpa using hc⟩

theorem lin_reinsert_key_spec {h1 : Key → Nat} {t t' : LinearHashTable} (hI : Inv h1 t) (key : Key)
    (hr : reinsert_key h1 t key = .ok t') :
    Inv h1 t' ∧ (∀ x, holds t' x ↔ holds t x ∨ x = key) ∧ t'.size = t.size := by
  unfold reinsert_key at hr
  cases hl : reinsert_loop t (t.size + 1) (h1 key % t.size) 0 with
  | error e => rw [hl] at hr; simp at hr
  | ok hs =>
    obtain ⟨h, s⟩ := hs
    rw [hl] at hr
    simp only [Except.ok.injEq] at hr
    have hl' : reinsert_loop t (t.size + 1) ((h1 key + 0) % t.size) 0 = .ok (h, s) := by
      simpa using hl
    obtain ⟨hh, hrun, hfree⟩ := lin_reinsert_loop_spec t (h1 key) (t.size + 1) 0 h s
      (by intro j hj; omega) hl'
    have hslt : s < t.size := by
      by_contra hge
      have hge : t.size ≤ s := by omega
      have := hrun (s - t.size) (by have := hI.size_pos; omega)
      have e : (h1 key + (s - t.size)) % t.size = h := by
        rw [hh]
        have : h1 key + s = (h1 key + (s - t.size)) + t.size := by omega
        rw [this, Nat.add_mod_right]
      rw [e, hfree] at this
      exact Bool.noConfusion this
    subst hr
    have := lin_place_spec hI { t with
      slots := t.slots.set h key
      inuse := t.inuse.set h true
      load := t.load + 1
      stats := { t.stats with total_probe := t.stats.total_probe + (s + 1) } }
      key h s hh hslt hrun hfree rfl rfl rfl
    exact ⟨this.1, this.2, rfl⟩

theorem lin_rehash_loop_spec {h1 : Key → Nat} (os : List Key) (ou : List Bool) :
    ∀ (is : List Nat) (t t' : LinearHashTable), Inv h1 t →
      rehash_loop h1 os ou is t = .ok t' →
      Inv h1 t' ∧ (∀ x, holds t' x ↔ holds t x ∨
        ∃ i, i ∈ is ∧ ou.getD i false = true ∧ os.getD i 0 = x) ∧ t'.size = t.size := by
  intro is
  induction is with
  | nil =>
    intro t t' hI hr
    simp only [rehash_loop, Except.ok.injEq] at hr
    subst hr
    exact ⟨hI, by simp, rfl⟩
  | cons i is ih =>
    intro t t' hI hr
    unfold rehash_loop at hr
    by_cases hc : ou.getD i false = true
    · rw [if_pos hc] at hr
      cases hk : reinsert_key h1 t (os.getD i 0) with
      | error e => rw [hk] at hr; simp at hr
      | ok t1 =>
        rw [hk] at hr
        obtain ⟨hI1, hh1, hs1⟩ := lin_reinsert_key_spec hI _ hk
        obtain ⟨hI2, hh2, hs2⟩ := ih t1 t' hI1 hr
        refine ⟨hI2, ?_, by rw [hs2, hs1]⟩
        intro x
        rw [hh2, hh1]
        constructor
        · rintro ((h | rfl) | ⟨j, hj, hju, hjx⟩)
          · exact Or.inl h
          · exact Or.inr ⟨i, List.mem_cons_self _ _, hc, rfl⟩
          · exact Or.inr ⟨j, List.mem_cons_of_mem _ hj, hju, hjx⟩
        · rintro (h | ⟨j, hj, hju, hjx⟩)
          · exact Or.inl (Or.inl h)
          · rcases List.mem_cons.mp hj with rfl | hj
            · exact Or.inl (Or.inr hjx.symm)
            · exact Or.inr ⟨j, hj, hju, hjx⟩
    · rw [if_neg hc] at hr
      obtain ⟨hI2, hh2, hs2⟩ := ih t t' hI hr
      refine ⟨hI2, ?_, hs2⟩
      intro x
      rw [hh2]
      constructor
      · rintro (h | ⟨j, hj, hju, hjx⟩)
        · exact Or.inl h
        · exact Or.inr ⟨j, List.mem_cons_of_mem _ hj, hju, hjx⟩
      · rintro (h | ⟨j, hj, hju, hjx⟩)
        · exact Or.inl h
        · rcases List.mem_cons.mp hj with rfl | hj
          · exact absurd hju hc
          · exact Or.inr ⟨j, hj, hju, hjx⟩

theorem lin_initialise_table_spec (h1 : Key → Nat) {junk : Nat → Key} {t t' : LinearHashTable}
    {size : Nat} (hpos : 0 < size) (hr : initialise_table junk t size = .ok t') :
    Inv h1 t' ∧ (∀ x, ¬ holds t' x) ∧ t'.size = size := by
  unfold initialise_table at hr
  by_cases hc : size < MAX_TABLE_SIZE
  · rw [if_pos hc] at hr
    simp only [Except.ok.injEq] at hr
    subst hr
    refine ⟨⟨hpos, by simp, by simp, ?_⟩, ?_, rfl⟩
    · intro i _ hiu
      simp only [aux_getD_replicate_false] at hiu
      exact Bool.noConfusion hiu
    · rintro x ⟨i, _, hiu, _⟩
      simp only [aux_getD_replicate_false] at hiu
      exact Bool.noConfusion hiu
  · rw [if_neg hc] at hr; simp at hr

theorem lin_double_table_spec {h1 : Key → Nat} {junk : Nat → Key} {t t' : LinearHashTable}
    (hI : Inv h1 t) (hr : double_table h1 junk t = .ok t') :
    Inv h1 t' ∧ (∀ x, holds t' x ↔ holds t x) ∧ t'.size = t.size * 2 := by
  unfold double_table at hr
  cases hi : initialise_table junk t (t.size * 2) with
  | error e => rw [hi] at hr; simp at hr
  | ok fresh =>
    rw [hi] at hr
    obtain ⟨hIf, hhf, hsf⟩ := lin_initialise_table_spec h1
      (by have := hI.size_pos; omega) hi
    obtain ⟨hI2, hh2, hs2⟩ := lin_rehash_loop_spec _ _ _ _ _ hIf hr
    refine ⟨hI2, ?_, by rw [hs2, hsf]⟩
    intro x
    rw [hh2]
    constructor
    · rintro (h | ⟨i, hi, hiu, hix⟩)
      · exact absurd h (hhf x)
      · exact ⟨i, List.mem_range.mp hi, hiu, hix⟩
    · rintro ⟨i, hi, hiu, hix⟩
      exact Or.inr ⟨i, List.mem_range.mpr hi, hiu, hix⟩

theorem lin_insert_fuel_spec {h1 : Key → Nat} {junk : Nat → Key} :
    ∀ fuel (t t' : LinearHashTable) (k : Key) (b : Bool), Inv h1 t →
      linear_hash_table_insert_fuel h1 junk fuel t k = .ok (t', b) →
      Inv h1 t' ∧ (∀ x, holds t' x ↔ holds t x ∨ x = k) ∧ (b = true ↔ ¬ holds t k) := by
  intro fuel
  induction fuel with
  | zero => intro t t' k b _ hr; simp [linear_hash_table_insert_fuel] at hr
  | succ fuel ih =>
    intro t t' k b hI hr
    unfold linear_hash_table_insert_fuel at hr
    obtain ⟨p, hp, hps, hpu, hpz, _, hfound, hnot⟩ :=
      lin_insert_loop_spec k (h1 k) (t.size + 1) t 0 (by omega) (by omega) (by intro s hs; omega)
    have hp' : insert_loop k (t.size + 1) t (h1 k % t.size) 0 = .ok p := by simpa using hp
    rw [hp'] at hr
    simp only at hr
    have hIp : Inv h1 p.table := by
      refine ⟨by rw [hpz]; exact hI.size_pos, by rw [hps, hpz]; exact hI.slots_len,
        by rw [hpu, hpz]; exact hI.inuse_len, ?_⟩
      intro i hi hiu j hj hji j' hj'
      rw [hps, hpz] at hji
      rw [hpu] at hiu
      rw [hpz] at hi hj
      have := hI.nogap i hi hiu j hj hji j' hj'
      rw [hps, hpu, hpz]; exact this
    have hhp : ∀ x, holds p.table x ↔ holds t x := by
      intro x; unfold holds; rw [hps, hpu, hpz]
    by_cases hf : p.found = true
    · rw [if_pos hf] at hr
      simp only [Except.ok.injEq, Prod.mk.injEq] at hr
      obtain ⟨rfl, rfl⟩ := hr
      have hk : holds t k := (lin_holds_iff_foundAt hI k).mpr (hfound.mp hf)
      refine ⟨hIp, ?_, by simp [hk]⟩
      intro x; rw [hhp]
      constructor
      · exact Or.inl
      · rintro (h | rfl)
        · exact h
        · exact hk
    · rw [if_neg hf] at hr
      have hnk : ¬ holds t k := fun hk => hf (hfound.mpr ((lin_holds_iff_foundAt hI k).mp hk))
      obtain ⟨hph, hple, hprun, hpfree⟩ := hnot (by simpa using hf)
      by_cases hfull : p.steps = p.table.size
      · rw [if_pos hfull] at hr
        cases hd : double_table h1 junk { p.table with
            stats := { p.table.stats with is_recorded_collisions := 1 } } with
        | error e => rw [hd] at hr; simp at hr
        | ok t2 =>
          rw [hd] at hr
          have hIq : Inv h1 { p.table with
              stats := { p.table.stats with is_recorded_collisions := 1 } } :=
            ⟨hIp.size_pos, hIp.slots_len, hIp.inuse_len, hIp.nogap⟩
          obtain ⟨hI2, hh2, _⟩ := lin_double_table_spec hIq hd
          obtain ⟨hI3, hh3, hb3⟩ := ih t2 t' k b hI2 hr
          have hh2' : ∀ x, holds t2 x ↔ holds t x := by
            intro x; rw [hh2, ← hhp x]; rfl
          refine ⟨hI3, ?_, ?_⟩
          · intro x; rw [hh3, hh2']
          · rw [hb3, hh2']
      · rw [if_neg hfull] at hr
        simp only [Except.ok.injEq, Prod.mk.injEq] at hr
        obtain ⟨rfl, rfl⟩ := hr
        have hrun' : run p.table (h1 k) p.steps := by
          intro j hj; rw [hpu, hpz]; exact hprun j hj
        have := lin_place_spec hIp { p.table with
              slots := p.table.slots.set p.h k
              inuse := p.table.inuse.set p.h true
              load := p.table.load + 1
              stats := { p.table.stats with
                total_probe := p.table.stats.total_probe + (p.steps + 1)
                is_recorded_collisions := 0 } }
          k p.h p.steps (by rw [hpz]; exact hph) (by omega) hrun'
          (by rw [hpu]; exact hpfree (by rw [← hpz]; exact hfull)) rfl rfl rfl
        refine ⟨this.1, ?_, by simp [hnk]⟩
        intro x; rw [this.2 x, hhp]

theorem lin_reachable_inv {h1 : Key → Nat} {junk : Nat → Key} {t : LinearHashTable}
    (hr : Reachable h1 junk t) : Inv h1 t := by
  induction hr with
  | init size t hs h => exact (lin_initialise_table_spec h1 (by omega) h).1
  | step t t' k b _ h ih => exact (lin_insert_fuel_spec _ _ _ _ _ ih h).1

end Linear

/-! ### The budgets of `linear_hash_table_insert` are never exhausted -/

theorem aux_count_set_true :
    ∀ (l : List Bool) (i : Nat), i < l.length → l.getD i false = false →
      (l.set i true).count true = l.count true + 1 := by
  intro l
  induction l with
  | nil => intro i hi; simp at hi
  | cons b l ih =>
    intro i hi hf
    cases i with
    | zero =>
      simp only [List.getD_cons_zero] at hf
      subst hf
      simp
    | succ i =>
      simp only [List.getD_cons_succ] at hf
      simp only [List.length_cons, Nat.add_lt_add_iff_right] at hi
      simp only [List.set_cons_succ, List.count_cons, ih i hi hf]
      omega

theorem aux_count_all_true :
    ∀ (l : List Bool), (∀ i, i < l.length → l.getD i false = true) →
      l.count true = l.length := by
  intro l
  induction l with
  | nil => intro _; rfl
  | cons b l ih =>
    intro h
    have h0 := h 0 (by simp)
    simp only [List.getD_cons_zero] at h0
    subst h0
    have := ih (fun i hi => by
      have := h (i + 1) (by simpa using hi)
      simpa using this)
    simp [this]

namespace Linear

theorem lin_reinsert_loop_total (table : LinearHashTable) (a : Nat) :
    ∀ fuel steps j, steps ≤ j → j - steps < fuel →
      table.inuse.getD ((a + j) % table.size) false = false →
      ∃ h s, reinsert_loop table fuel ((a + steps) % table.size) steps = .ok (h, s) := by
  intro fuel
  induction fuel with
  | zero => intro steps j _ hf; omega
  | succ fuel ih =>
    intro steps j hle hf hfree
    unfold reinsert_loop
    by_cases hc : table.inuse.getD ((a + steps) % table.size) false = true
    · rw [if_pos hc]
      have hne : steps ≠ j := by
        intro h; subst h; rw [hfree] at hc; exact Bool.noConfusion hc
      simp only [STEP_SIZE]
      rw [aux_succ_mod]
      exact ih (steps + 1) j (by omega) (by omega) hfree
    · rw [if_neg hc]; exact ⟨_, _, rfl⟩

theorem lin_reinsert_key_total (h1 : Key → Nat) (t : LinearHashTable) (key : Key)
    (hpos : 0 < t.size) (hlen : t.inuse.length = t.size) (hcnt : used t < t.size) :
    ∃ t', reinsert_key h1 t key = .ok t' ∧ t'.size = t.size ∧
      t'.inuse.length = t'.size ∧ used t' = used t + 1 := by
  have hex : ∃ i, i < t.size ∧ t.inuse.getD i false = false := by
    by_contra hno
    have hall : ∀ i, i < t.inuse.length → t.inuse.getD i false = true := by
      intro i hi
      by_contra hc
      exact hno ⟨i, by rw [← hlen]; exact hi, by simpa using hc⟩
    have := aux_count_all_true t.inuse hall
    unfold used at hcnt
    omega
  obtain ⟨i, hi, hfi⟩ := hex
  obtain ⟨j, hj, hji⟩ := aux_offset_exists (h1 key) i t.size hi
  obtain ⟨h, s, hl⟩ := lin_reinsert_loop_total t (h1 key) (t.size + 1) 0 j (by omega)
    (by omega) (by rw [hji]; exact hfi)
  obtain ⟨hh, _, hfree⟩ := lin_reinsert_loop_spec t (h1 key) (t.size + 1) 0 h s
    (by intro x hx; omega) hl
  have hl' : reinsert_loop t (t.size + 1) (h1 key % t.size) 0 = .ok (h, s) := by
    simpa using hl
  unfold reinsert_key
  rw [hl']
  refine ⟨_, rfl, rfl, ?_, ?_⟩
  · simp only [List.length_set]; exact hlen
  · unfold used
    simp only
    exact aux_count_set_true t.inuse h
      (by rw [hlen, hh]; exact Nat.mod_lt _ hpos) hfree

theorem lin_rehash_loop_total (h1 : Key → Nat) (os : List Key) (ou : List Bool) :
    ∀ (is : List Nat) (t : LinearHashTable), 0 < t.size → t.inuse.length = t.size →
      used t + is.length < t.size + 1 →
      ∃ t', rehash_loop h1 os ou is t = .ok t' ∧ t'.size = t.size ∧
        t'.inuse.length = t'.size ∧ used t' ≤ used t + is.length := by
  intro is
  induction is with
  | nil => intro t _ hlen _; exact ⟨t, rfl, rfl, hlen, by simp⟩
  | cons i is ih =>
    intro t hpos hlen hcnt
    simp only [List.length_cons] at hcnt
    unfold rehash_loop
    by_cases hc : ou.getD i false = true
    · rw [if_pos hc]
      obtain ⟨t1, hk, hs1, hl1, hu1⟩ := lin_reinsert_key_total h1 t (os.getD i 0) hpos hlen
        (by omega)
      rw [hk]
      simp only
      obtain ⟨t2, hr, hs2, hl2, hu2⟩ := ih t1 (by omega) hl1 (by omega)
      exact ⟨t2, hr, by omega, hl2, by simp only [List.length_cons]; omega⟩
    · rw [if_neg hc]
      obtain ⟨t2, hr, hs2, hl2, hu2⟩ := ih t hpos hlen (by omega)
      exact ⟨t2, hr, hs2, hl2, by simp only [List.length_cons]; omega⟩

theorem lin_double_table_total (h1 : Key → Nat) (junk : Nat → Key) (t : LinearHashTable)
    (hpos : 0 < t.size) :
    (∃ t', double_table h1 junk t = .ok t' ∧ t'.size = t.size * 2 ∧
      t'.inuse.length = t'.size ∧ used t' ≤ t.size ∧ t'.size < MAX_TABLE_SIZE) ∨
    double_table h1 junk t = .error .assertion := by
  unfold double_table initialise_table
  by_cases hc : t.size * 2 < MAX_TABLE_SIZE
  · rw [if_pos hc]
    simp only
    obtain ⟨t', hr, hs, hl, hu⟩ := lin_rehash_loop_total h1 t.slots t.inuse
      (List.range t.size)
      { t with slots := (List.range (t.size * 2)).map junk
               inuse := List.replicate (t.size * 2) false
               size := t.size * 2, load := 0 }
      (by simp only; omega) (by simp)
      (by simp only [used, List.length_range, List.count_replicate]; simp; omega)
    refine Or.inl ⟨t', hr, hs, hl, ?_, by rw [hs]; exact hc⟩
    simp only [used, List.length_range, List.count_replicate] at hu
    simp at hu
    exact hu
  · rw [if_neg hc]; exact Or.inr rfl

/-- With a free cell the insert returns without doubling. -/
theorem lin_insert_fuel_free (h1 : Key → Nat) (junk : Nat → Key) (fuel : Nat)
    (t : LinearHashTable) (k : Key) (hpos : 0 < t.size) (hlen : t.inuse.length = t.size)
    (hcnt : used t < t.size) :
    ∃ t' b, linear_hash_table_insert_fuel h1 junk (fuel + 1) t k = .ok (t', b) ∧
      t'.size = t.size ∧ t'.inuse.length = t'.size := by
  unfold linear_hash_table_insert_fuel
  obtain ⟨p, hp, _, hpu, hpz, _, _, hnot⟩ :=
    lin_insert_loop_spec k (h1 k) (t.size + 1) t 0 (by omega) (by omega)
      (by intro s hs; omega)
  have hp' : insert_loop k (t.size + 1) t (h1 k % t.size) 0 = .ok p := by simpa using hp
  rw [hp']
  simp only
  by_cases hf : p.found = true
  · rw [if_pos hf]; exact ⟨_, _, rfl, hpz, by rw [hpu, hpz]; exact hlen⟩
  · rw [if_neg hf]
    obtain ⟨_, _, hprun, _⟩ := hnot (by simpa using hf)
    have hne : p.steps ≠ p.table.size := by
      intro heq
      rw [hpz] at heq
      have hall : ∀ i, i < t.inuse.length → t.inuse.getD i false = true := by
        intro i hi
        rw [hlen] at hi
        obtain ⟨j, hj, hji⟩ := aux_offset_exists (h1 k) i t.size hi
        have := hprun j (by omega)
        rw [hji] at this
        exact this
      have := aux_count_all_true t.inuse hall
      unfold used at hcnt
      omega
    rw [if_neg hne]
    refine ⟨_, _, rfl, hpz, ?_⟩
    simp only [List.length_set]
    rw [hpu, hpz]; exact hlen

/-- On a table with consistent arrays, `linear_hash_table_insert` returns or
fails the size assertion: the budgets of its loops and of its recursive call
are never exhausted. -/
theorem lin_insert_total (h1 : Key → Nat) (junk : Nat → Key) (t : LinearHashTable) (k : Key)
    (hpos : 0 < t.size) (hlen : t.inuse.length = t.size) :
    (∃ t' b, linear_hash_table_insert h1 junk t k = .ok (t', b) ∧ 0 < t'.size ∧
      t'.inuse.length = t'.size) ∨
    linear_hash_table_insert h1 junk t k = .error .assertion := by
  unfold linear_hash_table_insert INSERT_DEPTH
  unfold linear_hash_table_insert_fuel
  obtain ⟨p, hp, _, hpu, hpz, _, _, _⟩ :=
    lin_insert_loop_spec k (h1 k) (t.size + 1) t 0 (by omega) (by omega)
      (by intro s hs; omega)
  have hp' : insert_loop k (t.size + 1) t (h1 k % t.size) 0 = .ok p := by simpa using hp
  rw [hp']
  simp only
  by_cases hf : p.found = true
  · rw [if_pos hf]
    exact Or.inl ⟨_, _, rfl, by rw [hpz]; exact hpos, by rw [hpu, hpz]; exact hlen⟩
  · rw [if_neg hf]
    by_cases hfull : p.steps = p.table.size
    · rw [if_pos hfull]
      rcases lin_double_table_total h1 junk
          { p.table with stats := { p.table.stats with is_recorded_collisions := 1 } }
          (by simp only; omega) with ⟨t2, hd, hs2, hl2, hu2, _⟩ | hd
      · rw [hd]
        simp only at hs2 hu2 ⊢
        obtain ⟨t3, b, h3, hs3, hl3⟩ := lin_insert_fuel_free h1 junk 26 t2 k (by omega) hl2
          (by omega)
        exact Or.inl ⟨t3, b, h3, by omega, hl3⟩
      · rw [hd]; exact Or.inr rfl
    · rw [if_neg hfull]
      refine Or.inl ⟨_, _, rfl, by simp only; omega, ?_⟩
      simp only [List.length_set]
      rw [hpu, hpz]; exact hlen

/-- On a reachable table `linear_hash_table_insert` returns a result or fails
the size assertion of `initialise_table`. -/
theorem lin_insert_returns (h1 : Key → Nat) (junk : Nat → Key) (t : LinearHashTable)
    (k : Key) (hr : Reachable h1 junk t) :
    (∃ t' b, linear_hash_table_insert h1 junk t k = .ok (t', b)) ∨
    linear_hash_table_insert h1 junk t k = .error .assertion := by
  have hi := lin_reachable_inv hr
  rcases lin_insert_total h1 junk t k hi.size_pos hi.inuse_len with ⟨t', b, h, _⟩ | h
  · exact Or.inl ⟨t', b, h⟩
  · exact Or.inr h

end Linear

namespace Linear

theorem lin_insert_all_spec {h1 : Key → Nat} {junk : Nat → Key} :
    ∀ (ks : List Key) (t0 t : LinearHashTable) (rs : List Bool), Inv h1 t0 →
      insert_all h1 junk t0 ks = .ok (t, rs) →
      Inv h1 t ∧ rs.length = ks.length ∧ (∀ x, holds t x ↔ holds t0 x ∨ x ∈ ks) ∧
      ∀ i, i < ks.length →
        (rs.getD i false = true ↔ ¬ holds t0 (ks.getD i 0) ∧ ks.getD i 0 ∉ ks.take i) := by
  intro ks
  induction ks with
  | nil =>
    intro t0 t rs hI hr
    simp only [insert_all, Except.ok.injEq, Prod.mk.injEq] at hr
    obtain ⟨rfl, rfl⟩ := hr
    exact ⟨hI, rfl, by simp, by intro i hi; simp at hi⟩
  | cons k ks ih =>
    intro t0 t rs hI hr
    unfold insert_all at hr
    cases h1r : linear_hash_table_insert h1 junk t0 k with
    | error e => rw [h1r] at hr; simp at hr
    | ok r1 =>
      obtain ⟨t1, b⟩ := r1
      rw [h1r] at hr
      simp only at hr
      cases h2r : insert_all h1 junk t1 ks with
      | error e => rw [h2r] at hr; simp at hr
      | ok r2 =>
        obtain ⟨t2, bs⟩ := r2
        rw [h2r] at hr
        simp only [Except.ok.injEq, Prod.mk.injEq] at hr
        obtain ⟨rfl, rfl⟩ := hr
        obtain ⟨hI1, hh1, hb1⟩ := lin_insert_fuel_spec _ _ _ _ _ hI h1r
        obtain ⟨hI2, hlen, hh2, hres⟩ := ih t1 t2 bs hI1 h2r
        refine ⟨hI2, by simp [hlen], ?_, ?_⟩
        · intro x
          rw [hh2, hh1, List.mem_cons]
          tauto
        · intro i hi
          cases i with
          | zero => simpa using hb1
          | succ i =>
            have hi' : i < ks.length := by simpa using hi
            have := hres i hi'
            simp only [List.getD_cons_succ, List.take_succ_cons, List.mem_cons, not_or]
            rw [this, hh1]
            tauto

/-- A sequence of inserts into a reachable table returns its results or fails
the size assertion: the budgets of the loops are never exhausted. -/
theorem lin_insert_all_returns (h1 : Key → Nat) (junk : Nat → Key) :
    ∀ (ks : List Key) (t : LinearHashTable), Reachable h1 junk t →
      (∃ t' rs, insert_all h1 junk t ks = .ok (t', rs)) ∨
      insert_all h1 junk t ks = .error .assertion := by
  intro ks
  induction ks with
  | nil => intro t _; exact Or.inl ⟨t, [], rfl⟩
  | cons k ks ih =>
    intro t hr
    simp only [insert_all]
    rcases lin_insert_returns h1 junk t k hr with ⟨t1, b, h⟩ | h
    · rw [h]
      simp only
      rcases ih t1 (Reachable.step t t1 k b hr h) with ⟨t2, rs, h2⟩ | h2
      · rw [h2]; exact Or.inl ⟨_, _, rfl⟩
      · rw [h2]; exact Or.inr rfl
    · rw [h]; exact Or.inr rfl

end Linear

/-- C5. LinearTable insert result: for every hash function `h1`, every initial
size `≥ 1` and every list of keys inserted one after the other into the
table made by `new_linear_hash_table size`, the sequence of calls returns its
results or trips the size assertion (no loop runs out of its budget), and
when all calls complete, call number `i` returns true exactly when its key
does not occur earlier in the list. -/
theorem linear_insert_result (h1 : Key → Nat) (junk : Nat → Key) (size : Nat) (ks : List Key)
    (t0 : Linear.LinearHashTable) (hs : 1 ≤ size)
    (h0 : Linear.new_linear_hash_table junk size = .ok t0) :
    ((∃ t rs, Linear.insert_all h1 junk t0 ks = .ok (t, rs)) ∨
      Linear.insert_all h1 junk t0 ks = .error .assertion) ∧
    ∀ t rs, Linear.insert_all h1 junk t0 ks = .ok (t, rs) →
      rs.length = ks.length ∧
      ∀ i, i < ks.length → (rs.getD i false = true ↔ ks.getD i 0 ∉ ks.take i) := by
  refine ⟨Linear.lin_insert_all_returns h1 junk ks t0 (Linear.Reachable.init size t0 hs h0), ?_⟩
  intro t rs hr
  obtain ⟨hI0, hh0, _⟩ := Linear.lin_initialise_table_spec h1 (by omega) h0
  obtain ⟨_, hlen, _, hres⟩ := Linear.lin_insert_all_spec ks t0 t rs hI0 hr
  refine ⟨hlen, ?_⟩
  intro i hi
  rw [hres i hi]
  simp [hh0]

/-- C6. LinearTable no loss: on every reachable table,
`linear_hash_table_insert` of `k` returns or trips the size assertion (no
loop runs out of its budget), and a completed call leaves `k` lookup-true and
keeps every key that was lookup-true before the call lookup-true, whether or
not the call doubled the table. -/
theorem linear_no_loss (h1 : Key → Nat) (junk : Nat → Key) (t : Linear.LinearHashTable)
    (k : Key) (hr : Linear.Reachable h1 junk t) :
    ((∃ t' b, Linear.linear_hash_table_insert h1 junk t k = .ok (t', b)) ∨
      Linear.linear_hash_table_insert h1 junk t k = .error .assertion) ∧
    ∀ t' b, Linear.linear_hash_table_insert h1 junk t k = .ok (t', b) →
      Linear.linear_hash_table_lookup h1 t' k = .ok true ∧
      ∀ x, Linear.linear_hash_table_lookup h1 t x = .ok true →
        Linear.linear_hash_table_lookup h1 t' x = .ok true := by
  refine ⟨Linear.lin_insert_returns h1 junk t k hr, ?_⟩
  intro t' b hi
  have hI := Linear.lin_reachable_inv hr
  obtain ⟨hI', hh, _⟩ := Linear.lin_insert_fuel_spec _ _ _ _ _ hI hi
  have key : ∀ x, Linear.holds t' x → Linear.linear_hash_table_lookup h1 t' x = .ok true := by
    intro x hx
    obtain ⟨b', hb', hiff⟩ := Linear.lin_lookup_spec hI' x
    have : b' = true := hiff.mpr hx
    rw [hb', this]
  refine ⟨key k ((hh k).mpr (Or.inr rfl)), ?_⟩
  intro x hx
  obtain ⟨b', hb', hiff⟩ := Linear.lin_lookup_spec hI x
  rw [hb'] at hx
  simp only [Except.ok.injEq] at hx
  exact key x ((hh x).mpr (Or.inl (hiff.mp hx)))

namespace Cuckoo

theorem cu_inner_one (t : CuckooHashTable) : t.inner 1 = t.table1 := rfl

theorem cu_inner_two (t : CuckooHashTable) : t.inner 2 = t.table2 := rfl

theorem cu_storedIn_congr {t t' : CuckooHashTable} (n : Nat) (hsz : t'.size = t.size)
    (hin : t'.inner n = t.inner n) (x : Key) : storedIn t' n x ↔ storedIn t n x := by
  unfold storedIn; rw [hsz, hin]

/-- Under the invariant a key stored in array `n` sits at its hash address. -/
theorem cu_storedIn_iff_target {h1 h2 : Key → Nat} {t : CuckooHashTable} (hI : Inv h1 h2 t)
    (n : Nat) (k : Key) :
    storedIn t n k ↔
      ((t.inner n).slots.getD (hash_of h1 h2 n k % t.size) 0 = k ∧
        (t.inner n).inuse.getD (hash_of h1 h2 n k % t.size) false = true) := by
  constructor
  · rintro ⟨i, hi, hu, hk⟩
    have := hI.addr n i hi hu
    rw [hk] at this
    rw [this]; exact ⟨hk, hu⟩
  · rintro ⟨hk, hu⟩
    exact ⟨_, Nat.mod_lt _ hI.size_pos, hu, hk⟩

theorem cu_lookup_iff_holds {h1 h2 : Key → Nat} {t : CuckooHashTable} (hI : Inv h1 h2 t)
    (k : Key) : cuckoo_hash_table_lookup h1 h2 t k = true ↔ holds t k := by
  unfold holds
  rw [cu_storedIn_iff_target hI 1 k, cu_storedIn_iff_target hI 2 k]
  unfold cuckoo_hash_table_lookup
  simp only [hash_of, cu_inner_one, cu_inner_two, if_true]
  by_cases c1 : t.table1.slots.getD (h1 k % t.size) 0 = k ∧
      t.table1.inuse.getD (h1 k % t.size) false = true
  · simp [c1]
  · by_cases c2 : t.table2.slots.getD (h2 k % t.size) 0 = k ∧
        t.table2.inuse.getD (h2 k % t.size) false = true
    · simp [c1, c2]
    · simp [c1, c2]

/-- Writing key `key` over the occupant of the in-use slot `H` of array `n`
(a kick), described through the other array `m`. -/
theorem cu_kick_step {h1 h2 : Key → Nat} {t : CuckooHashTable} (hI : Inv h1 h2 t)
    (t' : CuckooHashTable)
    (n m : Nat) (hnm : (n = 1 ∧ m = 2) ∨ (n = 2 ∧ m = 1)) (key : Key) (H : Nat)
    (hk : ¬ holds t key) (hH : H = hash_of h1 h2 n key % t.size)
    (hu : (t.inner n).inuse.getD H false = true)
    (hsz : t'.size = t.size)
    (hn : t'.inner n = { t.inner n with slots := (t.inner n).slots.set H key })
    (hm : t'.inner m = t.inner m) :
    Inv h1 h2 t' ∧ ¬ holds t' ((t.inner n).slots.getD H 0) ∧
    (∀ x, holds t' x ∨ x = (t.inner n).slots.getD H 0 ↔ holds t x ∨ x = key) := by
  have hHlt : H < t.size := by rw [hH]; exact Nat.mod_lt _ hI.size_pos
  have hall : ∀ (P : Nat → Prop), P n → P m → ∀ q, (q = 1 ∨ q ≠ 1) → P (if q = 1 then 1 else 2) := by
    intro P hPn hPm q _
    rcases hnm with ⟨rfl, rfl⟩ | ⟨rfl, rfl⟩ <;> split <;> assumption
  have hinner : ∀ (u : CuckooHashTable) q, u.inner q = u.inner (if q = 1 then 1 else 2) := by
    intro u q; unfold CuckooHashTable.inner; split <;> simp [*]
  have hhash : ∀ q, hash_of h1 h2 q = hash_of h1 h2 (if q = 1 then 1 else 2) := by
    intro q; unfold hash_of; split <;> simp [*]
  have hholds : ∀ (u : CuckooHashTable) x, holds u x ↔ storedIn u n x ∨ storedIn u m x := by
    intro u x; unfold holds
    rcases hnm with ⟨rfl, rfl⟩ | ⟨rfl, rfl⟩
    · rfl
    · exact Or.comm
  have hsl : ∀ i, i ≠ H → (t'.inner n).slots.getD i 0 = (t.inner n).slots.getD i 0 := by
    intro i hi
    rw [hn]; simp only
    rw [aux_getD_set, if_neg (by intro hc; exact hi hc.1.symm)]
  have hslH : (t'.inner n).slots.getD H 0 = key := by
    rw [hn]; simp only
    rw [aux_getD_set, if_pos ⟨rfl, by rw [hI.len_s]; exact hHlt⟩]
  have hin : (t'.inner n).inuse = (t.inner n).inuse := by rw [hn]
  have hsm : ∀ x, storedIn t' m x ↔ storedIn t m x := cu_storedIn_congr m hsz hm
  have hsn : ∀ x, storedIn t' n x ↔
      (storedIn t n x ∧ x ≠ (t.inner n).slots.getD H 0) ∨ x = key := by
    intro x
    constructor
    · rintro ⟨i, hi, hiu, hix⟩
      rw [hsz] at hi; rw [hin] at hiu
      by_cases hiH : i = H
      · subst hiH; right; rw [← hix, hslH]
      · left
        rw [hsl i hiH] at hix
        refine ⟨⟨i, hi, hiu, hix⟩, ?_⟩
        intro hxy
        have a1 := hI.addr n i hi hiu
        have a2 := hI.addr n H hHlt hu
        rw [hix, hxy, a2] at a1
        exact hiH a1.symm
    · rintro (⟨⟨i, hi, hiu, hix⟩, hne⟩ | rfl)
      · have hiH : i ≠ H := by
          intro hc; subst hc; exact hne hix.symm
        exact ⟨i, by rw [hsz]; exact hi, by rw [hin]; exact hiu, by rw [hsl i hiH]; exact hix⟩
      · exact ⟨H, by rw [hsz]; exact hHlt, by rw [hin]; exact hu, hslH⟩
  have hyn : storedIn t n ((t.inner n).slots.getD H 0) := ⟨H, hHlt, hu, rfl⟩
  have hkn : ¬ storedIn t n key := fun h => hk ((hholds t key).mpr (Or.inl h))
  have hkm : ¬ storedIn t m key := fun h => hk ((hholds t key).mpr (Or.inr h))
  have hdisj : ∀ x, ¬ (storedIn t n x ∧ storedIn t m x) := by
    intro x hx
    rcases hnm with ⟨rfl, rfl⟩ | ⟨rfl, rfl⟩
    · exact hI.disj x hx
    · exact hI.disj x ⟨hx.2, hx.1⟩
  have hdisj' : ∀ x, ¬ (storedIn t' n x ∧ storedIn t' m x) := by
    rintro x ⟨hxn, hxm⟩
    rw [hsm] at hxm
    rcases (hsn x).mp hxn with ⟨h, _⟩ | rfl
    · exact hdisj x ⟨h, hxm⟩
    · exact hkm hxm
  refine ⟨⟨by rw [hsz]; exact hI.size_pos, ?_, ?_, ?_, ?_⟩, ?_, ?_⟩
  · intro q
    rw [hinner t' q, hsz]
    refine hall (fun q => (t'.inner q).slots.length = t.size) ?_ ?_ q (Decidable.em _)
    · beta_reduce; rw [hn]; simp only [List.length_set]; exact hI.len_s n
    · beta_reduce; rw [hm]; exact hI.len_s m
  · intro q
    rw [hinner t' q, hsz]
    refine hall (fun q => (t'.inner q).inuse.length = t.size) ?_ ?_ q (Decidable.em _)
    · beta_reduce; rw [hin]; exact hI.len_u n
    · beta_reduce; rw [hm]; exact hI.len_u m
  · intro q
    rw [hinner t' q, hhash q, hsz]
    refine hall (fun q => ∀ i, i < t.size → (t'.inner q).inuse.getD i false = true →
      hash_of h1 h2 q ((t'.inner q).slots.getD i 0) % t.size = i) ?_ ?_ q (Decidable.em _)
    · beta_reduce
      intro i hi hiu
      rw [hin] at hiu
      by_cases hiH : i = H
      · subst hiH; rw [hslH]; exact hH.symm
      · rw [hsl i hiH]; exact hI.addr n i hi hiu
    · beta_reduce
      intro i hi hiu
      rw [hm] at hiu ⊢
      exact hI.addr m i hi hiu
  · intro x hx
    rcases hnm with ⟨rfl, rfl⟩ | ⟨rfl, rfl⟩
    · exact hdisj' x hx
    · exact hdisj' x ⟨hx.2, hx.1⟩
  · rw [hholds]
    rintro (h | h)
    · rcases (hsn _).mp h with ⟨_, hne⟩ | heq
      · exact hne rfl
      · rw [heq] at hyn; exact hkn hyn
    · rw [hsm] at h
      exact hdisj _ ⟨hyn, h⟩
  · intro x
    rw [hholds t' x, hholds t x, hsn x, hsm x]
    constructor
    · rintro (((⟨h, _⟩ | h) | h) | h)
      · exact Or.inl (Or.inl h)
      · exact Or.inr h
      · exact Or.inl (Or.inr h)
      · rw [h]; exact Or.inl (Or.inl hyn)
    · rintro ((h | h) | h)
      · by_cases hxy : x = (t.inner n).slots.getD H 0
        · exact Or.inr hxy
        · exact Or.inl (Or.inl (Or.inl ⟨h, hxy⟩))
      · exact Or.inl (Or.inr h)
      · exact Or.inl (Or.inl (Or.inr h))

end Cuckoo

namespace Cuckoo

/-- Storing key `key` in the free slot `H` of array `n`. -/
theorem cu_place_step {h1 h2 : Key → Nat} {t : CuckooHashTable} (hI : Inv h1 h2 t)
    (t' : CuckooHashTable)
    (n m : Nat) (hnm : (n = 1 ∧ m = 2) ∨ (n = 2 ∧ m = 1)) (key : Key) (H : Nat)
    (hk : ¬ holds t key) (hH : H = hash_of h1 h2 n key % t.size)
    (hfree : (t.inner n).inuse.getD H false = false)
    (hsz : t'.size = t.size)
    (hn : t'.inner n = { slots := (t.inner n).slots.set H key,
                         inuse := (t.inner n).inuse.set H true })
    (hm : t'.inner m = t.inner m) :
    Inv h1 h2 t' ∧ (∀ x, holds t' x ↔ holds t x ∨ x = key) := by
  have hHlt : H < t.size := by rw [hH]; exact Nat.mod_lt _ hI.size_pos
  have hall : ∀ (P : Nat → Prop), P n → P m → ∀ q, P (if q = 1 then 1 else 2) := by
    intro P hPn hPm q
    rcases hnm with ⟨rfl, rfl⟩ | ⟨rfl, rfl⟩ <;> split <;> assumption
  have hinner : ∀ (u : CuckooHashTable) q, u.inner q = u.inner (if q = 1 then 1 else 2) := by
    intro u q; unfold CuckooHashTable.inner; split <;> simp [*]
  have hhash : ∀ q, hash_of h1 h2 q = hash_of h1 h2 (if q = 1 then 1 else 2) := by
    intro q; unfold hash_of; split <;> simp [*]
  have hholds : ∀ (u : CuckooHashTable) x, holds u x ↔ storedIn u n x ∨ storedIn u m x := by
    intro u x; unfold holds
    rcases hnm with ⟨rfl, rfl⟩ | ⟨rfl, rfl⟩
    · rfl
    · exact Or.comm
  have hsl : ∀ i, i ≠ H → (t'.inner n).slots.getD i 0 = (t.inner n).slots.getD i 0 := by
    intro i hi
    rw [hn]; simp only
    rw [aux_getD_set, if_neg (by intro hc; exact hi hc.1.symm)]
  have hslH : (t'.inner n).slots.getD H 0 = key := by
    rw [hn]; simp only
    rw [aux_getD_set, if_pos ⟨rfl, by rw [hI.len_s]; exact hHlt⟩]
  have hin : ∀ i, i ≠ H → (t'.inner n).inuse.getD i false = (t.inner n).inuse.getD i false := by
    intro i hi
    rw [hn]; simp only
    rw [aux_getD_set, if_neg (by intro hc; exact hi hc.1.symm)]
  have hinH : (t'.inner n).inuse.getD H false = true := by
    rw [hn]; simp only
    rw [aux_getD_set, if_pos ⟨rfl, by rw [hI.len_u]; exact hHlt⟩]
  have hsm : ∀ x, storedIn t' m x ↔ storedIn t m x := cu_storedIn_congr m hsz hm
  have hsn : ∀ x, storedIn t' n x ↔ storedIn t n x ∨ x = key := by
    intro x
    constructor
    · rintro ⟨i, hi, hiu, hix⟩
      rw [hsz] at hi
      by_cases hiH : i = H
      · subst hiH; right; rw [← hix, hslH]
      · left
        rw [hsl i hiH] at hix
        rw [hin i hiH] at hiu
        exact ⟨i, hi, hiu, hix⟩
    · rintro (⟨i, hi, hiu, hix⟩ | rfl)
      · have hiH : i ≠ H := by
          intro hc; subst hc; rw [hfree] at hiu; exact Bool.noConfusion hiu
        exact ⟨i, by rw [hsz]; exact hi, by rw [hin i hiH]; exact hiu,
          by rw [hsl i hiH]; exact hix⟩
      · exact ⟨H, by rw [hsz]; exact hHlt, hinH, hslH⟩
  have hkm : ¬ storedIn t m key := fun h => hk ((hholds t key).mpr (Or.inr h))
  have hdisj : ∀ x, ¬ (storedIn t n x ∧ storedIn t m x) := by
    intro x hx
    rcases hnm with ⟨rfl, rfl⟩ | ⟨rfl, rfl⟩
    · exact hI.disj x hx
    · exact hI.disj x ⟨hx.2, hx.1⟩
  have hdisj' : ∀ x, ¬ (storedIn t' n x ∧ storedIn t' m x) := by
    rintro x ⟨hxn, hxm⟩
    rw [hsm] at hxm
    rcases (hsn x).mp hxn with h | rfl
    · exact hdisj x ⟨h, hxm⟩
    · exact hkm hxm
  refine ⟨⟨by rw [hsz]; exact hI.size_pos, ?_, ?_, ?_, ?_⟩, ?_⟩
  · intro q
    rw [hinner t' q, hsz]
    refine hall (fun q => (t'.inner q).slots.length = t.size) ?_ ?_ q
    · beta_reduce; rw [hn]; simp only [List.length_set]; exact hI.len_s n
    · beta_reduce; rw [hm]; exact hI.len_s m
  · intro q
    rw [hinner t' q, hsz]
    refine hall (fun q => (t'.inner q).inuse.length = t.size) ?_ ?_ q
    · beta_reduce; rw [hn]; simp only [List.length_set]; exact hI.len_u n
    · beta_reduce; rw [hm]; exact hI.len_u m
  · intro q
    rw [hinner t' q, hhash q, hsz]
    refine hall (fun q => ∀ i, i < t.size → (t'.inner q).inuse.getD i false = true →
      hash_of h1 h2 q ((t'.inner q).slots.getD i 0) % t.size = i) ?_ ?_ q
    · beta_reduce
      intro i hi hiu
      by_cases hiH : i = H
      · subst hiH; rw [hslH]; exact hH.symm
      · rw [hin i hiH] at hiu
        rw [hsl i hiH]; exact hI.addr n i hi hiu
    · beta_reduce
      intro i hi hiu
      rw [hm] at hiu ⊢
      exact hI.addr m i hi hiu
  · intro x hx
    rcases hnm with ⟨rfl, rfl⟩ | ⟨rfl, rfl⟩
    · exact hdisj' x hx
    · exact hdisj' x ⟨hx.2, hx.1⟩
  · intro x
    rw [hholds t' x, hholds t x, hsn x, hsm x]
    tauto

theorem cu_kick_loop_spec {h1 h2 : Key → Nat} :
    ∀ fuel (s s' : Kick), KInv h1 h2 s → kick_loop h1 h2 fuel s = .ok s' →
      KInv h1 h2 s' ∧
      (∀ x, holds s'.table x ∨ x = s'.key ↔ holds s.table x ∨ x = s.key) ∧
      s'.table.size = s.table.size ∧
      (s'.time_kicked_keys ≠ 2 * s'.table.size →
        (s'.table.inner s'.insert_table).inuse.getD s'.H false = false) := by
  intro fuel
  induction fuel with
  | zero => intro s s' _ hr; simp [kick_loop] at hr
  | succ fuel ih =>
    intro s s' hK hr
    unfold kick_loop at hr
    simp only at hr
    by_cases hc : (s.table.inner s.insert_table).inuse.getD s.H false = true ∧
        s.time_kicked_keys ≠ 2 * s.table.size
    · rw [if_pos hc] at hr
      rcases hK.tbl with h1t | h2t
      · rw [if_pos h1t] at hr
        have hstep := cu_kick_step hK.inv (s.table.setInner s.insert_table
            { s.table.inner s.insert_table with
              slots := (s.table.inner s.insert_table).slots.set s.H s.key })
          s.insert_table 2 (Or.inl ⟨h1t, rfl⟩) s.key s.H hK.fresh hK.addr hc.1
          (by rw [h1t]; rfl) (by rw [h1t]; rfl) (by rw [h1t]; rfl)
        obtain ⟨hI', hfr', hset'⟩ := hstep
        obtain ⟨hK2, hset2, hsz2, hfree2⟩ := ih _ s' ⟨hI', Or.inr rfl, rfl, hfr'⟩ hr
        refine ⟨hK2, ?_, ?_, hfree2⟩
        · intro x; rw [hset2 x]; exact hset' x
        · rw [hsz2, h1t]; rfl
      · have hne : ¬ s.insert_table = 1 := by omega
        rw [if_neg hne, if_pos h2t] at hr
        have hstep := cu_kick_step hK.inv (s.table.setInner s.insert_table
            { s.table.inner s.insert_table with
              slots := (s.table.inner s.insert_table).slots.set s.H s.key })
          s.insert_table 1 (Or.inr ⟨h2t, rfl⟩) s.key s.H hK.fresh hK.addr hc.1
          (by rw [h2t]; rfl) (by rw [h2t]; rfl) (by rw [h2t]; rfl)
        obtain ⟨hI', hfr', hset'⟩ := hstep
        obtain ⟨hK2, hset2, hsz2, hfree2⟩ := ih _ s' ⟨hI', Or.inl rfl, rfl, hfr'⟩ hr
        refine ⟨hK2, ?_, ?_, hfree2⟩
        · intro x; rw [hset2 x]; exact hset' x
        · rw [hsz2, h2t]; rfl
    · rw [if_neg hc] at hr
      simp only [Except.ok.injEq] at hr
      subst hr
      refine ⟨hK, fun x => Iff.rfl, rfl, ?_⟩
      intro hne
      by_contra hcon
      exact hc ⟨by simpa using hcon, hne⟩

theorem cu_initialise_spec (h1 h2 : Key → Nat) {junk : Nat → Key} {t t' : CuckooHashTable}
    {size : Nat} (hpos : 0 < size) (hr : initialise_cuckoo_table junk t size = .ok t') :
    Inv h1 h2 t' ∧ (∀ x, ¬ holds t' x) ∧ t'.size = size := by
  unfold initialise_cuckoo_table at hr
  by_cases hc : size < MAX_TABLE_SIZE
  · rw [if_pos hc] at hr
    simp only [Except.ok.injEq] at hr
    subst hr
    have hnone : ∀ n x, ¬ storedIn
        ({ t with
          table1 := { slots := (List.range size).map junk, inuse := List.replicate size false }
          table2 := { slots := (List.range size).map junk, inuse := List.replicate size false }
          size := size, load := 0, stats := { load_table1 := 0, load_table2 := 0 } } :
          CuckooHashTable) n x := by
      rintro n x ⟨i, _, hiu, _⟩
      unfold CuckooHashTable.inner at hiu
      split at hiu <;>
      · simp only [aux_getD_replicate_false] at hiu
        exact Bool.noConfusion hiu
    refine ⟨⟨hpos, ?_, ?_, ?_, ?_⟩, ?_, rfl⟩
    · intro n; unfold CuckooHashTable.inner; split <;> simp
    · intro n; unfold CuckooHashTable.inner; split <;> simp
    · intro n i hi hiu
      exact absurd ⟨i, hi, hiu, rfl⟩ (hnone n _)
    · intro k hk; exact hnone 1 k hk.1
    · intro x hx
      rcases hx with h | h
      · exact hnone 1 x h
      · exact hnone 2 x h
  · rw [if_neg hc] at hr; simp at hr

end Cuckoo

namespace Cuckoo

theorem cu_reinsert_if_spec {h1 h2 : Key → Nat}
    {ins : CuckooHashTable → Key → Except Err (CuckooHashTable × Bool)}
    (hins : InsSpec h1 h2 ins) {t t' : CuckooHashTable} (used : Bool) (key : Key)
    (hI : Inv h1 h2 t) (hr : reinsert_if ins used key t = .ok t') :
    Inv h1 h2 t' ∧ (∀ x, holds t' x ↔ holds t x ∨ (used = true ∧ key = x)) := by
  unfold reinsert_if at hr
  by_cases hu : used = true
  · rw [if_pos hu] at hr
    cases hi : ins t key with
    | error e => rw [hi] at hr; simp at hr
    | ok r =>
      obtain ⟨t1, b⟩ := r
      rw [hi] at hr
      simp only [Except.ok.injEq] at hr
      subst hr
      obtain ⟨hI1, hh1, _⟩ := hins t t1 key b hI hi
      refine ⟨hI1, ?_⟩
      intro x; rw [hh1 x]
      constructor
      · rintro (h | h)
        · exact Or.inl h
        · exact Or.inr ⟨hu, h.symm⟩
      · rintro (h | ⟨_, h⟩)
        · exact Or.inl h
        · exact Or.inr h.symm
  · rw [if_neg hu] at hr
    simp only [Except.ok.injEq] at hr
    subst hr
    exact ⟨hI, by intro x; simp [hu]⟩

theorem cu_reinsert_loop_spec {h1 h2 : Key → Nat}
    {ins : CuckooHashTable → Key → Except Err (CuckooHashTable × Bool)}
    (hins : InsSpec h1 h2 ins) (old1 old2 : InnerTable) :
    ∀ (is : List Nat) (t t' : CuckooHashTable), Inv h1 h2 t →
      reinsert_loop ins old1 old2 is t = .ok t' →
      Inv h1 h2 t' ∧ (∀ x, holds t' x ↔ holds t x ∨ ∃ i, i ∈ is ∧
        ((old1.inuse.getD i false = true ∧ old1.slots.getD i 0 = x) ∨
         (old2.inuse.getD i false = true ∧ old2.slots.getD i 0 = x))) := by
  intro is
  induction is with
  | nil =>
    intro t t' hI hr
    simp only [reinsert_loop, Except.ok.injEq] at hr
    subst hr
    exact ⟨hI, by simp⟩
  | cons i is ih =>
    intro t t' hI hr
    unfold reinsert_loop at hr
    cases ha : reinsert_if ins (old1.inuse.getD i false) (old1.slots.getD i 0) t with
    | error e => rw [ha] at hr; simp at hr
    | ok ta =>
      rw [ha] at hr
      simp only at hr
      cases hb : reinsert_if ins (old2.inuse.getD i false) (old2.slots.getD i 0) ta with
      | error e => rw [hb] at hr; simp at hr
      | ok tb =>
        rw [hb] at hr
        simp only at hr
        obtain ⟨hIa, hha⟩ := cu_reinsert_if_spec hins _ _ hI ha
        obtain ⟨hIb, hhb⟩ := cu_reinsert_if_spec hins _ _ hIa hb
        obtain ⟨hIc, hhc⟩ := ih tb t' hIb hr
        refine ⟨hIc, ?_⟩
        intro x
        rw [hhc x, hhb x, hha x]
        constructor
        · rintro (((h | h) | h) | ⟨j, hj, h⟩)
          · exact Or.inl h
          · exact Or.inr ⟨i, List.mem_cons_self _ _, Or.inl h⟩
          · exact Or.inr ⟨i, List.mem_cons_self _ _, Or.inr h⟩
          · exact Or.inr ⟨j, List.mem_cons_of_mem _ hj, h⟩
        · rintro (h | ⟨j, hj, h⟩)
          · exact Or.inl (Or.inl (Or.inl h))
          · rcases List.mem_cons.mp hj with rfl | hj
            · rcases h with h | h
              · exact Or.inl (Or.inl (Or.inr h))
              · exact Or.inl (Or.inr h)
            · exact Or.inr ⟨j, hj, h⟩

theorem cu_double_spec {h1 h2 : Key → Nat} {junk : Nat → Key}
    {ins : CuckooHashTable → Key → Except Err (CuckooHashTable × Bool)}
    (hins : InsSpec h1 h2 ins) {t t' : CuckooHashTable} (hI : Inv h1 h2 t)
    (hr : double_cuckoo_table ins junk t = .ok t') :
    Inv h1 h2 t' ∧ (∀ x, holds t' x ↔ holds t x) := by
  unfold double_cuckoo_table at hr
  cases hi : initialise_cuckoo_table junk t (t.size * 2) with
  | error e => rw [hi] at hr; simp at hr
  | ok fresh =>
    rw [hi] at hr
    simp only at hr
    obtain ⟨hIf, hhf, _⟩ := cu_initialise_spec h1 h2
      (by have := hI.size_pos; omega) hi
    obtain ⟨hI2, hh2⟩ := cu_reinsert_loop_spec hins _ _ _ _ _ hIf hr
    refine ⟨hI2, ?_⟩
    intro x
    rw [hh2 x]
    constructor
    · rintro (h | ⟨i, hi, h | h⟩)
      · exact absurd h (hhf x)
      · exact Or.inl ⟨i, List.mem_range.mp hi, h.1, h.2⟩
      · exact Or.inr ⟨i, List.mem_range.mp hi, h.1, h.2⟩
    · rintro (⟨i, hi, hiu, hix⟩ | ⟨i, hi, hiu, hix⟩)
      · exact Or.inr ⟨i, List.mem_range.mpr hi, Or.inl ⟨hiu, hix⟩⟩
      · exact Or.inr ⟨i, List.mem_range.mpr hi, Or.inr ⟨hiu, hix⟩⟩

theorem cu_insert_fuel_spec {h1 h2 : Key → Nat} {junk : Nat → Key} :
    ∀ fuel, InsSpec h1 h2 (cuckoo_hash_table_insert_fuel h1 h2 junk fuel) := by
  intro fuel
  induction fuel with
  | zero => intro t t' k b _ hr; simp [cuckoo_hash_table_insert_fuel] at hr
  | succ fuel ih =>
    intro t t' k b hI hr
    unfold cuckoo_hash_table_insert_fuel at hr
    simp only at hr
    by_cases hfull : t.load = 2 * t.size - 1
    · rw [if_pos hfull] at hr
      cases hd : double_cuckoo_table (cuckoo_hash_table_insert_fuel h1 h2 junk fuel) junk t with
      | error e => rw [hd] at hr; simp at hr
      | ok t2 =>
        rw [hd] at hr
        simp only at hr
        obtain ⟨hI2, hh2⟩ := cu_double_spec ih hI hd
        obtain ⟨hI3, hh3, hb3⟩ := ih t2 t' k b hI2 hr
        exact ⟨hI3, by intro x; rw [hh3 x, hh2 x], by rw [hb3, hh2 k]⟩
    · rw [if_neg hfull] at hr
      have ht1 := cu_storedIn_iff_target hI 1 k
      have ht2 := cu_storedIn_iff_target hI 2 k
      simp only [hash_of, cu_inner_one, cu_inner_two, if_true] at ht1 ht2
      simp only [show ¬ (2 = 1) by decide, if_false] at ht2
      by_cases hd1 : t.table1.slots.getD (h1 k % t.size) 0 = k ∧
          t.table1.inuse.getD (h1 k % t.size) false = true
      · rw [if_pos hd1] at hr
        simp only [Except.ok.injEq, Prod.mk.injEq] at hr
        obtain ⟨rfl, rfl⟩ := hr
        have hk : holds t k := Or.inl (ht1.mpr hd1)
        refine ⟨hI, ?_, by simp [hk]⟩
        intro x
        constructor
        · exact Or.inl
        · rintro (h | rfl)
          · exact h
          · exact hk
      · rw [if_neg hd1] at hr
        by_cases hd2 : t.table2.slots.getD (h2 k % t.size) 0 = k ∧
            t.table2.inuse.getD (h2 k % t.size) false = true
        · rw [if_pos hd2] at hr
          simp only [Except.ok.injEq, Prod.mk.injEq] at hr
          obtain ⟨rfl, rfl⟩ := hr
          have hk : holds t k := Or.inr (ht2.mpr hd2)
          refine ⟨hI, ?_, by simp [hk]⟩
          intro x
          constructor
          · exact Or.inl
          · rintro (h | rfl)
            · exact h
            · exact hk
        · rw [if_neg hd2] at hr
          have hnk : ¬ holds t k := by
            rintro (h | h)
            · exact hd1 (ht1.mp h)
            · exact hd2 (ht2.mp h)
          cases hkl : kick_loop h1 h2 (2 * t.size + 1)
              { table := t, key := k, H := h1 k % t.size, insert_table := 1,
                time_kicked_keys := 0 } with
          | error e => rw [hkl] at hr; simp at hr
          | ok s =>
            rw [hkl] at hr
            simp only at hr
            obtain ⟨hK, hset, hsz, hfree⟩ := cu_kick_loop_spec _ _ _
              ⟨hI, Or.inl rfl, rfl, hnk⟩ hkl
            simp only at hset hsz
            by_cases hcyc : s.time_kicked_keys = 2 * s.table.size
            · rw [if_pos hcyc] at hr
              cases hd : double_cuckoo_table (cuckoo_hash_table_insert_fuel h1 h2 junk fuel)
                  junk s.table with
              | error e => rw [hd] at hr; simp at hr
              | ok t2 =>
                rw [hd] at hr
                simp only at hr
                obtain ⟨hI2, hh2⟩ := cu_double_spec ih hK.inv hd
                obtain ⟨hI3, hh3, hb3⟩ := ih t2 t' s.key b hI2 hr
                refine ⟨hI3, ?_, ?_⟩
                · intro x; rw [hh3 x, hh2 x]; exact hset x
                · rw [hb3, hh2 s.key]
                  simp [hnk, hK.fresh]
            · rw [if_neg hcyc] at hr
              have hfr := hfree hcyc
              rcases hK.tbl with h1t | h2t
              · simp only [h1t, if_true, Except.ok.injEq, Prod.mk.injEq] at hr
                obtain ⟨rfl, rfl⟩ := hr
                have hp := cu_place_step hK.inv
                  { s.table with
                    table1 := { slots := s.table.table1.slots.set s.H s.key,
                                inuse := s.table.table1.inuse.set s.H true }
                    load := s.table.load + 1
                    stats := { s.table.stats with
                      load_table1 := s.table.stats.load_table1 + 1 } }
                  s.insert_table 2 (Or.inl ⟨h1t, rfl⟩)
                  s.key s.H hK.fresh hK.addr hfr
                  rfl (by rw [h1t]; rfl) rfl
                refine ⟨?_, ?_, by simp [hnk]⟩
                · exact hp.1
                · intro x; rw [← hset x]; exact hp.2 x
              · have hne : ¬ s.insert_table = 1 := by omega
                simp only [h2t, show ¬ (2 = 1) by decide, if_false, if_true, Except.ok.injEq,
                  Prod.mk.injEq] at hr
                obtain ⟨rfl, rfl⟩ := hr
                have hp := cu_place_step hK.inv
                  { s.table with
                    table2 := { slots := s.table.table2.slots.set s.H s.key,
                                inuse := s.table.table2.inuse.set s.H true }
                    load := s.table.load + 1
                    stats := { s.table.stats with
                      load_table2 := s.table.stats.load_table2 + 1 } }
                  s.insert_table 1 (Or.inr ⟨h2t, rfl⟩)
                  s.key s.H hK.fresh hK.addr hfr
                  rfl (by rw [h2t]; rfl) rfl
                refine ⟨?_, ?_, by simp [hnk]⟩
                · exact hp.1
                · intro x; rw [← hset x]; exact hp.2 x

theorem cu_reachable_inv {h1 h2 : Key → Nat} {junk : Nat → Key} {t : CuckooHashTable}
    (hr : Reachable h1 h2 junk t) : Inv h1 h2 t := by
  induction hr with
  | init size t hs h => exact (cu_initialise_spec h1 h2 (by omega) h).1
  | step t t' k b _ h ih => exact (cu_insert_fuel_spec _ _ _ _ _ ih h).1

end Cuckoo

/-! ### The nesting budget of `cuckoo_hash_table_insert` is never exhausted -/

namespace Cuckoo

theorem cu_setInner_size (t : CuckooHashTable) (n : Nat) (it : InnerTable) :
    (t.setInner n it).size = t.size := by
  unfold CuckooHashTable.setInner; split <;> rfl

theorem cu_kick_loop_total (h1 h2 : Key → Nat) :
    ∀ fuel (s : Kick), s.time_kicked_keys ≤ 2 * s.table.size →
      2 * s.table.size - s.time_kicked_keys < fuel →
      ∃ s', kick_loop h1 h2 fuel s = .ok s' ∧ s'.table.size = s.table.size ∧
        s'.time_kicked_keys ≤ 2 * s.table.size := by
  intro fuel
  induction fuel with
  | zero => intro s _ hf; omega
  | succ fuel ih =>
    intro s hle hf
    unfold kick_loop
    simp only
    by_cases hc : (s.table.inner s.insert_table).inuse.getD s.H false = true ∧
        s.time_kicked_keys ≠ 2 * s.table.size
    · rw [if_pos hc]
      have hsz := cu_setInner_size s.table s.insert_table
        { s.table.inner s.insert_table with
          slots := (s.table.inner s.insert_table).slots.set s.H s.key }
      by_cases h1t : s.insert_table = 1
      · rw [if_pos h1t]
        obtain ⟨s', hs', hz, hk⟩ := ih
          { table := s.table.setInner s.insert_table
              { s.table.inner s.insert_table with
                slots := (s.table.inner s.insert_table).slots.set s.H s.key }
            key := (s.table.inner s.insert_table).slots.getD s.H 0
            H := h2 ((s.table.inner s.insert_table).slots.getD s.H 0) %
              (s.table.setInner s.insert_table
                { s.table.inner s.insert_table with
                  slots := (s.table.inner s.insert_table).slots.set s.H s.key }).size
            insert_table := 2
            time_kicked_keys := s.time_kicked_keys + 1 }
          (by simp only [hsz]; omega) (by simp only [hsz]; omega)
        exact ⟨s', hs', by rw [hz]; exact hsz, by rw [← hsz]; exact hk⟩
      · rw [if_neg h1t]
        by_cases h2t : s.insert_table = 2
        · rw [if_pos h2t]
          obtain ⟨s', hs', hz, hk⟩ := ih
            { table := s.table.setInner s.insert_table
                { s.table.inner s.insert_table with
                  slots := (s.table.inner s.insert_table).slots.set s.H s.key }
              key := (s.table.inner s.insert_table).slots.getD s.H 0
              H := h1 ((s.table.inner s.insert_table).slots.getD s.H 0) %
                (s.table.setInner s.insert_table
                  { s.table.inner s.insert_table with
                    slots := (s.table.inner s.insert_table).slots.set s.H s.key }).size
              insert_table := 1
              time_kicked_keys := s.time_kicked_keys + 1 }
            (by simp only [hsz]; omega) (by simp only [hsz]; omega)
          exact ⟨s', hs', by rw [hz]; exact hsz, by rw [← hsz]; exact hk⟩
        · rw [if_neg h2t]
          obtain ⟨s', hs', hz, hk⟩ := ih
            { s with
              table := s.table.setInner s.insert_table
                { s.table.inner s.insert_table with
                  slots := (s.table.inner s.insert_table).slots.set s.H s.key }
              key := (s.table.inner s.insert_table).slots.getD s.H 0
              time_kicked_keys := s.time_kicked_keys + 1 }
            (by simp only [hsz]; omega) (by simp only [hsz]; omega)
          exact ⟨s', hs', by rw [hz]; exact hsz, by rw [← hsz]; exact hk⟩
    · rw [if_neg hc]
      exact ⟨s, rfl, rfl, hle⟩

theorem cu_reinsert_if_total {n : Nat}
    {ins : CuckooHashTable → Key → Except Err (CuckooHashTable × Bool)} (hins : Total n ins)
    (used : Bool) (key : Key) (t : CuckooHashTable) (hn : n ≤ t.size) (hpos : 0 < t.size)
    (hlt : t.size < MAX_TABLE_SIZE) :
    (∃ t', reinsert_if ins used key t = .ok t' ∧ t.size ≤ t'.size ∧
      t'.size < MAX_TABLE_SIZE) ∨
    reinsert_if ins used key t = .error .assertion := by
  unfold reinsert_if
  by_cases hu : used = true
  · rw [if_pos hu]
    rcases hins t key hn hpos hlt with ⟨t', b, h, hle, hlt'⟩ | h
    · rw [h]; exact Or.inl ⟨t', rfl, hle, hlt'⟩
    · rw [h]; exact Or.inr rfl
  · rw [if_neg hu]; exact Or.inl ⟨t, rfl, Nat.le_refl _, hlt⟩

theorem cu_reinsert_loop_total {n : Nat}
    {ins : CuckooHashTable → Key → Except Err (CuckooHashTable × Bool)} (hins : Total n ins)
    (old1 old2 : InnerTable) :
    ∀ (is : List Nat) (t : CuckooHashTable), n ≤ t.size → 0 < t.size →
      t.size < MAX_TABLE_SIZE →
      (∃ t', reinsert_loop ins old1 old2 is t = .ok t' ∧ t.size ≤ t'.size ∧
        t'.size < MAX_TABLE_SIZE) ∨
      reinsert_loop ins old1 old2 is t = .error .assertion := by
  intro is
  induction is with
  | nil => intro t _ _ hlt; exact Or.inl ⟨t, rfl, Nat.le_refl _, hlt⟩
  | cons i is ih =>
    intro t hn hpos hlt
    unfold reinsert_loop
    rcases cu_reinsert_if_total hins (old1.inuse.getD i false) (old1.slots.getD i 0) t hn hpos
      hlt with ⟨ta, ha, hlea, hlta⟩ | ha
    · rw [ha]
      simp only
      rcases cu_reinsert_if_total hins (old2.inuse.getD i false) (old2.slots.getD i 0) ta
        (by omega) (by omega) hlta with ⟨tb, hb, hleb, hltb⟩ | hb
      · rw [hb]
        simp only
        rcases ih tb (by omega) (by omega) hltb with ⟨tc, hc, hlec, hltc⟩ | hc
        · exact Or.inl ⟨tc, hc, by omega, hltc⟩
        · exact Or.inr hc
      · rw [hb]; exact Or.inr rfl
    · rw [ha]; exact Or.inr rfl

theorem cu_double_total {junk : Nat → Key}
    {ins : CuckooHashTable → Key → Except Err (CuckooHashTable × Bool)} (t : CuckooHashTable)
    (hins : Total (t.size * 2) ins) (hpos : 0 < t.size) :
    (∃ t', double_cuckoo_table ins junk t = .ok t' ∧ t.size * 2 ≤ t'.size ∧
      t'.size < MAX_TABLE_SIZE) ∨
    double_cuckoo_table ins junk t = .error .assertion := by
  unfold double_cuckoo_table initialise_cuckoo_table
  by_cases hc : t.size * 2 < MAX_TABLE_SIZE
  · rw [if_pos hc]
    simp only
    exact cu_reinsert_loop_total hins _ _ _ _ (Nat.le_refl _) (by simp only; omega) hc
  · rw [if_neg hc]; exact Or.inr rfl

theorem cu_insert_fuel_total (h1 h2 : Key → Nat) (junk : Nat → Key) :
    ∀ fuel n, MAX_TABLE_SIZE ≤ n * 2 ^ fuel →
      Total n (cuckoo_hash_table_insert_fuel h1 h2 junk fuel) := by
  intro fuel
  induction fuel with
  | zero =>
    intro n hn t k hnt _ hlt
    simp only [pow_zero, Nat.mul_one] at hn
    omega
  | succ fuel ih =>
    intro n hn t k hnt hpos hlt
    have hrec : Total (t.size * 2) (cuckoo_hash_table_insert_fuel h1 h2 junk fuel) := by
      apply ih
      have : n * 2 ^ (fuel + 1) ≤ t.size * 2 * 2 ^ fuel := by
        rw [pow_succ, Nat.mul_assoc t.size, Nat.mul_comm 2 (2 ^ fuel)]
        exact Nat.mul_le_mul_right _ hnt
      omega
    have hafter : ∀ (u : CuckooHashTable) (key : Key), t.size ≤ u.size → 0 < u.size →
        (∃ t', double_cuckoo_table (cuckoo_hash_table_insert_fuel h1 h2 junk fuel) junk u
            = .ok t' ∧ u.size * 2 ≤ t'.size ∧ t'.size < MAX_TABLE_SIZE) ∨
          double_cuckoo_table (cuckoo_hash_table_insert_fuel h1 h2 junk fuel) junk u
            = .error .assertion := by
      intro u key hu hupos
      apply cu_double_total u _ hupos
      intro v kv hv hvpos hvlt
      exact hrec v kv (by omega) hvpos hvlt
    unfold cuckoo_hash_table_insert_fuel
    simp only
    by_cases hfull : t.load = 2 * t.size - 1
    · rw [if_pos hfull]
      rcases hafter t k (Nat.le_refl _) hpos with ⟨t2, hd, hge, hlt2⟩ | hd
      · rw [hd]
        simp only
        rcases hrec t2 k hge (by omega) hlt2 with ⟨t3, b, h3, hle3, hlt3⟩ | h3
        · exact Or.inl ⟨t3, b, h3, by omega, hlt3⟩
        · exact Or.inr h3
      · rw [hd]; exact Or.inr rfl
    · rw [if_neg hfull]
      by_cases hd1 : t.table1.slots.getD (h1 k % t.size) 0 = k ∧
          t.table1.inuse.getD (h1 k % t.size) false = true
      · rw [if_pos hd1]; exact Or.inl ⟨t, false, rfl, Nat.le_refl _, hlt⟩
      · rw [if_neg hd1]
        by_cases hd2 : t.table2.slots.getD (h2 k % t.size) 0 = k ∧
            t.table2.inuse.getD (h2 k % t.size) false = true
        · rw [if_pos hd2]; exact Or.inl ⟨t, false, rfl, Nat.le_refl _, hlt⟩
        · rw [if_neg hd2]
          obtain ⟨s, hs, hsz, _⟩ := cu_kick_loop_total h1 h2 (2 * t.size + 1)
            { table := t, key := k, H := h1 k % t.size, insert_table := 1,
              time_kicked_keys := 0 } (by simp only; omega) (by simp only; omega)
          rw [hs]
          simp only at hsz ⊢
          by_cases hcyc : s.time_kicked_keys = 2 * s.table.size
          · rw [if_pos hcyc]
            rcases hafter s.table s.key (by omega) (by omega) with ⟨t2, hd, hge, hlt2⟩ | hd
            · rw [hd]
              simp only
              rcases hrec t2 s.key (by omega) (by omega) hlt2 with ⟨t3, b, h3, hle3, hlt3⟩ | h3
              · exact Or.inl ⟨t3, b, h3, by omega, hlt3⟩
              · exact Or.inr h3
            · rw [hd]; exact Or.inr rfl
          · rw [if_neg hcyc]
            refine Or.inl ⟨_, true, rfl, ?_, ?_⟩
            · split <;> (try split) <;> simp only [cu_setInner_size] <;> omega
            · split <;> (try split) <;> simp only [cu_setInner_size] <;> omega

/-- On a table of size in `[1, MAX_TABLE_SIZE)` a call of
`cuckoo_hash_table_insert` returns or fails an assertion: the budget
`INSERT_DEPTH` of nested calls is never exhausted. -/
theorem cu_insert_total (h1 h2 : Key → Nat) (junk : Nat → Key) (t : CuckooHashTable)
    (k : Key) (hpos : 0 < t.size) (hlt : t.size < MAX_TABLE_SIZE) :
    (∃ t' b, cuckoo_hash_table_insert h1 h2 junk t k = .ok (t', b) ∧ t.size ≤ t'.size ∧
      t'.size < MAX_TABLE_SIZE) ∨
    cuckoo_hash_table_insert h1 h2 junk t k = .error .assertion := by
  unfold cuckoo_hash_table_insert
  exact cu_insert_fuel_total h1 h2 junk INSERT_DEPTH 1 (by decide) t k hpos hpos hlt

theorem cu_reachable_bounded {h1 h2 : Key → Nat} {junk : Nat → Key} {t : CuckooHashTable}
    (hr : Reachable h1 h2 junk t) : 0 < t.size ∧ t.size < MAX_TABLE_SIZE := by
  induction hr with
  | init size t hs h =>
    unfold new_cuckoo_hash_table initialise_cuckoo_table at h
    by_cases hc : size < MAX_TABLE_SIZE
    · rw [if_pos hc] at h
      cases h
      exact ⟨hs, hc⟩
    · rw [if_neg hc] at h
      cases h
  | step t t' k b _ h ih =>
    rcases cu_insert_total h1 h2 junk t k ih.1 ih.2 with ⟨t2, b2, h2', hle, hlt⟩ | h2'
    · rw [h2'] at h
      cases h
      exact ⟨by omega, hlt⟩
    · rw [h2'] at h
      cases h

/-- On a reachable table `cuckoo_hash_table_insert` returns a result or fails
the size assertion of `initialise_cuckoo_table`. -/
theorem cu_insert_returns (h1 h2 : Key → Nat) (junk : Nat → Key) (t : CuckooHashTable)
    (k : Key) (hr : Reachable h1 h2 junk t) :
    (∃ t' b, cuckoo_hash_table_insert h1 h2 junk t k = .ok (t', b)) ∨
    cuckoo_hash_table_insert h1 h2 junk t k = .error .assertion := by
  have hb := cu_reachable_bounded hr
  rcases cu_insert_total h1 h2 junk t k hb.1 hb.2 with ⟨t', b, h, _⟩ | h
  · exact Or.inl ⟨t', b, h⟩
  · exact Or.inr h

end Cuckoo

namespace Cuckoo

theorem cu_insert_all_spec {h1 h2 : Key → Nat} {junk : Nat → Key} :
    ∀ (ks : List Key) (t0 t : CuckooHashTable) (rs : List Bool), Inv h1 h2 t0 →
      insert_all h1 h2 junk t0 ks = .ok (t, rs) →
      Inv h1 h2 t ∧ rs.length = ks.length ∧ (∀ x, holds t x ↔ holds t0 x ∨ x ∈ ks) ∧
      ∀ i, i < ks.length →
        (rs.getD i false = true ↔ ¬ holds t0 (ks.getD i 0) ∧ ks.getD i 0 ∉ ks.take i) := by
  intro ks
  induction ks with
  | nil =>
    intro t0 t rs hI hr
    simp only [insert_all, Except.ok.injEq, Prod.mk.injEq] at hr
    obtain ⟨rfl, rfl⟩ := hr
    exact ⟨hI, rfl, by simp, by intro i hi; simp at hi⟩
  | cons k ks ih =>
    intro t0 t rs hI hr
    unfold insert_all at hr
    cases h1r : cuckoo_hash_table_insert h1 h2 junk t0 k with
    | error e => rw [h1r] at hr; simp at hr
    | ok r1 =>
      obtain ⟨t1, b⟩ := r1
      rw [h1r] at hr
      simp only at hr
      cases h2r : insert_all h1 h2 junk t1 ks with
      | error e => rw [h2r] at hr; simp at hr
      | ok r2 =>
        obtain ⟨t2, bs⟩ := r2
        rw [h2r] at hr
        simp only [Except.ok.injEq, Prod.mk.injEq] at hr
        obtain ⟨rfl, rfl⟩ := hr
        obtain ⟨hI1, hh1, hb1⟩ := cu_insert_fuel_spec _ _ _ _ _ hI h1r
        obtain ⟨hI2, hlen, hh2, hres⟩ := ih t1 t2 bs hI1 h2r
        refine ⟨hI2, by simp [hlen], ?_, ?_⟩
        · intro x
          rw [hh2, hh1, List.mem_cons]
          tauto
        · intro i hi
          cases i with
          | zero => simpa using hb1
          | succ i =>
            have hi' : i < ks.length := by simpa using hi
            have := hres i hi'
            simp only [List.getD_cons_succ, List.take_succ_cons, List.mem_cons, not_or]
            rw [this, hh1]
            tauto

theorem cu_reachableBy_spec {h1 h2 : Key → Nat} {junk : Nat → Key} {ks : List Key}
    {t : CuckooHashTable} (hr : ReachableBy h1 h2 junk ks t) :
    Inv h1 h2 t ∧ ∀ x, holds t x ↔ x ∈ ks := by
  induction hr with
  | init size t hs h =>
    obtain ⟨hI, hh, _⟩ := cu_initialise_spec h1 h2 (by omega) h
    exact ⟨hI, by intro x; simp [hh x]⟩
  | step ks t t' k b _ h ih =>
    obtain ⟨hI', hh', _⟩ := cu_insert_fuel_spec _ _ _ _ _ ih.1 h
    refine ⟨hI', ?_⟩
    intro x
    rw [hh' x, ih.2 x, List.mem_cons]
    tauto

/-- A sequence of inserts into a reachable table returns its results or fails
the size assertion: the budgets of the loops are never exhausted. -/
theorem cu_insert_all_returns (h1 h2 : Key → Nat) (junk : Nat → Key) :
    ∀ (ks : List Key) (t : CuckooHashTable), Reachable h1 h2 junk t →
      (∃ t' rs, insert_all h1 h2 junk t ks = .ok (t', rs)) ∨
      insert_all h1 h2 junk t ks = .error .assertion := by
  intro ks
  induction ks with
  | nil => intro t _; exact Or.inl ⟨t, [], rfl⟩
  | cons k ks ih =>
    intro t hr
    simp only [insert_all]
    rcases cu_insert_returns h1 h2 junk t k hr with ⟨t1, b, h⟩ | h
    · rw [h]
      simp only
      rcases ih t1 (Reachable.step t t1 k b hr h) with ⟨t2, rs, h2⟩ | h2
      · rw [h2]; exact Or.inl ⟨_, _, rfl⟩
      · rw [h2]; exact Or.inr rfl
    · rw [h]; exact Or.inr rfl

end Cuckoo

/-- C3. CuckooTable insert result: for all hash functions, every initial size
`≥ 1` and every list of keys inserted one after the other into the table made
by `new_cuckoo_hash_table size`, the sequence of calls returns its results or
trips the size assertion (no loop or recursion runs out of its budget), and
when all calls complete, call number `i` returns true exactly when its key
does not occur earlier in the list. -/
theorem cuckoo_insert_result (h1 h2 : Key → Nat) (junk : Nat → Key) (size : Nat)
    (ks : List Key) (t0 : Cuckoo.CuckooHashTable) (hs : 1 ≤ size)
    (h0 : Cuckoo.new_cuckoo_hash_table junk size = .ok t0) :
    ((∃ t rs, Cuckoo.insert_all h1 h2 junk t0 ks = .ok (t, rs)) ∨
      Cuckoo.insert_all h1 h2 junk t0 ks = .error .assertion) ∧
    ∀ t rs, Cuckoo.insert_all h1 h2 junk t0 ks = .ok (t, rs) →
      rs.length = ks.length ∧
      ∀ i, i < ks.length → (rs.getD i false = true ↔ ks.getD i 0 ∉ ks.take i) := by
  refine ⟨Cuckoo.cu_insert_all_returns h1 h2 junk ks t0
    (Cuckoo.Reachable.init size t0 hs h0), ?_⟩
  intro t rs hr
  obtain ⟨hI0, hh0, _⟩ := Cuckoo.cu_initialise_spec h1 h2 (by omega) h0
  obtain ⟨_, hlen, _, hres⟩ := Cuckoo.cu_insert_all_spec ks t0 t rs hI0 hr
  refine ⟨hlen, ?_⟩
  intro i hi
  rw [hres i hi]
  simp [hh0]

/-- C4. CuckooTable no loss: on every reachable table,
`cuckoo_hash_table_insert` of `k` returns or trips the size assertion (no
loop or recursion runs out of its budget), and a completed call leaves `k`
lookup-true and keeps every key that was lookup-true before the call
lookup-true, whatever kicks and (nested) doublings the call performed. -/
theorem cuckoo_no_loss (h1 h2 : Key → Nat) (junk : Nat → Key) (t : Cuckoo.CuckooHashTable)
    (k : Key) (hr : Cuckoo.Reachable h1 h2 junk t) :
    ((∃ t' b, Cuckoo.cuckoo_hash_table_insert h1 h2 junk t k = .ok (t', b)) ∨
      Cuckoo.cuckoo_hash_table_insert h1 h2 junk t k = .error .assertion) ∧
    ∀ t' b, Cuckoo.cuckoo_hash_table_insert h1 h2 junk t k = .ok (t', b) →
      Cuckoo.cuckoo_hash_table_lookup h1 h2 t' k = true ∧
      ∀ x, Cuckoo.cuckoo_hash_table_lookup h1 h2 t x = true →
        Cuckoo.cuckoo_hash_table_lookup h1 h2 t' x = true := by
  refine ⟨Cuckoo.cu_insert_returns h1 h2 junk t k hr, ?_⟩
  intro t' b hi
  have hI := Cuckoo.cu_reachable_inv hr
  obtain ⟨hI', hh, _⟩ := Cuckoo.cu_insert_fuel_spec _ _ _ _ _ hI hi
  refine ⟨(Cuckoo.cu_lookup_iff_holds hI' k).mpr ((hh k).mpr (Or.inr rfl)), ?_⟩
  intro x hx
  exact (Cuckoo.cu_lookup_iff_holds hI' x).mpr
    ((hh x).mpr (Or.inl ((Cuckoo.cu_lookup_iff_holds hI x).mp hx)))

/-- C8. CuckooTable single residency: in a table reached by inserting the keys
`ks`, every key of `ks` is held by exactly one of its two target slots,
`table1[h1(key) mod size]` or `table2[h2(key) mod size]` (one of them, not
both), and no other in-use slot of either array holds it. -/
theorem cuckoo_single_residency (h1 h2 : Key → Nat) (junk : Nat → Key) (ks : List Key)
    (t : Cuckoo.CuckooHashTable) (k : Key) (hr : Cuckoo.ReachableBy h1 h2 junk ks t)
    (hk : k ∈ ks) :
    ((t.table1.inuse.getD (h1 k % t.size) false = true ∧
        t.table1.slots.getD (h1 k % t.size) 0 = k) ∨
      (t.table2.inuse.getD (h2 k % t.size) false = true ∧
        t.table2.slots.getD (h2 k % t.size) 0 = k)) ∧
    ¬ ((t.table1.inuse.getD (h1 k % t.size) false = true ∧
        t.table1.slots.getD (h1 k % t.size) 0 = k) ∧
      (t.table2.inuse.getD (h2 k % t.size) false = true ∧
        t.table2.slots.getD (h2 k % t.size) 0 = k)) ∧
    (∀ i, i < t.size → t.table1.inuse.getD i false = true → t.table1.slots.getD i 0 = k →
      i = h1 k % t.size) ∧
    (∀ j, j < t.size → t.table2.inuse.getD j false = true → t.table2.slots.getD j 0 = k →
      j = h2 k % t.size) := by
  obtain ⟨hI, hh⟩ := Cuckoo.cu_reachableBy_spec hr
  have hpos := hI.size_pos
  have hmod1 : h1 k % t.size < t.size := Nat.mod_lt _ hpos
  have hmod2 : h2 k % t.size < t.size := Nat.mod_lt _ hpos
  refine ⟨?_, ?_, ?_, ?_⟩
  · rcases (hh k).mpr hk with h | h
    · have := (Cuckoo.cu_storedIn_iff_target hI 1 k).mp h
      exact Or.inl ⟨this.2, this.1⟩
    · have := (Cuckoo.cu_storedIn_iff_target hI 2 k).mp h
      exact Or.inr ⟨this.2, this.1⟩
  · rintro ⟨⟨hu1, hs1⟩, ⟨hu2, hs2⟩⟩
    exact hI.disj k ⟨⟨_, hmod1, hu1, hs1⟩, ⟨_, hmod2, hu2, hs2⟩⟩
  · intro i hi hiu hik
    have := hI.addr 1 i hi hiu
    rw [Cuckoo.cu_inner_one, hik] at this
    exact this.symm
  · intro j hj hju hjk
    have := hI.addr 2 j hj hju
    rw [Cuckoo.cu_inner_two, hjk] at this
    exact this.symm

/-! ## Low bits -/

theorem aux_rightmostnbits (n x : Nat) : Xuckoo.rightmostnbits n x = x % 2 ^ n := by
  unfold Xuckoo.rightmostnbits
  rw [Nat.one_shiftLeft, Nat.and_pow_two_sub_one_eq_mod]

theorem aux_one_shl_or (d x : Nat) (hx : x < 2 ^ d) : (1 <<< d) ||| x = 2 ^ d + x := by
  rw [Nat.one_shiftLeft]
  have := Nat.mul_add_lt_is_or hx 1
  rw [Nat.mul_one] at this
  exact this.symm

theorem aux_shl_or (p n s : Nat) (hs : s < 2 ^ n) : (p <<< n) ||| s = 2 ^ n * p + s := by
  rw [Nat.shiftLeft_eq, Nat.mul_comm]
  exact (Nat.mul_add_lt_is_or hs p).symm

theorem aux_mod_mod_pow (x d D : Nat) (h : d ≤ D) : x % 2 ^ D % 2 ^ d = x % 2 ^ d :=
  Nat.mod_mod_of_dvd x (pow_dvd_pow 2 h)

theorem aux_mod_succ_cases (x d : Nat) :
    x % 2 ^ (d + 1) = x % 2 ^ d ∨ x % 2 ^ (d + 1) = 2 ^ d + x % 2 ^ d := by
  rw [Nat.mod_pow_succ]
  rcases Nat.mod_two_eq_zero_or_one (x / 2 ^ d) with h | h
  · left; rw [h]; simp
  · right; rw [h]; omega

theorem aux_mod_succ_low (x d : Nat) : x % 2 ^ (d + 1) % 2 ^ d = x % 2 ^ d :=
  aux_mod_mod_pow x d (d + 1) (by omega)

/-- The addresses written by the redirection loop are the addresses below
`2^D` whose low `n` bits are `s`. -/
theorem aux_prefix_iff (j n s D : Nat) (hs : s < 2 ^ n) (hn : n ≤ D) :
    (∃ p, p < 2 ^ (D - n) ∧ 2 ^ n * p + s = j) ↔ (j < 2 ^ D ∧ j % 2 ^ n = s) := by
  have hD : 2 ^ D = 2 ^ n * 2 ^ (D - n) := by
    rw [← pow_add]; congr 1; omega
  constructor
  · rintro ⟨p, hp, rfl⟩
    constructor
    · rw [hD]
      calc 2 ^ n * p + s < 2 ^ n * p + 2 ^ n := by omega
        _ = 2 ^ n * (p + 1) := by ring
        _ ≤ 2 ^ n * 2 ^ (D - n) := Nat.mul_le_mul_left _ hp
    · rw [Nat.mul_add_mod, Nat.mod_eq_of_lt hs]
  · rintro ⟨hj, hm⟩
    refine ⟨j / 2 ^ n, ?_, ?_⟩
    · rw [Nat.div_lt_iff_lt_mul (by positivity), Nat.mul_comm, ← hD]
      exact hj
    · rw [← hm]; exact Nat.div_add_mod j (2 ^ n)

namespace Xuckoo

/-- Reading a bucket of a table whose memory is that of `T` with one cell rewritten. -/
theorem bucket_of_set {T T' : InnerTable} (p : Nat) (b : Bucket)
    (hb : T'.buckets = T.buckets) (hm : T'.mem = T.mem.set p b) (i : Nat) :
    T'.bucket i = if p = T.buckets.getD i 0 ∧ p < T.mem.length then b else T.bucket i := by
  unfold InnerTable.bucket InnerTable.deref
  rw [hb, hm, aux_getD_set]

theorem same_ptr_bucket (T : InnerTable) (i j : Nat)
    (h : T.buckets.getD i 0 = T.buckets.getD j 0) : T.bucket i = T.bucket j := by
  unfold InnerTable.bucket; rw [h]

/-- A directory keeps its shape when only the key and full fields of its buckets change. -/
theorem dir_of_same {T T' : InnerTable} (hD : Dir T) (hb : T'.buckets = T.buckets)
    (hs : T'.size = T.size) (hd : T'.depth = T.depth) (hl : T'.mem.length = T.mem.length)
    (hsame : ∀ i, i < T.size →
      (T'.bucket i).depth = (T.bucket i).depth ∧ (T'.bucket i).id = (T.bucket i).id) :
    Dir T' := by
  refine ⟨by rw [hb, hs]; exact hD.len, by rw [hs, hd]; exact hD.size_eq, ?_, ?_, ?_, ?_⟩
  · intro i hi; rw [hs] at hi; rw [hb, hl]; exact hD.ptr_lt i hi
  · intro i hi; rw [hs] at hi; rw [(hsame i hi).1, hd]; exact hD.depth_le i hi
  · intro i hi; rw [hs] at hi; rw [(hsame i hi).1, (hsame i hi).2]; exact hD.id_eq i hi
  · intro i j hi hj hij
    rw [hs] at hi hj
    rw [(hsame i hi).1] at hij
    rw [hb]; exact hD.aliased i j hi hj hij

theorem target_lt {T : InnerTable} (hD : Dir T) (x : Nat) : x % 2 ^ T.depth < T.size := by
  rw [hD.size_eq]; exact Nat.mod_lt _ (by positivity)

/-- Under the invariants the pointer at the hash address of a stored key is
the pointer of the bucket that stores it. -/
theorem target_ptr {h : Key → Nat} {T : InnerTable} (hD : Dir T) (hK : KeysAt h T)
    (i : Nat) (hi : i < T.size) (hf : (T.bucket i).full = true) :
    T.buckets.getD (h (T.bucket i).key % 2 ^ T.depth) 0 = T.buckets.getD i 0 := by
  apply hD.aliased i _ hi (target_lt hD _)
  rw [aux_mod_mod_pow _ _ _ (hD.depth_le i hi), hK i hi hf, hD.id_eq i hi]

theorem stored_iff_target {h : Key → Nat} {T : InnerTable} (hD : Dir T) (hK : KeysAt h T)
    (k : Key) :
    stored T k ↔ ((T.bucket (h k % 2 ^ T.depth)).full = true ∧
      (T.bucket (h k % 2 ^ T.depth)).key = k) := by
  constructor
  · rintro ⟨i, hi, hf, hk⟩
    have := target_ptr hD hK i hi hf
    rw [hk] at this
    rw [same_ptr_bucket T _ _ this]
    exact ⟨hf, hk⟩
  · rintro ⟨hf, hk⟩
    exact ⟨_, target_lt hD _, hf, hk⟩

/-- Writing key `k` into the bucket at its hash address `a` and marking it full. -/
theorem dir_write {h : Key → Nat} {T : InnerTable} (hD : Dir T) (hK : KeysAt h T)
    (T' : InnerTable) (k : Key) (a : Nat) (ha : a = h k % 2 ^ T.depth)
    (hb : T'.buckets = T.buckets) (hs : T'.size = T.size) (hd : T'.depth = T.depth)
    (hm : T'.mem = T.mem.set (T.buckets.getD a 0) { T.bucket a with key := k, full := true }) :
    Dir T' ∧ KeysAt h T' ∧
    (∀ x, stored T' x ↔
      (stored T x ∧ ¬ ((T.bucket a).full = true ∧ x = (T.bucket a).key)) ∨ x = k) ∧
    (T'.bucket a).full = true := by
  have halt : a < T.size := by rw [ha]; exact target_lt hD _
  have hbk : ∀ i, i < T.size → T'.bucket i =
      if T.buckets.getD i 0 = T.buckets.getD a 0
      then { T.bucket a with key := k, full := true } else T.bucket i := by
    intro i hi
    rw [bucket_of_set _ _ hb hm i]
    by_cases hc : T.buckets.getD a 0 = T.buckets.getD i 0
    · rw [if_pos ⟨hc, hD.ptr_lt a halt⟩, if_pos hc.symm]
    · rw [if_neg (fun h => hc h.1), if_neg (fun h => hc h.symm)]
  have hsame : ∀ i, i < T.size →
      (T'.bucket i).depth = (T.bucket i).depth ∧ (T'.bucket i).id = (T.bucket i).id := by
    intro i hi
    rw [hbk i hi]
    by_cases hc : T.buckets.getD i 0 = T.buckets.getD a 0
    · rw [if_pos hc, same_ptr_bucket T i a hc]; exact ⟨rfl, rfl⟩
    · rw [if_neg hc]; exact ⟨rfl, rfl⟩
  have hDir : Dir T' := dir_of_same hD hb hs hd (by rw [hm, List.length_set]) hsame
  have hida : (T.bucket a).id = h k % 2 ^ (T.bucket a).depth := by
    rw [hD.id_eq a halt, ha, aux_mod_mod_pow _ _ _ (hD.depth_le _ (target_lt hD _))]
  refine ⟨hDir, ?_, ?_, ?_⟩
  · intro i hi hf
    rw [hs] at hi
    rw [hbk i hi] at hf ⊢
    by_cases hc : T.buckets.getD i 0 = T.buckets.getD a 0
    · rw [if_pos hc]; exact hida.symm
    · rw [if_neg hc] at hf ⊢; exact hK i hi hf
  · intro x
    constructor
    · rintro ⟨i, hi, hf, hx⟩
      rw [hs] at hi
      rw [hbk i hi] at hf hx
      by_cases hc : T.buckets.getD i 0 = T.buckets.getD a 0
      · rw [if_pos hc] at hx; right; exact hx.symm
      · rw [if_neg hc] at hf hx
        left
        refine ⟨⟨i, hi, hf, hx⟩, ?_⟩
        rintro ⟨haf, hxa⟩
        have p1 := target_ptr hD hK i hi hf
        have p2 := target_ptr hD hK a halt haf
        rw [hx, hxa, p2] at p1
        exact hc p1.symm
    · rintro (⟨⟨i, hi, hf, hx⟩, hne⟩ | rfl)
      · have hc : T.buckets.getD i 0 ≠ T.buckets.getD a 0 := by
          intro hc
          have := same_ptr_bucket T i a hc
          exact hne ⟨by rw [← this]; exact hf, by rw [← this]; exact hx.symm⟩
        refine ⟨i, by rw [hs]; exact hi, ?_, ?_⟩
        · rw [hbk i hi, if_neg hc]; exact hf
        · rw [hbk i hi, if_neg hc]; exact hx
      · refine ⟨a, by rw [hs]; exact halt, ?_, ?_⟩
        · rw [hbk a halt, if_pos rfl]
        · rw [hbk a halt, if_pos rfl]
  · rw [hbk a halt, if_pos rfl]

end Xuckoo

namespace Xuckoo

theorem aux_getD_double (l : List Nat) (n j : Nat) (hl : l.length = n) (hj : j < n * 2) :
    (l.take n ++ (List.range n).map (fun i => l.getD i 0)).getD j 0 = l.getD (j % n) 0 := by
  have htake : l.take n = l := List.take_of_length_le (by omega)
  rw [htake]
  simp only [List.getD_eq_getElem?_getD]
  by_cases hlt : j < n
  · rw [List.getElem?_append_left (by omega), Nat.mod_eq_of_lt hlt]
  · have hge : n ≤ j := by omega
    rw [List.getElem?_append_right (by omega), hl]
    have hmod : j % n = j - n := by
      rw [Nat.mod_eq_sub_mod hge, Nat.mod_eq_of_lt (by omega)]
    rw [hmod]
    simp only [List.getElem?_map]
    rw [List.getElem?_range (by omega)]
    simp [List.getD_eq_getElem?_getD]

theorem xu_double_table_spec {T T' : InnerTable} (hD : Dir T) (hr : double_table T = .ok T') :
    T'.size = T.size * 2 ∧ T'.depth = T.depth + 1 ∧ T'.mem = T.mem ∧ T'.nkeys = T.nkeys ∧
    T'.buckets.length = T.size * 2 ∧
    (∀ j, j < T.size * 2 → T'.buckets.getD j 0 = T.buckets.getD (j % T.size) 0) := by
  unfold double_table at hr
  simp only at hr
  by_cases hc : T.size * 2 < MAX_TABLE_SIZE
  · rw [if_pos hc] at hr
    simp only [Except.ok.injEq] at hr
    subst hr
    refine ⟨rfl, rfl, rfl, rfl, ?_, ?_⟩
    · simp only [List.length_append, List.length_take, List.length_map, List.length_range]
      have := hD.len; omega
    · intro j hj
      exact aux_getD_double T.buckets T.size j hD.len hj
  · rw [if_neg hc] at hr; simp at hr

theorem dir_double {T T' : InnerTable} (hD : Dir T) (hr : double_table T = .ok T') :
    Dir T' ∧ (∀ h, KeysAt h T → KeysAt h T') ∧ (∀ x, stored T' x ↔ stored T x) ∧
    (∀ a, a < T.size → T'.buckets.getD a 0 = T.buckets.getD a 0) ∧
    (∀ a, a < T.size → T'.bucket a = T.bucket a) := by
  obtain ⟨hs, hd, hm, _, hl, hb⟩ := xu_double_table_spec hD hr
  have hpos : 0 < T.size := by rw [hD.size_eq]; positivity
  have hmodlt : ∀ j, j % T.size < T.size := fun j => Nat.mod_lt _ hpos
  have hbk : ∀ j, j < T.size * 2 → T'.bucket j = T.bucket (j % T.size) := by
    intro j hj
    unfold InnerTable.bucket InnerTable.deref
    rw [hb j hj, hm]
  have hmm : ∀ j d, d ≤ T.depth → j % T.size % 2 ^ d = j % 2 ^ d := by
    intro j d hd'
    rw [hD.size_eq]; exact aux_mod_mod_pow j d T.depth hd'
  refine ⟨⟨hl.trans hs.symm, ?_, ?_, ?_, ?_, ?_⟩, ?_, ?_, ?_, ?_⟩
  · rw [hs, hd, hD.size_eq, pow_succ]
  · intro i hi; rw [hs] at hi
    rw [hb i hi, hm]; exact hD.ptr_lt _ (hmodlt i)
  · intro i hi; rw [hs] at hi
    rw [hbk i hi, hd]
    have := hD.depth_le _ (hmodlt i); omega
  · intro i hi; rw [hs] at hi
    rw [hbk i hi, hD.id_eq _ (hmodlt i), hmm i _ (hD.depth_le _ (hmodlt i))]
  · intro i j hi hj hij
    rw [hs] at hi hj
    rw [hbk i hi] at hij
    rw [hb i hi, hb j hj]
    apply hD.aliased _ _ (hmodlt i) (hmodlt j)
    rw [hmm j _ (hD.depth_le _ (hmodlt i)), hmm i _ (hD.depth_le _ (hmodlt i))]
    exact hij
  · intro h hK i hi hf
    rw [hs] at hi
    rw [hbk i hi] at hf ⊢
    exact hK _ (hmodlt i) hf
  · intro x
    constructor
    · rintro ⟨i, hi, hf, hx⟩
      rw [hs] at hi
      rw [hbk i hi] at hf hx
      exact ⟨_, hmodlt i, hf, hx⟩
    · rintro ⟨i, hi, hf, hx⟩
      have hi2 : i < T.size * 2 := by omega
      refine ⟨i, by rw [hs]; exact hi2, ?_, ?_⟩
      · rw [hbk i hi2, Nat.mod_eq_of_lt hi]; exact hf
      · rw [hbk i hi2, Nat.mod_eq_of_lt hi]; exact hx
  · intro a ha
    rw [hb a (by omega), Nat.mod_eq_of_lt ha]
  · intro a ha
    rw [hbk a (by omega), Nat.mod_eq_of_lt ha]

end Xuckoo

namespace Xuckoo

/-- Rewriting one bucket without touching its id and depth leaves the ids and depths seen
through the directory as they were. -/
theorem store_same {T : InnerTable} (hD : Dir T) (T' : InnerTable) (a : Nat)
    (ha : a < T.size) (b : Bucket) (hid : b.id = (T.bucket a).id)
    (hdp : b.depth = (T.bucket a).depth)
    (hb : T'.buckets = T.buckets)
    (hm : T'.mem = T.mem.set (T.buckets.getD a 0) b) (i : Nat) :
    (T'.bucket i).depth = (T.bucket i).depth ∧ (T'.bucket i).id = (T.bucket i).id := by
  rw [bucket_of_set _ _ hb hm i]
  by_cases hc : T.buckets.getD a 0 = T.buckets.getD i 0
  · rw [if_pos ⟨hc, hD.ptr_lt a ha⟩, same_ptr_bucket T i a hc.symm]; exact ⟨hdp, hid⟩
  · rw [if_neg (fun h => hc h.1)]; exact ⟨rfl, rfl⟩

/-- Rewriting one bucket without touching its id and depth keeps the directory well formed. -/
theorem dir_store_dir {T : InnerTable} (hD : Dir T) (T' : InnerTable) (a : Nat)
    (ha : a < T.size) (b : Bucket) (hid : b.id = (T.bucket a).id)
    (hdp : b.depth = (T.bucket a).depth)
    (hb : T'.buckets = T.buckets) (hs : T'.size = T.size) (hd : T'.depth = T.depth)
    (hm : T'.mem = T.mem.set (T.buckets.getD a 0) b) : Dir T' :=
  dir_of_same hD hb hs hd (by rw [hm, List.length_set])
    (fun i _ => store_same hD T' a ha b hid hdp hb hm i)

theorem redirect_loop_length (nd suffix q : Nat) :
    ∀ (ps : List Nat) (buckets : List Nat),
      (redirect_loop nd suffix q ps buckets).length = buckets.length := by
  intro ps
  induction ps with
  | nil => intro buckets; rfl
  | cons p ps ih => intro buckets; rw [redirect_loop, ih, List.length_set]

theorem redirect_loop_getD (nd suffix q : Nat) :
    ∀ (ps : List Nat) (buckets : List Nat) (j : Nat),
      (redirect_loop nd suffix q ps buckets).getD j 0 =
        if (∃ p, p ∈ ps ∧ (p <<< nd) ||| suffix = j) ∧ j < buckets.length then q
        else buckets.getD j 0 := by
  intro ps
  induction ps with
  | nil => intro buckets j; simp [redirect_loop]
  | cons p ps ih =>
    intro buckets j
    rw [redirect_loop, ih, List.length_set, aux_getD_set]
    by_cases h1 : (∃ p', p' ∈ ps ∧ (p' <<< nd) ||| suffix = j) ∧ j < buckets.length
    · rw [if_pos h1, if_pos]
      obtain ⟨⟨p', hp', hj⟩, hlt⟩ := h1
      exact ⟨⟨p', List.mem_cons_of_mem _ hp', hj⟩, hlt⟩
    · rw [if_neg h1]
      by_cases h2 : (p <<< nd) ||| suffix = j ∧ (p <<< nd) ||| suffix < buckets.length
      · rw [if_pos h2, if_pos]
        exact ⟨⟨p, List.mem_cons_self _ _, h2.1⟩, by rw [← h2.1]; exact h2.2⟩
      · rw [if_neg h2, if_neg]
        rintro ⟨⟨p', hp', hj⟩, hlt⟩
        rcases List.mem_cons.mp hp' with rfl | hp'
        · exact h2 ⟨hj, by rw [hj]; exact hlt⟩
        · exact h1 ⟨⟨p', hp', hj⟩, hlt⟩


theorem split_cleared_spec (junk : Nat → Key) {T : InnerTable} (hD : Dir T) (a : Nat)
    (ha : a < T.size) (hlt : (T.bucket a).depth < T.depth) :
    ((split_pointers junk T a).1.deref (split_pointers junk T a).2).key = (T.bucket a).key ∧
    (split_cleared junk T a).size = T.size ∧
    (split_cleared junk T a).depth = T.depth ∧
    (split_cleared junk T a).nkeys = T.nkeys ∧
    (split_cleared junk T a).buckets.length = T.size ∧
    (split_cleared junk T a).mem.length = T.mem.length + 1 ∧
    (∀ j, j < T.size → (split_cleared junk T a).buckets.getD j 0 =
      if j % 2 ^ ((T.bucket a).depth + 1) = 2 ^ (T.bucket a).depth + (T.bucket a).id
      then T.mem.length else T.buckets.getD j 0) ∧
    (split_cleared junk T a).deref (T.buckets.getD a 0) =
      { id := (T.bucket a).id, depth := (T.bucket a).depth + 1, full := false,
        key := (T.bucket a).key } ∧
    (split_cleared junk T a).deref T.mem.length =
      { id := 2 ^ (T.bucket a).depth + (T.bucket a).id, depth := (T.bucket a).depth + 1,
        full := false, key := junk T.mem.length } ∧
    (∀ r, r ≠ T.buckets.getD a 0 → r < T.mem.length →
      (split_cleared junk T a).deref r = T.deref r) := by
  have hp : T.buckets.getD a 0 < T.mem.length := hD.ptr_lt a ha
  have hid : (T.bucket a).id < 2 ^ (T.bucket a).depth := by
    rw [hD.id_eq a ha]; exact Nat.mod_lt _ (by positivity)
  have hsuf : (1 <<< (T.bucket a).depth) ||| rightmostnbits (T.bucket a).depth (T.bucket a).id
      = 2 ^ (T.bucket a).depth + (T.bucket a).id := by
    rw [aux_rightmostnbits, Nat.mod_eq_of_lt hid, aux_one_shl_or _ _ hid]
  have hnid : (1 <<< (T.bucket a).depth) ||| (T.bucket a).id
      = 2 ^ (T.bucket a).depth + (T.bucket a).id := aux_one_shl_or _ _ hid
  have hsuflt : 2 ^ (T.bucket a).depth + (T.bucket a).id < 2 ^ ((T.bucket a).depth + 1) := by
    rw [pow_succ]; omega
  have hbd : T.deref (T.buckets.getD a 0) = T.bucket a := rfl
  refine ⟨?_, rfl, rfl, rfl, ?_, ?_, ?_, ?_, ?_, ?_⟩
  · simp only [split_pointers, new_bucket, InnerTable.store, InnerTable.deref]
    rw [List.getD_append _ _ _ _ (by rw [List.length_set]; exact hp), aux_getD_set,
      if_pos ⟨rfl, hp⟩]
    rfl
  · simp only [split_cleared, split_pointers, new_bucket, InnerTable.store]
    rw [redirect_loop_length]; exact hD.len
  · simp only [split_cleared, split_pointers, new_bucket, InnerTable.store]
    simp only [List.length_set, List.length_append, List.length_singleton]
  · intro j hj
    simp only [split_cleared, split_pointers, new_bucket, InnerTable.store]
    rw [redirect_loop_getD, List.length_set, hbd, hsuf, hD.len]
    have hiff : (∃ p, p ∈ List.range (1 <<< (T.depth - ((T.bucket a).depth + 1))) ∧
        (p <<< ((T.bucket a).depth + 1)) |||
          (2 ^ (T.bucket a).depth + (T.bucket a).id) = j) ↔
        (j < 2 ^ T.depth ∧
          j % 2 ^ ((T.bucket a).depth + 1) = 2 ^ (T.bucket a).depth + (T.bucket a).id) := by
      rw [← aux_prefix_iff j _ _ T.depth hsuflt (by omega)]
      constructor
      · rintro ⟨p, hp, hj⟩
        rw [List.mem_range, Nat.one_shiftLeft] at hp
        rw [aux_shl_or _ _ _ hsuflt] at hj
        exact ⟨p, hp, hj⟩
      · rintro ⟨p, hp, hj⟩
        refine ⟨p, ?_, ?_⟩
        · rw [List.mem_range, Nat.one_shiftLeft]; exact hp
        · rw [aux_shl_or _ _ _ hsuflt]; exact hj
    by_cases hc : j % 2 ^ ((T.bucket a).depth + 1) = 2 ^ (T.bucket a).depth + (T.bucket a).id
    · rw [if_pos hc, if_pos]
      exact ⟨hiff.mpr ⟨by rw [← hD.size_eq]; exact hj, hc⟩, hj⟩
    · rw [if_neg hc, if_neg]
      rintro ⟨hex, _⟩
      exact hc (hiff.mp hex).2
  · simp only [split_cleared, split_pointers, new_bucket, InnerTable.store, InnerTable.deref]
    rw [aux_getD_set, if_pos ⟨rfl, by
      simp only [List.length_append, List.length_set, List.length_singleton]; omega⟩]
    rw [List.getD_append _ _ _ _ (by rw [List.length_set]; exact hp), aux_getD_set,
      if_pos ⟨rfl, hp⟩]
    rfl
  · simp only [split_cleared, split_pointers, new_bucket, InnerTable.store, InnerTable.deref]
    rw [aux_getD_set, if_neg (by intro hc; have := hc.1; omega)]
    rw [List.getD_append_right _ _ _ _ (by rw [List.length_set])]
    simp only [List.length_set, Nat.sub_self, List.getD_cons_zero]
    rw [← hnid]
    rfl
  · intro r hr hrl
    simp only [split_cleared, split_pointers, new_bucket, InnerTable.store, InnerTable.deref]
    rw [aux_getD_set, if_neg (by intro hc; exact hr hc.1.symm)]
    rw [List.getD_append _ _ _ _ (by rw [List.length_set]; exact hrl), aux_getD_set,
      if_neg (by intro hc; exact hr hc.1.symm)]

end Xuckoo

namespace Xuckoo

theorem aux_high_low (j d i : Nat) (hi : i < 2 ^ d) (h : j % 2 ^ (d + 1) = 2 ^ d + i) :
    j % 2 ^ d = i := by
  rw [← aux_mod_succ_low, h, Nat.add_mod_left, Nat.mod_eq_of_lt hi]

/-- In a well-formed directory the entries that point at the bucket of
address `a` are the addresses with the same low `local depth` bits. -/
theorem ptr_eq_iff {T : InnerTable} (hD : Dir T) (a j : Nat) (ha : a < T.size)
    (hj : j < T.size) :
    T.buckets.getD j 0 = T.buckets.getD a 0 ↔ j % 2 ^ (T.bucket a).depth = (T.bucket a).id := by
  constructor
  · intro h
    have hb := same_ptr_bucket T j a h
    have := hD.id_eq j hj
    rw [hb] at this
    exact this.symm
  · intro h
    apply hD.aliased a j ha hj
    rw [h, hD.id_eq a ha]

/-- The buckets seen through the directory after the pointers are split and
the old bucket is emptied. -/
theorem split_cleared_bucket (junk : Nat → Key) {T : InnerTable} (hD : Dir T) (a : Nat)
    (ha : a < T.size) (hlt : (T.bucket a).depth < T.depth) (j : Nat) (hj : j < T.size) :
    (split_cleared junk T a).bucket j =
      if j % 2 ^ ((T.bucket a).depth + 1) = 2 ^ (T.bucket a).depth + (T.bucket a).id then
        { id := 2 ^ (T.bucket a).depth + (T.bucket a).id, depth := (T.bucket a).depth + 1,
          full := false, key := junk T.mem.length }
      else if j % 2 ^ (T.bucket a).depth = (T.bucket a).id then
        { id := (T.bucket a).id, depth := (T.bucket a).depth + 1, full := false,
          key := (T.bucket a).key }
      else T.bucket j := by
  obtain ⟨_, _, _, _, _, _, hbk, hp, hq, hr⟩ := split_cleared_spec junk hD a ha hlt
  show (split_cleared junk T a).deref ((split_cleared junk T a).buckets.getD j 0) = _
  rw [hbk j hj]
  by_cases h1 : j % 2 ^ ((T.bucket a).depth + 1) = 2 ^ (T.bucket a).depth + (T.bucket a).id
  · rw [if_pos h1, if_pos h1, hq]
  · rw [if_neg h1, if_neg h1]
    by_cases h2 : j % 2 ^ (T.bucket a).depth = (T.bucket a).id
    · rw [if_pos h2, (ptr_eq_iff hD a j ha hj).mpr h2, hp]
    · rw [if_neg h2, hr _ (fun h => h2 ((ptr_eq_iff hD a j ha hj).mp h)) (hD.ptr_lt j hj)]
      rfl

theorem split_cleared_dir (junk : Nat → Key) {T : InnerTable} (hD : Dir T) (a : Nat)
    (ha : a < T.size) (hlt : (T.bucket a).depth < T.depth) :
    Dir (split_cleared junk T a) := by
  obtain ⟨_, hs, hd, _, hl, hml, hbk, _, _, _⟩ := split_cleared_spec junk hD a ha hlt
  have hB := split_cleared_bucket junk hD a ha hlt
  have hid : (T.bucket a).id < 2 ^ (T.bucket a).depth := by
    rw [hD.id_eq a ha]; exact Nat.mod_lt _ (by positivity)
  have hA1 := fun j => aux_high_low j (T.bucket a).depth (T.bucket a).id hid
  refine ⟨hl.trans hs.symm, by rw [hs, hd]; exact hD.size_eq, ?_, ?_, ?_, ?_⟩
  · intro j hj; rw [hs] at hj
    rw [hbk j hj, hml]
    split
    · omega
    · have := hD.ptr_lt j hj; omega
  · intro j hj; rw [hs] at hj
    rw [hB j hj, hd]
    split
    · exact hlt
    · split
      · exact hlt
      · exact hD.depth_le j hj
  · intro j hj; rw [hs] at hj
    rw [hB j hj]
    split
    · rename_i h1; exact h1.symm
    · rename_i h1
      split
      · rename_i h2
        simp only
        rcases aux_mod_succ_cases j (T.bucket a).depth with h | h
        · rw [h, h2]
        · rw [h2] at h; exact absurd h h1
      · exact hD.id_eq j hj
  · intro i j hi hj hij
    rw [hs] at hi hj
    rw [hB i hi] at hij
    rw [hbk i hi, hbk j hj]
    by_cases h1 : i % 2 ^ ((T.bucket a).depth + 1) = 2 ^ (T.bucket a).depth + (T.bucket a).id
    · rw [if_pos h1] at hij ⊢
      simp only at hij
      rw [if_pos (hij.trans h1)]
    · rw [if_neg h1] at hij ⊢
      by_cases h2 : i % 2 ^ (T.bucket a).depth = (T.bucket a).id
      · rw [if_pos h2] at hij
        simp only at hij
        rw [if_neg (by rw [hij]; exact h1)]
        have hj2 : j % 2 ^ (T.bucket a).depth = (T.bucket a).id := by
          rw [← aux_mod_succ_low, hij, aux_mod_succ_low]; exact h2
        rw [(ptr_eq_iff hD a j ha hj).mpr hj2, (ptr_eq_iff hD a i ha hi).mpr h2]
      · rw [if_neg h2] at hij
        have hpt := hD.aliased i j hi hj hij
        rw [if_neg, hpt]
        intro hj1
        have hj2 := hA1 j hj1
        have := (ptr_eq_iff hD a j ha hj).mpr hj2
        rw [hpt] at this
        exact h2 ((ptr_eq_iff hD a i ha hi).mp this)

theorem split_cleared_keys (junk : Nat → Key) {h : Key → Nat} {T : InnerTable} (hD : Dir T)
    (hK : KeysAt h T) (a : Nat) (ha : a < T.size) (hlt : (T.bucket a).depth < T.depth) :
    KeysAt h (split_cleared junk T a) ∧
    (∀ x, stored (split_cleared junk T a) x ↔
      (stored T x ∧ ¬ ((T.bucket a).full = true ∧ x = (T.bucket a).key))) ∧
    (∀ j, j < T.size → j % 2 ^ (T.bucket a).depth = (T.bucket a).id →
      ((split_cleared junk T a).bucket j).full = false) := by
  obtain ⟨_, hs, hd, _, hl, hml, hbk, _, _, _⟩ := split_cleared_spec junk hD a ha hlt
  have hB := split_cleared_bucket junk hD a ha hlt
  have hid : (T.bucket a).id < 2 ^ (T.bucket a).depth := by
    rw [hD.id_eq a ha]; exact Nat.mod_lt _ (by positivity)
  have hA1 := fun j => aux_high_low j (T.bucket a).depth (T.bucket a).id hid
  have hcase : ∀ j, j < T.size → ((split_cleared junk T a).bucket j).full = true →
      j % 2 ^ (T.bucket a).depth ≠ (T.bucket a).id ∧
      (split_cleared junk T a).bucket j = T.bucket j := by
    intro j hj hf
    rw [hB j hj] at hf ⊢
    by_cases h1 : j % 2 ^ ((T.bucket a).depth + 1) = 2 ^ (T.bucket a).depth + (T.bucket a).id
    · rw [if_pos h1] at hf; exact Bool.noConfusion hf
    · rw [if_neg h1] at hf ⊢
      by_cases h2 : j % 2 ^ (T.bucket a).depth = (T.bucket a).id
      · rw [if_pos h2] at hf; exact Bool.noConfusion hf
      · rw [if_neg h2]; exact ⟨h2, rfl⟩
  refine ⟨?_, ?_, ?_⟩
  · intro j hj hf
    rw [hs] at hj
    obtain ⟨_, he⟩ := hcase j hj hf
    rw [he] at hf ⊢
    exact hK j hj hf
  · intro x
    constructor
    · rintro ⟨j, hj, hf, hx⟩
      rw [hs] at hj
      obtain ⟨hne, he⟩ := hcase j hj hf
      rw [he] at hf hx
      refine ⟨⟨j, hj, hf, hx⟩, ?_⟩
      rintro ⟨haf, hxa⟩
      have p1 := target_ptr hD hK j hj hf
      have p2 := target_ptr hD hK a ha haf
      rw [hx, hxa, p2] at p1
      exact hne ((ptr_eq_iff hD a j ha hj).mp p1.symm)
    · rintro ⟨⟨j, hj, hf, hx⟩, hne⟩
      have h2 : j % 2 ^ (T.bucket a).depth ≠ (T.bucket a).id := by
        intro h2
        have := same_ptr_bucket T j a ((ptr_eq_iff hD a j ha hj).mpr h2)
        exact hne ⟨by rw [← this]; exact hf, by rw [← this]; exact hx.symm⟩
      have he : (split_cleared junk T a).bucket j = T.bucket j := by
        rw [hB j hj, if_neg (fun h1 => h2 (hA1 j h1)), if_neg h2]
      exact ⟨j, by rw [hs]; exact hj, by rw [he]; exact hf, by rw [he]; exact hx⟩
  · intro j hj h2
    rw [hB j hj]
    by_cases h1 : j % 2 ^ ((T.bucket a).depth + 1) = 2 ^ (T.bucket a).depth + (T.bucket a).id
    · rw [if_pos h1]
    · rw [if_neg h1, if_pos h2]

end Xuckoo

namespace Xuckoo

/-- The table on which `split_bucket` splits pointers: the table itself, or
the doubled table when the bucket is down to its last pointer. -/
theorem split_bucket_eq {h1 h2 : Key → Nat} {junk : Nat → Key} {T T' : InnerTable}
    {a n : Nat} (hD : Dir T) (ha : a < T.size)
    (hr : split_bucket h1 h2 junk T a n = .ok T') :
    ∃ T0, Dir T0 ∧ (∀ h, KeysAt h T → KeysAt h T0) ∧ (∀ x, stored T0 x ↔ stored T x) ∧
      T0.nkeys = T.nkeys ∧ a < T0.size ∧ T0.bucket a = T.bucket a ∧
      (T0.bucket a).depth < T0.depth ∧
      T' = reinsert_key h1 h2 (split_cleared junk T0 a)
        ((split_pointers junk T0 a).1.deref (split_pointers junk T0 a).2).key n ∧
      T.depth ≤ T0.depth ∧ T.size ≤ T0.size ∧ (T.size < MAX_TABLE_SIZE → T0.size < MAX_TABLE_SIZE)
      := by
  unfold split_bucket at hr
  by_cases hc : (T.bucket a).depth = T.depth
  · rw [if_pos hc] at hr
    cases hd : double_table T with
    | error e => rw [hd] at hr; simp at hr
    | ok T0 =>
      rw [hd] at hr
      simp only [Except.ok.injEq] at hr
      obtain ⟨hD0, hK0, hst0, _, hbk0⟩ := dir_double hD hd
      obtain ⟨hs0, hd0, _, hn0, _, _⟩ := xu_double_table_spec hD hd
      have hlt0 : T0.size < MAX_TABLE_SIZE := by
        unfold double_table at hd
        simp only at hd
        by_cases hm : T.size * 2 < MAX_TABLE_SIZE
        · rw [hs0]; exact hm
        · rw [if_neg hm] at hd; simp at hd
      refine ⟨T0, hD0, hK0, hst0, hn0, by omega, hbk0 a ha, ?_, ?_, by omega, by omega,
        fun _ => hlt0⟩
      · rw [hbk0 a ha, hd0, hc]; omega
      · rw [← hr]; rfl
  · rw [if_neg hc] at hr
    simp only [Except.ok.injEq] at hr
    refine ⟨T, hD, fun _ h => h, fun _ => Iff.rfl, rfl, ha, rfl, ?_, ?_, Nat.le_refl _,
      Nat.le_refl _, fun h => h⟩
    · have := hD.depth_le a ha; omega
    · rw [← hr]; rfl

theorem reinsert_key_fields (h1 h2 : Key → Nat) (T : InnerTable) (k : Key) (n : Nat) :
    (reinsert_key h1 h2 T k n).buckets = T.buckets ∧
    (reinsert_key h1 h2 T k n).size = T.size ∧
    (reinsert_key h1 h2 T k n).depth = T.depth ∧
    (reinsert_key h1 h2 T k n).nkeys = T.nkeys ∧
    (reinsert_key h1 h2 T k n).mem =
      T.mem.set (T.buckets.getD (rightmostnbits T.depth ((if n = 2 then h2 else h1) k)) 0)
        { T.bucket (rightmostnbits T.depth ((if n = 2 then h2 else h1) k)) with
          key := k, full := true } := by
  unfold reinsert_key InnerTable.storeAt InnerTable.store
  refine ⟨rfl, rfl, rfl, rfl, ?_⟩
  by_cases hn : n = 2 <;> simp [hn]

/-- `split_bucket` keeps every directory well formed, whatever the bucket holds. -/
theorem split_bucket_dir {h1 h2 : Key → Nat} {junk : Nat → Key} {T T' : InnerTable}
    {a n : Nat} (hD : Dir T) (ha : a < T.size)
    (hr : split_bucket h1 h2 junk T a n = .ok T') :
    Dir T' ∧ T'.nkeys = T.nkeys := by
  obtain ⟨T0, hD0, _, _, hn0, ha0, _, hlt0, rfl, _⟩ := split_bucket_eq hD ha hr
  have hD4 := split_cleared_dir junk hD0 a ha0 hlt0
  obtain ⟨_, _, _, hn4, _⟩ := split_cleared_spec junk hD0 a ha0 hlt0
  obtain ⟨hb, hs, hd, hn, hm⟩ := reinsert_key_fields h1 h2 (split_cleared junk T0 a)
    ((split_pointers junk T0 a).1.deref (split_pointers junk T0 a).2).key n
  refine ⟨?_, by rw [hn, hn4, hn0]⟩
  refine dir_store_dir hD4 _ _ ?_ _ ?_ ?_ hb hs hd hm
  · rw [aux_rightmostnbits]; exact target_lt hD4 _
  · rfl
  · rfl

/-- `split_bucket` on a full bucket keeps the keys of the directory. -/
theorem split_bucket_keys {h1 h2 : Key → Nat} {junk : Nat → Key} {T T' : InnerTable}
    {a n : Nat} {h : Key → Nat} (hh : (if n = 2 then h2 else h1) = h) (hD : Dir T)
    (hK : KeysAt h T) (ha : a < T.size) (hf : (T.bucket a).full = true)
    (hr : split_bucket h1 h2 junk T a n = .ok T') :
    Dir T' ∧ KeysAt h T' ∧ (∀ x, stored T' x ↔ stored T x) ∧ T'.nkeys = T.nkeys := by
  obtain ⟨T0, hD0, hK0, hst0, hn0, ha0, hb0, hlt0, rfl, _⟩ := split_bucket_eq hD ha hr
  have hK0 := hK0 h hK
  obtain ⟨hkey, hs4, hd4, hn4, _⟩ := split_cleared_spec junk hD0 a ha0 hlt0
  have hD4 := split_cleared_dir junk hD0 a ha0 hlt0
  obtain ⟨hK4, hst4, hfree4⟩ := split_cleared_keys junk hD0 hK0 a ha0 hlt0
  rw [hkey]
  obtain ⟨hb, hs, hd, hn, hm⟩ := reinsert_key_fields h1 h2 (split_cleared junk T0 a)
    (T0.bucket a).key n
  rw [hh] at hm
  have hf0 : (T0.bucket a).full = true := by rw [hb0]; exact hf
  have htgt : rightmostnbits (split_cleared junk T0 a).depth (h (T0.bucket a).key)
      = h (T0.bucket a).key % 2 ^ (split_cleared junk T0 a).depth := aux_rightmostnbits _ _
  obtain ⟨hD5, hK5, hst5, _⟩ := dir_write hD4 hK4 _ (T0.bucket a).key _ htgt hb hs hd hm
  have hnf : ((split_cleared junk T0 a).bucket
      (rightmostnbits (split_cleared junk T0 a).depth (h (T0.bucket a).key))).full = false := by
    apply hfree4
    · rw [htgt, hd4]; exact target_lt hD0 _
    · rw [htgt, hd4, aux_mod_mod_pow _ _ _ (hD0.depth_le a ha0)]
      exact hK0 a ha0 hf0
  refine ⟨hD5, hK5, ?_, by rw [hn, hn4, hn0]⟩
  intro x
  rw [hst5 x, hst4 x, ← hst0 x]
  constructor
  · rintro (⟨⟨h1', _⟩, _⟩ | rfl)
    · exact h1'
    · exact ⟨a, ha0, hf0, rfl⟩
  · intro hx
    by_cases hxk : x = (T0.bucket a).key
    · exact Or.inr hxk
    · refine Or.inl ⟨⟨hx, fun hc => hxk hc.2⟩, ?_⟩
      rw [hnf]; simp

end Xuckoo

namespace Xuckoo

theorem xu_inner_one (t : XuckooHashTable) : t.inner 1 = t.table1 := rfl

theorem xu_inner_two (t : XuckooHashTable) : t.inner 2 = t.table2 := rfl

theorem inner_norm (t : XuckooHashTable) (q : Nat) :
    t.inner q = t.inner (if q = 1 then 1 else 2) := by
  unfold XuckooHashTable.inner; split <;> simp [*]

theorem hash_norm (h1 h2 : Key → Nat) (q : Nat) :
    hash_of h1 h2 q = hash_of h1 h2 (if q = 1 then 1 else 2) := by
  unfold hash_of; split <;> simp [*]

theorem holds_nm (t : XuckooHashTable) (n m : Nat)
    (hnm : (n = 1 ∧ m = 2) ∨ (n = 2 ∧ m = 1)) (x : Key) :
    holds t x ↔ stored (t.inner n) x ∨ stored (t.inner m) x := by
  unfold holds
  rcases hnm with ⟨rfl, rfl⟩ | ⟨rfl, rfl⟩
  · rfl
  · exact Or.comm

theorem disj_nm {h1 h2 : Key → Nat} {t : XuckooHashTable} (hI : Inv h1 h2 t) (n m : Nat)
    (hnm : (n = 1 ∧ m = 2) ∨ (n = 2 ∧ m = 1)) (x : Key) :
    ¬ (stored (t.inner n) x ∧ stored (t.inner m) x) := by
  intro hx
  rcases hnm with ⟨rfl, rfl⟩ | ⟨rfl, rfl⟩
  · exact hI.disj x hx
  · exact hI.disj x ⟨hx.2, hx.1⟩

/-- The invariant after an operation that rewrote directory `n` only. -/
theorem inv_update {h1 h2 : Key → Nat} {t : XuckooHashTable} (hI : Inv h1 h2 t)
    (t' : XuckooHashTable) (n m : Nat) (hnm : (n = 1 ∧ m = 2) ∨ (n = 2 ∧ m = 1))
    (hm : t'.inner m = t.inner m) (hd : Dir (t'.inner n))
    (hk : KeysAt (hash_of h1 h2 n) (t'.inner n))
    (hdisj : ∀ x, stored (t'.inner n) x → ¬ stored (t.inner m) x) : Inv h1 h2 t' := by
  have hall : ∀ (P : Nat → Prop), P n → P m → ∀ q, P (if q = 1 then 1 else 2) := by
    intro P hPn hPm q
    rcases hnm with ⟨rfl, rfl⟩ | ⟨rfl, rfl⟩ <;> split <;> assumption
  refine ⟨?_, ?_, ?_⟩
  · intro q
    rw [inner_norm t' q]
    refine hall (fun q => Dir (t'.inner q)) hd ?_ q
    beta_reduce; rw [hm]; exact hI.dir m
  · intro q
    rw [inner_norm t' q, hash_norm h1 h2 q]
    refine hall (fun q => KeysAt (hash_of h1 h2 q) (t'.inner q)) hk ?_ q
    beta_reduce; rw [hm]; exact hI.keys m
  · intro x hx
    rcases hnm with ⟨rfl, rfl⟩ | ⟨rfl, rfl⟩
    · rw [hm] at hx; exact hdisj x hx.1 hx.2
    · rw [hm] at hx; exact hdisj x hx.2 hx.1

theorem bucket_key_full (b : Bucket) (k : Key) (hf : b.full = true) :
    ({ b with key := k } : Bucket) = { b with key := k, full := true } := by
  cases b; simp only at hf; subst hf; rfl

/-- One kick: the held key is written over the occupant `y` of the full bucket
at `address` in directory `n`, and `y` becomes the held key. -/
theorem kick_table {h1 h2 : Key → Nat} {t : XuckooHashTable} (hI : Inv h1 h2 t)
    (t' : XuckooHashTable) (n m : Nat) (hnm : (n = 1 ∧ m = 2) ∨ (n = 2 ∧ m = 1))
    (key : Key) (hk : ¬ holds t key)
    (hfull : ((t.inner n).bucket
      (rightmostnbits (t.inner n).depth (hash_of h1 h2 n key))).full = true)
    (hn : t'.inner n = (t.inner n).storeAt
      (rightmostnbits (t.inner n).depth (hash_of h1 h2 n key))
      { (t.inner n).bucket (rightmostnbits (t.inner n).depth (hash_of h1 h2 n key)) with
        key := key })
    (hm : t'.inner m = t.inner m) :
    Inv h1 h2 t' ∧
    ¬ holds t' ((t.inner n).bucket
      (rightmostnbits (t.inner n).depth (hash_of h1 h2 n key))).key ∧
    (∀ x, holds t' x ∨ x = ((t.inner n).bucket
      (rightmostnbits (t.inner n).depth (hash_of h1 h2 n key))).key ↔ holds t x ∨ x = key) ∧
    TargetFull h1 h2 t' n ((t.inner n).bucket
      (rightmostnbits (t.inner n).depth (hash_of h1 h2 n key))).key := by
  have hD := hI.dir n
  have hK := hI.keys n
  have halt : rightmostnbits (t.inner n).depth (hash_of h1 h2 n key) < (t.inner n).size := by
    rw [aux_rightmostnbits]; exact target_lt hD _
  have hbs : (t'.inner n).buckets = (t.inner n).buckets := by rw [hn]; rfl
  have hds : (t'.inner n).depth = (t.inner n).depth := by rw [hn]; rfl
  obtain ⟨hD', hK', hst', hfull'⟩ := dir_write hD hK (t'.inner n) key _
    (aux_rightmostnbits _ _) hbs (by rw [hn]; rfl) hds
    (by rw [hn, bucket_key_full _ _ hfull]; rfl)
  generalize ha : rightmostnbits (t.inner n).depth (hash_of h1 h2 n key) = a at *
  have hyn : stored (t.inner n) ((t.inner n).bucket a).key := ⟨a, halt, hfull, rfl⟩
  have hkn : ¬ stored (t.inner n) key := fun h => hk ((holds_nm t n m hnm key).mpr (Or.inl h))
  have hkm : ¬ stored (t.inner m) key := fun h => hk ((holds_nm t n m hnm key).mpr (Or.inr h))
  have hdisj := disj_nm hI n m hnm
  have hsn : ∀ x, stored (t'.inner n) x ↔
      (stored (t.inner n) x ∧ x ≠ ((t.inner n).bucket a).key) ∨ x = key := by
    intro x; rw [hst' x]; simp [hfull]
  refine ⟨?_, ?_, ?_, ?_⟩
  · refine inv_update hI t' n m hnm hm hD' hK' ?_
    intro x hx hxm
    rcases (hsn x).mp hx with ⟨h, _⟩ | rfl
    · exact hdisj x ⟨h, hxm⟩
    · exact hkm hxm
  · rw [holds_nm t' n m hnm]
    rintro (h | h)
    · rcases (hsn _).mp h with ⟨_, hne⟩ | heq
      · exact hne rfl
      · rw [heq] at hyn; exact hkn hyn
    · rw [hm] at h
      exact hdisj _ ⟨hyn, h⟩
  · intro x
    rw [holds_nm t' n m hnm, holds_nm t n m hnm, hsn x, hm]
    constructor
    · rintro (((⟨h, _⟩ | h) | h) | h)
      · exact Or.inl (Or.inl h)
      · exact Or.inr h
      · exact Or.inl (Or.inr h)
      · rw [h]; exact Or.inl (Or.inl hyn)
    · rintro ((h | h) | h)
      · by_cases hxy : x = ((t.inner n).bucket a).key
        · exact Or.inr hxy
        · exact Or.inl (Or.inl (Or.inl ⟨h, hxy⟩))
      · exact Or.inl (Or.inr h)
      · exact Or.inl (Or.inl (Or.inr h))
  · unfold TargetFull
    rw [aux_rightmostnbits, hds]
    have hp := target_ptr hD hK a halt hfull
    rw [← hbs] at hp
    rw [same_ptr_bucket _ _ _ hp]
    exact hfull'

end Xuckoo

namespace Xuckoo

theorem setInner_same (t : XuckooHashTable) (n : Nat) (X : InnerTable) :
    (t.setInner n X).inner n = X := by
  unfold XuckooHashTable.setInner XuckooHashTable.inner
  split <;> simp [*]

theorem setInner_other (t : XuckooHashTable) (n m : Nat) (X : InnerTable)
    (hnm : (n = 1 ∧ m = 2) ∨ (n = 2 ∧ m = 1)) : (t.setInner n X).inner m = t.inner m := by
  rcases hnm with ⟨rfl, rfl⟩ | ⟨rfl, rfl⟩ <;> rfl

theorem other_cases (n : Nat) (hn : n = 1 ∨ n = 2) :
    (n = 1 ∧ other n = 2) ∨ (n = 2 ∧ other n = 1) := by
  rcases hn with rfl | rfl
  · exact Or.inl ⟨rfl, rfl⟩
  · exact Or.inr ⟨rfl, rfl⟩

/-- The state after one iteration of the eviction loop that moves the cursor to directory `q`. -/
theorem kick_next {h1 h2 : Key → Nat} {s : Cursor} (hX : XInv h1 h2 s)
    (hfull : ((s.table.inner s.innertable).bucket s.address).full = true)
    (q : Nat) (hq : q = 1 ∨ q = 2) (s1 : Cursor)
    (ht : s1.table = s.table.setInner s.innertable
      ((s.table.inner s.innertable).storeAt s.address
        { (s.table.inner s.innertable).bucket s.address with key := s.key }))
    (hi : s1.innertable = q) (hins : s1.insert_table = q)
    (hk : s1.key = ((s.table.inner s.innertable).bucket s.address).key)
    (ha : s1.address = rightmostnbits (s1.table.inner q).depth (hash_of h1 h2 q s1.key)) :
    XInv h1 h2 s1 ∧ (∀ x, holds s1.table x ∨ x = s1.key ↔ holds s.table x ∨ x = s.key) ∧
    (q = other s.innertable → OtherFull h1 h2 s1) := by
  have hnm := other_cases s.innertable hX.tbl
  have haddr := hX.addr
  rw [haddr] at hfull ht hk
  obtain ⟨hI', hfr', hset', htf'⟩ := kick_table hX.inv s1.table s.innertable
    (other s.innertable) hnm s.key hX.fresh hfull
    (by rw [ht, setInner_same]) (by rw [ht, setInner_other _ _ _ _ hnm])
  rw [← hk] at hfr' hset' htf'
  refine ⟨⟨hI', by rw [hi]; exact hq, by rw [hins]; exact hq, by rw [hi]; exact ha, hfr'⟩,
    hset', ?_⟩
  intro hqo
  unfold OtherFull
  rw [hi, hqo]
  have : other (other s.innertable) = s.innertable := by
    rcases hX.tbl with h | h <;> rw [h] <;> rfl
  rw [this]
  exact htf'

theorem xu_kick_loop_spec {h1 h2 : Key → Nat} :
    ∀ fuel (s s' : Cursor), XInv h1 h2 s →
      (1 ≤ s.total_kicked_keys → s.innertable = s.insert_table) →
      (2 ≤ s.total_kicked_keys → OtherFull h1 h2 s) →
      kick_loop h1 h2 fuel s = .ok s' →
      XInv h1 h2 s' ∧ (2 ≤ s'.total_kicked_keys → OtherFull h1 h2 s') ∧
      (∀ x, holds s'.table x ∨ x = s'.key ↔ holds s.table x ∨ x = s.key) ∧
      (s'.total_kicked_keys ≠ 2 * s'.table.table1.size →
        ((s'.table.inner s'.innertable).bucket s'.address).full = false) := by
  intro fuel
  induction fuel with
  | zero => intro s s' _ _ _ hr; simp [kick_loop] at hr
  | succ fuel ih =>
    intro s s' hX hsync hof hr
    unfold kick_loop at hr
    simp only at hr
    by_cases hc : ((s.table.inner s.innertable).bucket s.address).full = true ∧
        s.total_kicked_keys ≠ 2 * s.table.table1.size
    · rw [if_pos hc] at hr
      rcases hX.ins with h1t | h2t
      · rw [if_pos h1t] at hr
        obtain ⟨hX1, hset1, hof1⟩ := kick_next hX hc.1 2 (Or.inr rfl)
          { table := s.table.setInner s.innertable
              ((s.table.inner s.innertable).storeAt s.address
                { (s.table.inner s.innertable).bucket s.address with key := s.key })
            innertable := 2
            address := rightmostnbits (s.table.setInner s.innertable
              ((s.table.inner s.innertable).storeAt s.address
                { (s.table.inner s.innertable).bucket s.address with
                  key := s.key })).table2.depth
              (h2 ((s.table.inner s.innertable).bucket s.address).key)
            key := ((s.table.inner s.innertable).bucket s.address).key
            insert_table := 2
            total_kicked_keys := s.total_kicked_keys + 1 } rfl rfl rfl rfl rfl
        obtain ⟨hX2, hof2, hset2, hfree2⟩ := ih _ s' hX1 (fun _ => rfl)
          (fun h2 => hof1 (by
            have := hsync (by simpa using (by simp only at h2; omega))
            rw [this, h1t]; rfl)) hr
        exact ⟨hX2, hof2, fun x => (hset2 x).trans (hset1 x), hfree2⟩
      · have hne : ¬ s.insert_table = 1 := by omega
        rw [if_neg hne, if_pos h2t] at hr
        obtain ⟨hX1, hset1, hof1⟩ := kick_next hX hc.1 1 (Or.inl rfl)
          { table := s.table.setInner s.innertable
              ((s.table.inner s.innertable).storeAt s.address
                { (s.table.inner s.innertable).bucket s.address with key := s.key })
            innertable := 1
            address := rightmostnbits (s.table.setInner s.innertable
              ((s.table.inner s.innertable).storeAt s.address
                { (s.table.inner s.innertable).bucket s.address with
                  key := s.key })).table1.depth
              (h1 ((s.table.inner s.innertable).bucket s.address).key)
            key := ((s.table.inner s.innertable).bucket s.address).key
            insert_table := 1
            total_kicked_keys := s.total_kicked_keys + 1 } rfl rfl rfl rfl rfl
        obtain ⟨hX2, hof2, hset2, hfree2⟩ := ih _ s' hX1 (fun _ => rfl)
          (fun h2 => hof1 (by
            have := hsync (by simpa using (by simp only at h2; omega))
            rw [this, h2t]; rfl)) hr
        exact ⟨hX2, hof2, fun x => (hset2 x).trans (hset1 x), hfree2⟩
    · rw [if_neg hc] at hr
      simp only [Except.ok.injEq] at hr
      subst hr
      refine ⟨hX, hof, fun x => Iff.rfl, ?_⟩
      intro hne
      by_contra hcon
      exact hc ⟨by simpa using hcon, hne⟩

end Xuckoo

namespace Xuckoo

/-- One iteration of the splitting loop on directory `n`. -/
theorem split_table {h1 h2 : Key → Nat} {junk : Nat → Key} {t : XuckooHashTable}
    (hI : Inv h1 h2 t) (t' : XuckooHashTable) (n m : Nat)
    (hnm : (n = 1 ∧ m = 2) ∨ (n = 2 ∧ m = 1)) (key : Key) (T' : InnerTable)
    (hf : TargetFull h1 h2 t n key)
    (hr : split_bucket h1 h2 junk (t.inner n)
      (rightmostnbits (t.inner n).depth (hash_of h1 h2 n key)) n = .ok T')
    (hn : t'.inner n = T') (hm : t'.inner m = t.inner m) :
    Inv h1 h2 t' ∧ (∀ x, holds t' x ↔ holds t x) ∧
    (TargetFull h1 h2 t m key → TargetFull h1 h2 t' m key) := by
  have hh : (if n = 2 then h2 else h1) = hash_of h1 h2 n := by
    rcases hnm with ⟨rfl, rfl⟩ | ⟨rfl, rfl⟩ <;> rfl
  obtain ⟨hD', hK', hst', _⟩ := split_bucket_keys hh (hI.dir n) (hI.keys n)
    (by rw [aux_rightmostnbits]; exact target_lt (hI.dir n) _) hf hr
  have hdisj := disj_nm hI n m hnm
  refine ⟨?_, ?_, ?_⟩
  · refine inv_update hI t' n m hnm hm (by rw [hn]; exact hD') (by rw [hn]; exact hK') ?_
    intro x hx hxm
    rw [hn, hst' x] at hx
    exact hdisj x ⟨hx, hxm⟩
  · intro x
    rw [holds_nm t' n m hnm, holds_nm t n m hnm, hn, hm, hst' x]
  · intro h
    unfold TargetFull at h ⊢
    rw [hm]; exact h

theorem xu_split_loop_spec {h1 h2 : Key → Nat} {junk : Nat → Key} :
    ∀ fuel (s s' : Cursor), XInv h1 h2 s → OtherFull h1 h2 s →
      split_loop h1 h2 junk fuel s = .ok s' →
      XInv h1 h2 s' ∧ (∀ x, holds s'.table x ↔ holds s.table x) ∧ s'.key = s.key ∧
      ((s'.table.inner s'.innertable).bucket s'.address).full = false := by
  intro fuel
  induction fuel with
  | zero => intro s s' _ _ hr; simp [split_loop] at hr
  | succ fuel ih =>
    intro s s' hX hof hr
    unfold split_loop at hr
    by_cases hc : ((s.table.inner s.innertable).bucket s.address).full = true
    · rw [if_pos hc] at hr
      have hcur : TargetFull h1 h2 s.table s.innertable s.key := by
        unfold TargetFull; rw [← hX.addr]; exact hc
      have hT1 : TargetFull h1 h2 s.table 1 s.key := by
        rcases hX.tbl with h | h
        · rw [h] at hcur; exact hcur
        · unfold OtherFull at hof; rw [h] at hof; exact hof
      have hT2 : TargetFull h1 h2 s.table 2 s.key := by
        rcases hX.tbl with h | h
        · unfold OtherFull at hof; rw [h] at hof; exact hof
        · rw [h] at hcur; exact hcur
      by_cases hsz : s.table.table1.size ≤ s.table.table2.size
      · rw [if_pos hsz] at hr
        simp only at hr
        cases hsp : split_bucket h1 h2 junk s.table.table1
            (rightmostnbits s.table.table1.depth (h1 s.key)) 1 with
        | error e => rw [hsp] at hr; simp at hr
        | ok T' =>
          rw [hsp] at hr
          simp only at hr
          obtain ⟨hI', hh', htf'⟩ := split_table hX.inv { s.table with table1 := T' } 1 2
            (Or.inl ⟨rfl, rfl⟩) s.key T' hT1 hsp rfl rfl
          obtain ⟨hX2, hh2, hk2, hfree2⟩ := ih
            { s with table := { s.table with table1 := T' }, innertable := 1,
                     address := rightmostnbits T'.depth (h1 s.key), insert_table := 1 } s'
            ⟨hI', Or.inl rfl, Or.inl rfl, rfl, fun h => hX.fresh ((hh' _).mp h)⟩
            (htf' hT2) hr
          exact ⟨hX2, fun x => (hh2 x).trans (hh' x), hk2, hfree2⟩
      · rw [if_neg hsz] at hr
        simp only at hr
        cases hsp : split_bucket h1 h2 junk s.table.table2
            (rightmostnbits s.table.table2.depth (h2 s.key)) 2 with
        | error e => rw [hsp] at hr; simp at hr
        | ok T' =>
          rw [hsp] at hr
          simp only at hr
          obtain ⟨hI', hh', htf'⟩ := split_table hX.inv { s.table with table2 := T' } 2 1
            (Or.inr ⟨rfl, rfl⟩) s.key T' hT2 hsp rfl rfl
          obtain ⟨hX2, hh2, hk2, hfree2⟩ := ih
            { s with table := { s.table with table2 := T' }, innertable := 2,
                     address := rightmostnbits T'.depth (h2 s.key), insert_table := 2 } s'
            ⟨hI', Or.inr rfl, Or.inr rfl, rfl, fun h => hX.fresh ((hh' _).mp h)⟩
            (htf' hT1) hr
          exact ⟨hX2, fun x => (hh2 x).trans (hh' x), hk2, hfree2⟩
    · rw [if_neg hc] at hr
      simp only [Except.ok.injEq] at hr
      subst hr
      exact ⟨hX, fun x => Iff.rfl, rfl, by simpa using hc⟩

theorem dir_pos {T : InnerTable} (hD : Dir T) : 1 ≤ T.size := by
  rw [hD.size_eq]; exact Nat.one_le_two_pow

theorem xu_find_slot_spec {h1 h2 : Key → Nat} {junk : Nat → Key} {t : XuckooHashTable}
    {k : Key} {s : Cursor} (hI : Inv h1 h2 t) (hk : ¬ holds t k)
    (hr : find_slot h1 h2 junk t k = .ok s) :
    XInv h1 h2 s ∧ (∀ x, holds s.table x ∨ x = s.key ↔ holds t x ∨ x = k) ∧
    ((s.table.inner s.innertable).bucket s.address).full = false := by
  unfold find_slot at hr
  simp only at hr
  cases hkl : kick_loop h1 h2 (2 * t.table1.size + 1)
      { table := t, innertable := 1, address := rightmostnbits t.table1.depth (h1 k),
        key := k, insert_table := if t.table1.nkeys > t.table2.nkeys then 2 else 1,
        total_kicked_keys := 0 } with
  | error e => rw [hkl] at hr; simp at hr
  | ok s1 =>
    rw [hkl] at hr
    simp only at hr
    obtain ⟨hX1, hof1, hset1, hfree1⟩ := xu_kick_loop_spec _ _ _
      ⟨hI, Or.inl rfl, by simp only; split <;> simp, rfl, hk⟩
      (by intro h; simp at h) (by intro h; simp at h) hkl
    simp only at hset1
    by_cases hcyc : s1.total_kicked_keys = 2 * s1.table.table1.size
    · rw [if_pos hcyc] at hr
      have hpos := dir_pos (hX1.inv.dir 1)
      rw [xu_inner_one] at hpos
      obtain ⟨hX2, hh2, hk2, hfree2⟩ := xu_split_loop_spec _ _ _ hX1 (hof1 (by omega)) hr
      refine ⟨hX2, ?_, hfree2⟩
      intro x
      rw [hh2 x, hk2]; exact hset1 x
    · rw [if_neg hcyc] at hr
      simp only [Except.ok.injEq] at hr
      subst hr
      exact ⟨hX1, hset1, hfree1 hcyc⟩

theorem xu_insert_spec {h1 h2 : Key → Nat} {junk : Nat → Key} {t t' : XuckooHashTable}
    {k : Key} {b : Bool} (hI : Inv h1 h2 t)
    (hr : xuckoo_hash_table_insert h1 h2 junk t k = .ok (t', b)) :
    Inv h1 h2 t' ∧ (∀ x, holds t' x ↔ holds t x ∨ x = k) ∧ (b = true ↔ ¬ holds t k) := by
  unfold xuckoo_hash_table_insert at hr
  simp only at hr
  have ht1 := stored_iff_target (hI.dir 1) (hI.keys 1) k
  have ht2 := stored_iff_target (hI.dir 2) (hI.keys 2) k
  rw [← aux_rightmostnbits] at ht1 ht2
  by_cases hd1 : (t.table1.bucket (rightmostnbits t.table1.depth (h1 k))).full = true ∧
      (t.table1.bucket (rightmostnbits t.table1.depth (h1 k))).key = k
  · rw [if_pos hd1] at hr
    simp only [Except.ok.injEq, Prod.mk.injEq] at hr
    obtain ⟨rfl, rfl⟩ := hr
    have hk : holds t k := Or.inl (ht1.mpr hd1)
    refine ⟨hI, ?_, by simp [hk]⟩
    intro x
    constructor
    · exact Or.inl
    · rintro (h | rfl)
      · exact h
      · exact hk
  · rw [if_neg hd1] at hr
    by_cases hd2 : (t.table2.bucket (rightmostnbits t.table2.depth (h2 k))).full = true ∧
        (t.table2.bucket (rightmostnbits t.table2.depth (h2 k))).key = k
    · rw [if_pos hd2] at hr
      simp only [Except.ok.injEq, Prod.mk.injEq] at hr
      obtain ⟨rfl, rfl⟩ := hr
      have hk : holds t k := Or.inr (ht2.mpr hd2)
      refine ⟨hI, ?_, by simp [hk]⟩
      intro x
      constructor
      · exact Or.inl
      · rintro (h | rfl)
        · exact h
        · exact hk
    · rw [if_neg hd2] at hr
      have hnk : ¬ holds t k := by
        rintro (h | h)
        · exact hd1 (ht1.mp h)
        · exact hd2 (ht2.mp h)
      cases hfs : find_slot h1 h2 junk t k with
      | error e => rw [hfs] at hr; simp at hr
      | ok s =>
        rw [hfs] at hr
        simp only [Except.ok.injEq, Prod.mk.injEq] at hr
        obtain ⟨rfl, rfl⟩ := hr
        obtain ⟨hX, hset, hfree⟩ := xu_find_slot_spec hI hnk hfs
        have hnm := other_cases s.innertable hX.tbl
        have haddr := hX.addr
        obtain ⟨hD', hK', hst', _⟩ := dir_write (hX.inv.dir s.innertable)
          (hX.inv.keys s.innertable)
          { (s.table.inner s.innertable).storeAt s.address
              { (s.table.inner s.innertable).bucket s.address with
                key := s.key, full := true } with
            nkeys := ((s.table.inner s.innertable).storeAt s.address
              { (s.table.inner s.innertable).bucket s.address with
                key := s.key, full := true }).nkeys + 1 }
          s.key s.address (by rw [haddr, aux_rightmostnbits]) rfl rfl rfl rfl
        have hkm : ¬ stored (s.table.inner (other s.innertable)) s.key :=
          fun h => hX.fresh ((holds_nm _ _ _ hnm _).mpr (Or.inr h))
        have hdisj := disj_nm hX.inv s.innertable (other s.innertable) hnm
        refine ⟨?_, ?_, by simp [hnk]⟩
        · refine inv_update hX.inv _ s.innertable (other s.innertable) hnm
            (setInner_other _ _ _ _ hnm) (by rw [setInner_same]; exact hD')
            (by rw [setInner_same]; exact hK') ?_
          intro x hx hxm
          rw [setInner_same, hst' x] at hx
          rcases hx with ⟨h, _⟩ | rfl
          · exact hdisj x ⟨h, hxm⟩
          · exact hkm hxm
        · intro x
          rw [← hset x, holds_nm _ _ _ hnm, holds_nm s.table _ _ hnm, setInner_same,
            setInner_other _ _ _ _ hnm, hst' x]
          rw [hfree]
          simp only [Bool.false_eq_true, false_and, not_false_eq_true, and_true]
          constructor
          · rintro ((h | h) | h)
            · exact Or.inl (Or.inl h)
            · exact Or.inr h
            · exact Or.inl (Or.inr h)
          · rintro ((h | h) | h)
            · exact Or.inl (Or.inl h)
            · exact Or.inr h
            · exact Or.inl (Or.inr h)

theorem xu_new_table_inv (h1 h2 : Key → Nat) (junk : Nat → Key) :
    Inv h1 h2 (new_xuckoo_hash_table junk) ∧ ∀ x, ¬ holds (new_xuckoo_hash_table junk) x := by
  have hbk : ∀ i, ((initialise_inner_table junk).bucket i) =
      { id := 0, depth := 0, full := false, key := junk 0 } := by
    intro i
    cases i with
    | zero => rfl
    | succ i => rfl
  have hD : Dir (initialise_inner_table junk) := by
    refine ⟨rfl, rfl, ?_, ?_, ?_, ?_⟩
    · intro i hi
      have : i = 0 := by
        have : (initialise_inner_table junk).size = 1 := rfl
        omega
      subst this
      show 0 < 1
      omega
    · intro i _; rw [hbk i]; exact Nat.le_refl _
    · intro i _; rw [hbk i]; simp [Nat.mod_one]
    · intro i j hi hj _
      have e1 : (initialise_inner_table junk).size = 1 := rfl
      have : i = 0 := by omega
      have : j = 0 := by omega
      subst_vars; rfl
  have hns : ∀ x, ¬ stored (initialise_inner_table junk) x := by
    rintro x ⟨i, _, hf, _⟩
    rw [hbk i] at hf
    exact Bool.noConfusion hf
  have hinner : ∀ n, (new_xuckoo_hash_table junk).inner n = initialise_inner_table junk := by
    intro n; unfold XuckooHashTable.inner new_xuckoo_hash_table; split <;> rfl
  refine ⟨⟨?_, ?_, ?_⟩, ?_⟩
  · intro n; rw [hinner]; exact hD
  · intro n; rw [hinner]
    intro i _ hf
    rw [hbk i] at hf
    exact Bool.noConfusion hf
  · intro k hk; rw [hinner] at hk; exact hns k hk.1
  · rintro x (h | h) <;> rw [hinner] at h <;> exact hns x h

theorem xu_reachable_inv {h1 h2 : Key → Nat} {junk : Nat → Key} {t : XuckooHashTable}
    (hr : Reachable h1 h2 junk t) : Inv h1 h2 t := by
  induction hr with
  | init => exact (xu_new_table_inv h1 h2 junk).1
  | step t t' k b _ h ih => exact (xu_insert_spec ih h).1

end Xuckoo

/-! ### The budgets of `xuckoo_hash_table_insert` are never exhausted -/

namespace Xuckoo

theorem xu_max_eq : MAX_TABLE_SIZE = 2 ^ 27 := by decide

theorem xu_depth_le {T : InnerTable} (hD : Dir T) (hlt : T.size < MAX_TABLE_SIZE) :
    T.depth ≤ 26 := by
  rw [hD.size_eq, xu_max_eq] at hlt
  have := (Nat.pow_lt_pow_iff_right (by decide : 1 < 2)).mp hlt
  omega

theorem xu_split_bucket_error {h1 h2 : Key → Nat} {junk : Nat → Key} {T : InnerTable}
    {a n : Nat} {e : Err} (hr : split_bucket h1 h2 junk T a n = .error e) :
    e = .assertion := by
  unfold split_bucket at hr
  by_cases hc : (T.bucket a).depth = T.depth
  · rw [if_pos hc] at hr
    unfold double_table at hr
    simp only at hr
    by_cases hm : T.size * 2 < MAX_TABLE_SIZE
    · rw [if_pos hm] at hr; simp at hr
    · rw [if_neg hm] at hr
      simp only [Except.error.injEq] at hr
      exact hr.symm
  · rw [if_neg hc] at hr; simp at hr

/-- After `split_bucket` at the address of key `k`, the bucket at the address
of `k` is one level deeper. -/
theorem xu_split_depth {h1 h2 : Key → Nat} {junk : Nat → Key} {T T' : InnerTable}
    {n : Nat} (x : Nat) (hD : Dir T)
    (hr : split_bucket h1 h2 junk T (x % 2 ^ T.depth) n = .ok T') :
    (T'.bucket (x % 2 ^ T'.depth)).depth = (T.bucket (x % 2 ^ T.depth)).depth + 1 ∧
    T.size ≤ T'.size ∧ (T.size < MAX_TABLE_SIZE → T'.size < MAX_TABLE_SIZE) := by
  have ha := target_lt hD x
  obtain ⟨T0, hD0, _, _, _, ha0, hb0, hlt0, rfl, hdle, hsle, hmax⟩ := split_bucket_eq hD ha hr
  obtain ⟨_, hs4, hd4, _, _⟩ := split_cleared_spec junk hD0 (x % 2 ^ T.depth) ha0 hlt0
  have hD4 := split_cleared_dir junk hD0 (x % 2 ^ T.depth) ha0 hlt0
  obtain ⟨hb, hs, hd, _, hm⟩ := reinsert_key_fields h1 h2
    (split_cleared junk T0 (x % 2 ^ T.depth))
    ((split_pointers junk T0 (x % 2 ^ T.depth)).1.deref
      (split_pointers junk T0 (x % 2 ^ T.depth)).2).key n
  refine ⟨?_, by rw [hs, hs4]; exact hsle, fun h => by rw [hs, hs4]; exact hmax h⟩
  rw [hd, hd4]
  have hj : x % 2 ^ T0.depth < T0.size := target_lt hD0 x
  have hdep : (T0.bucket (x % 2 ^ T.depth)).depth ≤ T.depth := by
    rw [hb0]; exact hD.depth_le _ ha
  have hjm : x % 2 ^ T0.depth % 2 ^ (T0.bucket (x % 2 ^ T.depth)).depth
      = (T0.bucket (x % 2 ^ T.depth)).id := by
    rw [aux_mod_mod_pow _ _ _ (by omega), hD0.id_eq _ ha0, aux_mod_mod_pow _ _ _ hdep]
  have hB := split_cleared_bucket junk hD0 (x % 2 ^ T.depth) ha0 hlt0 (x % 2 ^ T0.depth) hj
  have hdepth4 : ((split_cleared junk T0 (x % 2 ^ T.depth)).bucket (x % 2 ^ T0.depth)).depth
      = (T.bucket (x % 2 ^ T.depth)).depth + 1 := by
    rw [hB, ← hb0]
    by_cases h1c : x % 2 ^ T0.depth % 2 ^ ((T0.bucket (x % 2 ^ T.depth)).depth + 1)
        = 2 ^ (T0.bucket (x % 2 ^ T.depth)).depth + (T0.bucket (x % 2 ^ T.depth)).id
    · rw [if_pos h1c]
    · rw [if_neg h1c, if_pos hjm]
  rw [← hdepth4]
  refine (store_same hD4 _ _ ?_ _ ?_ ?_ hb hm (x % 2 ^ T0.depth)).1
  · rw [aux_rightmostnbits]; exact target_lt hD4 _
  · rfl
  · rfl

theorem xu_setInner_sizes (t : XuckooHashTable) (n : Nat) (X : InnerTable)
    (hX : X.size = (t.inner n).size) (q : Nat) :
    ((t.setInner n X).inner q).size = (t.inner q).size := by
  unfold XuckooHashTable.setInner XuckooHashTable.inner at *
  by_cases hn : n = 1 <;> by_cases hq : q = 1 <;> simp [hn, hq] at hX ⊢ <;> exact hX

theorem xu_kick_loop_total (h1 h2 : Key → Nat) :
    ∀ fuel (s : Cursor), s.total_kicked_keys ≤ 2 * s.table.table1.size →
      2 * s.table.table1.size - s.total_kicked_keys < fuel →
      ∃ s', kick_loop h1 h2 fuel s = .ok s' ∧
        ∀ q, (s'.table.inner q).size = (s.table.inner q).size := by
  intro fuel
  induction fuel with
  | zero => intro s _ hf; omega
  | succ fuel ih =>
    intro s hle hf
    unfold kick_loop
    simp only
    have hsz := xu_setInner_sizes s.table s.innertable
      ((s.table.inner s.innertable).storeAt s.address
        { (s.table.inner s.innertable).bucket s.address with key := s.key }) rfl
    have hsz1 := hsz 1
    rw [xu_inner_one, xu_inner_one] at hsz1
    by_cases hc : ((s.table.inner s.innertable).bucket s.address).full = true ∧
        s.total_kicked_keys ≠ 2 * s.table.table1.size
    · rw [if_pos hc]
      by_cases h1t : s.insert_table = 1
      · rw [if_pos h1t]
        obtain ⟨s', hs', hz⟩ := ih
          { table := s.table.setInner s.innertable
              ((s.table.inner s.innertable).storeAt s.address
                { (s.table.inner s.innertable).bucket s.address with key := s.key })
            innertable := 2
            address := rightmostnbits (s.table.setInner s.innertable
              ((s.table.inner s.innertable).storeAt s.address
                { (s.table.inner s.innertable).bucket s.address with
                  key := s.key })).table2.depth
              (h2 ((s.table.inner s.innertable).bucket s.address).key)
            key := ((s.table.inner s.innertable).bucket s.address).key
            insert_table := 2
            total_kicked_keys := s.total_kicked_keys + 1 }
          (by simp only [hsz1]; omega) (by simp only [hsz1]; omega)
        exact ⟨s', hs', fun q => (hz q).trans (hsz q)⟩
      · rw [if_neg h1t]
        by_cases h2t : s.insert_table = 2
        · rw [if_pos h2t]
          obtain ⟨s', hs', hz⟩ := ih
            { table := s.table.setInner s.innertable
                ((s.table.inner s.innertable).storeAt s.address
                  { (s.table.inner s.innertable).bucket s.address with key := s.key })
              innertable := 1
              address := rightmostnbits (s.table.setInner s.innertable
                ((s.table.inner s.innertable).storeAt s.address
                  { (s.table.inner s.innertable).bucket s.address with
                    key := s.key })).table1.depth
                (h1 ((s.table.inner s.innertable).bucket s.address).key)
              key := ((s.table.inner s.innertable).bucket s.address).key
              insert_table := 1
              total_kicked_keys := s.total_kicked_keys + 1 }
            (by simp only [hsz1]; omega) (by simp only [hsz1]; omega)
          exact ⟨s', hs', fun q => (hz q).trans (hsz q)⟩
        · rw [if_neg h2t]
          obtain ⟨s', hs', hz⟩ := ih
            { s with
              table := s.table.setInner s.innertable
                ((s.table.inner s.innertable).storeAt s.address
                  { (s.table.inner s.innertable).bucket s.address with key := s.key })
              key := ((s.table.inner s.innertable).bucket s.address).key
              total_kicked_keys := s.total_kicked_keys + 1 }
            (by simp only [hsz1]; omega) (by simp only [hsz1]; omega)
          exact ⟨s', hs', fun q => (hz q).trans (hsz q)⟩
    · rw [if_neg hc]
      exact ⟨s, rfl, fun _ => rfl⟩

theorem xu_target_depth_le (h1 h2 : Key → Nat) {t : XuckooHashTable} (n : Nat) (k : Key)
    (hD : Dir (t.inner n)) (hlt : (t.inner n).size < MAX_TABLE_SIZE) :
    target_depth h1 h2 t n k ≤ 26 := by
  unfold target_depth
  rw [aux_rightmostnbits]
  exact (hD.depth_le _ (target_lt hD _)).trans (xu_depth_le hD hlt)

theorem xu_split_loop_total (h1 h2 : Key → Nat) (junk : Nat → Key) :
    ∀ fuel (s : Cursor), (∀ n, Dir (s.table.inner n)) →
      (∀ n, (s.table.inner n).size < MAX_TABLE_SIZE) →
      52 - (target_depth h1 h2 s.table 1 s.key + target_depth h1 h2 s.table 2 s.key) < fuel →
      (∃ s', split_loop h1 h2 junk fuel s = .ok s' ∧
        ∀ n, (s'.table.inner n).size < MAX_TABLE_SIZE) ∨
      split_loop h1 h2 junk fuel s = .error .assertion := by
  intro fuel
  induction fuel with
  | zero => intro s _ _ hf; omega
  | succ fuel ih =>
    intro s hD hlt hf
    unfold split_loop
    by_cases hc : ((s.table.inner s.innertable).bucket s.address).full = true
    · rw [if_pos hc]
      by_cases hsz : s.table.table1.size ≤ s.table.table2.size
      · rw [if_pos hsz]
        simp only
        cases hsp : split_bucket h1 h2 junk s.table.table1
            (rightmostnbits s.table.table1.depth (h1 s.key)) 1 with
        | error e => rw [xu_split_bucket_error hsp]; exact Or.inr rfl
        | ok T' =>
          simp only
          have hsp' := hsp
          rw [aux_rightmostnbits] at hsp'
          obtain ⟨hdep, _, hmax⟩ := xu_split_depth (h1 s.key) (hD 1) hsp'
          have hD' := (split_bucket_dir (hD 1)
            (by rw [aux_rightmostnbits]; exact target_lt (hD 1) _) hsp).1
          have hDn : ∀ n, Dir (({ s.table with table1 := T' } : XuckooHashTable).inner n) := by
            intro n
            rw [inner_norm]
            split
            · exact hD'
            · exact hD 2
          have hLn : ∀ n, (({ s.table with table1 := T' } : XuckooHashTable).inner n).size
              < MAX_TABLE_SIZE := by
            intro n
            rw [inner_norm]
            split
            · exact hmax (hlt 1)
            · exact hlt 2
          have e1 : target_depth h1 h2 { s.table with table1 := T' } 1 s.key
              = target_depth h1 h2 s.table 1 s.key + 1 := by
            unfold target_depth
            rw [aux_rightmostnbits, aux_rightmostnbits]
            exact hdep
          have e2 : target_depth h1 h2 { s.table with table1 := T' } 2 s.key
              = target_depth h1 h2 s.table 2 s.key := rfl
          have b1 := xu_target_depth_le h1 h2 1 s.key (hDn 1) (hLn 1)
          have b2 := xu_target_depth_le h1 h2 2 s.key (hDn 2) (hLn 2)
          have hf' : 52 - (target_depth h1 h2 { s.table with table1 := T' } 1 s.key +
              target_depth h1 h2 { s.table with table1 := T' } 2 s.key) < fuel := by
            rw [e1] at b1; rw [e2] at b2; rw [e1, e2]; omega
          exact ih
            { s with table := { s.table with table1 := T' }, innertable := 1,
                     address := rightmostnbits T'.depth (h1 s.key), insert_table := 1 }
            hDn hLn hf'
      · rw [if_neg hsz]
        simp only
        cases hsp : split_bucket h1 h2 junk s.table.table2
            (rightmostnbits s.table.table2.depth (h2 s.key)) 2 with
        | error e => rw [xu_split_bucket_error hsp]; exact Or.inr rfl
        | ok T' =>
          simp only
          have hsp' := hsp
          rw [aux_rightmostnbits] at hsp'
          obtain ⟨hdep, _, hmax⟩ := xu_split_depth (h2 s.key) (hD 2) hsp'
          have hD' := (split_bucket_dir (hD 2)
            (by rw [aux_rightmostnbits]; exact target_lt (hD 2) _) hsp).1
          have hDn : ∀ n, Dir (({ s.table with table2 := T' } : XuckooHashTable).inner n) := by
            intro n
            rw [inner_norm]
            split
            · exact hD 1
            · exact hD'
          have hLn : ∀ n, (({ s.table with table2 := T' } : XuckooHashTable).inner n).size
              < MAX_TABLE_SIZE := by
            intro n
            rw [inner_norm]
            split
            · exact hlt 1
            · exact hmax (hlt 2)
          have e1 : target_depth h1 h2 { s.table with table2 := T' } 2 s.key
              = target_depth h1 h2 s.table 2 s.key + 1 := by
            unfold target_depth
            rw [aux_rightmostnbits, aux_rightmostnbits]
            exact hdep
          have e2 : target_depth h1 h2 { s.table with table2 := T' } 1 s.key
              = target_depth h1 h2 s.table 1 s.key := rfl
          have b1 := xu_target_depth_le h1 h2 1 s.key (hDn 1) (hLn 1)
          have b2 := xu_target_depth_le h1 h2 2 s.key (hDn 2) (hLn 2)
          have hf' : 52 - (target_depth h1 h2 { s.table with table2 := T' } 1 s.key +
              target_depth h1 h2 { s.table with table2 := T' } 2 s.key) < fuel := by
            rw [e2] at b1; rw [e1] at b2; rw [e1, e2]; omega
          exact ih
            { s with table := { s.table with table2 := T' }, innertable := 2,
                     address := rightmostnbits T'.depth (h2 s.key), insert_table := 2 }
            hDn hLn hf'
    · rw [if_neg hc]
      exact Or.inl ⟨s, rfl, hlt⟩

end Xuckoo

namespace Xuckoo

theorem xu_find_slot_total {h1 h2 : Key → Nat} (junk : Nat → Key) {t : XuckooHashTable}
    {k : Key} (hI : Inv h1 h2 t) (hk : ¬ holds t k)
    (hB : ∀ n, (t.inner n).size < MAX_TABLE_SIZE) :
    (∃ s, find_slot h1 h2 junk t k = .ok s ∧ ∀ n, (s.table.inner n).size < MAX_TABLE_SIZE) ∨
    find_slot h1 h2 junk t k = .error .assertion := by
  unfold find_slot
  simp only
  obtain ⟨s1, hkl, hsz⟩ := xu_kick_loop_total h1 h2 (2 * t.table1.size + 1)
    { table := t, innertable := 1, address := rightmostnbits t.table1.depth (h1 k),
      key := k, insert_table := if t.table1.nkeys > t.table2.nkeys then 2 else 1,
      total_kicked_keys := 0 } (by simp only; omega) (by simp only; omega)
  obtain ⟨hX1, _, _, _⟩ := xu_kick_loop_spec _ _ _
    ⟨hI, Or.inl rfl, by simp only; split <;> simp, rfl, hk⟩
    (by intro h; simp at h) (by intro h; simp at h) hkl
  rw [hkl]
  simp only at hsz ⊢
  have hB1 : ∀ n, (s1.table.inner n).size < MAX_TABLE_SIZE := fun n => by
    rw [hsz n]; exact hB n
  by_cases hcyc : s1.total_kicked_keys = 2 * s1.table.table1.size
  · rw [if_pos hcyc]
    exact xu_split_loop_total h1 h2 junk SPLIT_FUEL s1 hX1.inv.dir hB1
      (by unfold SPLIT_FUEL; omega)
  · rw [if_neg hcyc]
    exact Or.inl ⟨s1, rfl, hB1⟩

/-- On a table that satisfies the invariant and whose directories are smaller
than `MAX_TABLE_SIZE`, `xuckoo_hash_table_insert` returns or fails the size
assertion: the budgets of its loops are never exhausted. -/
theorem xu_insert_total {h1 h2 : Key → Nat} (junk : Nat → Key) {t : XuckooHashTable}
    (k : Key) (hI : Inv h1 h2 t) (hB : ∀ n, (t.inner n).size < MAX_TABLE_SIZE) :
    (∃ t' b, xuckoo_hash_table_insert h1 h2 junk t k = .ok (t', b) ∧
      ∀ n, (t'.inner n).size < MAX_TABLE_SIZE) ∨
    xuckoo_hash_table_insert h1 h2 junk t k = .error .assertion := by
  unfold xuckoo_hash_table_insert
  simp only
  have ht1 := stored_iff_target (hI.dir 1) (hI.keys 1) k
  have ht2 := stored_iff_target (hI.dir 2) (hI.keys 2) k
  rw [← aux_rightmostnbits] at ht1 ht2
  by_cases hd1 : (t.table1.bucket (rightmostnbits t.table1.depth (h1 k))).full = true ∧
      (t.table1.bucket (rightmostnbits t.table1.depth (h1 k))).key = k
  · rw [if_pos hd1]; exact Or.inl ⟨t, false, rfl, hB⟩
  · rw [if_neg hd1]
    by_cases hd2 : (t.table2.bucket (rightmostnbits t.table2.depth (h2 k))).full = true ∧
        (t.table2.bucket (rightmostnbits t.table2.depth (h2 k))).key = k
    · rw [if_pos hd2]; exact Or.inl ⟨t, false, rfl, hB⟩
    · rw [if_neg hd2]
      have hnk : ¬ holds t k := by
        rintro (h | h)
        · exact hd1 (ht1.mp h)
        · exact hd2 (ht2.mp h)
      rcases xu_find_slot_total junk hI hnk hB with ⟨s, hs, hBs⟩ | hs
      · rw [hs]
        refine Or.inl ⟨_, true, rfl, ?_⟩
        intro n
        exact lt_of_eq_of_lt (xu_setInner_sizes _ _ _ (by rfl) n) (hBs n)
      · rw [hs]; exact Or.inr rfl

theorem xu_reachable_bounded {h1 h2 : Key → Nat} {junk : Nat → Key} {t : XuckooHashTable}
    (hr : Reachable h1 h2 junk t) : ∀ n, (t.inner n).size < MAX_TABLE_SIZE := by
  induction hr with
  | init =>
    intro n
    unfold XuckooHashTable.inner new_xuckoo_hash_table
    split <;> exact (by decide : 1 < MAX_TABLE_SIZE)
  | step t t' k b hr h ih =>
    rcases xu_insert_total junk k (xu_reachable_inv hr) ih with ⟨t2, b2, h2', hB2⟩ | h2'
    · rw [h2'] at h
      simp only [Except.ok.injEq, Prod.mk.injEq] at h
      rw [← h.1]; exact hB2
    · rw [h2'] at h; simp at h

/-- On a reachable table `xuckoo_hash_table_insert` returns a result or fails
the size assertion of `double_table`. -/
theorem xu_insert_returns (h1 h2 : Key → Nat) (junk : Nat → Key) (t : XuckooHashTable)
    (k : Key) (hr : Reachable h1 h2 junk t) :
    (∃ t' b, xuckoo_hash_table_insert h1 h2 junk t k = .ok (t', b)) ∨
    xuckoo_hash_table_insert h1 h2 junk t k = .error .assertion := by
  rcases xu_insert_total junk k (xu_reachable_inv hr) (xu_reachable_bounded hr)
    with ⟨t', b, h, _⟩ | h
  · exact Or.inl ⟨t', b, h⟩
  · exact Or.inr h

end Xuckoo

namespace Xuckoo

theorem xu_lookup_iff_holds {h1 h2 : Key → Nat} {t : XuckooHashTable} (hI : Inv h1 h2 t)
    (k : Key) : xuckoo_hash_table_lookup h1 h2 t k = true ↔ holds t k := by
  have ht1 := stored_iff_target (hI.dir 1) (hI.keys 1) k
  have ht2 := stored_iff_target (hI.dir 2) (hI.keys 2) k
  rw [← aux_rightmostnbits] at ht1 ht2
  unfold holds
  rw [ht1, ht2]
  unfold xuckoo_hash_table_lookup
  simp only
  by_cases c1 : (t.table1.bucket (rightmostnbits t.table1.depth (h1 k))).full = true ∧
      (t.table1.bucket (rightmostnbits t.table1.depth (h1 k))).key = k
  · rw [if_pos c1]
    exact ⟨fun _ => Or.inl c1, fun _ => rfl⟩
  · rw [if_neg c1]
    by_cases c2 : (t.table2.bucket (rightmostnbits t.table2.depth (h2 k))).full = true ∧
        (t.table2.bucket (rightmostnbits t.table2.depth (h2 k))).key = k
    · rw [if_pos c2]
      exact ⟨fun _ => Or.inr c2, fun _ => rfl⟩
    · rw [if_neg c2]
      constructor
      · intro h; exact Bool.noConfusion h
      · rintro (h | h)
        · exact absurd h c1
        · exact absurd h c2

theorem xu_insert_all_spec {h1 h2 : Key → Nat} {junk : Nat → Key} :
    ∀ (ks : List Key) (t0 t : XuckooHashTable) (rs : List Bool), Inv h1 h2 t0 →
      insert_all h1 h2 junk t0 ks = .ok (t, rs) →
      Inv h1 h2 t ∧ rs.length = ks.length ∧ (∀ x, holds t x ↔ holds t0 x ∨ x ∈ ks) ∧
      ∀ i, i < ks.length →
        (rs.getD i false = true ↔ ¬ holds t0 (ks.getD i 0) ∧ ks.getD i 0 ∉ ks.take i) := by
  intro ks
  induction ks with
  | nil =>
    intro t0 t rs hI hr
    simp only [insert_all, Except.ok.injEq, Prod.mk.injEq] at hr
    obtain ⟨rfl, rfl⟩ := hr
    exact ⟨hI, rfl, by simp, by intro i hi; simp at hi⟩
  | cons k ks ih =>
    intro t0 t rs hI hr
    unfold insert_all at hr
    cases h1r : xuckoo_hash_table_insert h1 h2 junk t0 k with
    | error e => rw [h1r] at hr; simp at hr
    | ok r1 =>
      obtain ⟨t1, b⟩ := r1
      rw [h1r] at hr
      simp only at hr
      cases h2r : insert_all h1 h2 junk t1 ks with
      | error e => rw [h2r] at hr; simp at hr
      | ok r2 =>
        obtain ⟨t2, bs⟩ := r2
        rw [h2r] at hr
        simp only [Except.ok.injEq, Prod.mk.injEq] at hr
        obtain ⟨rfl, rfl⟩ := hr
        obtain ⟨hI1, hh1, hb1⟩ := xu_insert_spec hI h1r
        obtain ⟨hI2, hlen, hh2, hres⟩ := ih t1 t2 bs hI1 h2r
        refine ⟨hI2, by simp [hlen], ?_, ?_⟩
        · intro x
          rw [hh2, hh1, List.mem_cons]
          tauto
        · intro i hi
          cases i with
          | zero => simpa using hb1
          | succ i =>
            have hi' : i < ks.length := by simpa using hi
            have := hres i hi'
            simp only [List.getD_cons_succ, List.take_succ_cons, List.mem_cons, not_or]
            rw [this, hh1]
            tauto

theorem xu_reachableBy_spec {h1 h2 : Key → Nat} {junk : Nat → Key} {ks : List Key}
    {t : XuckooHashTable} (hr : ReachableBy h1 h2 junk ks t) :
    Inv h1 h2 t ∧ ∀ x, holds t x ↔ x ∈ ks := by
  induction hr with
  | init =>
    obtain ⟨hI, hh⟩ := xu_new_table_inv h1 h2 junk
    exact ⟨hI, by intro x; simp [hh x]⟩
  | step ks t t' k b _ h ih =>
    obtain ⟨hI', hh', _⟩ := xu_insert_spec ih.1 h
    refine ⟨hI', ?_⟩
    intro x
    rw [hh' x, ih.2 x, List.mem_cons]
    tauto

/-- A sequence of inserts into a reachable table returns its results or fails
the size assertion: the budgets of the loops are never exhausted. -/
theorem xu_insert_all_returns (h1 h2 : Key → Nat) (junk : Nat → Key) :
    ∀ (ks : List Key) (t : XuckooHashTable), Reachable h1 h2 junk t →
      (∃ t' rs, insert_all h1 h2 junk t ks = .ok (t', rs)) ∨
      insert_all h1 h2 junk t ks = .error .assertion := by
  intro ks
  induction ks with
  | nil => intro t _; exact Or.inl ⟨t, [], rfl⟩
  | cons k ks ih =>
    intro t hr
    simp only [insert_all]
    rcases xu_insert_returns h1 h2 junk t k hr with ⟨t1, b, h⟩ | h
    · rw [h]
      simp only
      rcases ih t1 (Reachable.step t t1 k b hr h) with ⟨t2, rs, h2⟩ | h2
      · rw [h2]; exact Or.inl ⟨_, _, rfl⟩
      · rw [h2]; exact Or.inr rfl
    · rw [h]; exact Or.inr rfl

end Xuckoo

/-- C1. ExtendibleCuckooTable insert result: for all hash functions and every
list of keys inserted one after the other into the table made by
`new_xuckoo_hash_table`, the sequence of calls returns its results or trips
the size assertion (no loop runs out of its budget), and when all calls
complete, call number `i` returns true exactly when its key does not occur
earlier in the list. -/
theorem xuckoo_insert_result (h1 h2 : Key → Nat) (junk : Nat → Key) (ks : List Key) :
    ((∃ t rs, Xuckoo.insert_all h1 h2 junk (Xuckoo.new_xuckoo_hash_table junk) ks
        = .ok (t, rs)) ∨
      Xuckoo.insert_all h1 h2 junk (Xuckoo.new_xuckoo_hash_table junk) ks
        = .error .assertion) ∧
    ∀ t rs, Xuckoo.insert_all h1 h2 junk (Xuckoo.new_xuckoo_hash_table junk) ks
        = .ok (t, rs) →
      rs.length = ks.length ∧
      ∀ i, i < ks.length → (rs.getD i false = true ↔ ks.getD i 0 ∉ ks.take i) := by
  refine ⟨Xuckoo.xu_insert_all_returns h1 h2 junk ks _ Xuckoo.Reachable.init, ?_⟩
  intro t rs hr
  obtain ⟨hI0, hh0⟩ := Xuckoo.xu_new_table_inv h1 h2 junk
  obtain ⟨_, hlen, _, hres⟩ := Xuckoo.xu_insert_all_spec ks _ t rs hI0 hr
  refine ⟨hlen, ?_⟩
  intro i hi
  rw [hres i hi]
  simp [hh0]

/-- C2. ExtendibleCuckooTable no loss: on every reachable table,
`xuckoo_hash_table_insert` of `k` returns or trips the size assertion (no
loop runs out of its budget), and a completed call leaves `k` lookup-true and
keeps every key that was lookup-true before the call lookup-true, whatever
kicks, bucket splits and directory doublings the call performed. -/
theorem xuckoo_no_loss (h1 h2 : Key → Nat) (junk : Nat → Key) (t : Xuckoo.XuckooHashTable)
    (k : Key) (hr : Xuckoo.Reachable h1 h2 junk t) :
    ((∃ t' b, Xuckoo.xuckoo_hash_table_insert h1 h2 junk t k = .ok (t', b)) ∨
      Xuckoo.xuckoo_hash_table_insert h1 h2 junk t k = .error .assertion) ∧
    ∀ t' b, Xuckoo.xuckoo_hash_table_insert h1 h2 junk t k = .ok (t', b) →
      Xuckoo.xuckoo_hash_table_lookup h1 h2 t' k = true ∧
      ∀ x, Xuckoo.xuckoo_hash_table_lookup h1 h2 t x = true →
        Xuckoo.xuckoo_hash_table_lookup h1 h2 t' x = true := by
  refine ⟨Xuckoo.xu_insert_returns h1 h2 junk t k hr, ?_⟩
  intro t' b hi
  have hI := Xuckoo.xu_reachable_inv hr
  obtain ⟨hI', hh, _⟩ := Xuckoo.xu_insert_spec hI hi
  refine ⟨(Xuckoo.xu_lookup_iff_holds hI' k).mpr ((hh k).mpr (Or.inr rfl)), ?_⟩
  intro x hx
  exact (Xuckoo.xu_lookup_iff_holds hI' x).mpr
    ((hh x).mpr (Or.inl ((Xuckoo.xu_lookup_iff_holds hI x).mp hx)))

/-- C7. ExtendibleCuckooTable single residency: in a table reached by
inserting the keys `ks`, every key `k` of `ks` is in the full bucket at the low
`depth` bits of `h1 k` in directory 1 or in the full bucket at the low `depth`
bits of `h2 k` in directory 2, not in both, and every full bucket of a
directory that holds `k` is that directory's bucket at this address (the same
pointer). -/
theorem xuckoo_single_residency (h1 h2 : Key → Nat) (junk : Nat → Key) (ks : List Key)
    (t : Xuckoo.XuckooHashTable) (k : Key) (hr : Xuckoo.ReachableBy h1 h2 junk ks t)
    (hk : k ∈ ks) :
    (((t.table1.bucket (Xuckoo.rightmostnbits t.table1.depth (h1 k))).full = true ∧
        (t.table1.bucket (Xuckoo.rightmostnbits t.table1.depth (h1 k))).key = k) ∨
      ((t.table2.bucket (Xuckoo.rightmostnbits t.table2.depth (h2 k))).full = true ∧
        (t.table2.bucket (Xuckoo.rightmostnbits t.table2.depth (h2 k))).key = k)) ∧
    ¬ (((t.table1.bucket (Xuckoo.rightmostnbits t.table1.depth (h1 k))).full = true ∧
        (t.table1.bucket (Xuckoo.rightmostnbits t.table1.depth (h1 k))).key = k) ∧
      ((t.table2.bucket (Xuckoo.rightmostnbits t.table2.depth (h2 k))).full = true ∧
        (t.table2.bucket (Xuckoo.rightmostnbits t.table2.depth (h2 k))).key = k)) ∧
    (∀ i, i < t.table1.size → (t.table1.bucket i).full = true → (t.table1.bucket i).key = k →
      t.table1.buckets.getD i 0 =
        t.table1.buckets.getD (Xuckoo.rightmostnbits t.table1.depth (h1 k)) 0) ∧
    (∀ j, j < t.table2.size → (t.table2.bucket j).full = true → (t.table2.bucket j).key = k →
      t.table2.buckets.getD j 0 =
        t.table2.buckets.getD (Xuckoo.rightmostnbits t.table2.depth (h2 k)) 0) := by
  obtain ⟨hI, hh⟩ := Xuckoo.xu_reachableBy_spec hr
  have ht1 := Xuckoo.stored_iff_target (hI.dir 1) (hI.keys 1) k
  have ht2 := Xuckoo.stored_iff_target (hI.dir 2) (hI.keys 2) k
  rw [← aux_rightmostnbits] at ht1 ht2
  refine ⟨?_, ?_, ?_, ?_⟩
  · rcases (hh k).mpr hk with h | h
    · exact Or.inl (ht1.mp h)
    · exact Or.inr (ht2.mp h)
  · rintro ⟨c1, c2⟩
    exact hI.disj k ⟨ht1.mpr c1, ht2.mpr c2⟩
  · intro i hi hf hik
    have : t.table1.buckets.getD (h1 (t.table1.bucket i).key % 2 ^ t.table1.depth) 0 =
        t.table1.buckets.getD i 0 := Xuckoo.target_ptr (hI.dir 1) (hI.keys 1) i hi hf
    rw [hik, ← aux_rightmostnbits] at this
    exact this.symm
  · intro j hj hf hjk
    have : t.table2.buckets.getD (h2 (t.table2.bucket j).key % 2 ^ t.table2.depth) 0 =
        t.table2.buckets.getD j 0 := Xuckoo.target_ptr (hI.dir 2) (hI.keys 2) j hj hf
    rw [hjk, ← aux_rightmostnbits] at this
    exact this.symm

/-- C9. Directory alias consistency: in every reachable extendible cuckoo
table both directories are alias consistent (entries whose indices agree on
the low local-depth bits of the bucket at the first index hold the same
pointer), and `double_table` and `split_bucket` applied to a directory of a
reachable table return an alias consistent directory. -/
theorem xuckoo_alias_consistency (h1 h2 : Key → Nat) (junk : Nat → Key)
    (t : Xuckoo.XuckooHashTable) (hr : Xuckoo.Reachable h1 h2 junk t) :
    Xuckoo.AliasConsistent t.table1 ∧ Xuckoo.AliasConsistent t.table2 ∧
    (∀ n T', Xuckoo.double_table (t.inner n) = .ok T' → Xuckoo.AliasConsistent T') ∧
    (∀ n a no T', a < (t.inner n).size →
      Xuckoo.split_bucket h1 h2 junk (t.inner n) a no = .ok T' →
      Xuckoo.AliasConsistent T') := by
  have hI := Xuckoo.xu_reachable_inv hr
  refine ⟨(hI.dir 1).aliased, (hI.dir 2).aliased, ?_, ?_⟩
  · intro n T' hd
    exact (Xuckoo.dir_double (hI.dir n) hd).1.aliased
  · intro n a no T' ha hs
    exact (Xuckoo.split_bucket_dir (hI.dir n) ha hs).1.aliased

/-! ## Worked examples of the theorems above -/

/-- Witness for C5: keys 1, 3, 1 into a table of size 1 with `h1 k = k`; the
second insert doubles the table and the third is a duplicate. -/
theorem linear_insert_result_witness :
    (1 ≤ 1 ∧ Linear.new_linear_hash_table (fun _ => 0) 1 = .ok Linear.demo_empty ∧
      Linear.insert_all (fun k => k) (fun _ => 0) Linear.demo_empty [1, 3, 1]
        = .ok (Linear.demo_two, [true, true, false])) ∧
    ([true, true, false].length = [1, 3, 1].length ∧
      ∀ i, i < [1, 3, 1].length →
        ([true, true, false].getD i false = true ↔ [1, 3, 1].getD i 0 ∉ [1, 3, 1].take i)) :=
  ⟨⟨by decide, (by rfl), (by rfl)⟩,
    (linear_insert_result (fun k => k) (fun _ => 0) 1 [1, 3, 1] Linear.demo_empty
      (by decide) (by rfl)).2 Linear.demo_two [true, true, false] (by rfl)⟩

/-- Witness for C6: inserting 3 into the full table of size 1 that holds 1
doubles the table; 3 is lookup-true afterwards and 1 still is. -/
theorem linear_no_loss_witness :
    (Linear.Reachable (fun k => k) (fun _ => 0) Linear.demo_one ∧
      Linear.linear_hash_table_insert (fun k => k) (fun _ => 0) Linear.demo_one 3
        = .ok (Linear.demo_two, true)) ∧
    (Linear.linear_hash_table_lookup (fun k => k) Linear.demo_two 3 = .ok true ∧
      ∀ x, Linear.linear_hash_table_lookup (fun k => k) Linear.demo_one x = .ok true →
        Linear.linear_hash_table_lookup (fun k => k) Linear.demo_two x = .ok true) :=
  ⟨⟨Linear.Reachable.step Linear.demo_empty Linear.demo_one 1 true
      (Linear.Reachable.init 1 Linear.demo_empty (by decide) (by rfl)) (by rfl), (by rfl)⟩,
    (linear_no_loss (fun k => k) (fun _ => 0) Linear.demo_one 3
      (Linear.Reachable.step Linear.demo_empty Linear.demo_one 1 true
        (Linear.Reachable.init 1 Linear.demo_empty (by decide) (by rfl)) (by rfl))).2
      Linear.demo_two true (by rfl)⟩

/-- Witness for C3: keys 1, 3, 1 into a cuckoo table of size 1 with `h1 k = k`
and `h2 k = k / 2`; the second insert doubles the arrays. -/
theorem cuckoo_insert_result_witness :
    (1 ≤ 1 ∧ Cuckoo.new_cuckoo_hash_table (fun _ => 0) 1 = .ok Cuckoo.demo_empty ∧
      Cuckoo.insert_all (fun k => k) (fun k => k / 2) (fun _ => 0) Cuckoo.demo_empty [1, 3, 1]
        = .ok (Cuckoo.demo_two, [true, true, false])) ∧
    ([true, true, false].length = [1, 3, 1].length ∧
      ∀ i, i < [1, 3, 1].length →
        ([true, true, false].getD i false = true ↔ [1, 3, 1].getD i 0 ∉ [1, 3, 1].take i)) :=
  ⟨⟨by decide, (by rfl), (by rfl)⟩,
    (cuckoo_insert_result (fun k => k) (fun k => k / 2) (fun _ => 0) 1 [1, 3, 1]
      Cuckoo.demo_empty (by decide) (by rfl)).2 Cuckoo.demo_two [true, true, false] (by rfl)⟩

/-- Witness for C4: inserting 3 into the cuckoo table of size 1 that holds 1
doubles the arrays and kicks 1; both keys are lookup-true afterwards. -/
theorem cuckoo_no_loss_witness :
    (Cuckoo.Reachable (fun k => k) (fun k => k / 2) (fun _ => 0) Cuckoo.demo_one ∧
      Cuckoo.cuckoo_hash_table_insert (fun k => k) (fun k => k / 2) (fun _ => 0)
        Cuckoo.demo_one 3 = .ok (Cuckoo.demo_two, true)) ∧
    (Cuckoo.cuckoo_hash_table_lookup (fun k => k) (fun k => k / 2) Cuckoo.demo_two 3 = true ∧
      ∀ x, Cuckoo.cuckoo_hash_table_lookup (fun k => k) (fun k => k / 2) Cuckoo.demo_one x
          = true →
        Cuckoo.cuckoo_hash_table_lookup (fun k => k) (fun k => k / 2) Cuckoo.demo_two x
          = true) :=
  ⟨⟨Cuckoo.Reachable.step Cuckoo.demo_empty Cuckoo.demo_one 1 true
      (Cuckoo.Reachable.init 1 Cuckoo.demo_empty (by decide) (by rfl)) (by rfl), (by rfl)⟩,
    (cuckoo_no_loss (fun k => k) (fun k => k / 2) (fun _ => 0) Cuckoo.demo_one 3
      (Cuckoo.Reachable.step Cuckoo.demo_empty Cuckoo.demo_one 1 true
        (Cuckoo.Reachable.init 1 Cuckoo.demo_empty (by decide) (by rfl)) (by rfl))).2
      Cuckoo.demo_two true (by rfl)⟩

/-- Witness for C8: after inserting 1 and 3 into a cuckoo table of size 1,
key 1 is in `table2[h2(1) mod 2]` only. -/
theorem cuckoo_single_residency_witness :
    (Cuckoo.ReachableBy (fun k => k) (fun k => k / 2) (fun _ => 0) [3, 1] Cuckoo.demo_two ∧
      1 ∈ [3, 1]) ∧
    (Cuckoo.demo_two.table2.inuse.getD (1 / 2 % Cuckoo.demo_two.size) false = true ∧
      Cuckoo.demo_two.table2.slots.getD (1 / 2 % Cuckoo.demo_two.size) 0 = 1) ∧
    ¬ (Cuckoo.demo_two.table1.inuse.getD (1 % Cuckoo.demo_two.size) false = true ∧
      Cuckoo.demo_two.table1.slots.getD (1 % Cuckoo.demo_two.size) 0 = 1) ∧
    (∀ i, i < Cuckoo.demo_two.size → Cuckoo.demo_two.table1.inuse.getD i false = true →
      Cuckoo.demo_two.table1.slots.getD i 0 = 1 → i = 1 % Cuckoo.demo_two.size) :=
  ⟨⟨Cuckoo.ReachableBy.step [1] Cuckoo.demo_one Cuckoo.demo_two 3 true
      (Cuckoo.ReachableBy.step [] Cuckoo.demo_empty Cuckoo.demo_one 1 true
        (Cuckoo.ReachableBy.init 1 Cuckoo.demo_empty (by decide) (by rfl)) (by rfl)) (by rfl), by decide⟩,
    by decide, by decide,
    (cuckoo_single_residency (fun k => k) (fun k => k / 2) (fun _ => 0) [3, 1]
      Cuckoo.demo_two 1
      (Cuckoo.ReachableBy.step [1] Cuckoo.demo_one Cuckoo.demo_two 3 true
        (Cuckoo.ReachableBy.step [] Cuckoo.demo_empty Cuckoo.demo_one 1 true
          (Cuckoo.ReachableBy.init 1 Cuckoo.demo_empty (by decide) (by rfl)) (by rfl)) (by rfl))
      (by decide)).2.2.1⟩

/-- Witness for C1: keys 0, 1, 3, 1, 4 into a fresh extendible cuckoo table
with `h1 k = k` and `h2 k = k / 4`; the third insert kicks and splits. -/
theorem xuckoo_insert_result_witness :
    Xuckoo.insert_all (fun k => k) (fun k => k / 4) (fun _ => 0)
        (Xuckoo.new_xuckoo_hash_table (fun _ => 0)) [0, 1, 3, 1, 4]
      = .ok (Xuckoo.demo_four, [true, true, true, false, true]) ∧
    ([true, true, true, false, true].length = [0, 1, 3, 1, 4].length ∧
      ∀ i, i < [0, 1, 3, 1, 4].length →
        ([true, true, true, false, true].getD i false = true ↔
          [0, 1, 3, 1, 4].getD i 0 ∉ [0, 1, 3, 1, 4].take i)) :=
  ⟨(by rfl),
    (xuckoo_insert_result (fun k => k) (fun k => k / 4) (fun _ => 0) [0, 1, 3, 1, 4]).2
      Xuckoo.demo_four [true, true, true, false, true] (by rfl)⟩

/-- Witness for C2: inserting 3 into the table holding 0 and 1 kicks both keys
and splits directory 1, directory 2 and directory 1 again; 3 is lookup-true
afterwards and 0 and 1 still are. -/
theorem xuckoo_no_loss_witness :
    (Xuckoo.Reachable (fun k => k) (fun k => k / 4) (fun _ => 0) Xuckoo.demo_two ∧
      Xuckoo.xuckoo_hash_table_insert (fun k => k) (fun k => k / 4) (fun _ => 0)
        Xuckoo.demo_two 3 = .ok (Xuckoo.demo_three, true)) ∧
    (Xuckoo.xuckoo_hash_table_lookup (fun k => k) (fun k => k / 4) Xuckoo.demo_three 3 = true ∧
      ∀ x, Xuckoo.xuckoo_hash_table_lookup (fun k => k) (fun k => k / 4) Xuckoo.demo_two x
          = true →
        Xuckoo.xuckoo_hash_table_lookup (fun k => k) (fun k => k / 4) Xuckoo.demo_three x
          = true) :=
  ⟨⟨Xuckoo.Reachable.step Xuckoo.demo_one Xuckoo.demo_two 1 true
      (Xuckoo.Reachable.step _ Xuckoo.demo_one 0 true Xuckoo.Reachable.init (by rfl)) (by rfl), (by rfl)⟩,
    (xuckoo_no_loss (fun k => k) (fun k => k / 4) (fun _ => 0) Xuckoo.demo_two 3
      (Xuckoo.Reachable.step Xuckoo.demo_one Xuckoo.demo_two 1 true
        (Xuckoo.Reachable.step _ Xuckoo.demo_one 0 true Xuckoo.Reachable.init (by rfl))
        (by rfl))).2 Xuckoo.demo_three true (by rfl)⟩

/-- Witness for C7: after inserting 0, 1, 3, key 0 is in the bucket of
directory 2 at the low bit of `h2 0` and not in its bucket of directory 1. -/
theorem xuckoo_single_residency_witness :
    (Xuckoo.ReachableBy (fun k => k) (fun k => k / 4) (fun _ => 0) [3, 1, 0]
        Xuckoo.demo_three ∧ 0 ∈ [3, 1, 0]) ∧
    ((Xuckoo.demo_three.table2.bucket
        (Xuckoo.rightmostnbits Xuckoo.demo_three.table2.depth (0 / 4))).full = true ∧
      (Xuckoo.demo_three.table2.bucket
        (Xuckoo.rightmostnbits Xuckoo.demo_three.table2.depth (0 / 4))).key = 0) ∧
    (Xuckoo.demo_three.table1.bucket
        (Xuckoo.rightmostnbits Xuckoo.demo_three.table1.depth 0)).full = false ∧
    (∀ j, j < Xuckoo.demo_three.table2.size →
      (Xuckoo.demo_three.table2.bucket j).full = true →
      (Xuckoo.demo_three.table2.bucket j).key = 0 →
      Xuckoo.demo_three.table2.buckets.getD j 0 =
        Xuckoo.demo_three.table2.buckets.getD
          (Xuckoo.rightmostnbits Xuckoo.demo_three.table2.depth ((fun k => k / 4) 0)) 0) :=
  ⟨⟨Xuckoo.ReachableBy.step [1, 0] Xuckoo.demo_two Xuckoo.demo_three 3 true
      (Xuckoo.ReachableBy.step [0] Xuckoo.demo_one Xuckoo.demo_two 1 true
        (Xuckoo.ReachableBy.step [] _ Xuckoo.demo_one 0 true Xuckoo.ReachableBy.init (by rfl))
        (by rfl)) (by rfl), by decide⟩,
    by decide, by decide,
    (xuckoo_single_residency (fun k => k) (fun k => k / 4) (fun _ => 0) [3, 1, 0]
      Xuckoo.demo_three 0
      (Xuckoo.ReachableBy.step [1, 0] Xuckoo.demo_two Xuckoo.demo_three 3 true
        (Xuckoo.ReachableBy.step [0] Xuckoo.demo_one Xuckoo.demo_two 1 true
          (Xuckoo.ReachableBy.step [] _ Xuckoo.demo_one 0 true Xuckoo.ReachableBy.init (by rfl))
          (by rfl)) (by rfl))
      (by decide)).2.2.2⟩

/-- Witness for C9: the table reached by inserting 0, 1, 3, whose directory 1
has four entries for three buckets, is alias consistent and stays so under
`double_table` and `split_bucket`. -/
theorem xuckoo_alias_consistency_witness :
    Xuckoo.Reachable (fun k => k) (fun k => k / 4) (fun _ => 0) Xuckoo.demo_three ∧
    (Xuckoo.AliasConsistent Xuckoo.demo_three.table1 ∧
      Xuckoo.AliasConsistent Xuckoo.demo_three.table2 ∧
      (∀ n T', Xuckoo.double_table (Xuckoo.demo_three.inner n) = .ok T' →
        Xuckoo.AliasConsistent T') ∧
      (∀ n a no T', a < (Xuckoo.demo_three.inner n).size →
        Xuckoo.split_bucket (fun k => k) (fun k => k / 4) (fun _ => 0)
          (Xuckoo.demo_three.inner n) a no = .ok T' →
        Xuckoo.AliasConsistent T')) :=
  ⟨Xuckoo.Reachable.step Xuckoo.demo_two Xuckoo.demo_three 3 true
      (Xuckoo.Reachable.step Xuckoo.demo_one Xuckoo.demo_two 1 true
        (Xuckoo.Reachable.step _ Xuckoo.demo_one 0 true Xuckoo.Reachable.init (by rfl)) (by rfl)) (by rfl),
    xuckoo_alias_consistency (fun k => k) (fun k => k / 4) (fun _ => 0) Xuckoo.demo_three
      (Xuckoo.Reachable.step Xuckoo.demo_two Xuckoo.demo_three 3 true
        (Xuckoo.Reachable.step Xuckoo.demo_one Xuckoo.demo_two 1 true
          (Xuckoo.Reachable.step _ Xuckoo.demo_one 0 true Xuckoo.Reachable.init (by rfl)) (by rfl))
        (by rfl))⟩

/-- C10 (the code at the failing input). With `h1 k = k` and `h2 k = k / 4`,
the table reached by inserting 0, 1, 3 holds two keys in directory 1 and one
in directory 2, and the bucket of key 4 in directory 2 is empty; yet
`xuckoo_hash_table_insert` of 4 stores 4 in directory 1 and increments the
key counter of directory 1, leaving directory 2 as it was. -/
theorem xuckoo_start_directory_divergence :
    Xuckoo.insert_all (fun k => k) (fun k => k / 4) (fun _ => 0)
        (Xuckoo.new_xuckoo_hash_table (fun _ => 0)) [0, 1, 3]
      = .ok (Xuckoo.demo_three, [true, true, true]) ∧
    Xuckoo.demo_three.table2.nkeys < Xuckoo.demo_three.table1.nkeys ∧
    (Xuckoo.demo_three.table2.bucket
      (Xuckoo.rightmostnbits Xuckoo.demo_three.table2.depth (4 / 4))).full = false ∧
    Xuckoo.xuckoo_hash_table_insert (fun k => k) (fun k => k / 4) (fun _ => 0)
        Xuckoo.demo_three 4 = .ok (Xuckoo.demo_four, true) ∧
    Xuckoo.demo_four.table1.nkeys = Xuckoo.demo_three.table1.nkeys + 1 ∧
    Xuckoo.demo_four.table2 = Xuckoo.demo_three.table2 ∧
    (Xuckoo.demo_four.table1.bucket (Xuckoo.rightmostnbits Xuckoo.demo_four.table1.depth 4))
      = { id := 0, depth := 1, full := true, key := 4 } :=
  ⟨(by rfl), by decide, by decide, (by rfl), by decide, by decide, by decide⟩

/-! ### When `linear_hash_table_insert` doubles the table -/

namespace Linear

theorem lin_reinsert_key_load {h1 : Key → Nat} {t t' : LinearHashTable} (key : Key)
    (hr : reinsert_key h1 t key = .ok t') : t'.load = t.load + 1 := by
  unfold reinsert_key at hr
  cases hl : reinsert_loop t (t.size + 1) (h1 key % t.size) 0 with
  | error e => rw [hl] at hr; simp at hr
  | ok hs =>
    obtain ⟨h, s⟩ := hs
    rw [hl] at hr
    simp only [Except.ok.injEq] at hr
    subst hr
    rfl

theorem lin_rehash_loop_load {h1 : Key → Nat} (os : List Key) (ou : List Bool) :
    ∀ (is : List Nat) (t t' : LinearHashTable), (∀ i, i ∈ is → ou.getD i false = true) →
      rehash_loop h1 os ou is t = .ok t' → t'.load = t.load + is.length := by
  intro is
  induction is with
  | nil =>
    intro t t' _ hr
    simp only [rehash_loop, Except.ok.injEq] at hr
    subst hr
    rfl
  | cons i is ih =>
    intro t t' hall hr
    unfold rehash_loop at hr
    rw [if_pos (hall i (List.mem_cons_self _ _))] at hr
    cases hk : reinsert_key h1 t (os.getD i 0) with
    | error e => rw [hk] at hr; simp at hr
    | ok t1 =>
      rw [hk] at hr
      simp only at hr
      have h1' := lin_reinsert_key_load _ hk
      have h2' := ih t1 t' (fun j hj => hall j (List.mem_cons_of_mem _ hj)) hr
      rw [h2', h1', List.length_cons]; omega

/-- Doubling a table whose slots are all in use gives load `size`. -/
theorem lin_double_table_load {h1 : Key → Nat} {junk : Nat → Key} {t t' : LinearHashTable}
    (hall : ∀ i, i < t.size → t.inuse.getD i false = true)
    (hr : double_table h1 junk t = .ok t') : t'.load = t.size := by
  unfold double_table initialise_table at hr
  by_cases hc : t.size * 2 < MAX_TABLE_SIZE
  · rw [if_pos hc] at hr
    simp only at hr
    have := lin_rehash_loop_load _ _ _ _ _
      (fun i hi => hall i (List.mem_range.mp hi)) hr
    rw [this]
    simp
  · rw [if_neg hc] at hr; simp at hr

/-- One level of `linear_hash_table_insert`: either every slot is in use and
none holds the key, and the call doubles a table with the same arrays and
inserts again, or the size is kept and the load grows by one exactly when
the call returns true. -/
theorem lin_insert_step {h1 : Key → Nat} {junk : Nat → Key} (fuel : Nat)
    {t t' : LinearHashTable} {k : Key} {b : Bool} (hI : Inv h1 t)
    (hr : linear_hash_table_insert_fuel h1 junk (fuel + 1) t k = .ok (t', b)) :
    ((∀ i, i < t.size → t.inuse.getD i false = true ∧ t.slots.getD i 0 ≠ k) ∧
      ∃ T t2, T.slots = t.slots ∧ T.inuse = t.inuse ∧ T.size = t.size ∧
        double_table h1 junk T = .ok t2 ∧
        linear_hash_table_insert_fuel h1 junk fuel t2 k = .ok (t', b)) ∨
    (¬ (∀ i, i < t.size → t.inuse.getD i false = true ∧ t.slots.getD i 0 ≠ k) ∧
      t'.size = t.size ∧ t'.load = t.load + (if b = true then 1 else 0)) := by
  unfold linear_hash_table_insert_fuel at hr
  obtain ⟨p, hp, hps, hpu, hpz, hpl, hfound, hnot⟩ :=
    lin_insert_loop_spec k (h1 k) (t.size + 1) t 0 (by omega) (by omega) (by intro s hs; omega)
  have hp' : insert_loop k (t.size + 1) t (h1 k % t.size) 0 = .ok p := by simpa using hp
  rw [hp'] at hr
  simp only at hr
  by_cases hf : p.found = true
  · rw [if_pos hf] at hr
    simp only [Except.ok.injEq, Prod.mk.injEq] at hr
    obtain ⟨rfl, rfl⟩ := hr
    obtain ⟨i, hi, hu, hk⟩ := (lin_holds_iff_foundAt hI k).mpr (hfound.mp hf)
    right
    refine ⟨fun hall => (hall i hi).2 hk, hpz, by rw [hpl]; simp⟩
  · rw [if_neg hf] at hr
    have hnk : ¬ holds t k := fun hk => hf (hfound.mpr ((lin_holds_iff_foundAt hI k).mp hk))
    obtain ⟨hph, hple, hprun, hpfree⟩ := hnot (by simpa using hf)
    by_cases hfull : p.steps = p.table.size
    · rw [if_pos hfull] at hr
      left
      constructor
      · intro i hi
        obtain ⟨j, hj, hji⟩ := aux_offset_exists (h1 k) i t.size hi
        have hu := hprun j (by rw [hfull, hpz]; exact hj)
        rw [hji] at hu
        exact ⟨hu, fun hk => hnk ⟨i, hi, hu, hk⟩⟩
      · cases hd : double_table h1 junk { p.table with
            stats := { p.table.stats with is_recorded_collisions := 1 } } with
        | error e => rw [hd] at hr; simp at hr
        | ok t2 =>
          rw [hd] at hr
          exact ⟨{ p.table with
            stats := { p.table.stats with is_recorded_collisions := 1 } }, t2, hps, hpu, hpz,
            hd, hr⟩
    · rw [if_neg hfull] at hr
      simp only [Except.ok.injEq, Prod.mk.injEq] at hr
      obtain ⟨rfl, rfl⟩ := hr
      right
      refine ⟨?_, hpz, by simp only [if_true]; rw [hpl]⟩
      intro hall
      have hfree := hpfree (by rw [← hpz]; exact hfull)
      have hlt : p.h < t.size := by rw [hph]; exact Nat.mod_lt _ hI.size_pos
      rw [(hall p.h hlt).1] at hfree
      exact Bool.noConfusion hfree

/-- The two levels of `linear_hash_table_insert`: the table is doubled exactly
when every slot is in use and none holds the key. -/
theorem lin_insert_shape {h1 : Key → Nat} {junk : Nat → Key} (fuel : Nat)
    {t t' : LinearHashTable} {k : Key} {b : Bool} (hI : Inv h1 t)
    (hr : linear_hash_table_insert_fuel h1 junk (fuel + 2) t k = .ok (t', b)) :
    ((∀ i, i < t.size → t.inuse.getD i false = true ∧ t.slots.getD i 0 ≠ k) →
      b = true ∧ t'.size = 2 * t.size ∧ t'.load = t.size + 1) ∧
    (¬ (∀ i, i < t.size → t.inuse.getD i false = true ∧ t.slots.getD i 0 ≠ k) →
      t'.size = t.size ∧ t'.load = t.load + (if b = true then 1 else 0)) := by
  rcases lin_insert_step (fuel + 1) hI hr with ⟨hall, T, t2, hs, hu, hz, hd, hr2⟩ | ⟨hn, hz, hl⟩
  · refine ⟨fun _ => ?_, fun hn => absurd hall hn⟩
    have hIT : Inv h1 T := by
      refine ⟨by rw [hz]; exact hI.size_pos, by rw [hs, hz]; exact hI.slots_len,
        by rw [hu, hz]; exact hI.inuse_len, ?_⟩
      intro i hi hiu j hj hji j' hj'
      rw [hs, hz] at hji
      rw [hu] at hiu
      rw [hz] at hi hj
      have := hI.nogap i hi hiu j hj hji j' hj'
      rw [hs, hu, hz]; exact this
    obtain ⟨hI2, hh2, hz2⟩ := lin_double_table_spec hIT hd
    have hl2 : t2.load = T.size :=
      lin_double_table_load (fun i hi => by rw [hu]; rw [hz] at hi; exact (hall i hi).1) hd
    have hused : used t2 ≤ T.size := by
      rcases lin_double_table_total h1 junk T hIT.size_pos with ⟨t3, hd3, _, _, hu3, _⟩ | hd3
      · rw [hd] at hd3
        simp only [Except.ok.injEq] at hd3
        rw [hd3]; exact hu3
      · rw [hd] at hd3; cases hd3
    have hnk : ¬ holds t k := by
      rintro ⟨i, hi, _, hk⟩
      exact (hall i hi).2 hk
    have hnk2 : ¬ holds t2 k := by
      rw [hh2]
      rintro ⟨i, hi, hiu, hk⟩
      rw [hz] at hi; rw [hu] at hiu; rw [hs] at hk
      exact hnk ⟨i, hi, hiu, hk⟩
    obtain ⟨_, _, hb⟩ := lin_insert_fuel_spec _ _ _ _ _ hI2 hr2
    have hbt : b = true := hb.mpr hnk2
    rcases lin_insert_step fuel hI2 hr2 with ⟨hall2, _⟩ | ⟨_, hz', hl'⟩
    · exfalso
      have hcount := aux_count_all_true t2.inuse (by
        intro i hi
        rw [hI2.inuse_len] at hi
        exact (hall2 i hi).1)
      rw [hI2.inuse_len] at hcount
      unfold used at hused
      have := hIT.size_pos
      omega
    · refine ⟨hbt, by rw [hz', hz2, hz]; omega, ?_⟩
      rw [hl', hl2, hz, hbt]; simp
  · exact ⟨fun hall => absurd hall hn, fun _ => ⟨hz, hl⟩⟩

end Linear

namespace Linear

theorem lin_lookup_true_iff {h1 : Key → Nat} {t : LinearHashTable} (hI : Inv h1 t) (x : Key) :
    linear_hash_table_lookup h1 t x = .ok true ↔ holds t x := by
  obtain ⟨b, hb, hiff⟩ := lin_lookup_spec hI x
  rw [hb, ← hiff]
  constructor
  · intro h; simp only [Except.ok.injEq] at h; exact h
  · intro h; rw [h]

end Linear

/-- C20. LinearTable doubling: on a reachable table of size `n`,
`linear_hash_table_insert` of `k` returns or trips the size assertion; a
completed call has doubled the table (the new size is `2 * n`) exactly when
all `n` slots were in use and none held `k`; in that case it returns true,
the new load is `n + 1` and the keys found by lookup are the old ones plus
`k`; in every other case the size is unchanged. -/
theorem linear_doubling (h1 : Key → Nat) (junk : Nat → Key) (t : Linear.LinearHashTable)
    (k : Key) (hr : Linear.Reachable h1 junk t) :
    ((∃ t' b, Linear.linear_hash_table_insert h1 junk t k = .ok (t', b)) ∨
      Linear.linear_hash_table_insert h1 junk t k = .error .assertion) ∧
    ∀ t' b, Linear.linear_hash_table_insert h1 junk t k = .ok (t', b) →
      (t'.size = 2 * t.size ↔
        ∀ i, i < t.size → t.inuse.getD i false = true ∧ t.slots.getD i 0 ≠ k) ∧
      ((∀ i, i < t.size → t.inuse.getD i false = true ∧ t.slots.getD i 0 ≠ k) →
        b = true ∧ t'.load = t.size + 1 ∧
        ∀ x, Linear.linear_hash_table_lookup h1 t' x = .ok true ↔
          (Linear.linear_hash_table_lookup h1 t x = .ok true ∨ x = k)) ∧
      (¬ (∀ i, i < t.size → t.inuse.getD i false = true ∧ t.slots.getD i 0 ≠ k) →
        t'.size = t.size) := by
  refine ⟨Linear.lin_insert_returns h1 junk t k hr, ?_⟩
  intro t' b hi
  have hI := Linear.lin_reachable_inv hr
  obtain ⟨hI', hset, _⟩ := Linear.lin_insert_fuel_spec _ _ _ _ _ hI hi
  have hi' : Linear.linear_hash_table_insert_fuel h1 junk (26 + 2) t k = .ok (t', b) := hi
  obtain ⟨hfull, hnot⟩ := Linear.lin_insert_shape 26 hI hi'
  have hpos := hI.size_pos
  refine ⟨?_, ?_, fun hn => (hnot hn).1⟩
  · constructor
    · intro hsz
      by_contra hn
      have := (hnot hn).1
      omega
    · intro hall; exact (hfull hall).2.1
  · intro hall
    obtain ⟨hb, _, hl⟩ := hfull hall
    refine ⟨hb, hl, ?_⟩
    intro x
    rw [Linear.lin_lookup_true_iff hI' x, Linear.lin_lookup_true_iff hI x]
    exact hset x

/-- Witness for C20: inserting 3 into the full table of size 1 that holds 1
(`h1 k = k`) doubles it: size 2, load 2. -/
theorem linear_doubling_witness :
    (Linear.Reachable (fun k => k) (fun _ => 0) Linear.demo_one ∧
      Linear.linear_hash_table_insert (fun k => k) (fun _ => 0) Linear.demo_one 3
        = .ok (Linear.demo_two, true)) ∧
    (Linear.demo_two.size = 2 * Linear.demo_one.size ↔
      ∀ i, i < Linear.demo_one.size →
        Linear.demo_one.inuse.getD i false = true ∧ Linear.demo_one.slots.getD i 0 ≠ 3) :=
  ⟨⟨Linear.Reachable.step Linear.demo_empty Linear.demo_one 1 true
      (Linear.Reachable.init 1 Linear.demo_empty (by decide) (by rfl)) (by rfl), (by rfl)⟩,
    ((linear_doubling (fun k => k) (fun _ => 0) Linear.demo_one 3
      (Linear.Reachable.step Linear.demo_empty Linear.demo_one 1 true
        (Linear.Reachable.init 1 Linear.demo_empty (by decide) (by rfl)) (by rfl))).2
      Linear.demo_two true (by rfl)).1⟩

/-! ### The eviction loop of cuckoo.c as a sequence of kicks -/

namespace Cuckoo

theorem cu_kick_loop_step (h1 h2 : Key → Nat) (fuel : Nat) (s : Kick) (hg : kick_guard s) :
    kick_loop h1 h2 (fuel + 1) s = kick_loop h1 h2 fuel (kick h1 h2 s) := by
  unfold kick_guard at hg
  rw [kick_loop]
  simp only
  rw [if_pos hg]
  unfold kick
  simp only
  by_cases c1 : s.insert_table = 1
  · rw [if_pos c1, if_pos c1]
  · rw [if_neg c1, if_neg c1]
    by_cases c2 : s.insert_table = 2
    · rw [if_pos c2, if_pos c2]
    · rw [if_neg c2, if_neg c2]

theorem cu_kick_loop_stop (h1 h2 : Key → Nat) (fuel : Nat) (s : Kick) (hg : ¬ kick_guard s) :
    kick_loop h1 h2 (fuel + 1) s = .ok s := by
  unfold kick_guard at hg
  rw [kick_loop]
  simp only
  rw [if_neg hg]

theorem cu_kicks_succ (h1 h2 : Key → Nat) :
    ∀ n s, kicks h1 h2 (n + 1) s = kick h1 h2 (kicks h1 h2 n s) := by
  intro n
  induction n with
  | zero => intro s; rfl
  | succ n ih => intro s; rw [kicks, ih (kick h1 h2 s)]; rfl

theorem cu_kick_fields (h1 h2 : Key → Nat) (s : Kick) :
    (kick h1 h2 s).time_kicked_keys = s.time_kicked_keys + 1 ∧
    (kick h1 h2 s).table.size = s.table.size ∧
    (kick h1 h2 s).key = (s.table.inner s.insert_table).slots.getD s.H 0 ∧
    (kick h1 h2 s).table = s.table.setInner s.insert_table
      { s.table.inner s.insert_table with
        slots := (s.table.inner s.insert_table).slots.set s.H s.key } := by
  unfold kick
  simp only
  by_cases c1 : s.insert_table = 1
  · rw [if_pos c1]; exact ⟨rfl, cu_setInner_size _ _ _, rfl, rfl⟩
  · rw [if_neg c1]
    by_cases c2 : s.insert_table = 2
    · rw [if_pos c2]; exact ⟨rfl, cu_setInner_size _ _ _, rfl, rfl⟩
    · rw [if_neg c2]; exact ⟨rfl, cu_setInner_size _ _ _, rfl, rfl⟩

/-- A run of the eviction loop is a sequence of kicks, each made under the
guard of the loop, that ends in the first state whose guard fails. -/
theorem cu_kick_loop_trace (h1 h2 : Key → Nat) :
    ∀ fuel (s s' : Kick), kick_loop h1 h2 fuel s = .ok s' →
      ∃ n, s' = kicks h1 h2 n s ∧ (∀ i, i < n → kick_guard (kicks h1 h2 i s)) ∧
        ¬ kick_guard s' ∧ s'.time_kicked_keys = s.time_kicked_keys + n ∧
        s'.table.size = s.table.size := by
  intro fuel
  induction fuel with
  | zero => intro s s' hr; simp [kick_loop] at hr
  | succ fuel ih =>
    intro s s' hr
    by_cases hg : kick_guard s
    · rw [cu_kick_loop_step h1 h2 fuel s hg] at hr
      obtain ⟨n, hs, hall, hng, ht, hz⟩ := ih _ s' hr
      obtain ⟨kt, kz, _, _⟩ := cu_kick_fields h1 h2 s
      refine ⟨n + 1, hs, ?_, hng, by rw [ht, kt]; omega, by rw [hz, kz]⟩
      intro i hi
      cases i with
      | zero => exact hg
      | succ i => exact hall i (by omega)
    · rw [cu_kick_loop_stop h1 h2 fuel s hg] at hr
      simp only [Except.ok.injEq] at hr
      subst hr
      exact ⟨0, rfl, fun i hi => absurd hi (Nat.not_lt_zero i), hg, rfl, rfl⟩

/-- The end of `cuckoo_hash_table_insert` when no doubling is due: the table
returned is `place s`. -/
theorem cu_insert_fuel_chain (h1 h2 : Key → Nat) (junk : Nat → Key) (fuel : Nat)
    (t : CuckooHashTable) (k : Key) (s : Kick)
    (hfull : t.load ≠ 2 * t.size - 1)
    (hd1 : ¬ (t.table1.slots.getD (h1 k % t.size) 0 = k ∧
      t.table1.inuse.getD (h1 k % t.size) false = true))
    (hd2 : ¬ (t.table2.slots.getD (h2 k % t.size) 0 = k ∧
      t.table2.inuse.getD (h2 k % t.size) false = true))
    (hs : kick_loop h1 h2 (2 * t.size + 1) (chain_start h1 t k) = .ok s) :
    cuckoo_hash_table_insert_fuel h1 h2 junk (fuel + 1) t k =
      if s.time_kicked_keys = 2 * s.table.size then
        match double_cuckoo_table (cuckoo_hash_table_insert_fuel h1 h2 junk fuel) junk
            s.table with
        | .error e => .error e
        | .ok table => cuckoo_hash_table_insert_fuel h1 h2 junk fuel table s.key
      else .ok (place s, true) := by
  unfold chain_start at hs
  rw [cuckoo_hash_table_insert_fuel]
  simp only
  rw [if_neg hfull, if_neg hd1, if_neg hd2, hs]
  rfl

end Cuckoo

/-! ### Counting the in-use slots of a cuckoo table -/

theorem aux_filter_range_length :
    ∀ (l : List Bool),
      ((List.range l.length).filter (fun i => l.getD i false)).length = l.count true := by
  intro l
  induction l with
  | nil => rfl
  | cons b l ih =>
    rw [List.length_cons, List.range_succ_eq_map, List.filter_cons, List.filter_map,
      List.getD_cons_zero]
    have hfun : ((fun i => (b :: l).getD i false) ∘ Nat.succ) = fun i => l.getD i false := by
      funext i; simp
    rw [hfun]
    cases b with
    | true =>
      simp only [if_true, List.length_cons, List.length_map, ih, List.count_cons_self]
    | false =>
      simp only [Bool.false_eq_true, if_false, List.length_map, ih]
      rw [List.count_cons_of_ne (by decide)]

namespace Cuckoo

theorem cu_mem_keysOf (it : InnerTable) (size : Nat) (x : Key) :
    x ∈ keysOf it size ↔
      ∃ i, i < size ∧ it.inuse.getD i false = true ∧ it.slots.getD i 0 = x := by
  unfold keysOf
  simp only [List.mem_map, List.mem_filter, List.mem_range]
  constructor
  · rintro ⟨i, ⟨hi, hu⟩, hx⟩; exact ⟨i, hi, hu, hx⟩
  · rintro ⟨i, hi, hu, hx⟩; exact ⟨i, ⟨hi, hu⟩, hx⟩

theorem cu_mem_keys (t : CuckooHashTable) (x : Key) : x ∈ keys t ↔ holds t x := by
  unfold keys holds storedIn
  rw [List.mem_append, cu_mem_keysOf, cu_mem_keysOf]
  rfl

theorem cu_keysOf_nodup {h1 h2 : Key → Nat} {t : CuckooHashTable} (hI : Inv h1 h2 t) (n : Nat) :
    (keysOf (t.inner n) t.size).Nodup := by
  unfold keysOf
  apply List.Nodup.map_on
  · intro i hi j hj hij
    simp only [List.mem_filter, List.mem_range] at hi hj
    have a1 := hI.addr n i hi.1 hi.2
    have a2 := hI.addr n j hj.1 hj.2
    rw [hij, a2] at a1
    exact a1.symm
  · exact List.Nodup.filter _ (List.nodup_range _)

theorem cu_keys_nodup {h1 h2 : Key → Nat} {t : CuckooHashTable} (hI : Inv h1 h2 t) :
    (keys t).Nodup := by
  unfold keys
  rw [List.nodup_append]
  refine ⟨cu_keysOf_nodup hI 1, cu_keysOf_nodup hI 2, ?_⟩
  intro x hx1 hx2
  exact hI.disj x ⟨(cu_mem_keysOf _ _ x).mp hx1, (cu_mem_keysOf _ _ x).mp hx2⟩

theorem cu_keys_length {h1 h2 : Key → Nat} {t : CuckooHashTable} (hI : Inv h1 h2 t) :
    (keys t).length = inuse_count t := by
  unfold keys keysOf inuse_count
  rw [List.length_append, List.length_map, List.length_map]
  have e1 := aux_filter_range_length t.table1.inuse
  have e2 := aux_filter_range_length t.table2.inuse
  have l1 : t.table1.inuse.length = t.size := hI.len_u 1
  have l2 : t.table2.inuse.length = t.size := hI.len_u 2
  rw [l1] at e1
  rw [l2] at e2
  rw [e1, e2]

/-- Two tables that hold the same keys have the same number of in-use slots. -/
theorem cu_count_eq_of_holds {h1 h2 : Key → Nat} {t t' : CuckooHashTable}
    (hI : Inv h1 h2 t) (hI' : Inv h1 h2 t') (hh : ∀ x, holds t' x ↔ holds t x) :
    inuse_count t' = inuse_count t := by
  rw [← cu_keys_length hI, ← cu_keys_length hI']
  apply List.Perm.length_eq
  rw [List.perm_ext_iff_of_nodup (cu_keys_nodup hI') (cu_keys_nodup hI)]
  intro x
  rw [cu_mem_keys, cu_mem_keys]
  exact hh x

/-- A table with load at most `2 * size - 1` has a free slot. -/
theorem cu_free_slot {h1 h2 : Key → Nat} {t : CuckooHashTable} (hI : Inv h1 h2 t)
    (hc : inuse_count t ≤ 2 * t.size - 1) :
    ∃ n i, (n = 1 ∨ n = 2) ∧ i < t.size ∧ (t.inner n).inuse.getD i false = false := by
  by_contra hno
  have hall : ∀ n, n = 1 ∨ n = 2 → ∀ i, i < (t.inner n).inuse.length →
      (t.inner n).inuse.getD i false = true := by
    intro n hn i hi
    rw [hI.len_u n] at hi
    by_contra hf
    exact hno ⟨n, i, hn, hi, by simpa using hf⟩
  have c1 := aux_count_all_true _ (hall 1 (Or.inl rfl))
  have c2 := aux_count_all_true _ (hall 2 (Or.inr rfl))
  rw [hI.len_u 1] at c1
  rw [hI.len_u 2] at c2
  have c1' : t.table1.inuse.count true = t.size := c1
  have c2' : t.table2.inuse.count true = t.size := c2
  unfold inuse_count at hc
  have := hI.size_pos
  omega

end Cuckoo

/-! ### The load invariant along the eviction loop -/

namespace Cuckoo

theorem cu_kick_table1 (h1 h2 : Key → Nat) (s : Kick) (h : s.insert_table = 1) :
    kick h1 h2 s =
      { table := { s.table with
          table1 := { s.table.table1 with slots := s.table.table1.slots.set s.H s.key } }
        key := s.table.table1.slots.getD s.H 0
        H := h2 (s.table.table1.slots.getD s.H 0) % s.table.size
        insert_table := 2
        time_kicked_keys := s.time_kicked_keys + 1 } := by
  unfold kick
  simp only [h, if_true]
  rfl

theorem cu_kick_table2 (h1 h2 : Key → Nat) (s : Kick) (h : s.insert_table = 2) :
    kick h1 h2 s =
      { table := { s.table with
          table2 := { s.table.table2 with slots := s.table.table2.slots.set s.H s.key } }
        key := s.table.table2.slots.getD s.H 0
        H := h1 (s.table.table2.slots.getD s.H 0) % s.table.size
        insert_table := 1
        time_kicked_keys := s.time_kicked_keys + 1 } := by
  unfold kick
  simp only [h, show ¬ (2 = 1) by decide, if_false, if_true]
  rfl

/-- One kick keeps the invariants of the eviction loop, the in-use flags and
the load. -/
theorem cu_kick_spec {h1 h2 : Key → Nat} {s : Kick} (hK : KInv h1 h2 s) (hK2 : KInv2 h1 s)
    (hg : kick_guard s) :
    KInv h1 h2 (kick h1 h2 s) ∧ KInv2 h1 (kick h1 h2 s) ∧
    (kick h1 h2 s).table.table1.inuse = s.table.table1.inuse ∧
    (kick h1 h2 s).table.table2.inuse = s.table.table2.inuse ∧
    (kick h1 h2 s).table.load = s.table.load ∧
    (kick h1 h2 s).table.size = s.table.size ∧
    (kick h1 h2 s).table.stats = s.table.stats ∧
    (∀ x, holds (kick h1 h2 s).table x ∨ x = (kick h1 h2 s).key ↔
      holds s.table x ∨ x = s.key) := by
  have hHlt : s.H < s.table.size := by rw [hK.addr]; exact Nat.mod_lt _ hK.inv.size_pos
  rcases hK.tbl with h1t | h2t
  · have hu : s.table.table1.inuse.getD s.H false = true := by
      have := hg.1; rw [h1t] at this; exact this
    obtain ⟨hI', hfr', hset'⟩ := cu_kick_step hK.inv
      { s.table with
          table1 := { s.table.table1 with slots := s.table.table1.slots.set s.H s.key } }
      1 2 (Or.inl ⟨rfl, rfl⟩) s.key s.H hK.fresh (by rw [hK.addr, h1t]) hu rfl rfl rfl
    rw [cu_kick_table1 h1 h2 s h1t]
    refine ⟨⟨hI', Or.inr rfl, rfl, hfr'⟩, ⟨?_, ?_, ?_⟩, rfl, rfl, rfl, rfl, rfl, hset'⟩
    · exact hK2.kicked
    · simp only
      have := hK2.parity
      constructor
      · intro h; exact absurd h (by decide)
      · intro h; have := this.mp h1t; omega
    · intro _
      simp only
      have ha := hK.inv.addr 1 s.H hHlt hu
      simp only [hash_of, cu_inner_one, if_true] at ha
      rw [ha]; exact hu
  · have hu : s.table.table2.inuse.getD s.H false = true := by
      have := hg.1; rw [h2t] at this; exact this
    obtain ⟨hI', hfr', hset'⟩ := cu_kick_step hK.inv
      { s.table with
          table2 := { s.table.table2 with slots := s.table.table2.slots.set s.H s.key } }
      2 1 (Or.inr ⟨rfl, rfl⟩) s.key s.H hK.fresh (by rw [hK.addr, h2t]) hu rfl rfl rfl
    have hpos : 0 < s.time_kicked_keys := by
      have := hK2.parity
      by_contra hz
      have hz0 : s.time_kicked_keys = 0 := by omega
      have := this.mpr (by rw [hz0])
      omega
    rw [cu_kick_table2 h1 h2 s h2t]
    refine ⟨⟨hI', Or.inl rfl, rfl, hfr'⟩, ⟨?_, ?_, ?_⟩, rfl, rfl, rfl, rfl, rfl, hset'⟩
    · intro i hi hiu
      simp only at hi hiu ⊢
      by_cases hiH : i = s.H
      · subst hiH
        have hl2 : s.table.table2.slots.length = s.table.size := hK.inv.len_s 2
        rw [aux_getD_set, if_pos ⟨rfl, by rw [hl2]; exact hHlt⟩]
        exact hK2.origin hpos
      · rw [aux_getD_set, if_neg (by intro hc; exact hiH hc.1.symm)]
        exact hK2.kicked i hi hiu
    · simp only
      have := hK2.parity
      constructor
      · intro _
        have : ¬ s.time_kicked_keys % 2 = 0 := fun h => by
          have := this.mpr h; omega
        omega
      · intro _; trivial
    · intro _
      simp only
      exact hK2.kicked s.H hHlt hu

/-- The invariants of the eviction loop after `n` kicks made under its guard. -/
theorem cu_kicks_spec {h1 h2 : Key → Nat} :
    ∀ n (s : Kick), KInv h1 h2 s → KInv2 h1 s →
      (∀ i, i < n → kick_guard (kicks h1 h2 i s)) →
      KInv h1 h2 (kicks h1 h2 n s) ∧ KInv2 h1 (kicks h1 h2 n s) ∧
      (kicks h1 h2 n s).table.table1.inuse = s.table.table1.inuse ∧
      (kicks h1 h2 n s).table.table2.inuse = s.table.table2.inuse ∧
      (kicks h1 h2 n s).table.load = s.table.load ∧
      (kicks h1 h2 n s).table.size = s.table.size ∧
      (kicks h1 h2 n s).table.stats = s.table.stats ∧
      (∀ x, holds (kicks h1 h2 n s).table x ∨ x = (kicks h1 h2 n s).key ↔
        holds s.table x ∨ x = s.key) := by
  intro n
  induction n with
  | zero =>
    intro s hK hK2 _
    exact ⟨hK, hK2, rfl, rfl, rfl, rfl, rfl, fun _ => Iff.rfl⟩
  | succ n ih =>
    intro s hK hK2 hg
    obtain ⟨aK, aK2, a1, a2, al, az, as, ah⟩ := cu_kick_spec hK hK2 (hg 0 (by omega))
    obtain ⟨bK, bK2, b1, b2, bl, bz, bs, bh⟩ := ih (kick h1 h2 s) aK aK2
      (fun i hi => hg (i + 1) (by omega))
    refine ⟨bK, bK2, by rw [← a1]; exact b1, by rw [← a2]; exact b2, by rw [← al]; exact bl,
      by rw [← az]; exact bz, by rw [← as]; exact bs, ?_⟩
    intro x
    rw [← ah x]
    exact bh x

/-- The state in which the eviction loop starts satisfies its invariants. -/
theorem cu_chain_start_inv {h1 h2 : Key → Nat} {t : CuckooHashTable} (k : Key)
    (hI : Inv h1 h2 t) (hL : LInv h1 t) (hk : ¬ holds t k) :
    KInv h1 h2 (chain_start h1 t k) ∧ KInv2 h1 (chain_start h1 t k) := by
  refine ⟨⟨hI, Or.inl rfl, rfl, hk⟩, ⟨hL.kicked, ?_, ?_⟩⟩
  · simp [chain_start]
  · intro h; simp [chain_start] at h

end Cuckoo

/-! ### The load invariant of `cuckoo_hash_table_insert` -/

namespace Cuckoo

theorem cu_place_table1 (s : Kick) (h : s.insert_table = 1) :
    place s =
      { s.table with
        table1 := { slots := s.table.table1.slots.set s.H s.key,
                    inuse := s.table.table1.inuse.set s.H true }
        load := s.table.load + 1
        stats := { s.table.stats with load_table1 := s.table.stats.load_table1 + 1 } } := by
  unfold place
  simp only [h, if_true]
  rfl

theorem cu_place_table2 (s : Kick) (h : s.insert_table = 2) :
    place s =
      { s.table with
        table2 := { slots := s.table.table2.slots.set s.H s.key,
                    inuse := s.table.table2.inuse.set s.H true }
        load := s.table.load + 1
        stats := { s.table.stats with load_table2 := s.table.stats.load_table2 + 1 } } := by
  unfold place
  simp only [h, show ¬ (2 = 1) by decide, if_false, if_true]
  rfl

/-- Storing the held key in the free slot under the cursor adds one in-use
slot and keeps the load invariant. -/
theorem cu_place_spec {h1 h2 : Key → Nat} {s : Kick} (hK : KInv h1 h2 s) (hK2 : KInv2 h1 s)
    (hfree : (s.table.inner s.insert_table).inuse.getD s.H false = false)
    (hle : s.table.load = inuse_count s.table) (hlt : s.table.load + 1 ≤ 2 * s.table.size - 1) :
    LInv h1 (place s) ∧ (place s).load = s.table.load + 1 ∧
    (place s).size = s.table.size ∧
    ((place s).inner s.insert_table).inuse.getD s.H false = true ∧
    ((place s).inner s.insert_table).slots.getD s.H 0 = s.key := by
  have hHlt : s.H < s.table.size := by rw [hK.addr]; exact Nat.mod_lt _ hK.inv.size_pos
  have l1 : s.table.table1.inuse.length = s.table.size := hK.inv.len_u 1
  have l2 : s.table.table2.inuse.length = s.table.size := hK.inv.len_u 2
  have m1 : s.table.table1.slots.length = s.table.size := hK.inv.len_s 1
  have m2 : s.table.table2.slots.length = s.table.size := hK.inv.len_s 2
  rcases hK.tbl with h1t | h2t
  · rw [h1t] at hfree
    have hfr : s.table.table1.inuse.getD s.H false = false := hfree
    rw [cu_place_table1 s h1t, h1t]
    refine ⟨⟨?_, hlt, ?_⟩, rfl, rfl, ?_, ?_⟩
    · simp only [inuse_count]
      rw [aux_count_set_true _ _ (by rw [l1]; exact hHlt) hfr, hle]
      unfold inuse_count; omega
    · intro i hi hiu
      simp only at hi hiu ⊢
      rw [aux_getD_set]
      split
      · rfl
      · exact hK2.kicked i hi hiu
    · show (s.table.table1.inuse.set s.H true).getD s.H false = true
      rw [aux_getD_set, if_pos ⟨rfl, by rw [l1]; exact hHlt⟩]
    · show (s.table.table1.slots.set s.H s.key).getD s.H 0 = s.key
      rw [aux_getD_set, if_pos ⟨rfl, by rw [m1]; exact hHlt⟩]
  · rw [h2t] at hfree
    have hfr : s.table.table2.inuse.getD s.H false = false := hfree
    have hpos : 0 < s.time_kicked_keys := by
      have := hK2.parity
      by_contra hz
      have hz0 : s.time_kicked_keys = 0 := by omega
      have := this.mpr (by rw [hz0])
      omega
    rw [cu_place_table2 s h2t, h2t]
    refine ⟨⟨?_, hlt, ?_⟩, rfl, rfl, ?_, ?_⟩
    · simp only [inuse_count]
      rw [aux_count_set_true _ _ (by rw [l2]; exact hHlt) hfr, hle]
      unfold inuse_count; omega
    · intro i hi hiu
      simp only at hi hiu ⊢
      by_cases hiH : i = s.H
      · subst hiH
        rw [aux_getD_set, if_pos ⟨rfl, by rw [m2]; exact hHlt⟩]
        exact hK2.origin hpos
      · rw [aux_getD_set, if_neg (by intro hc; exact hiH hc.1.symm)] at hiu
        rw [aux_getD_set, if_neg (by intro hc; exact hiH hc.1.symm)]
        exact hK2.kicked i hi hiu
    · show (s.table.table2.inuse.set s.H true).getD s.H false = true
      rw [aux_getD_set, if_pos ⟨rfl, by rw [l2]; exact hHlt⟩]
    · show (s.table.table2.slots.set s.H s.key).getD s.H 0 = s.key
      rw [aux_getD_set, if_pos ⟨rfl, by rw [m2]; exact hHlt⟩]

theorem cu_initialise_linv (h1 : Key → Nat) {junk : Nat → Key} {t t' : CuckooHashTable}
    {size : Nat} (hr : initialise_cuckoo_table junk t size = .ok t') :
    LInv h1 t' ∧ t'.load = 0 := by
  unfold initialise_cuckoo_table at hr
  by_cases hc : size < MAX_TABLE_SIZE
  · rw [if_pos hc] at hr
    simp only [Except.ok.injEq] at hr
    subst hr
    refine ⟨⟨?_, Nat.zero_le _, ?_⟩, rfl⟩
    · simp only [inuse_count, List.count_replicate]
      simp
    · intro i _ hiu
      simp only [aux_getD_replicate_false] at hiu
      exact Bool.noConfusion hiu
  · rw [if_neg hc] at hr; simp at hr

theorem cu_reinsert_if_linv {h1 h2 : Key → Nat}
    {ins : CuckooHashTable → Key → Except Err (CuckooHashTable × Bool)}
    (hins2 : InsSpec2 h1 h2 ins) {t t' : CuckooHashTable} (used : Bool)
    (key : Key) (hI : Inv h1 h2 t) (hL : LInv h1 t) (hr : reinsert_if ins used key t = .ok t') :
    LInv h1 t' := by
  unfold reinsert_if at hr
  by_cases hu : used = true
  · rw [if_pos hu] at hr
    cases hi : ins t key with
    | error e => rw [hi] at hr; simp at hr
    | ok r =>
      obtain ⟨t1, b⟩ := r
      rw [hi] at hr
      simp only [Except.ok.injEq] at hr
      subst hr
      exact (hins2 t t1 key b hI hL hi).1
  · rw [if_neg hu] at hr
    simp only [Except.ok.injEq] at hr
    subst hr
    exact hL

theorem cu_reinsert_loop_linv {h1 h2 : Key → Nat}
    {ins : CuckooHashTable → Key → Except Err (CuckooHashTable × Bool)}
    (hins : InsSpec h1 h2 ins) (hins2 : InsSpec2 h1 h2 ins) (old1 old2 : InnerTable) :
    ∀ (is : List Nat) (t t' : CuckooHashTable), Inv h1 h2 t → LInv h1 t →
      reinsert_loop ins old1 old2 is t = .ok t' → LInv h1 t' := by
  intro is
  induction is with
  | nil =>
    intro t t' _ hL hr
    simp only [reinsert_loop, Except.ok.injEq] at hr
    subst hr
    exact hL
  | cons i is ih =>
    intro t t' hI hL hr
    unfold reinsert_loop at hr
    cases ha : reinsert_if ins (old1.inuse.getD i false) (old1.slots.getD i 0) t with
    | error e => rw [ha] at hr; simp at hr
    | ok ta =>
      rw [ha] at hr
      simp only at hr
      cases hb : reinsert_if ins (old2.inuse.getD i false) (old2.slots.getD i 0) ta with
      | error e => rw [hb] at hr; simp at hr
      | ok tb =>
        rw [hb] at hr
        simp only at hr
        obtain ⟨hIa, _⟩ := cu_reinsert_if_spec hins _ _ hI ha
        obtain ⟨hIb, _⟩ := cu_reinsert_if_spec hins _ _ hIa hb
        have hLa := cu_reinsert_if_linv hins2 _ _ hI hL ha
        have hLb := cu_reinsert_if_linv hins2 _ _ hIa hLa hb
        exact ih tb t' hIb hLb hr

/-- Doubling keeps the load: the rehashed table has as many in-use slots as
the old one. -/
theorem cu_double_linv {h1 h2 : Key → Nat} {junk : Nat → Key}
    {ins : CuckooHashTable → Key → Except Err (CuckooHashTable × Bool)}
    (hins : InsSpec h1 h2 ins) (hins2 : InsSpec2 h1 h2 ins) {t t' : CuckooHashTable}
    (hI : Inv h1 h2 t) (hle : t.load = inuse_count t)
    (hr : double_cuckoo_table ins junk t = .ok t') :
    LInv h1 t' ∧ t'.load = t.load := by
  obtain ⟨hI', hh⟩ := cu_double_spec hins hI hr
  unfold double_cuckoo_table at hr
  cases hi : initialise_cuckoo_table junk t (t.size * 2) with
  | error e => rw [hi] at hr; simp at hr
  | ok fresh =>
    rw [hi] at hr
    simp only at hr
    obtain ⟨hIf, _, _⟩ := cu_initialise_spec h1 h2 (by have := hI.size_pos; omega) hi
    obtain ⟨hLf, _⟩ := cu_initialise_linv h1 hi
    have hL' := cu_reinsert_loop_linv hins hins2 _ _ _ _ _ hIf hLf hr
    refine ⟨hL', ?_⟩
    rw [hL'.load_eq, hle]
    exact cu_count_eq_of_holds hI hI' hh

end Cuckoo

namespace Cuckoo

/-- What the eviction loop of a call on a table that satisfies the invariants
returns: the state after some `n ≤ 2 * size` kicks. -/
theorem cu_chain_spec {h1 h2 : Key → Nat} {t : CuckooHashTable} {k : Key} {s : Kick}
    (hI : Inv h1 h2 t) (hL : LInv h1 t) (hk : ¬ holds t k) (fuel : Nat)
    (hs : kick_loop h1 h2 fuel (chain_start h1 t k) = .ok s) :
    ∃ n, s = kicks h1 h2 n (chain_start h1 t k) ∧
      (∀ i, i < n → kick_guard (kicks h1 h2 i (chain_start h1 t k))) ∧
      ¬ kick_guard s ∧ s.time_kicked_keys = n ∧
      KInv h1 h2 s ∧ KInv2 h1 s ∧ s.table.size = t.size ∧ s.table.load = t.load ∧
      s.table.stats = t.stats ∧ inuse_count s.table = inuse_count t ∧
      (∀ x, holds s.table x ∨ x = s.key ↔ holds t x ∨ x = k) := by
  obtain ⟨n, hn, hg, hng, ht, _⟩ := cu_kick_loop_trace h1 h2 fuel _ s hs
  obtain ⟨hK0, hK20⟩ := cu_chain_start_inv k hI hL hk
  obtain ⟨hK, hK2, e1, e2, el, ez, es, eh⟩ := cu_kicks_spec n _ hK0 hK20 hg
  rw [← hn] at hK hK2 e1 e2 el ez es eh
  refine ⟨n, hn, hg, hng, by rw [ht]; simp [chain_start], hK, hK2, ez, el, es, ?_, eh⟩
  unfold inuse_count
  rw [e1, e2]
  rfl

theorem cu_insert_fuel_spec2 {h1 h2 : Key → Nat} {junk : Nat → Key} :
    ∀ fuel, InsSpec2 h1 h2 (cuckoo_hash_table_insert_fuel h1 h2 junk fuel) := by
  intro fuel
  induction fuel with
  | zero => intro t t' k b _ _ hr; simp [cuckoo_hash_table_insert_fuel] at hr
  | succ fuel ih =>
    intro t t' k b hI hL hr0
    have hspec : InsSpec h1 h2 (cuckoo_hash_table_insert_fuel h1 h2 junk fuel) :=
      cu_insert_fuel_spec fuel
    have hr := hr0
    unfold cuckoo_hash_table_insert_fuel at hr
    simp only at hr
    by_cases hfull : t.load = 2 * t.size - 1
    · rw [if_pos hfull] at hr
      cases hd : double_cuckoo_table (cuckoo_hash_table_insert_fuel h1 h2 junk fuel) junk t with
      | error e => rw [hd] at hr; simp at hr
      | ok t2 =>
        rw [hd] at hr
        simp only at hr
        obtain ⟨hI2, _⟩ := cu_double_spec hspec hI hd
        obtain ⟨hL2, hl2⟩ := cu_double_linv hspec ih hI hL.load_eq hd
        obtain ⟨hL3, hl3⟩ := ih t2 t' k b hI2 hL2 hr
        exact ⟨hL3, by rw [hl3, hl2]⟩
    · rw [if_neg hfull] at hr
      have ht1 := cu_storedIn_iff_target hI 1 k
      have ht2 := cu_storedIn_iff_target hI 2 k
      simp only [hash_of, cu_inner_one, cu_inner_two, if_true] at ht1 ht2
      simp only [show ¬ (2 = 1) by decide, if_false] at ht2
      by_cases hd1 : t.table1.slots.getD (h1 k % t.size) 0 = k ∧
          t.table1.inuse.getD (h1 k % t.size) false = true
      · rw [if_pos hd1] at hr
        simp only [Except.ok.injEq, Prod.mk.injEq] at hr
        obtain ⟨rfl, rfl⟩ := hr
        exact ⟨hL, by simp⟩
      · rw [if_neg hd1] at hr
        by_cases hd2 : t.table2.slots.getD (h2 k % t.size) 0 = k ∧
            t.table2.inuse.getD (h2 k % t.size) false = true
        · rw [if_pos hd2] at hr
          simp only [Except.ok.injEq, Prod.mk.injEq] at hr
          obtain ⟨rfl, rfl⟩ := hr
          exact ⟨hL, by simp⟩
        · have hnk : ¬ holds t k := by
            rintro (h | h)
            · exact hd1 (ht1.mp h)
            · exact hd2 (ht2.mp h)
          rw [if_neg hd2] at hr
          cases hkl : kick_loop h1 h2 (2 * t.size + 1) (chain_start h1 t k) with
          | error e =>
            unfold chain_start at hkl
            rw [hkl] at hr; simp at hr
          | ok s =>
            rw [cu_insert_fuel_chain h1 h2 junk fuel t k s hfull hd1 hd2 hkl] at hr0
            obtain ⟨n, _, _, hng, _, hK, hK2, ez, el, _, ec, _⟩ :=
              cu_chain_spec hI hL hnk _ hkl
            by_cases hcyc : s.time_kicked_keys = 2 * s.table.size
            · rw [if_pos hcyc] at hr0
              cases hd : double_cuckoo_table (cuckoo_hash_table_insert_fuel h1 h2 junk fuel)
                  junk s.table with
              | error e => rw [hd] at hr0; simp at hr0
              | ok t2 =>
                rw [hd] at hr0
                simp only at hr0
                obtain ⟨hI2, _⟩ := cu_double_spec hspec hK.inv hd
                obtain ⟨hL2, hl2⟩ := cu_double_linv hspec ih hK.inv
                  (by rw [el, ec]; exact hL.load_eq) hd
                obtain ⟨hL3, hl3⟩ := ih t2 t' s.key b hI2 hL2 hr0
                exact ⟨hL3, by rw [hl3, hl2, el]⟩
            · rw [if_neg hcyc] at hr0
              simp only [Except.ok.injEq, Prod.mk.injEq] at hr0
              obtain ⟨rfl, rfl⟩ := hr0
              have hfree : (s.table.inner s.insert_table).inuse.getD s.H false = false := by
                by_contra hcon
                exact hng ⟨by simpa using hcon, hcyc⟩
              have hle := hL.load_le
              obtain ⟨hLp, hlp, _⟩ := cu_place_spec hK hK2 hfree
                (by rw [el, ec]; exact hL.load_eq) (by rw [el, ez]; omega)
              exact ⟨hLp, by rw [hlp, el]; simp⟩

theorem cu_reachable_linv {h1 h2 : Key → Nat} {junk : Nat → Key} {t : CuckooHashTable}
    (hr : Reachable h1 h2 junk t) : LInv h1 t := by
  induction hr with
  | init size t hs h => exact (cu_initialise_linv h1 h).1
  | step t t' k b hr h ih =>
    exact (cu_insert_fuel_spec2 _ _ _ _ _ (cu_reachable_inv hr) ih h).1

end Cuckoo

namespace Cuckoo

theorem cu_insert_fuel_chain_retry (h1 h2 : Key → Nat) (junk : Nat → Key) (fuel : Nat)
    (t : CuckooHashTable) (k : Key) (s : Kick)
    (hfull : t.load ≠ 2 * t.size - 1)
    (hd1 : ¬ (t.table1.slots.getD (h1 k % t.size) 0 = k ∧
      t.table1.inuse.getD (h1 k % t.size) false = true))
    (hd2 : ¬ (t.table2.slots.getD (h2 k % t.size) 0 = k ∧
      t.table2.inuse.getD (h2 k % t.size) false = true))
    (hs : kick_loop h1 h2 (2 * t.size + 1) (chain_start h1 t k) = .ok s) :
    cuckoo_hash_table_insert_fuel h1 h2 junk (fuel + 1) t k =
      if s.time_kicked_keys = 2 * s.table.size then retry h1 h2 junk fuel s.table s.key
      else .ok (place s, true) := by
  rw [cu_insert_fuel_chain h1 h2 junk fuel t k s hfull hd1 hd2 hs]
  rfl

theorem cu_insert_fuel_full (h1 h2 : Key → Nat) (junk : Nat → Key) (fuel : Nat)
    (t : CuckooHashTable) (k : Key) (hfull : t.load = 2 * t.size - 1) :
    cuckoo_hash_table_insert_fuel h1 h2 junk (fuel + 1) t k = retry h1 h2 junk fuel t k := by
  rw [cuckoo_hash_table_insert_fuel]
  simp only
  rw [if_pos hfull]
  rfl

/-- When the lookup of a key fails, neither duplicate check of the insert succeeds. -/
theorem cu_absent {h1 h2 : Key → Nat} {t : CuckooHashTable} (k : Key)
    (hk : cuckoo_hash_table_lookup h1 h2 t k = false) :
    ¬ (t.table1.slots.getD (h1 k % t.size) 0 = k ∧
      t.table1.inuse.getD (h1 k % t.size) false = true) ∧
    ¬ (t.table2.slots.getD (h2 k % t.size) 0 = k ∧
      t.table2.inuse.getD (h2 k % t.size) false = true) := by
  unfold cuckoo_hash_table_lookup at hk
  simp only at hk
  constructor
  · intro h; rw [if_pos h] at hk; exact Bool.noConfusion hk
  · intro h
    by_cases h' : t.table1.slots.getD (h1 k % t.size) 0 = k ∧
        t.table1.inuse.getD (h1 k % t.size) false = true
    · rw [if_pos h'] at hk; exact Bool.noConfusion hk
    · rw [if_neg h', if_pos h] at hk; exact Bool.noConfusion hk

theorem cu_lookup_false_iff {h1 h2 : Key → Nat} {t : CuckooHashTable} (hI : Inv h1 h2 t)
    (k : Key) : cuckoo_hash_table_lookup h1 h2 t k = false ↔ ¬ holds t k := by
  rw [← cu_lookup_iff_holds hI k]
  cases cuckoo_hash_table_lookup h1 h2 t k <;> simp

/-- The retry on a table of size in `[1, MAX_TABLE_SIZE)` returns a table at
least twice as large, or the size assertion fails. -/
theorem cu_retry_size (h1 h2 : Key → Nat) (junk : Nat → Key) (u : CuckooHashTable) (key : Key)
    (hpos : 0 < u.size) :
    (∃ t' b, retry h1 h2 junk 27 u key = .ok (t', b) ∧ 2 * u.size ≤ t'.size ∧
      t'.size < MAX_TABLE_SIZE) ∨
    retry h1 h2 junk 27 u key = .error .assertion := by
  have hmax : MAX_TABLE_SIZE ≤ u.size * 2 * 2 ^ 27 :=
    Nat.le_trans (by decide : MAX_TABLE_SIZE ≤ 1 * 2 * 2 ^ 27)
      (Nat.mul_le_mul_right _ (Nat.mul_le_mul_right _ hpos))
  have hins := cu_insert_fuel_total h1 h2 junk 27 (u.size * 2) hmax
  unfold retry
  rcases cu_double_total u hins hpos with ⟨t2, hd, hge, hlt2⟩ | hd
  · rw [hd]
    simp only
    rcases hins t2 key hge (by omega) hlt2 with ⟨t3, b, h3, hle3, hlt3⟩ | h3
    · exact Or.inl ⟨t3, b, h3, by omega, hlt3⟩
    · exact Or.inr h3
  · rw [hd]; exact Or.inr rfl

end Cuckoo

/-! ## Claims about the load and the eviction chain of cuckoo.c -/

/-- C16. CuckooTable load bound: in every table reachable from
`new_cuckoo_hash_table size`, `size ≥ 1`, by inserts, `load` is the number of
in-use slots over both arrays (each of length `size`), `load ≤ 2 * size - 1`,
and some slot of one of the arrays is free. -/
theorem cuckoo_load_bound (h1 h2 : Key → Nat) (junk : Nat → Key) (t : Cuckoo.CuckooHashTable)
    (hr : Cuckoo.Reachable h1 h2 junk t) :
    t.table1.inuse.length = t.size ∧ t.table2.inuse.length = t.size ∧
    t.load = t.table1.inuse.count true + t.table2.inuse.count true ∧
    t.load ≤ 2 * t.size - 1 ∧
    ∃ n i, (n = 1 ∨ n = 2) ∧ i < t.size ∧ (t.inner n).inuse.getD i false = false := by
  have hI := Cuckoo.cu_reachable_inv hr
  have hL := Cuckoo.cu_reachable_linv hr
  refine ⟨hI.len_u 1, hI.len_u 2, hL.load_eq, hL.load_le, ?_⟩
  exact Cuckoo.cu_free_slot hI (by rw [← hL.load_eq]; exact hL.load_le)

/-- C17. Kick bound: whenever `cuckoo_hash_table_insert` enters its eviction
loop (the table is not full and the key is in neither target slot), the loop
stops after some number `n ≤ 2 * size` of kicks, `size` being the array
length at the start of the chain; it made each kick under its guard, its
counter equals `n`, and the call then ends by storing the held key in the
slot under the cursor (`n ≠ 2 * size`) or by doubling the table and
re-inserting the held key (`n = 2 * size`). -/
theorem cuckoo_kick_bound (h1 h2 : Key → Nat) (junk : Nat → Key) (fuel : Nat)
    (t : Cuckoo.CuckooHashTable) (k : Key)
    (hfull : t.load ≠ 2 * t.size - 1)
    (hd1 : ¬ (t.table1.slots.getD (h1 k % t.size) 0 = k ∧
      t.table1.inuse.getD (h1 k % t.size) false = true))
    (hd2 : ¬ (t.table2.slots.getD (h2 k % t.size) 0 = k ∧
      t.table2.inuse.getD (h2 k % t.size) false = true)) :
    ∃ n s, n ≤ 2 * t.size ∧
      Cuckoo.kick_loop h1 h2 (2 * t.size + 1) (Cuckoo.chain_start h1 t k) = .ok s ∧
      s = Cuckoo.kicks h1 h2 n (Cuckoo.chain_start h1 t k) ∧
      (∀ i, i < n → Cuckoo.kick_guard (Cuckoo.kicks h1 h2 i (Cuckoo.chain_start h1 t k))) ∧
      ¬ Cuckoo.kick_guard s ∧
      s.time_kicked_keys = n ∧ s.table.size = t.size ∧
      Cuckoo.cuckoo_hash_table_insert_fuel h1 h2 junk (fuel + 1) t k =
        (if n = 2 * t.size then Cuckoo.retry h1 h2 junk fuel s.table s.key
         else .ok (Cuckoo.place s, true)) := by
  obtain ⟨s, hs, hsz, hle⟩ := Cuckoo.cu_kick_loop_total h1 h2 (2 * t.size + 1)
    (Cuckoo.chain_start h1 t k) (by simp [Cuckoo.chain_start]) (by simp [Cuckoo.chain_start])
  obtain ⟨n, hn, hg, hng, ht, _⟩ := Cuckoo.cu_kick_loop_trace h1 h2 _ _ s hs
  have hsz' : s.table.size = t.size := hsz
  have ht' : s.time_kicked_keys = n := by rw [ht]; simp [Cuckoo.chain_start]
  have hle' : s.time_kicked_keys ≤ 2 * t.size := hle
  refine ⟨n, s, by omega, hs, hn, hg, hng, ht', hsz', ?_⟩
  rw [Cuckoo.cu_insert_fuel_chain_retry h1 h2 junk fuel t k s hfull hd1 hd2 hs, ht', hsz']

/-- C13. CuckooTable doubles on a chain only without a free slot: on a
reachable table with `load < 2 * size - 1` and an absent key, the eviction
loop stops after `n ≤ 2 * size` kicks; if the slot then under the cursor is
free the held key is stored in it and the size is unchanged (this covers
every `n ≤ 2 * size`; on reachable tables a free slot is never met after
exactly `2 * size` kicks); if it is in use then `n = 2 * size` and the call doubles the
arrays (the result is at least twice as large, or the size assertion fails). -/
theorem cuckoo_chain_doubling (h1 h2 : Key → Nat) (junk : Nat → Key)
    (t : Cuckoo.CuckooHashTable) (k : Key) (hr : Cuckoo.Reachable h1 h2 junk t)
    (hload : t.load < 2 * t.size - 1)
    (hk : Cuckoo.cuckoo_hash_table_lookup h1 h2 t k = false) :
    ∃ n s, n ≤ 2 * t.size ∧
      Cuckoo.kick_loop h1 h2 (2 * t.size + 1) (Cuckoo.chain_start h1 t k) = .ok s ∧
      s = Cuckoo.kicks h1 h2 n (Cuckoo.chain_start h1 t k) ∧
      (∀ i, i < n → Cuckoo.kick_guard (Cuckoo.kicks h1 h2 i (Cuckoo.chain_start h1 t k))) ∧
      ((s.table.inner s.insert_table).inuse.getD s.H false = false →
        n ≠ 2 * t.size ∧
        Cuckoo.cuckoo_hash_table_insert h1 h2 junk t k = .ok (Cuckoo.place s, true) ∧
        (Cuckoo.place s).size = t.size ∧
        ((Cuckoo.place s).inner s.insert_table).inuse.getD s.H false = true ∧
        ((Cuckoo.place s).inner s.insert_table).slots.getD s.H 0 = s.key) ∧
      ((s.table.inner s.insert_table).inuse.getD s.H false = true →
        n = 2 * t.size ∧
        Cuckoo.cuckoo_hash_table_insert h1 h2 junk t k =
          Cuckoo.retry h1 h2 junk 27 s.table s.key ∧
        ((∃ t' b, Cuckoo.cuckoo_hash_table_insert h1 h2 junk t k = .ok (t', b) ∧
            2 * t.size ≤ t'.size) ∨
          Cuckoo.cuckoo_hash_table_insert h1 h2 junk t k = .error .assertion)) := by
  have hI := Cuckoo.cu_reachable_inv hr
  have hL := Cuckoo.cu_reachable_linv hr
  have hnk := (Cuckoo.cu_lookup_false_iff hI k).mp hk
  obtain ⟨hd1, hd2⟩ := Cuckoo.cu_absent k hk
  obtain ⟨s, hs, hsz, hle⟩ := Cuckoo.cu_kick_loop_total h1 h2 (2 * t.size + 1)
    (Cuckoo.chain_start h1 t k) (by simp [Cuckoo.chain_start]) (by simp [Cuckoo.chain_start])
  obtain ⟨n, hn, hg, hng, ht, hK, hK2, ez, el, _, ec, _⟩ :=
    Cuckoo.cu_chain_spec hI hL hnk _ hs
  have hle' : s.time_kicked_keys ≤ 2 * t.size := hle
  have hins : Cuckoo.cuckoo_hash_table_insert h1 h2 junk t k =
      if s.time_kicked_keys = 2 * s.table.size then Cuckoo.retry h1 h2 junk 27 s.table s.key
      else .ok (Cuckoo.place s, true) :=
    Cuckoo.cu_insert_fuel_chain_retry h1 h2 junk 27 t k s (by omega) hd1 hd2 hs
  refine ⟨n, s, by omega, hs, hn, hg, ?_, ?_⟩
  · intro hfree
    have hne : s.time_kicked_keys ≠ 2 * s.table.size := by
      intro hc
      have hpos : 0 < s.time_kicked_keys := by have := hI.size_pos; omega
      have h1t : s.insert_table = 1 := hK2.parity.mpr (by omega)
      have ho := hK2.origin hpos
      have ha := hK.addr
      rw [h1t] at ha hfree
      simp only [Cuckoo.hash_of, if_true] at ha
      rw [← ha] at ho
      have hfree' : s.table.table1.inuse.getD s.H false = false := hfree
      rw [hfree'] at ho
      exact Bool.noConfusion ho
    rw [hins, if_neg hne]
    obtain ⟨_, _, hz, hu, hv⟩ := Cuckoo.cu_place_spec hK hK2 hfree
      (by rw [el, ec]; exact hL.load_eq) (by rw [el, ez]; omega)
    exact ⟨by rw [← ht, ← ez]; exact hne, rfl, by rw [hz, ez], hu, hv⟩
  · intro hocc
    have hc : s.time_kicked_keys = 2 * s.table.size := by
      by_contra hne
      exact hng ⟨hocc, hne⟩
    rw [hins, if_pos hc]
    refine ⟨by rw [← ht, hc, ez], rfl, ?_⟩
    rcases Cuckoo.cu_retry_size h1 h2 junk s.table s.key (by rw [ez]; exact hI.size_pos)
      with ⟨t', b, h, hge, _⟩ | h
    · exact Or.inl ⟨t', b, h, by rw [← ez]; exact hge⟩
    · exact Or.inr h

/-- C12 (amended). CuckooTable retry after a cycle: when the eviction loop of
an insert of an absent key into a reachable table stops with its counter at
`2 * size`, the call doubles the table and re-inserts from scratch the key
held at that moment, which is the occupant displaced by the last kick; the
held key is not in the table that is doubled, and the key originally passed,
when it is not the held key, is in that table. -/
theorem cuckoo_retry_key (h1 h2 : Key → Nat) (junk : Nat → Key) (fuel : Nat)
    (t : Cuckoo.CuckooHashTable) (k : Key) (s : Cuckoo.Kick)
    (hr : Cuckoo.Reachable h1 h2 junk t) (hload : t.load ≠ 2 * t.size - 1)
    (hk : Cuckoo.cuckoo_hash_table_lookup h1 h2 t k = false)
    (hs : Cuckoo.kick_loop h1 h2 (2 * t.size + 1) (Cuckoo.chain_start h1 t k) = .ok s)
    (hc : s.time_kicked_keys = 2 * s.table.size) :
    Cuckoo.cuckoo_hash_table_insert_fuel h1 h2 junk (fuel + 1) t k =
      Cuckoo.retry h1 h2 junk fuel s.table s.key ∧
    s = Cuckoo.kick h1 h2 (Cuckoo.kicks h1 h2 (2 * t.size - 1) (Cuckoo.chain_start h1 t k)) ∧
    Cuckoo.kick_guard (Cuckoo.kicks h1 h2 (2 * t.size - 1) (Cuckoo.chain_start h1 t k)) ∧
    s.key =
      (((Cuckoo.kicks h1 h2 (2 * t.size - 1) (Cuckoo.chain_start h1 t k)).table.inner
        (Cuckoo.kicks h1 h2 (2 * t.size - 1) (Cuckoo.chain_start h1 t k)).insert_table).slots.getD
        (Cuckoo.kicks h1 h2 (2 * t.size - 1) (Cuckoo.chain_start h1 t k)).H 0) ∧
    Cuckoo.cuckoo_hash_table_lookup h1 h2 s.table s.key = false ∧
    (s.key ≠ k → Cuckoo.cuckoo_hash_table_lookup h1 h2 s.table k = true) := by
  have hI := Cuckoo.cu_reachable_inv hr
  have hL := Cuckoo.cu_reachable_linv hr
  have hnk := (Cuckoo.cu_lookup_false_iff hI k).mp hk
  obtain ⟨hd1, hd2⟩ := Cuckoo.cu_absent k hk
  obtain ⟨n, hn, hg, _, ht, hK, _, ez, _, _, _, eh⟩ := Cuckoo.cu_chain_spec hI hL hnk _ hs
  have hn2 : n = (2 * t.size - 1) + 1 := by
    have := hI.size_pos
    rw [← ht, hc, ez]; omega
  have hlast : s = Cuckoo.kick h1 h2
      (Cuckoo.kicks h1 h2 (2 * t.size - 1) (Cuckoo.chain_start h1 t k)) := by
    rw [← Cuckoo.cu_kicks_succ, ← hn2]; exact hn
  refine ⟨?_, hlast, hg _ (by omega), ?_, ?_, ?_⟩
  · rw [Cuckoo.cu_insert_fuel_chain_retry h1 h2 junk fuel t k s hload hd1 hd2 hs, if_pos hc]
  · rw [hlast]
    exact (Cuckoo.cu_kick_fields h1 h2 _).2.2.1
  · exact (Cuckoo.cu_lookup_false_iff hK.inv s.key).mpr hK.fresh
  · intro hne
    rw [Cuckoo.cu_lookup_iff_holds hK.inv k]
    rcases (eh k).mpr (Or.inr rfl) with h | h
    · exact h
    · exact absurd h.symm hne

/-- C14 (amended). CuckooTable duplicate insert: on a reachable table an
insert of a key that is present returns (or trips the size assertion) and a
completed call returns false; when `load ≠ 2 * size - 1` the table is left as
it was; when `load = 2 * size - 1` the arrays are doubled before the
duplicate check: the size at least doubles, while `load` and the result of
every lookup are unchanged. -/
theorem cuckoo_duplicate_insert (h1 h2 : Key → Nat) (junk : Nat → Key)
    (t : Cuckoo.CuckooHashTable) (k : Key) (hr : Cuckoo.Reachable h1 h2 junk t)
    (hk : Cuckoo.cuckoo_hash_table_lookup h1 h2 t k = true) :
    ((∃ t' b, Cuckoo.cuckoo_hash_table_insert h1 h2 junk t k = .ok (t', b)) ∨
      Cuckoo.cuckoo_hash_table_insert h1 h2 junk t k = .error .assertion) ∧
    ∀ t' b, Cuckoo.cuckoo_hash_table_insert h1 h2 junk t k = .ok (t', b) →
      b = false ∧
      (t.load ≠ 2 * t.size - 1 → t' = t) ∧
      (t.load = 2 * t.size - 1 → 2 * t.size ≤ t'.size) ∧
      t'.load = t.load ∧
      ∀ x, Cuckoo.cuckoo_hash_table_lookup h1 h2 t' x =
        Cuckoo.cuckoo_hash_table_lookup h1 h2 t x := by
  refine ⟨Cuckoo.cu_insert_returns h1 h2 junk t k hr, ?_⟩
  intro t' b hi
  have hI := Cuckoo.cu_reachable_inv hr
  have hL := Cuckoo.cu_reachable_linv hr
  have hh := (Cuckoo.cu_lookup_iff_holds hI k).mp hk
  obtain ⟨hI', hset, hb⟩ := Cuckoo.cu_insert_fuel_spec _ _ _ _ _ hI hi
  obtain ⟨_, hl⟩ := Cuckoo.cu_insert_fuel_spec2 _ _ _ _ _ hI hL hi
  have hbf : b = false := by
    cases b with
    | false => rfl
    | true => exact absurd hh (hb.mp rfl)
  subst hbf
  refine ⟨rfl, ?_, ?_, by rw [hl]; simp, ?_⟩
  · intro hne
    have hi' := hi
    unfold Cuckoo.cuckoo_hash_table_insert INSERT_DEPTH at hi'
    rw [Cuckoo.cuckoo_hash_table_insert_fuel] at hi'
    simp only at hi'
    rw [if_neg hne] at hi'
    have ht1 := Cuckoo.cu_storedIn_iff_target hI 1 k
    have ht2 := Cuckoo.cu_storedIn_iff_target hI 2 k
    simp only [Cuckoo.hash_of, Cuckoo.cu_inner_one, Cuckoo.cu_inner_two, if_true] at ht1 ht2
    simp only [show ¬ (2 = 1) by decide, if_false] at ht2
    by_cases hd1 : t.table1.slots.getD (h1 k % t.size) 0 = k ∧
        t.table1.inuse.getD (h1 k % t.size) false = true
    · rw [if_pos hd1] at hi'
      simp only [Except.ok.injEq, Prod.mk.injEq] at hi'
      exact hi'.1.symm
    · rw [if_neg hd1] at hi'
      have hd2 : t.table2.slots.getD (h2 k % t.size) 0 = k ∧
          t.table2.inuse.getD (h2 k % t.size) false = true := by
        rcases hh with h | h
        · exact absurd (ht1.mp h) hd1
        · exact ht2.mp h
      rw [if_pos hd2] at hi'
      simp only [Except.ok.injEq, Prod.mk.injEq] at hi'
      exact hi'.1.symm
  · intro hfull
    have hi' := hi
    unfold Cuckoo.cuckoo_hash_table_insert INSERT_DEPTH at hi'
    rw [Cuckoo.cu_insert_fuel_full h1 h2 junk 27 t k hfull] at hi'
    rcases Cuckoo.cu_retry_size h1 h2 junk t k hI.size_pos with ⟨t2, b2, h, hge, _⟩ | h
    · rw [h] at hi'
      simp only [Except.ok.injEq, Prod.mk.injEq] at hi'
      rw [← hi'.1]; exact hge
    · rw [h] at hi'; cases hi'
  · intro x
    have e1 := Cuckoo.cu_lookup_iff_holds hI' x
    have e2 := Cuckoo.cu_lookup_iff_holds hI x
    have e3 : Cuckoo.holds t' x ↔ Cuckoo.holds t x := by
      rw [hset x]
      constructor
      · rintro (h | rfl)
        · exact h
        · exact hh
      · exact Or.inl
    cases hx' : Cuckoo.cuckoo_hash_table_lookup h1 h2 t' x <;>
    cases hx : Cuckoo.cuckoo_hash_table_lookup h1 h2 t x
    · rfl
    · exact absurd (e1.mpr (e3.mpr (e2.mp hx))) (by rw [hx']; exact Bool.noConfusion)
    · exact absurd (e2.mpr (e3.mp (e1.mp hx'))) (by rw [hx]; exact Bool.noConfusion)
    · rfl

/-- C15. CuckooTable duplicate idempotence: on a reachable table, two inserts
in a row of a key that is not present return (or trip the size assertion);
the first completed call returns true, the second false, and `load` after
the two calls is `load` before them plus 1, whether or not a call doubled the
table. -/
theorem cuckoo_duplicate_idempotence (h1 h2 : Key → Nat) (junk : Nat → Key)
    (t : Cuckoo.CuckooHashTable) (k : Key) (hr : Cuckoo.Reachable h1 h2 junk t)
    (hk : Cuckoo.cuckoo_hash_table_lookup h1 h2 t k = false) :
    ((∃ t1 b1, Cuckoo.cuckoo_hash_table_insert h1 h2 junk t k = .ok (t1, b1)) ∨
      Cuckoo.cuckoo_hash_table_insert h1 h2 junk t k = .error .assertion) ∧
    ∀ t1 b1, Cuckoo.cuckoo_hash_table_insert h1 h2 junk t k = .ok (t1, b1) →
      b1 = true ∧ t1.load = t.load + 1 ∧
      ((∃ t2 b2, Cuckoo.cuckoo_hash_table_insert h1 h2 junk t1 k = .ok (t2, b2)) ∨
        Cuckoo.cuckoo_hash_table_insert h1 h2 junk t1 k = .error .assertion) ∧
      ∀ t2 b2, Cuckoo.cuckoo_hash_table_insert h1 h2 junk t1 k = .ok (t2, b2) →
        b2 = false ∧ t2.load = t.load + 1 := by
  refine ⟨Cuckoo.cu_insert_returns h1 h2 junk t k hr, ?_⟩
  intro t1 b1 hi1
  have hI := Cuckoo.cu_reachable_inv hr
  have hL := Cuckoo.cu_reachable_linv hr
  have hnk := (Cuckoo.cu_lookup_false_iff hI k).mp hk
  obtain ⟨hI1, hset1, hb1⟩ := Cuckoo.cu_insert_fuel_spec _ _ _ _ _ hI hi1
  obtain ⟨hL1, hl1⟩ := Cuckoo.cu_insert_fuel_spec2 _ _ _ _ _ hI hL hi1
  have hb1t : b1 = true := hb1.mpr hnk
  subst hb1t
  have hr1 : Cuckoo.Reachable h1 h2 junk t1 := Cuckoo.Reachable.step t t1 k true hr hi1
  refine ⟨rfl, by rw [hl1]; simp, Cuckoo.cu_insert_returns h1 h2 junk t1 k hr1, ?_⟩
  intro t2 b2 hi2
  obtain ⟨_, _, hb2⟩ := Cuckoo.cu_insert_fuel_spec _ _ _ _ _ hI1 hi2
  obtain ⟨_, hl2⟩ := Cuckoo.cu_insert_fuel_spec2 _ _ _ _ _ hI1 hL1 hi2
  have hh1 : Cuckoo.holds t1 k := (hset1 k).mpr (Or.inr rfl)
  have hb2f : b2 = false := by
    cases b2 with
    | false => rfl
    | true => exact absurd hh1 (hb2.mp rfl)
  subst hb2f
  exact ⟨rfl, by rw [hl2, hl1]; simp⟩

/-! ## Worked examples and counterexamples for cuckoo.c -/

/-- C12 as stated fails: with both hash functions `2 * k`, the insert of key 3
into the table of size 2 that holds 1 and 2 makes four kicks and then
re-inserts key 2, the key displaced by the fourth kick, not key 3. -/
theorem cuckoo_retry_key_counterexample :
    ¬ (∀ (t : Cuckoo.CuckooHashTable) (k : Key) (s : Cuckoo.Kick),
        Cuckoo.Reachable (fun k => 2 * k) (fun k => 2 * k) (fun _ => 0) t →
        t.load ≠ 2 * t.size - 1 →
        Cuckoo.cuckoo_hash_table_lookup (fun k => 2 * k) (fun k => 2 * k) t k = false →
        Cuckoo.kick_loop (fun k => 2 * k) (fun k => 2 * k) (2 * t.size + 1)
          (Cuckoo.chain_start (fun k => 2 * k) t k) = .ok s →
        s.time_kicked_keys = 2 * s.table.size →
        Cuckoo.cuckoo_hash_table_insert_fuel (fun k => 2 * k) (fun k => 2 * k) (fun _ => 0)
            INSERT_DEPTH t k =
          Cuckoo.retry (fun k => 2 * k) (fun k => 2 * k) (fun _ => 0) 27 s.table s.key ∧
        s.key = k) := by
  intro H
  have h := (H Cuckoo.demo_cycle 3 Cuckoo.demo_cycle_end
    (Cuckoo.Reachable.step Cuckoo.demo_cycle_one Cuckoo.demo_cycle 2 true
      (Cuckoo.Reachable.step Cuckoo.demo_cycle_empty Cuckoo.demo_cycle_one 1 true
        (Cuckoo.Reachable.init 2 Cuckoo.demo_cycle_empty (by decide) (by rfl)) (by rfl))
      (by rfl))
    (by decide) (by rfl) (by rfl) (by decide)).2
  exact absurd h (by decide)

/-- Witness for C12 (amended): the insert of key 3 into the table of size 2
that holds 1 and 2, whose eviction loop stops after four kicks holding key 2. -/
theorem cuckoo_retry_key_witness :
    (Cuckoo.Reachable (fun k => 2 * k) (fun k => 2 * k) (fun _ => 0) Cuckoo.demo_cycle ∧
      Cuckoo.demo_cycle.load ≠ 2 * Cuckoo.demo_cycle.size - 1 ∧
      Cuckoo.cuckoo_hash_table_lookup (fun k => 2 * k) (fun k => 2 * k) Cuckoo.demo_cycle 3
        = false ∧
      Cuckoo.kick_loop (fun k => 2 * k) (fun k => 2 * k) (2 * Cuckoo.demo_cycle.size + 1)
        (Cuckoo.chain_start (fun k => 2 * k) Cuckoo.demo_cycle 3) = .ok Cuckoo.demo_cycle_end ∧
      Cuckoo.demo_cycle_end.time_kicked_keys = 2 * Cuckoo.demo_cycle_end.table.size) ∧
    Cuckoo.cuckoo_hash_table_insert_fuel (fun k => 2 * k) (fun k => 2 * k) (fun _ => 0) 28
        Cuckoo.demo_cycle 3 =
      Cuckoo.retry (fun k => 2 * k) (fun k => 2 * k) (fun _ => 0) 27
        Cuckoo.demo_cycle_end.table 2 ∧
    Cuckoo.cuckoo_hash_table_lookup (fun k => 2 * k) (fun k => 2 * k)
      Cuckoo.demo_cycle_end.table 3 = true :=
  ⟨⟨Cuckoo.Reachable.step Cuckoo.demo_cycle_one Cuckoo.demo_cycle 2 true
      (Cuckoo.Reachable.step Cuckoo.demo_cycle_empty Cuckoo.demo_cycle_one 1 true
        (Cuckoo.Reachable.init 2 Cuckoo.demo_cycle_empty (by decide) (by rfl)) (by rfl))
      (by rfl), by decide, (by rfl), (by rfl), by decide⟩,
    (cuckoo_retry_key (fun k => 2 * k) (fun k => 2 * k) (fun _ => 0) 27 Cuckoo.demo_cycle 3
      Cuckoo.demo_cycle_end
      (Cuckoo.Reachable.step Cuckoo.demo_cycle_one Cuckoo.demo_cycle 2 true
        (Cuckoo.Reachable.step Cuckoo.demo_cycle_empty Cuckoo.demo_cycle_one 1 true
          (Cuckoo.Reachable.init 2 Cuckoo.demo_cycle_empty (by decide) (by rfl)) (by rfl))
        (by rfl))
      (by decide) (by rfl) (by rfl) (by decide)).1,
    (cuckoo_retry_key (fun k => 2 * k) (fun k => 2 * k) (fun _ => 0) 27 Cuckoo.demo_cycle 3
      Cuckoo.demo_cycle_end
      (Cuckoo.Reachable.step Cuckoo.demo_cycle_one Cuckoo.demo_cycle 2 true
        (Cuckoo.Reachable.step Cuckoo.demo_cycle_empty Cuckoo.demo_cycle_one 1 true
          (Cuckoo.Reachable.init 2 Cuckoo.demo_cycle_empty (by decide) (by rfl)) (by rfl))
        (by rfl))
      (by decide) (by rfl) (by rfl) (by decide)).2.2.2.2.2 (by decide)⟩

/-- Witness for C13: the insert of key 3 into the table of size 2 that holds
1 and 2 (both hash functions `2 * k`, load 2 below 3). -/
theorem cuckoo_chain_doubling_witness :
    (Cuckoo.Reachable (fun k => 2 * k) (fun k => 2 * k) (fun _ => 0) Cuckoo.demo_cycle ∧
      Cuckoo.demo_cycle.load < 2 * Cuckoo.demo_cycle.size - 1 ∧
      Cuckoo.cuckoo_hash_table_lookup (fun k => 2 * k) (fun k => 2 * k) Cuckoo.demo_cycle 3
        = false) ∧
    ∃ n s, n ≤ 2 * Cuckoo.demo_cycle.size ∧
      Cuckoo.kick_loop (fun k => 2 * k) (fun k => 2 * k) (2 * Cuckoo.demo_cycle.size + 1)
        (Cuckoo.chain_start (fun k => 2 * k) Cuckoo.demo_cycle 3) = .ok s ∧
      ((s.table.inner s.insert_table).inuse.getD s.H false = true → n = 2 * Cuckoo.demo_cycle.size) :=
  ⟨⟨Cuckoo.Reachable.step Cuckoo.demo_cycle_one Cuckoo.demo_cycle 2 true
      (Cuckoo.Reachable.step Cuckoo.demo_cycle_empty Cuckoo.demo_cycle_one 1 true
        (Cuckoo.Reachable.init 2 Cuckoo.demo_cycle_empty (by decide) (by rfl)) (by rfl))
      (by rfl), by decide, (by rfl)⟩,
    (cuckoo_chain_doubling (fun k => 2 * k) (fun k => 2 * k) (fun _ => 0) Cuckoo.demo_cycle 3
      (Cuckoo.Reachable.step Cuckoo.demo_cycle_one Cuckoo.demo_cycle 2 true
        (Cuckoo.Reachable.step Cuckoo.demo_cycle_empty Cuckoo.demo_cycle_one 1 true
          (Cuckoo.Reachable.init 2 Cuckoo.demo_cycle_empty (by decide) (by rfl)) (by rfl))
        (by rfl))
      (by decide) (by rfl)).elim
      (fun n hn => hn.elim (fun s hs => ⟨n, s, hs.1, hs.2.1, fun h => (hs.2.2.2.2.2 h).1⟩))⟩

/-- C14 as stated fails: with `h1 k = k` and `h2 k = k / 2`, a second insert
of key 1 into the table of size 1 that holds key 1 (load 1 = 2 * 1 - 1)
returns false and a table of size 2. -/
theorem cuckoo_duplicate_insert_counterexample :
    ¬ (∀ (t t' : Cuckoo.CuckooHashTable) (k : Key) (b : Bool),
        Cuckoo.Reachable (fun k => k) (fun k => k / 2) (fun _ => 0) t →
        Cuckoo.cuckoo_hash_table_lookup (fun k => k) (fun k => k / 2) t k = true →
        Cuckoo.cuckoo_hash_table_insert (fun k => k) (fun k => k / 2) (fun _ => 0) t k
          = .ok (t', b) →
        b = false ∧ t'.size = t.size ∧ t'.load = t.load ∧ t'.stats = t.stats ∧
          t'.table1 = t.table1 ∧ t'.table2 = t.table2) := by
  intro H
  have h := (H Cuckoo.demo_one Cuckoo.demo_dup 1 false
    (Cuckoo.Reachable.step Cuckoo.demo_empty Cuckoo.demo_one 1 true
      (Cuckoo.Reachable.init 1 Cuckoo.demo_empty (by decide) (by rfl)) (by rfl))
    (by rfl) (by rfl)).2.1
  exact absurd h (by decide)

/-- Witness for C14 (amended): the second insert of key 1 into the full table
of size 1 returns false and a table of size 2 with the same load. -/
theorem cuckoo_duplicate_insert_witness :
    (Cuckoo.Reachable (fun k => k) (fun k => k / 2) (fun _ => 0) Cuckoo.demo_one ∧
      Cuckoo.cuckoo_hash_table_lookup (fun k => k) (fun k => k / 2) Cuckoo.demo_one 1 = true ∧
      Cuckoo.cuckoo_hash_table_insert (fun k => k) (fun k => k / 2) (fun _ => 0)
        Cuckoo.demo_one 1 = .ok (Cuckoo.demo_dup, false)) ∧
    (2 * Cuckoo.demo_one.size ≤ Cuckoo.demo_dup.size ∧
      Cuckoo.demo_dup.load = Cuckoo.demo_one.load) :=
  ⟨⟨Cuckoo.Reachable.step Cuckoo.demo_empty Cuckoo.demo_one 1 true
      (Cuckoo.Reachable.init 1 Cuckoo.demo_empty (by decide) (by rfl)) (by rfl),
      (by rfl), (by rfl)⟩,
    ((cuckoo_duplicate_insert (fun k => k) (fun k => k / 2) (fun _ => 0) Cuckoo.demo_one 1
      (Cuckoo.Reachable.step Cuckoo.demo_empty Cuckoo.demo_one 1 true
        (Cuckoo.Reachable.init 1 Cuckoo.demo_empty (by decide) (by rfl)) (by rfl))
      (by rfl)).2 Cuckoo.demo_dup false (by rfl)).2.2.1 (by decide),
    ((cuckoo_duplicate_insert (fun k => k) (fun k => k / 2) (fun _ => 0) Cuckoo.demo_one 1
      (Cuckoo.Reachable.step Cuckoo.demo_empty Cuckoo.demo_one 1 true
        (Cuckoo.Reachable.init 1 Cuckoo.demo_empty (by decide) (by rfl)) (by rfl))
      (by rfl)).2 Cuckoo.demo_dup false (by rfl)).2.2.2.1⟩

/-- Witness for C15: key 3 inserted twice into the table of size 2 that holds
1 and 2; the first insert doubles the table after a cycle. -/
theorem cuckoo_duplicate_idempotence_witness :
    (Cuckoo.Reachable (fun k => 2 * k) (fun k => 2 * k) (fun _ => 0) Cuckoo.demo_cycle ∧
      Cuckoo.cuckoo_hash_table_lookup (fun k => 2 * k) (fun k => 2 * k) Cuckoo.demo_cycle 3
        = false ∧
      Cuckoo.cuckoo_hash_table_insert (fun k => 2 * k) (fun k => 2 * k) (fun _ => 0)
        Cuckoo.demo_cycle 3 = .ok (Cuckoo.demo_cycle_three, true) ∧
      Cuckoo.cuckoo_hash_table_insert (fun k => 2 * k) (fun k => 2 * k) (fun _ => 0)
        Cuckoo.demo_cycle_three 3 = .ok (Cuckoo.demo_cycle_three, false)) ∧
    (false = false ∧ Cuckoo.demo_cycle_three.load = Cuckoo.demo_cycle.load + 1) :=
  ⟨⟨Cuckoo.Reachable.step Cuckoo.demo_cycle_one Cuckoo.demo_cycle 2 true
      (Cuckoo.Reachable.step Cuckoo.demo_cycle_empty Cuckoo.demo_cycle_one 1 true
        (Cuckoo.Reachable.init 2 Cuckoo.demo_cycle_empty (by decide) (by rfl)) (by rfl))
      (by rfl), (by rfl), (by rfl), (by rfl)⟩,
    ((cuckoo_duplicate_idempotence (fun k => 2 * k) (fun k => 2 * k) (fun _ => 0)
      Cuckoo.demo_cycle 3
      (Cuckoo.Reachable.step Cuckoo.demo_cycle_one Cuckoo.demo_cycle 2 true
        (Cuckoo.Reachable.step Cuckoo.demo_cycle_empty Cuckoo.demo_cycle_one 1 true
          (Cuckoo.Reachable.init 2 Cuckoo.demo_cycle_empty (by decide) (by rfl)) (by rfl))
        (by rfl))
      (by rfl)).2 Cuckoo.demo_cycle_three true (by rfl)).2.2.2
      Cuckoo.demo_cycle_three false (by rfl)⟩

/-- Witness for C16: the table of size 2 that holds keys 1 and 2 has load 2,
two in-use slots and `2 ≤ 2 * 2 - 1`. -/
theorem cuckoo_load_bound_witness :
    Cuckoo.Reachable (fun k => 2 * k) (fun k => 2 * k) (fun _ => 0) Cuckoo.demo_cycle ∧
    (Cuckoo.demo_cycle.load =
        Cuckoo.demo_cycle.table1.inuse.count true + Cuckoo.demo_cycle.table2.inuse.count true ∧
      Cuckoo.demo_cycle.load ≤ 2 * Cuckoo.demo_cycle.size - 1) :=
  ⟨Cuckoo.Reachable.step Cuckoo.demo_cycle_one Cuckoo.demo_cycle 2 true
      (Cuckoo.Reachable.step Cuckoo.demo_cycle_empty Cuckoo.demo_cycle_one 1 true
        (Cuckoo.Reachable.init 2 Cuckoo.demo_cycle_empty (by decide) (by rfl)) (by rfl))
      (by rfl),
    (cuckoo_load_bound (fun k => 2 * k) (fun k => 2 * k) (fun _ => 0) Cuckoo.demo_cycle
      (Cuckoo.Reachable.step Cuckoo.demo_cycle_one Cuckoo.demo_cycle 2 true
        (Cuckoo.Reachable.step Cuckoo.demo_cycle_empty Cuckoo.demo_cycle_one 1 true
          (Cuckoo.Reachable.init 2 Cuckoo.demo_cycle_empty (by decide) (by rfl)) (by rfl))
        (by rfl))).2.2.1,
    (cuckoo_load_bound (fun k => 2 * k) (fun k => 2 * k) (fun _ => 0) Cuckoo.demo_cycle
      (Cuckoo.Reachable.step Cuckoo.demo_cycle_one Cuckoo.demo_cycle 2 true
        (Cuckoo.Reachable.step Cuckoo.demo_cycle_empty Cuckoo.demo_cycle_one 1 true
          (Cuckoo.Reachable.init 2 Cuckoo.demo_cycle_empty (by decide) (by rfl)) (by rfl))
        (by rfl))).2.2.2.1⟩

/-- Witness for C17: the eviction loop of the insert of key 3 into the table
of size 2 that holds 1 and 2 makes `4 = 2 * 2` kicks. -/
theorem cuckoo_kick_bound_witness :
    (Cuckoo.demo_cycle.load ≠ 2 * Cuckoo.demo_cycle.size - 1 ∧
      ¬ (Cuckoo.demo_cycle.table1.slots.getD (2 * 3 % Cuckoo.demo_cycle.size) 0 = 3 ∧
        Cuckoo.demo_cycle.table1.inuse.getD (2 * 3 % Cuckoo.demo_cycle.size) false = true) ∧
      ¬ (Cuckoo.demo_cycle.table2.slots.getD (2 * 3 % Cuckoo.demo_cycle.size) 0 = 3 ∧
        Cuckoo.demo_cycle.table2.inuse.getD (2 * 3 % Cuckoo.demo_cycle.size) false = true)) ∧
    ∃ n s, n ≤ 2 * Cuckoo.demo_cycle.size ∧
      Cuckoo.kick_loop (fun k => 2 * k) (fun k => 2 * k) (2 * Cuckoo.demo_cycle.size + 1)
        (Cuckoo.chain_start (fun k => 2 * k) Cuckoo.demo_cycle 3) = .ok s ∧
      s.time_kicked_keys = n :=
  ⟨⟨by decide, by decide, by decide⟩,
    (cuckoo_kick_bound (fun k => 2 * k) (fun k => 2 * k) (fun _ => 0) 27 Cuckoo.demo_cycle 3
      (by decide) (by decide) (by decide)).elim
      (fun n hn => hn.elim (fun s hs => ⟨n, s, hs.1, hs.2.1, hs.2.2.2.2.2.1⟩))⟩

/-! ### The eviction loop of xuckoo.c as a sequence of kicks -/

namespace Xuckoo

theorem xu_kick_loop_step (h1 h2 : Key → Nat) (fuel : Nat) (s : Cursor) (hg : kick_guard s) :
    kick_loop h1 h2 (fuel + 1) s = kick_loop h1 h2 fuel (kick h1 h2 s) := by
  unfold kick_guard at hg
  rw [kick_loop]
  simp only
  rw [if_pos hg]
  unfold kick
  simp only
  by_cases c1 : s.insert_table = 1
  · rw [if_pos c1, if_pos c1]
  · rw [if_neg c1, if_neg c1]
    by_cases c2 : s.insert_table = 2
    · rw [if_pos c2, if_pos c2]
    · rw [if_neg c2, if_neg c2]

theorem xu_kick_loop_stop (h1 h2 : Key → Nat) (fuel : Nat) (s : Cursor) (hg : ¬ kick_guard s) :
    kick_loop h1 h2 (fuel + 1) s = .ok s := by
  unfold kick_guard at hg
  rw [kick_loop]
  simp only
  rw [if_neg hg]

/-- The table after one kick. -/
theorem xu_kick_table (h1 h2 : Key → Nat) (s : Cursor) :
    (kick h1 h2 s).table = s.table.setInner s.innertable
      ((s.table.inner s.innertable).storeAt s.address
        { (s.table.inner s.innertable).bucket s.address with key := s.key }) ∧
    (kick h1 h2 s).total_kicked_keys = s.total_kicked_keys + 1 ∧
    (kick h1 h2 s).key = ((s.table.inner s.innertable).bucket s.address).key := by
  unfold kick
  simp only
  by_cases c1 : s.insert_table = 1
  · rw [if_pos c1]; exact ⟨rfl, rfl, rfl⟩
  · rw [if_neg c1]
    by_cases c2 : s.insert_table = 2
    · rw [if_pos c2]; exact ⟨rfl, rfl, rfl⟩
    · rw [if_neg c2]; exact ⟨rfl, rfl, rfl⟩

/-- Rewriting the key of a bucket changes neither the pointers nor the fields
of a directory, nor which buckets are full. -/
theorem xu_store_key_shape (T : InnerTable) (a : Nat) (k : Key) :
    (T.storeAt a { T.bucket a with key := k }).buckets = T.buckets ∧
    (T.storeAt a { T.bucket a with key := k }).size = T.size ∧
    (T.storeAt a { T.bucket a with key := k }).depth = T.depth ∧
    (T.storeAt a { T.bucket a with key := k }).nkeys = T.nkeys ∧
    (T.storeAt a { T.bucket a with key := k }).mem.length = T.mem.length ∧
    ∀ p, ((T.storeAt a { T.bucket a with key := k }).deref p).full = (T.deref p).full ∧
      ((T.storeAt a { T.bucket a with key := k }).deref p).depth = (T.deref p).depth := by
  refine ⟨rfl, rfl, rfl, rfl, ?_, ?_⟩
  · unfold InnerTable.storeAt InnerTable.store; simp
  · intro p
    unfold InnerTable.storeAt InnerTable.store InnerTable.deref InnerTable.bucket
      InnerTable.deref
    simp only
    rw [aux_getD_set]
    split
    · rename_i h; rw [h.1]; exact ⟨rfl, rfl⟩
    · exact ⟨rfl, rfl⟩

/-- What a directory looks like after one kick: same pointers, same fields,
same full buckets. -/
theorem xu_kick_shape (h1 h2 : Key → Nat) (s : Cursor) (n : Nat) :
    ((kick h1 h2 s).table.inner n).buckets = (s.table.inner n).buckets ∧
    ((kick h1 h2 s).table.inner n).size = (s.table.inner n).size ∧
    ((kick h1 h2 s).table.inner n).depth = (s.table.inner n).depth ∧
    ((kick h1 h2 s).table.inner n).nkeys = (s.table.inner n).nkeys ∧
    ((kick h1 h2 s).table.inner n).mem.length = (s.table.inner n).mem.length ∧
    ∀ p, (((kick h1 h2 s).table.inner n).deref p).full = ((s.table.inner n).deref p).full ∧
      (((kick h1 h2 s).table.inner n).deref p).depth = ((s.table.inner n).deref p).depth := by
  rw [(xu_kick_table h1 h2 s).1]
  have hsh := xu_store_key_shape (s.table.inner s.innertable) s.address s.key
  by_cases hn : n = 1 <;> by_cases hq : s.innertable = 1
  · subst hn
    rw [show (s.table.setInner s.innertable
        ((s.table.inner s.innertable).storeAt s.address
          { (s.table.inner s.innertable).bucket s.address with key := s.key })).inner 1 =
        (s.table.inner s.innertable).storeAt s.address
          { (s.table.inner s.innertable).bucket s.address with key := s.key } from by
      unfold XuckooHashTable.setInner XuckooHashTable.inner; simp [hq]]
    rw [show s.table.inner 1 = s.table.inner s.innertable from by rw [hq]]
    exact hsh
  · subst hn
    rw [show (s.table.setInner s.innertable
        ((s.table.inner s.innertable).storeAt s.address
          { (s.table.inner s.innertable).bucket s.address with key := s.key })).inner 1 =
        s.table.inner 1 from by
      unfold XuckooHashTable.setInner XuckooHashTable.inner; simp [hq]]
    exact ⟨rfl, rfl, rfl, rfl, rfl, fun _ => ⟨rfl, rfl⟩⟩
  · rw [show (s.table.setInner s.innertable
        ((s.table.inner s.innertable).storeAt s.address
          { (s.table.inner s.innertable).bucket s.address with key := s.key })).inner n =
        s.table.inner n from by
      unfold XuckooHashTable.setInner XuckooHashTable.inner; simp [hq, hn]]
    exact ⟨rfl, rfl, rfl, rfl, rfl, fun _ => ⟨rfl, rfl⟩⟩
  · rw [show (s.table.setInner s.innertable
        ((s.table.inner s.innertable).storeAt s.address
          { (s.table.inner s.innertable).bucket s.address with key := s.key })).inner n =
        (s.table.inner s.innertable).storeAt s.address
          { (s.table.inner s.innertable).bucket s.address with key := s.key } from by
      unfold XuckooHashTable.setInner XuckooHashTable.inner; simp [hq, hn]]
    rw [show s.table.inner n = s.table.inner s.innertable from by
      unfold XuckooHashTable.inner; simp [hq, hn]]
    exact hsh

theorem xu_kicks_succ (h1 h2 : Key → Nat) :
    ∀ n s, kicks h1 h2 (n + 1) s = kick h1 h2 (kicks h1 h2 n s) := by
  intro n
  induction n with
  | zero => intro s; rfl
  | succ n ih => intro s; rw [kicks, ih (kick h1 h2 s)]; rfl

/-- Kicks change no pointer, no field of a directory and no full flag. -/
theorem xu_kicks_shape (h1 h2 : Key → Nat) :
    ∀ m (s : Cursor) (n : Nat),
      ((kicks h1 h2 m s).table.inner n).buckets = (s.table.inner n).buckets ∧
      ((kicks h1 h2 m s).table.inner n).size = (s.table.inner n).size ∧
      ((kicks h1 h2 m s).table.inner n).depth = (s.table.inner n).depth ∧
      ((kicks h1 h2 m s).table.inner n).nkeys = (s.table.inner n).nkeys ∧
      ((kicks h1 h2 m s).table.inner n).mem.length = (s.table.inner n).mem.length ∧
      ∀ p, (((kicks h1 h2 m s).table.inner n).deref p).full = ((s.table.inner n).deref p).full ∧
        (((kicks h1 h2 m s).table.inner n).deref p).depth =
          ((s.table.inner n).deref p).depth := by
  intro m
  induction m with
  | zero => intro s n; exact ⟨rfl, rfl, rfl, rfl, rfl, fun _ => ⟨rfl, rfl⟩⟩
  | succ m ih =>
    intro s n
    obtain ⟨a1, a2, a3, a4, a5, a6⟩ := ih (kick h1 h2 s) n
    obtain ⟨b1, b2, b3, b4, b5, b6⟩ := xu_kick_shape h1 h2 s n
    rw [kicks]
    refine ⟨a1.trans b1, a2.trans b2, a3.trans b3, a4.trans b4, a5.trans b5, ?_⟩
    intro p
    exact ⟨(a6 p).1.trans (b6 p).1, (a6 p).2.trans (b6 p).2⟩

/-- A run of the eviction loop is a sequence of kicks, each made under the
guard of the loop, that ends in the first state whose guard fails. -/
theorem xu_kick_loop_trace (h1 h2 : Key → Nat) :
    ∀ fuel (s s' : Cursor), kick_loop h1 h2 fuel s = .ok s' →
      ∃ n, s' = kicks h1 h2 n s ∧ (∀ i, i < n → kick_guard (kicks h1 h2 i s)) ∧
        ¬ kick_guard s' ∧ s'.total_kicked_keys = s.total_kicked_keys + n := by
  intro fuel
  induction fuel with
  | zero => intro s s' hr; simp [kick_loop] at hr
  | succ fuel ih =>
    intro s s' hr
    by_cases hg : kick_guard s
    · rw [xu_kick_loop_step h1 h2 fuel s hg] at hr
      obtain ⟨n, hs, hall, hng, ht⟩ := ih _ s' hr
      refine ⟨n + 1, hs, ?_, hng, by rw [ht, (xu_kick_table h1 h2 s).2.1]; omega⟩
      intro i hi
      cases i with
      | zero => exact hg
      | succ i => exact hall i (by omega)
    · rw [xu_kick_loop_stop h1 h2 fuel s hg] at hr
      simp only [Except.ok.injEq] at hr
      subst hr
      exact ⟨0, rfl, fun i hi => absurd hi (Nat.not_lt_zero i), hg, rfl⟩

end Xuckoo

/-! ### The splitting loop of xuckoo.c as the specification describes it -/

namespace Xuckoo

theorem xu_kicks_total (h1 h2 : Key → Nat) :
    ∀ n s, (kicks h1 h2 n s).total_kicked_keys = s.total_kicked_keys + n := by
  intro n
  induction n with
  | zero => intro s; rfl
  | succ n ih => intro s; rw [kicks, ih, (xu_kick_table h1 h2 s).2.1]; omega

/-- Every run of the splitting loop is a run as the specification describes it. -/
theorem xu_split_loop_run (h1 h2 : Key → Nat) (junk : Nat → Key) :
    ∀ fuel (s s' : Cursor), split_loop h1 h2 junk fuel s = .ok s' →
      SplitRun h1 h2 junk s s' := by
  intro fuel
  induction fuel with
  | zero => intro s s' hr; simp [split_loop] at hr
  | succ fuel ih =>
    intro s s' hr
    unfold split_loop at hr
    by_cases hc : ((s.table.inner s.innertable).bucket s.address).full = true
    · rw [if_pos hc] at hr
      by_cases hle : s.table.table1.size ≤ s.table.table2.size
      · rw [if_pos hle] at hr
        simp only at hr
        cases hsp : split_bucket h1 h2 junk s.table.table1
            (rightmostnbits s.table.table1.depth (h1 s.key)) 1 with
        | error e => rw [hsp] at hr; simp at hr
        | ok T =>
          rw [hsp] at hr
          simp only at hr
          exact SplitRun.pass s _ s' hc ⟨1, T, by rw [if_pos hle], hsp, rfl⟩ (ih _ s' hr)
      · rw [if_neg hle] at hr
        simp only at hr
        cases hsp : split_bucket h1 h2 junk s.table.table2
            (rightmostnbits s.table.table2.depth (h2 s.key)) 2 with
        | error e => rw [hsp] at hr; simp at hr
        | ok T =>
          rw [hsp] at hr
          simp only at hr
          exact SplitRun.pass s _ s' hc ⟨2, T, by rw [if_neg hle], hsp, rfl⟩ (ih _ s' hr)
    · rw [if_neg hc] at hr
      simp only [Except.ok.injEq] at hr
      subst hr
      exact SplitRun.stop s (by simpa using hc)

theorem xu_find_slot_eq (h1 h2 : Key → Nat) (junk : Nat → Key) (t : XuckooHashTable) (k : Key)
    (s : Cursor)
    (hs : kick_loop h1 h2 (2 * t.table1.size + 1) (chain_start h1 t k) = .ok s) :
    find_slot h1 h2 junk t k =
      if s.total_kicked_keys = 2 * s.table.table1.size then split_loop h1 h2 junk SPLIT_FUEL s
      else .ok s := by
  unfold chain_start at hs
  unfold find_slot
  simp only
  rw [hs]

theorem xu_insert_eq (h1 h2 : Key → Nat) (junk : Nat → Key) (t : XuckooHashTable) (k : Key)
    (s : Cursor)
    (hd1 : ¬ ((t.table1.bucket (rightmostnbits t.table1.depth (h1 k))).full = true ∧
      (t.table1.bucket (rightmostnbits t.table1.depth (h1 k))).key = k))
    (hd2 : ¬ ((t.table2.bucket (rightmostnbits t.table2.depth (h2 k))).full = true ∧
      (t.table2.bucket (rightmostnbits t.table2.depth (h2 k))).key = k))
    (hs : find_slot h1 h2 junk t k = .ok s) :
    xuckoo_hash_table_insert h1 h2 junk t k = .ok (place s, true) := by
  unfold xuckoo_hash_table_insert
  simp only
  rw [if_neg hd1, if_neg hd2, hs]
  rfl

theorem xu_insert_error (h1 h2 : Key → Nat) (junk : Nat → Key) (t : XuckooHashTable) (k : Key)
    (e : Err)
    (hd1 : ¬ ((t.table1.bucket (rightmostnbits t.table1.depth (h1 k))).full = true ∧
      (t.table1.bucket (rightmostnbits t.table1.depth (h1 k))).key = k))
    (hd2 : ¬ ((t.table2.bucket (rightmostnbits t.table2.depth (h2 k))).full = true ∧
      (t.table2.bucket (rightmostnbits t.table2.depth (h2 k))).key = k))
    (hs : find_slot h1 h2 junk t k = .error e) :
    xuckoo_hash_table_insert h1 h2 junk t k = .error e := by
  unfold xuckoo_hash_table_insert
  simp only
  rw [if_neg hd1, if_neg hd2, hs]

/-- When the lookup of a key fails, neither duplicate check of the insert succeeds. -/
theorem xu_absent {h1 h2 : Key → Nat} {t : XuckooHashTable} (k : Key)
    (hk : xuckoo_hash_table_lookup h1 h2 t k = false) :
    ¬ ((t.table1.bucket (rightmostnbits t.table1.depth (h1 k))).full = true ∧
      (t.table1.bucket (rightmostnbits t.table1.depth (h1 k))).key = k) ∧
    ¬ ((t.table2.bucket (rightmostnbits t.table2.depth (h2 k))).full = true ∧
      (t.table2.bucket (rightmostnbits t.table2.depth (h2 k))).key = k) := by
  unfold xuckoo_hash_table_lookup at hk
  simp only at hk
  constructor
  · intro h; rw [if_pos h] at hk; exact Bool.noConfusion hk
  · intro h
    by_cases h' : (t.table1.bucket (rightmostnbits t.table1.depth (h1 k))).full = true ∧
        (t.table1.bucket (rightmostnbits t.table1.depth (h1 k))).key = k
    · rw [if_pos h'] at hk; exact Bool.noConfusion hk
    · rw [if_neg h', if_pos h] at hk; exact Bool.noConfusion hk

/-- When the lookup of a key succeeds, the insert returns false at one of its
duplicate checks and leaves the table as it is. -/
theorem xu_present (h1 h2 : Key → Nat) (junk : Nat → Key) (t : XuckooHashTable) (k : Key)
    (hk : xuckoo_hash_table_lookup h1 h2 t k = true) :
    xuckoo_hash_table_insert h1 h2 junk t k = .ok (t, false) := by
  unfold xuckoo_hash_table_lookup at hk
  simp only at hk
  unfold xuckoo_hash_table_insert
  simp only
  by_cases h' : (t.table1.bucket (rightmostnbits t.table1.depth (h1 k))).full = true ∧
      (t.table1.bucket (rightmostnbits t.table1.depth (h1 k))).key = k
  · rw [if_pos h']
  · rw [if_neg h'] at hk ⊢
    by_cases h'' : (t.table2.bucket (rightmostnbits t.table2.depth (h2 k))).full = true ∧
        (t.table2.bucket (rightmostnbits t.table2.depth (h2 k))).key = k
    · rw [if_pos h'']
    · rw [if_neg h''] at hk; exact Bool.noConfusion hk

theorem xu_lookup_false_iff {h1 h2 : Key → Nat} {t : XuckooHashTable} (hI : Inv h1 h2 t)
    (k : Key) : xuckoo_hash_table_lookup h1 h2 t k = false ↔ ¬ holds t k := by
  rw [← xu_lookup_iff_holds hI k]
  cases xuckoo_hash_table_lookup h1 h2 t k <;> simp

/-- The eviction loop of an insert stops after at most `2 * size` kicks,
`size` being the size of directory 1, which the kicks do not change. -/
theorem xu_chain_total (h1 h2 : Key → Nat) (t : XuckooHashTable) (k : Key) :
    ∃ n s, n ≤ 2 * t.table1.size ∧
      kick_loop h1 h2 (2 * t.table1.size + 1) (chain_start h1 t k) = .ok s ∧
      s = kicks h1 h2 n (chain_start h1 t k) ∧
      (∀ i, i < n → kick_guard (kicks h1 h2 i (chain_start h1 t k))) ∧
      ¬ kick_guard s ∧ s.total_kicked_keys = n ∧ s.table.table1.size = t.table1.size := by
  obtain ⟨s, hs, hsz⟩ := xu_kick_loop_total h1 h2 (2 * t.table1.size + 1)
    (chain_start h1 t k) (by simp [chain_start]) (by simp [chain_start])
  obtain ⟨n, hn, hg, hng, ht⟩ := xu_kick_loop_trace h1 h2 _ _ s hs
  have hz : s.table.table1.size = t.table1.size := hsz 1
  have ht' : s.total_kicked_keys = n := by rw [ht]; simp [chain_start]
  refine ⟨n, s, ?_, hs, hn, hg, hng, ht', hz⟩
  by_contra hlt
  have hgi := hg (2 * t.table1.size) (by omega)
  have e1 := xu_kicks_total h1 h2 (2 * t.table1.size) (chain_start h1 t k)
  have e2 := (xu_kicks_shape h1 h2 (2 * t.table1.size) (chain_start h1 t k) 1).2.1
  have e2' : (kicks h1 h2 (2 * t.table1.size) (chain_start h1 t k)).table.table1.size =
      t.table1.size := e2
  apply hgi.2
  rw [e1, e2']
  simp [chain_start]

end Xuckoo

/-! ## Claims about the splitting and the depths of xuckoo.c -/

/-- C11. ExtendibleCuckooTable split choice: on a reachable table, the insert
of a key that is present returns false and changes nothing; the insert of an
absent key first runs its eviction loop, which stops after
`n ≤ 2 * size` kicks (`size`: the size of directory 1 when the chain starts)
and changes no pointer array, size or depth, so no bucket has been split.
When `n ≠ 2 * size` no bucket is split at all.  When `n = 2 * size` the call
runs the splitting loop as specified (or the size assertion fails): as long
as the bucket under the cursor is full, the directory that is now smaller
(directory 1 on a tie) has the target bucket of the held key split and the
cursor moves to the held key's target bucket in that directory.  In the end
the bucket under the cursor is empty and the held key is stored there. -/
theorem xuckoo_split_choice (h1 h2 : Key → Nat) (junk : Nat → Key)
    (t : Xuckoo.XuckooHashTable) (k : Key) (hr : Xuckoo.Reachable h1 h2 junk t) :
    (Xuckoo.xuckoo_hash_table_lookup h1 h2 t k = true →
      Xuckoo.xuckoo_hash_table_insert h1 h2 junk t k = .ok (t, false)) ∧
    (Xuckoo.xuckoo_hash_table_lookup h1 h2 t k = false →
    ∃ n s, n ≤ 2 * t.table1.size ∧
      Xuckoo.kick_loop h1 h2 (2 * t.table1.size + 1) (Xuckoo.chain_start h1 t k) = .ok s ∧
      s = Xuckoo.kicks h1 h2 n (Xuckoo.chain_start h1 t k) ∧
      s.total_kicked_keys = n ∧
      (∀ q, (s.table.inner q).buckets = (t.inner q).buckets ∧
        (s.table.inner q).size = (t.inner q).size ∧
        (s.table.inner q).depth = (t.inner q).depth ∧
        (s.table.inner q).mem.length = (t.inner q).mem.length ∧
        ∀ p, ((s.table.inner q).deref p).depth = ((t.inner q).deref p).depth) ∧
      (n ≠ 2 * t.table1.size → Xuckoo.find_slot h1 h2 junk t k = .ok s) ∧
      (n = 2 * t.table1.size →
        (∃ s', Xuckoo.find_slot h1 h2 junk t k = .ok s' ∧ Xuckoo.SplitRun h1 h2 junk s s') ∨
        Xuckoo.find_slot h1 h2 junk t k = .error .assertion) ∧
      (∀ s', Xuckoo.find_slot h1 h2 junk t k = .ok s' →
        ((s'.table.inner s'.innertable).bucket s'.address).full = false ∧
        Xuckoo.xuckoo_hash_table_insert h1 h2 junk t k = .ok (Xuckoo.place s', true) ∧
        (((Xuckoo.place s').inner s'.innertable).bucket s'.address).full = true ∧
        (((Xuckoo.place s').inner s'.innertable).bucket s'.address).key = s'.key)) := by
  refine ⟨Xuckoo.xu_present h1 h2 junk t k, ?_⟩
  intro hk
  have hI := Xuckoo.xu_reachable_inv hr
  have hB := Xuckoo.xu_reachable_bounded hr
  have hnk := (Xuckoo.xu_lookup_false_iff hI k).mp hk
  obtain ⟨hd1, hd2⟩ := Xuckoo.xu_absent k hk
  obtain ⟨n, s, hn, hs, hsn, _, _, ht, hz⟩ := Xuckoo.xu_chain_total h1 h2 t k
  have hfs := Xuckoo.xu_find_slot_eq h1 h2 junk t k s hs
  refine ⟨n, s, hn, hs, hsn, ht, ?_, ?_, ?_, ?_⟩
  · intro q
    obtain ⟨a1, a2, a3, _, a5, a6⟩ := Xuckoo.xu_kicks_shape h1 h2 n (Xuckoo.chain_start h1 t k) q
    rw [← hsn] at a1 a2 a3 a5 a6
    exact ⟨a1, a2, a3, a5, fun p => (a6 p).2⟩
  · intro hne
    rw [hfs, if_neg (by rw [ht, hz]; exact hne)]
  · intro he
    rcases Xuckoo.xu_find_slot_total junk hI hnk hB with ⟨s', hs', _⟩ | he'
    · left
      refine ⟨s', hs', ?_⟩
      rw [hfs, if_pos (by rw [ht, hz]; exact he)] at hs'
      exact Xuckoo.xu_split_loop_run h1 h2 junk _ _ _ hs'
    · exact Or.inr he'
  · intro s' hs'
    obtain ⟨hX, _, hfree⟩ := Xuckoo.xu_find_slot_spec hI hnk hs'
    have hD := hX.inv.dir s'.innertable
    have halt : s'.address < (s'.table.inner s'.innertable).size := by
      rw [hX.addr, aux_rightmostnbits]; exact Xuckoo.target_lt hD _
    have hbk : ((Xuckoo.place s').inner s'.innertable).bucket s'.address =
        { (s'.table.inner s'.innertable).bucket s'.address with key := s'.key, full := true } := by
      unfold Xuckoo.place
      simp only
      rw [Xuckoo.setInner_same]
      have := @Xuckoo.bucket_of_set (s'.table.inner s'.innertable)
        ((s'.table.inner s'.innertable).storeAt s'.address
          { (s'.table.inner s'.innertable).bucket s'.address with key := s'.key, full := true })
        ((s'.table.inner s'.innertable).buckets.getD s'.address 0)
        { (s'.table.inner s'.innertable).bucket s'.address with key := s'.key, full := true }
        rfl rfl s'.address
      rw [if_pos ⟨rfl, hD.ptr_lt _ halt⟩] at this
      exact this
    refine ⟨hfree, Xuckoo.xu_insert_eq h1 h2 junk t k s' hd1 hd2 hs', ?_, ?_⟩
    · rw [hbk]
    · rw [hbk]

/-- C19. Depth bound: in every reachable extendible cuckoo table, every bucket
referenced from a directory has local depth at most the depth of that
directory. -/
theorem xuckoo_depth_bound (h1 h2 : Key → Nat) (junk : Nat → Key)
    (t : Xuckoo.XuckooHashTable) (hr : Xuckoo.Reachable h1 h2 junk t) :
    (∀ i, i < t.table1.size → (t.table1.bucket i).depth ≤ t.table1.depth) ∧
    (∀ i, i < t.table2.size → (t.table2.bucket i).depth ≤ t.table2.depth) := by
  have hI := Xuckoo.xu_reachable_inv hr
  exact ⟨(hI.dir 1).depth_le, (hI.dir 2).depth_le⟩

/-! ### Counting the full buckets of a directory -/

namespace Xuckoo

theorem xu_full_buckets_card (T : InnerTable) :
    full_buckets T = (T.buckets.toFinset.filter (fun p => (T.deref p).full = true)).card := by
  unfold full_buckets
  have hnd : (T.buckets.dedup.filter (fun p => (T.deref p).full)).Nodup :=
    List.Nodup.filter _ (List.nodup_dedup _)
  rw [← List.toFinset_card_of_nodup hnd]
  congr 1
  ext p
  simp only [List.mem_toFinset, List.mem_filter, List.mem_dedup, Finset.mem_filter]

theorem xu_full_buckets_congr {T T' : InnerTable} (hb : T'.buckets = T.buckets)
    (hf : ∀ p, (T'.deref p).full = (T.deref p).full) : full_buckets T' = full_buckets T := by
  unfold full_buckets
  rw [hb]
  congr 1
  apply List.filter_congr
  intro p _
  exact hf p

theorem xu_mem_buckets {T : InnerTable} (hD : Dir T) (p : Nat) :
    p ∈ T.buckets ↔ ∃ i, i < T.size ∧ T.buckets.getD i 0 = p := by
  rw [List.mem_iff_getElem]
  constructor
  · rintro ⟨i, hi, hp⟩
    refine ⟨i, by rw [← hD.len]; exact hi, ?_⟩
    rw [List.getD_eq_getElem _ _ hi]; exact hp
  · rintro ⟨i, hi, hp⟩
    have hi' : i < T.buckets.length := by rw [hD.len]; exact hi
    exact ⟨i, hi', by rw [← hp, List.getD_eq_getElem _ _ hi']⟩

theorem xu_mem_keyset {T : InnerTable} (hD : Dir T) (x : Key) :
    x ∈ keyset T ↔ stored T x := by
  unfold keyset stored
  simp only [Finset.mem_image, Finset.mem_filter, List.mem_toFinset]
  constructor
  · rintro ⟨p, ⟨hp, hf⟩, hx⟩
    obtain ⟨i, hi, hip⟩ := (xu_mem_buckets hD p).mp hp
    refine ⟨i, hi, ?_, ?_⟩
    · unfold InnerTable.bucket; rw [hip]; exact hf
    · unfold InnerTable.bucket; rw [hip]; exact hx
  · rintro ⟨i, hi, hf, hx⟩
    exact ⟨T.buckets.getD i 0, ⟨(xu_mem_buckets hD _).mpr ⟨i, hi, rfl⟩, hf⟩, hx⟩

/-- Distinct full buckets of a directory hold distinct keys, so the directory
holds as many keys as it has full buckets. -/
theorem xu_card_keyset {h : Key → Nat} {T : InnerTable} (hD : Dir T) (hK : KeysAt h T) :
    (keyset T).card = full_buckets T := by
  rw [xu_full_buckets_card]
  unfold keyset
  apply Finset.card_image_of_injOn
  intro p hp q hq hpq
  simp only [Finset.coe_filter, List.mem_toFinset, Set.mem_setOf_eq] at hp hq
  obtain ⟨i, hi, hip⟩ := (xu_mem_buckets hD p).mp hp.1
  obtain ⟨j, hj, hjq⟩ := (xu_mem_buckets hD q).mp hq.1
  have hfi : (T.bucket i).full = true := by unfold InnerTable.bucket; rw [hip]; exact hp.2
  have hfj : (T.bucket j).full = true := by unfold InnerTable.bucket; rw [hjq]; exact hq.2
  have hki : (T.bucket i).key = (T.deref p).key := by unfold InnerTable.bucket; rw [hip]
  have hkj : (T.bucket j).key = (T.deref q).key := by unfold InnerTable.bucket; rw [hjq]
  have e1 := target_ptr hD hK i hi hfi
  have e2 := target_ptr hD hK j hj hfj
  have hpq' : (T.deref p).key = (T.deref q).key := hpq
  rw [hki, hpq', ← hkj, e2] at e1
  rw [← hip, ← hjq]; exact e1.symm

theorem xu_full_buckets_same {h : Key → Nat} {T T' : InnerTable} (hD : Dir T)
    (hK : KeysAt h T) (hD' : Dir T') (hK' : KeysAt h T')
    (hst : ∀ x, stored T' x ↔ stored T x) : full_buckets T' = full_buckets T := by
  rw [← xu_card_keyset hD hK, ← xu_card_keyset hD' hK']
  congr 1
  ext x
  rw [xu_mem_keyset hD', xu_mem_keyset hD]
  exact hst x

theorem xu_full_buckets_insert {h : Key → Nat} {T T' : InnerTable} (hD : Dir T)
    (hK : KeysAt h T) (hD' : Dir T') (hK' : KeysAt h T') (k : Key)
    (hst : ∀ x, stored T' x ↔ stored T x ∨ x = k) (hk : ¬ stored T k) :
    full_buckets T' = full_buckets T + 1 := by
  rw [← xu_card_keyset hD hK, ← xu_card_keyset hD' hK']
  have : keyset T' = insert k (keyset T) := by
    ext x
    rw [Finset.mem_insert, xu_mem_keyset hD', xu_mem_keyset hD, hst x]
    exact Or.comm
  rw [this, Finset.card_insert_of_not_mem (by rw [xu_mem_keyset hD]; exact hk)]

end Xuckoo

/-! ### The key counters of xuckoo.c -/

namespace Xuckoo

theorem xu_ninv_iff (t : XuckooHashTable) :
    NInv t ↔ t.table1.nkeys = full_buckets t.table1 ∧ t.table2.nkeys = full_buckets t.table2 := by
  unfold NInv
  constructor
  · intro h; exact ⟨h 1, h 2⟩
  · rintro ⟨a, b⟩ n
    rw [inner_norm]
    split
    · exact a
    · exact b

/-- The splitting loop changes neither key counter and neither number of
full buckets. -/
theorem xu_split_loop_counts {h1 h2 : Key → Nat} {junk : Nat → Key} :
    ∀ fuel (s s' : Cursor), XInv h1 h2 s → OtherFull h1 h2 s →
      split_loop h1 h2 junk fuel s = .ok s' →
      (s'.table.table1.nkeys = s.table.table1.nkeys ∧
        full_buckets s'.table.table1 = full_buckets s.table.table1) ∧
      (s'.table.table2.nkeys = s.table.table2.nkeys ∧
        full_buckets s'.table.table2 = full_buckets s.table.table2) := by
  intro fuel
  induction fuel with
  | zero => intro s s' _ _ hr; simp [split_loop] at hr
  | succ fuel ih =>
    intro s s' hX hof hr
    unfold split_loop at hr
    by_cases hc : ((s.table.inner s.innertable).bucket s.address).full = true
    · rw [if_pos hc] at hr
      have hcur : TargetFull h1 h2 s.table s.innertable s.key := by
        unfold TargetFull; rw [← hX.addr]; exact hc
      have hT1 : TargetFull h1 h2 s.table 1 s.key := by
        rcases hX.tbl with h | h
        · rw [h] at hcur; exact hcur
        · unfold OtherFull at hof; rw [h] at hof; exact hof
      have hT2 : TargetFull h1 h2 s.table 2 s.key := by
        rcases hX.tbl with h | h
        · unfold OtherFull at hof; rw [h] at hof; exact hof
        · rw [h] at hcur; exact hcur
      by_cases hsz : s.table.table1.size ≤ s.table.table2.size
      · rw [if_pos hsz] at hr
        simp only at hr
        cases hsp : split_bucket h1 h2 junk s.table.table1
            (rightmostnbits s.table.table1.depth (h1 s.key)) 1 with
        | error e => rw [hsp] at hr; simp at hr
        | ok T =>
          rw [hsp] at hr
          simp only at hr
          obtain ⟨hI', hh', htf'⟩ := split_table hX.inv { s.table with table1 := T } 1 2
            (Or.inl ⟨rfl, rfl⟩) s.key T hT1 hsp rfl rfl
          have hh1 : (if (1 : Nat) = 2 then h2 else h1) = hash_of h1 h2 1 := rfl
          obtain ⟨hD', hK', hst', hn'⟩ := split_bucket_keys hh1
            (hX.inv.dir 1) (hX.inv.keys 1)
            (by rw [aux_rightmostnbits]; exact target_lt (hX.inv.dir 1) _) hT1 hsp
          have hfb := xu_full_buckets_same (hX.inv.dir 1) (hX.inv.keys 1) hD' hK' hst'
          obtain ⟨a, b⟩ := ih
            { s with table := { s.table with table1 := T }, innertable := 1,
                     address := rightmostnbits T.depth (h1 s.key), insert_table := 1 } s'
            ⟨hI', Or.inl rfl, Or.inl rfl, rfl, fun h => hX.fresh ((hh' _).mp h)⟩
            (htf' hT2) hr
          exact ⟨⟨a.1.trans hn', a.2.trans hfb⟩, b⟩
      · rw [if_neg hsz] at hr
        simp only at hr
        cases hsp : split_bucket h1 h2 junk s.table.table2
            (rightmostnbits s.table.table2.depth (h2 s.key)) 2 with
        | error e => rw [hsp] at hr; simp at hr
        | ok T =>
          rw [hsp] at hr
          simp only at hr
          obtain ⟨hI', hh', htf'⟩ := split_table hX.inv { s.table with table2 := T } 2 1
            (Or.inr ⟨rfl, rfl⟩) s.key T hT2 hsp rfl rfl
          have hh2 : (if (2 : Nat) = 2 then h2 else h1) = hash_of h1 h2 2 := rfl
          obtain ⟨hD', hK', hst', hn'⟩ := split_bucket_keys hh2
            (hX.inv.dir 2) (hX.inv.keys 2)
            (by rw [aux_rightmostnbits]; exact target_lt (hX.inv.dir 2) _) hT2 hsp
          have hfb := xu_full_buckets_same (hX.inv.dir 2) (hX.inv.keys 2) hD' hK' hst'
          obtain ⟨a, b⟩ := ih
            { s with table := { s.table with table2 := T }, innertable := 2,
                     address := rightmostnbits T.depth (h2 s.key), insert_table := 2 } s'
            ⟨hI', Or.inr rfl, Or.inr rfl, rfl, fun h => hX.fresh ((hh' _).mp h)⟩
            (htf' hT1) hr
          exact ⟨a, ⟨b.1.trans hn', b.2.trans hfb⟩⟩
    · rw [if_neg hc] at hr
      simp only [Except.ok.injEq] at hr
      subst hr
      exact ⟨⟨rfl, rfl⟩, ⟨rfl, rfl⟩⟩

/-- The search for a free bucket changes neither key counter and neither
number of full buckets. -/
theorem xu_find_slot_counts {h1 h2 : Key → Nat} {junk : Nat → Key} {t : XuckooHashTable}
    {k : Key} {s : Cursor} (hI : Inv h1 h2 t) (hk : ¬ holds t k)
    (hr : find_slot h1 h2 junk t k = .ok s) :
    (s.table.table1.nkeys = t.table1.nkeys ∧
      full_buckets s.table.table1 = full_buckets t.table1) ∧
    (s.table.table2.nkeys = t.table2.nkeys ∧
      full_buckets s.table.table2 = full_buckets t.table2) := by
  cases hkl : kick_loop h1 h2 (2 * t.table1.size + 1) (chain_start h1 t k) with
  | error e =>
    unfold find_slot at hr
    unfold chain_start at hkl
    simp only at hr
    rw [hkl] at hr; simp at hr
  | ok s1 =>
    rw [xu_find_slot_eq h1 h2 junk t k s1 hkl] at hr
    obtain ⟨n, hn, _, _, _⟩ := xu_kick_loop_trace h1 h2 _ _ s1 hkl
    have sh1 := xu_kicks_shape h1 h2 n (chain_start h1 t k) 1
    have sh2 := xu_kicks_shape h1 h2 n (chain_start h1 t k) 2
    rw [← hn] at sh1 sh2
    have c1 : s1.table.table1.nkeys = t.table1.nkeys ∧
        full_buckets s1.table.table1 = full_buckets t.table1 :=
      ⟨sh1.2.2.2.1, xu_full_buckets_congr sh1.1 (fun p => (sh1.2.2.2.2.2 p).1)⟩
    have c2 : s1.table.table2.nkeys = t.table2.nkeys ∧
        full_buckets s1.table.table2 = full_buckets t.table2 :=
      ⟨sh2.2.2.2.1, xu_full_buckets_congr sh2.1 (fun p => (sh2.2.2.2.2.2 p).1)⟩
    obtain ⟨hX1, hof1, _, _⟩ := xu_kick_loop_spec _ (chain_start h1 t k) _
      ⟨hI, Or.inl rfl, by simp only [chain_start]; split <;> simp, rfl, hk⟩
      (by intro h; simp [chain_start] at h) (by intro h; simp [chain_start] at h) hkl
    by_cases hcyc : s1.total_kicked_keys = 2 * s1.table.table1.size
    · rw [if_pos hcyc] at hr
      have hpos := dir_pos (hX1.inv.dir 1)
      rw [xu_inner_one] at hpos
      obtain ⟨a, b⟩ := xu_split_loop_counts _ _ _ hX1 (hof1 (by omega)) hr
      exact ⟨⟨a.1.trans c1.1, a.2.trans c1.2⟩, ⟨b.1.trans c2.1, b.2.trans c2.2⟩⟩
    · rw [if_neg hcyc] at hr
      simp only [Except.ok.injEq] at hr
      subst hr
      exact ⟨c1, c2⟩

/-- Storing the held key in the empty bucket under the cursor: that
directory gains one full bucket and its counter is incremented; the other
directory is untouched. -/
theorem xu_place_counts {h1 h2 : Key → Nat} {s : Cursor} (hX : XInv h1 h2 s)
    (hfree : ((s.table.inner s.innertable).bucket s.address).full = false) :
    ((place s).inner s.innertable).nkeys = (s.table.inner s.innertable).nkeys + 1 ∧
    full_buckets ((place s).inner s.innertable) =
      full_buckets (s.table.inner s.innertable) + 1 ∧
    (place s).inner (other s.innertable) = s.table.inner (other s.innertable) := by
  have hnm := other_cases s.innertable hX.tbl
  have haddr := hX.addr
  obtain ⟨hD', hK', hst', _⟩ := dir_write (hX.inv.dir s.innertable)
    (hX.inv.keys s.innertable)
    { (s.table.inner s.innertable).storeAt s.address
        { (s.table.inner s.innertable).bucket s.address with
          key := s.key, full := true } with
      nkeys := ((s.table.inner s.innertable).storeAt s.address
        { (s.table.inner s.innertable).bucket s.address with
          key := s.key, full := true }).nkeys + 1 }
    s.key s.address (by rw [haddr, aux_rightmostnbits]) rfl rfl rfl rfl
  have hkn : ¬ stored (s.table.inner s.innertable) s.key :=
    fun h => hX.fresh ((holds_nm _ _ _ hnm _).mpr (Or.inl h))
  have hpl : (place s).inner s.innertable =
      { (s.table.inner s.innertable).storeAt s.address
          { (s.table.inner s.innertable).bucket s.address with
            key := s.key, full := true } with
        nkeys := ((s.table.inner s.innertable).storeAt s.address
          { (s.table.inner s.innertable).bucket s.address with
            key := s.key, full := true }).nkeys + 1 } := by
    unfold place
    simp only
    rw [setInner_same]
  refine ⟨by rw [hpl]; rfl, ?_, ?_⟩
  · rw [hpl]
    apply xu_full_buckets_insert (hX.inv.dir s.innertable) (hX.inv.keys s.innertable) hD' hK'
      s.key _ hkn
    intro x
    rw [hst' x, hfree]
    simp
  · unfold place
    simp only
    exact setInner_other _ _ _ _ hnm

end Xuckoo

namespace Xuckoo

theorem xu_place_bucket {h1 h2 : Key → Nat} {s : Cursor} (hX : XInv h1 h2 s) :
    ((place s).inner s.innertable).bucket s.address =
      { (s.table.inner s.innertable).bucket s.address with key := s.key, full := true } := by
  have hD := hX.inv.dir s.innertable
  have halt : s.address < (s.table.inner s.innertable).size := by
    rw [hX.addr, aux_rightmostnbits]; exact target_lt hD _
  unfold place
  simp only
  rw [setInner_same]
  have := @bucket_of_set (s.table.inner s.innertable)
    ((s.table.inner s.innertable).storeAt s.address
      { (s.table.inner s.innertable).bucket s.address with key := s.key, full := true })
    ((s.table.inner s.innertable).buckets.getD s.address 0)
    { (s.table.inner s.innertable).bucket s.address with key := s.key, full := true }
    rfl rfl s.address
  rw [if_pos ⟨rfl, hD.ptr_lt _ halt⟩] at this
  exact this

/-- What a completed `xuckoo_hash_table_insert` does to the key counters. -/
theorem xu_insert_counts {h1 h2 : Key → Nat} {junk : Nat → Key} {t t' : XuckooHashTable}
    {k : Key} {b : Bool} (hI : Inv h1 h2 t) (hN : NInv t)
    (hr : xuckoo_hash_table_insert h1 h2 junk t k = .ok (t', b)) :
    NInv t' ∧ (b = false → t' = t) ∧
    (b = true → ∃ s, find_slot h1 h2 junk t k = .ok s ∧ t' = place s ∧
      (s.innertable = 1 ∨ s.innertable = 2) ∧
      ((t'.inner s.innertable).bucket s.address).full = true ∧
      ((t'.inner s.innertable).bucket s.address).key = s.key ∧
      (t'.inner s.innertable).nkeys = (t.inner s.innertable).nkeys + 1 ∧
      (t'.inner (other s.innertable)).nkeys = (t.inner (other s.innertable)).nkeys) := by
  have hr0 := hr
  unfold xuckoo_hash_table_insert at hr
  simp only at hr
  have ht1 := stored_iff_target (hI.dir 1) (hI.keys 1) k
  have ht2 := stored_iff_target (hI.dir 2) (hI.keys 2) k
  rw [← aux_rightmostnbits] at ht1 ht2
  by_cases hd1 : (t.table1.bucket (rightmostnbits t.table1.depth (h1 k))).full = true ∧
      (t.table1.bucket (rightmostnbits t.table1.depth (h1 k))).key = k
  · rw [if_pos hd1] at hr
    simp only [Except.ok.injEq, Prod.mk.injEq] at hr
    obtain ⟨rfl, rfl⟩ := hr
    exact ⟨hN, fun _ => rfl, fun h => Bool.noConfusion h⟩
  · rw [if_neg hd1] at hr
    by_cases hd2 : (t.table2.bucket (rightmostnbits t.table2.depth (h2 k))).full = true ∧
        (t.table2.bucket (rightmostnbits t.table2.depth (h2 k))).key = k
    · rw [if_pos hd2] at hr
      simp only [Except.ok.injEq, Prod.mk.injEq] at hr
      obtain ⟨rfl, rfl⟩ := hr
      exact ⟨hN, fun _ => rfl, fun h => Bool.noConfusion h⟩
    · have hnk : ¬ holds t k := by
        rintro (h | h)
        · exact hd1 (ht1.mp h)
        · exact hd2 (ht2.mp h)
      cases hfs : find_slot h1 h2 junk t k with
      | error e =>
        rw [xu_insert_error h1 h2 junk t k e hd1 hd2 hfs] at hr0
        cases hr0
      | ok s =>
        rw [xu_insert_eq h1 h2 junk t k s hd1 hd2 hfs] at hr0
        simp only [Except.ok.injEq, Prod.mk.injEq] at hr0
        obtain ⟨rfl, rfl⟩ := hr0
        obtain ⟨hX, _, hfree⟩ := xu_find_slot_spec hI hnk hfs
        obtain ⟨c1, c2⟩ := xu_find_slot_counts hI hnk hfs
        obtain ⟨pn, pf, po⟩ := xu_place_counts hX hfree
        have hbk := xu_place_bucket hX
        obtain ⟨n1, n2⟩ := (xu_ninv_iff t).mp hN
        have hcur : ∀ q, (s.table.inner q).nkeys = (t.inner q).nkeys ∧
            full_buckets (s.table.inner q) = full_buckets (t.inner q) := by
          intro q
          rw [inner_norm s.table q, inner_norm t q]
          split
          · exact c1
          · exact c2
        refine ⟨?_, fun h => Bool.noConfusion h, fun _ => ⟨s, rfl, rfl, hX.tbl, ?_, ?_, ?_, ?_⟩⟩
        · have hboth : ∀ q, q = 1 ∨ q = 2 →
              ((place s).inner q).nkeys = full_buckets ((place s).inner q) := by
            intro q hq
            by_cases hqs : q = s.innertable
            · rw [hqs, pn, pf, (hcur _).1, (hcur _).2, hN s.innertable]
            · have hqo : q = other s.innertable := by
                rcases hX.tbl with h | h <;> rcases hq with h' | h' <;>
                  simp [other, h, h'] at hqs ⊢
              rw [hqo, po, (hcur _).1, (hcur _).2, hN (other s.innertable)]
          exact (xu_ninv_iff _).mpr ⟨hboth 1 (Or.inl rfl), hboth 2 (Or.inr rfl)⟩
        · rw [hbk]
        · rw [hbk]
        · rw [pn, (hcur _).1]
        · rw [po, (hcur _).1]

theorem xu_new_table_ninv (junk : Nat → Key) : NInv (new_xuckoo_hash_table junk) := by
  rw [xu_ninv_iff]
  exact ⟨rfl, rfl⟩

theorem xu_reachable_ninv {h1 h2 : Key → Nat} {junk : Nat → Key} {t : XuckooHashTable}
    (hr : Reachable h1 h2 junk t) : NInv t := by
  induction hr with
  | init => exact xu_new_table_ninv junk
  | step t t' k b hr h ih => exact (xu_insert_counts (xu_reachable_inv hr) ih h).1

end Xuckoo

/-- C18. ExtendibleCuckooTable key counters: in every reachable table the
`nkeys` counter of each directory is the number of distinct full buckets
referenced from that directory; every insert returns (or trips the size
assertion); a completed insert that returns true has stored the held key in
the bucket under the final cursor, has incremented by 1 the counter of the
directory of that bucket and has left the other counter unchanged; a
completed insert that returns false (a duplicate) leaves the table, hence
both counters, unchanged. -/
theorem xuckoo_key_counters (h1 h2 : Key → Nat) (junk : Nat → Key)
    (t : Xuckoo.XuckooHashTable) (hr : Xuckoo.Reachable h1 h2 junk t) :
    t.table1.nkeys = Xuckoo.full_buckets t.table1 ∧
    t.table2.nkeys = Xuckoo.full_buckets t.table2 ∧
    ∀ k,
      ((∃ t' b, Xuckoo.xuckoo_hash_table_insert h1 h2 junk t k = .ok (t', b)) ∨
        Xuckoo.xuckoo_hash_table_insert h1 h2 junk t k = .error .assertion) ∧
      ∀ t' b, Xuckoo.xuckoo_hash_table_insert h1 h2 junk t k = .ok (t', b) →
        (b = false → t' = t) ∧
        (b = true → ∃ s, Xuckoo.find_slot h1 h2 junk t k = .ok s ∧ t' = Xuckoo.place s ∧
          (s.innertable = 1 ∨ s.innertable = 2) ∧
          ((t'.inner s.innertable).bucket s.address).full = true ∧
          ((t'.inner s.innertable).bucket s.address).key = s.key ∧
          (t'.inner s.innertable).nkeys = (t.inner s.innertable).nkeys + 1 ∧
          (t'.inner (Xuckoo.other s.innertable)).nkeys =
            (t.inner (Xuckoo.other s.innertable)).nkeys) := by
  have hI := Xuckoo.xu_reachable_inv hr
  have hN := Xuckoo.xu_reachable_ninv hr
  obtain ⟨n1, n2⟩ := (Xuckoo.xu_ninv_iff t).mp hN
  refine ⟨n1, n2, ?_⟩
  intro k
  refine ⟨Xuckoo.xu_insert_returns h1 h2 junk t k hr, ?_⟩
  intro t' b hi
  exact (Xuckoo.xu_insert_counts hI hN hi).2

/-- Witness for C11: the insert of key 3 into the table that holds 0 and 1
(`h1 k = k`, `h2 k = k / 4`): the eviction loop makes `2 = 2 * 1` kicks and
the splitting loop follows. -/
theorem xuckoo_split_choice_witness :
    (Xuckoo.Reachable (fun k => k) (fun k => k / 4) (fun _ => 0) Xuckoo.demo_two ∧
      Xuckoo.xuckoo_hash_table_lookup (fun k => k) (fun k => k / 4) Xuckoo.demo_two 3 = false) ∧
    ∃ n s, n ≤ 2 * Xuckoo.demo_two.table1.size ∧
      Xuckoo.kick_loop (fun k => k) (fun k => k / 4) (2 * Xuckoo.demo_two.table1.size + 1)
        (Xuckoo.chain_start (fun k => k) Xuckoo.demo_two 3) = .ok s ∧
      s.total_kicked_keys = n ∧
      (n = 2 * Xuckoo.demo_two.table1.size →
        (∃ s', Xuckoo.find_slot (fun k => k) (fun k => k / 4) (fun _ => 0) Xuckoo.demo_two 3
            = .ok s' ∧
          Xuckoo.SplitRun (fun k => k) (fun k => k / 4) (fun _ => 0) s s') ∨
        Xuckoo.find_slot (fun k => k) (fun k => k / 4) (fun _ => 0) Xuckoo.demo_two 3
          = .error .assertion) :=
  ⟨⟨Xuckoo.Reachable.step Xuckoo.demo_one Xuckoo.demo_two 1 true
      (Xuckoo.Reachable.step _ Xuckoo.demo_one 0 true Xuckoo.Reachable.init (by rfl)) (by rfl),
      (by rfl)⟩,
    ((xuckoo_split_choice (fun k => k) (fun k => k / 4) (fun _ => 0) Xuckoo.demo_two 3
      (Xuckoo.Reachable.step Xuckoo.demo_one Xuckoo.demo_two 1 true
        (Xuckoo.Reachable.step _ Xuckoo.demo_one 0 true Xuckoo.Reachable.init (by rfl))
        (by rfl))).2
      (by rfl)).elim
      (fun n hn => hn.elim (fun s hs =>
        ⟨n, s, hs.1, hs.2.1, hs.2.2.2.1, hs.2.2.2.2.2.2.1⟩))⟩

/-- Witness for C18: in the table reached by inserting 0, 1, 3 directory 1
has counter 2 and two full buckets, directory 2 has counter 1 and one. -/
theorem xuckoo_key_counters_witness :
    Xuckoo.Reachable (fun k => k) (fun k => k / 4) (fun _ => 0) Xuckoo.demo_three ∧
    (Xuckoo.demo_three.table1.nkeys = Xuckoo.full_buckets Xuckoo.demo_three.table1 ∧
      Xuckoo.demo_three.table2.nkeys = Xuckoo.full_buckets Xuckoo.demo_three.table2) ∧
    Xuckoo.full_buckets Xuckoo.demo_three.table1 = 2 ∧
    Xuckoo.full_buckets Xuckoo.demo_three.table2 = 1 :=
  ⟨Xuckoo.Reachable.step Xuckoo.demo_two Xuckoo.demo_three 3 true
      (Xuckoo.Reachable.step Xuckoo.demo_one Xuckoo.demo_two 1 true
        (Xuckoo.Reachable.step _ Xuckoo.demo_one 0 true Xuckoo.Reachable.init (by rfl)) (by rfl))
      (by rfl),
    ⟨(xuckoo_key_counters (fun k => k) (fun k => k / 4) (fun _ => 0) Xuckoo.demo_three
      (Xuckoo.Reachable.step Xuckoo.demo_two Xuckoo.demo_three 3 true
        (Xuckoo.Reachable.step Xuckoo.demo_one Xuckoo.demo_two 1 true
          (Xuckoo.Reachable.step _ Xuckoo.demo_one 0 true Xuckoo.Reachable.init (by rfl))
          (by rfl))
        (by rfl))).1,
     (xuckoo_key_counters (fun k => k) (fun k => k / 4) (fun _ => 0) Xuckoo.demo_three
      (Xuckoo.Reachable.step Xuckoo.demo_two Xuckoo.demo_three 3 true
        (Xuckoo.Reachable.step Xuckoo.demo_one Xuckoo.demo_two 1 true
          (Xuckoo.Reachable.step _ Xuckoo.demo_one 0 true Xuckoo.Reachable.init (by rfl))
          (by rfl))
        (by rfl))).2.1⟩,
    by decide, by decide⟩

/-- Witness for C19: in the table reached by inserting 0, 1, 3 directory 1
has depth 2 and buckets of depth 1 and 2, directory 2 has depth 1. -/
theorem xuckoo_depth_bound_witness :
    Xuckoo.Reachable (fun k => k) (fun k => k / 4) (fun _ => 0) Xuckoo.demo_three ∧
    ((∀ i, i < Xuckoo.demo_three.table1.size →
        (Xuckoo.demo_three.table1.bucket i).depth ≤ Xuckoo.demo_three.table1.depth) ∧
      (∀ i, i < Xuckoo.demo_three.table2.size →
        (Xuckoo.demo_three.table2.bucket i).depth ≤ Xuckoo.demo_three.table2.depth)) :=
  ⟨Xuckoo.Reachable.step Xuckoo.demo_two Xuckoo.demo_three 3 true
      (Xuckoo.Reachable.step Xuckoo.demo_one Xuckoo.demo_two 1 true
        (Xuckoo.Reachable.step _ Xuckoo.demo_one 0 true Xuckoo.Reachable.init (by rfl)) (by rfl))
      (by rfl),
    xuckoo_depth_bound (fun k => k) (fun k => k / 4) (fun _ => 0) Xuckoo.demo_three
      (Xuckoo.Reachable.step Xuckoo.demo_two Xuckoo.demo_three 3 true
        (Xuckoo.Reachable.step Xuckoo.demo_one Xuckoo.demo_two 1 true
          (Xuckoo.Reachable.step _ Xuckoo.demo_one 0 true Xuckoo.Reachable.init (by rfl))
          (by rfl))
        (by rfl))⟩

namespace Linear

/-- After its first pass the probing loop of `linear_hash_table_insert` no
longer writes to the table. -/
theorem lin_insert_loop_table (key : Key) :
    ∀ fuel (table : LinearHashTable) h steps p, 0 < steps →
      insert_loop key fuel table h steps = .ok p → p.table = table := by
  intro fuel
  induction fuel with
  | zero => intro table h steps p _ hp; simp [insert_loop] at hp
  | succ fuel ih =>
    intro table h steps p hs hp
    unfold insert_loop at hp
    by_cases hc : table.inuse.getD h false = true ∧ steps < table.size
    · rw [if_pos hc] at hp
      by_cases hk : table.slots.getD h 0 = key
      · rw [if_pos hk] at hp
        simp only [Except.ok.injEq] at hp
        rw [← hp]
      · rw [if_neg hk] at hp
        have hne : ¬ (steps = 0 ∧ table.stats.is_recorded_collisions = 0) := by omega
        simp only [hne, if_false] at hp
        exact ih _ _ _ _ (by omega) hp
    · rw [if_neg hc] at hp
      simp only [Except.ok.injEq] at hp
      rw [← hp]

/-- An insert that returns false found the key: it wrote nothing but, when the
home address of the key holds another key and the flag
`is_recorded_collisions` is 0, one more collision. -/
theorem lin_insert_false {h1 : Key → Nat} {junk : Nat → Key} (fuel : Nat)
    {t t' : LinearHashTable} {k : Key} (hI : Inv h1 t)
    (hr : linear_hash_table_insert_fuel h1 junk fuel t k = .ok (t', false)) :
    t' = { t with stats := { t.stats with collisions := t.stats.collisions +
      (if t.slots.getD (h1 k % t.size) 0 = k ∨ t.stats.is_recorded_collisions ≠ 0
        then 0 else 1) } } := by
  cases fuel with
  | zero => simp [linear_hash_table_insert_fuel] at hr
  | succ fuel =>
    have hstep := lin_insert_step fuel hI hr
    obtain ⟨_, hset, hb⟩ := lin_insert_fuel_spec _ _ _ _ _ hI hr
    have hk : holds t k := by
      by_contra hn
      have := hb.mpr hn
      exact Bool.noConfusion this
    unfold linear_hash_table_insert_fuel at hr
    cases hp : insert_loop k (t.size + 1) t (h1 k % t.size) 0 with
    | error e => rw [hp] at hr; simp at hr
    | ok p =>
      rw [hp] at hr
      simp only at hr
      by_cases hf : p.found = true
      · rw [if_pos hf] at hr
        simp only [Except.ok.injEq, Prod.mk.injEq, and_true] at hr
        subst hr
        unfold insert_loop at hp
        by_cases hc : t.inuse.getD (h1 k % t.size) false = true ∧ 0 < t.size
        · rw [if_pos hc] at hp
          by_cases hk0 : t.slots.getD (h1 k % t.size) 0 = k
          · rw [if_pos hk0] at hp
            simp only [Except.ok.injEq] at hp
            rw [← hp, if_pos (Or.inl hk0)]
            rfl
          · rw [if_neg hk0] at hp
            have := lin_insert_loop_table k _ _ _ _ _ (by omega) hp
            rw [this]
            by_cases hfl : t.stats.is_recorded_collisions = 0
            · rw [if_pos ⟨rfl, hfl⟩, if_neg (by rintro (h | h); exact hk0 h; exact h hfl)]
            · rw [if_neg (fun h => hfl h.2), if_pos (Or.inr hfl)]
              rfl
        · rw [if_neg hc] at hp
          simp only [Except.ok.injEq] at hp
          rw [← hp] at hf
          simp at hf
      · rw [if_neg hf] at hr
        exfalso
        by_cases hfull : p.steps = p.table.size
        · rcases hstep with ⟨hall, _⟩ | ⟨hn, _⟩
          · obtain ⟨i, hi, _, hki⟩ := hk
            exact (hall i hi).2 hki
          · rw [if_pos hfull] at hr
            obtain ⟨p', hp', hps, hpu, hpz, hpl, hfound, hnot⟩ :=
              lin_insert_loop_spec k (h1 k) (t.size + 1) t 0 (by omega) (by omega)
                (by intro s hs; omega)
            have hp'' : insert_loop k (t.size + 1) t (h1 k % t.size) 0 = .ok p' := by
              simpa using hp'
            rw [hp] at hp''
            simp only [Except.ok.injEq] at hp''
            subst hp''
            exact hf (hfound.mpr ((lin_holds_iff_foundAt hI k).mp hk))
        · rw [if_neg hfull] at hr
          simp at hr

end Linear

namespace Linear

/-- On a reachable table without keys no probe has been counted. -/
theorem lin_reachable_probe {h1 : Key → Nat} {junk : Nat → Key} {t : LinearHashTable}
    (hr : Reachable h1 junk t) : t.load = 0 → t.stats.total_probe = 0 := by
  induction hr with
  | init size t hs h =>
    intro _
    unfold new_linear_hash_table initialise_table at h
    split at h
    · simp only [Except.ok.injEq] at h
      rw [← h]
    · simp at h
  | step t t' k b hr h ih =>
    intro hl
    have hI := lin_reachable_inv hr
    cases b with
    | true =>
      exfalso
      have h' : linear_hash_table_insert_fuel h1 junk (26 + 2) t k = .ok (t', true) := h
      obtain ⟨hfull, hnot⟩ := lin_insert_shape 26 hI h'
      by_cases hall : ∀ i, i < t.size → t.inuse.getD i false = true ∧ t.slots.getD i 0 ≠ k
      · have := (hfull hall).2.2
        omega
      · have := (hnot hall).2
        simp only [if_true] at this
        omega
    | false =>
      have := lin_insert_false INSERT_DEPTH hI h
      rw [this] at hl ⊢
      exact ih hl

end Linear

/-- C22. Scenario A: with `h1 k = k % 4`, whatever the uninitialised cells
hold, inserting 5, 21, 37 in that order into `new_linear_hash_table 4`
returns true three times and leaves size 4 and load 3, with 5 at address 1,
21 at address 2, 37 at address 3 and address 0 free; the `collisions` counter
is 2, and lookup returns true for each of the three keys. -/
theorem linear_scenario_a (junk : Nat → Key) :
    ∃ t0 t, Linear.new_linear_hash_table junk 4 = .ok t0 ∧
      Linear.insert_all Linear.scenario_a_hash junk t0 [5, 21, 37]
        = .ok (t, [true, true, true]) ∧
      t.size = 4 ∧ t.load = 3 ∧
      t.inuse = [false, true, true, true] ∧
      t.slots.getD 1 0 = 5 ∧ t.slots.getD 2 0 = 21 ∧ t.slots.getD 3 0 = 37 ∧
      t.stats.collisions = 2 ∧
      Linear.linear_hash_table_lookup Linear.scenario_a_hash t 5 = .ok true ∧
      Linear.linear_hash_table_lookup Linear.scenario_a_hash t 21 = .ok true ∧
      Linear.linear_hash_table_lookup Linear.scenario_a_hash t 37 = .ok true :=
  ⟨_, _, rfl, rfl, rfl, rfl, rfl, rfl, rfl, rfl, rfl, rfl, rfl, rfl⟩

/-- C24. Lookup of a never-inserted key is false: for each of the three
tables, every initial size `≥ 1` and every key `k`, lookup of `k` on the
freshly constructed table returns false, and it still returns false after
every completed sequence of inserts of keys different from `k`. -/
theorem lookup_never_inserted (h1 h2 : Key → Nat) (junk : Nat → Key) (size : Nat)
    (ks : List Key) (k : Key) (hs : 1 ≤ size) (hk : k ∉ ks) :
    (∀ t0, Linear.new_linear_hash_table junk size = .ok t0 →
      Linear.linear_hash_table_lookup h1 t0 k = .ok false ∧
      ∀ t rs, Linear.insert_all h1 junk t0 ks = .ok (t, rs) →
        Linear.linear_hash_table_lookup h1 t k = .ok false) ∧
    (∀ t0, Cuckoo.new_cuckoo_hash_table junk size = .ok t0 →
      Cuckoo.cuckoo_hash_table_lookup h1 h2 t0 k = false ∧
      ∀ t rs, Cuckoo.insert_all h1 h2 junk t0 ks = .ok (t, rs) →
        Cuckoo.cuckoo_hash_table_lookup h1 h2 t k = false) ∧
    (Xuckoo.xuckoo_hash_table_lookup h1 h2 (Xuckoo.new_xuckoo_hash_table junk) k = false ∧
      ∀ t rs, Xuckoo.insert_all h1 h2 junk (Xuckoo.new_xuckoo_hash_table junk) ks
          = .ok (t, rs) →
        Xuckoo.xuckoo_hash_table_lookup h1 h2 t k = false) := by
  have lin : ∀ t, Linear.Inv h1 t → ¬ Linear.holds t k →
      Linear.linear_hash_table_lookup h1 t k = .ok false := by
    intro t hI hn
    obtain ⟨b, hb, hiff⟩ := Linear.lin_lookup_spec hI k
    cases b with
    | false => exact hb
    | true => exact absurd (hiff.mp rfl) hn
  refine ⟨?_, ?_, ?_⟩
  · intro t0 h0
    obtain ⟨hI0, hh0, _⟩ := Linear.lin_initialise_table_spec h1 (by omega) h0
    refine ⟨lin t0 hI0 (hh0 k), ?_⟩
    intro t rs hr
    obtain ⟨hI, _, hset, _⟩ := Linear.lin_insert_all_spec ks t0 t rs hI0 hr
    refine lin t hI ?_
    rw [hset k]
    rintro (h | h)
    · exact hh0 k h
    · exact hk h
  · intro t0 h0
    obtain ⟨hI0, hh0, _⟩ := Cuckoo.cu_initialise_spec h1 h2 (by omega) h0
    refine ⟨(Cuckoo.cu_lookup_false_iff hI0 k).mpr (hh0 k), ?_⟩
    intro t rs hr
    obtain ⟨hI, _, hset, _⟩ := Cuckoo.cu_insert_all_spec ks t0 t rs hI0 hr
    rw [Cuckoo.cu_lookup_false_iff hI k, hset k]
    rintro (h | h)
    · exact hh0 k h
    · exact hk h
  · obtain ⟨hI0, hh0⟩ := Xuckoo.xu_new_table_inv h1 h2 junk
    refine ⟨(Xuckoo.xu_lookup_false_iff hI0 k).mpr (hh0 k), ?_⟩
    intro t rs hr
    obtain ⟨hI, _, hset, _⟩ := Xuckoo.xu_insert_all_spec ks _ t rs hI0 hr
    rw [Xuckoo.xu_lookup_false_iff hI k, hset k]
    rintro (h | h)
    · exact hh0 k h
    · exact hk h

/-- Witness for C24: with `h1 k = k`, `h2 k = k / 2` and initial size 1, key 3
is not among the inserted keys `[1]`; the linear and the cuckoo table that
hold 1 answer false for 3. -/
theorem lookup_never_inserted_witness :
    (1 ≤ 1 ∧ (3 : Key) ∉ [1]) ∧
    Linear.linear_hash_table_lookup (fun k => k) Linear.demo_one 3 = .ok false ∧
    Cuckoo.cuckoo_hash_table_lookup (fun k => k) (fun k => k / 2) Cuckoo.demo_one 3 = false :=
  ⟨⟨by decide, by decide⟩,
    ((lookup_never_inserted (fun k => k) (fun k => k / 2) (fun _ => 0) 1 [1] 3
      (by decide) (by decide)).1 Linear.demo_empty (by rfl)).2 Linear.demo_one [true] (by rfl),
    ((lookup_never_inserted (fun k => k) (fun k => k / 2) (fun _ => 0) 1 [1] 3
      (by decide) (by decide)).2.1 Cuckoo.demo_empty (by rfl)).2 Cuckoo.demo_one [true]
      (by rfl)⟩

/-- C25 (the code at the limit). The size assertion of the three tables is
`size < MAX_TABLE_SIZE`: `initialise_table`, `initialise_cuckoo_table` and
`double_table` of xuckoo.c fail exactly when the requested size is at least
`MAX_TABLE_SIZE`; in particular a requested size equal to `MAX_TABLE_SIZE`,
which `inthash.h` calls the maximum allowable table size, is refused. -/
theorem capacity_limit_divergence (junk : Nat → Key) :
    (∀ t size, Linear.initialise_table junk t size = .error .assertion ↔
      MAX_TABLE_SIZE ≤ size) ∧
    (∀ t size, Cuckoo.initialise_cuckoo_table junk t size = .error .assertion ↔
      MAX_TABLE_SIZE ≤ size) ∧
    (∀ T, Xuckoo.double_table T = .error .assertion ↔ MAX_TABLE_SIZE ≤ T.size * 2) ∧
    Linear.new_linear_hash_table junk MAX_TABLE_SIZE = .error .assertion ∧
    Cuckoo.new_cuckoo_hash_table junk MAX_TABLE_SIZE = .error .assertion := by
  have hl : ∀ t size, Linear.initialise_table junk t size = .error .assertion ↔
      MAX_TABLE_SIZE ≤ size := by
    intro t size
    unfold Linear.initialise_table
    by_cases h : size < MAX_TABLE_SIZE
    · rw [if_pos h]
      constructor
      · intro h'; cases h'
      · intro h'; omega
    · rw [if_neg h]
      exact ⟨fun _ => by omega, fun _ => rfl⟩
  have hc : ∀ t size, Cuckoo.initialise_cuckoo_table junk t size = .error .assertion ↔
      MAX_TABLE_SIZE ≤ size := by
    intro t size
    unfold Cuckoo.initialise_cuckoo_table
    by_cases h : size < MAX_TABLE_SIZE
    · rw [if_pos h]
      constructor
      · intro h'; cases h'
      · intro h'; omega
    · rw [if_neg h]
      exact ⟨fun _ => by omega, fun _ => rfl⟩
  have hx : ∀ T, Xuckoo.double_table T = .error .assertion ↔ MAX_TABLE_SIZE ≤ T.size * 2 := by
    intro T
    unfold Xuckoo.double_table
    by_cases h : T.size * 2 < MAX_TABLE_SIZE
    · simp only [h, if_true]
      constructor
      · intro h'; cases h'
      · intro h'; omega
    · simp only [h, if_false]
      exact ⟨fun _ => by omega, fun _ => trivial⟩
  exact ⟨hl, hc, hx, (hl _ _).mpr (le_refl _), (hc _ _).mpr (le_refl _)⟩

/-! ### Inserts into a cuckoo table with at most two keys -/

namespace Cuckoo

theorem aux_count_pos_of_getD (l : List Bool) (i : Nat) (hi : l.getD i false = true) :
    0 < l.count true := by
  rw [List.count_pos_iff]
  rw [List.getD_eq_getElem?_getD] at hi
  cases h : l[i]? with
  | none => rw [h] at hi; simp at hi
  | some b =>
    rw [h] at hi
    simp only [Option.getD_some] at hi
    subst hi
    exact List.getElem?_mem h

theorem aux_count_le_one (l : List Bool) :
    ∀ i j, l.count true ≤ 1 → l.getD i false = true → l.getD j false = true → i = j := by
  induction l with
  | nil => intro i j _ hi _; simp at hi
  | cons x xs ih =>
    intro i j hc hi hj
    cases i with
    | zero =>
      cases j with
      | zero => rfl
      | succ j =>
        exfalso
        simp only [List.getD_cons_zero] at hi
        simp only [List.getD_cons_succ] at hj
        have := aux_count_pos_of_getD xs j hj
        rw [hi, List.count_cons_self] at hc
        omega
    | succ i =>
      cases j with
      | zero =>
        exfalso
        simp only [List.getD_cons_zero] at hj
        simp only [List.getD_cons_succ] at hi
        have := aux_count_pos_of_getD xs i hi
        rw [hj, List.count_cons_self] at hc
        omega
      | succ j =>
        simp only [List.getD_cons_succ] at hi hj
        have hc' : xs.count true ≤ 1 := le_trans (List.count_le_count_cons _ _ _) hc
        rw [ih i j hc' hi hj]

theorem cu_kick_fields1 (h1 h2 : Key → Nat) (s : Kick) (h : s.insert_table = 1) :
    (kick h1 h2 s).insert_table = 2 ∧
    (kick h1 h2 s).table.table1.slots = s.table.table1.slots.set s.H s.key ∧
    (kick h1 h2 s).table.table1.inuse = s.table.table1.inuse ∧
    (kick h1 h2 s).table.table2 = s.table.table2 ∧
    (kick h1 h2 s).table.size = s.table.size ∧
    (kick h1 h2 s).H = h2 (s.table.table1.slots.getD s.H 0) % s.table.size := by
  rw [cu_kick_table1 h1 h2 s h]
  exact ⟨rfl, rfl, rfl, rfl, rfl, rfl⟩

theorem cu_kick_fields2 (h1 h2 : Key → Nat) (s : Kick) (h : s.insert_table = 2) :
    (kick h1 h2 s).insert_table = 1 ∧
    (kick h1 h2 s).table.table2.inuse = s.table.table2.inuse ∧
    (kick h1 h2 s).table.table1 = s.table.table1 ∧
    (kick h1 h2 s).table.size = s.table.size ∧
    (kick h1 h2 s).H = h1 (s.table.table2.slots.getD s.H 0) % s.table.size := by
  rw [cu_kick_table2 h1 h2 s h]
  exact ⟨rfl, rfl, rfl, rfl, rfl⟩

/-- An eviction chain of four kicks on a table with at most two keys: the two
keys of the table and the key inserted have the same address in array 1 and
the same address in array 2. -/
theorem cu_four_kicks {h1 h2 : Key → Nat} {t : CuckooHashTable} {k : Key}
    (hI : Inv h1 h2 t) (hL : LInv h1 t) (hl : t.load ≤ 2)
    (hg : ∀ i, i < 4 → kick_guard (kicks h1 h2 i (chain_start h1 t k))) :
    ∃ u v, u ≠ v ∧ holds t u ∧ holds t v ∧
      h1 u % t.size = h1 k % t.size ∧ h1 v % t.size = h1 k % t.size ∧
      h2 u % t.size = h2 k % t.size ∧ h2 v % t.size = h2 k % t.size := by
  have g0 : kick_guard (chain_start h1 t k) := hg 0 (by omega)
  have g1 : kick_guard (kick h1 h2 (chain_start h1 t k)) := hg 1 (by omega)
  have g2 : kick_guard (kick h1 h2 (kick h1 h2 (chain_start h1 t k))) := hg 2 (by omega)
  have g3 : kick_guard (kick h1 h2 (kick h1 h2 (kick h1 h2 (chain_start h1 t k)))) :=
    hg 3 (by omega)
  obtain ⟨a1, a2, a3, a4, a5, a6⟩ := cu_kick_fields1 h1 h2 (chain_start h1 t k) rfl
  obtain ⟨b1, b2, b3, b4, b5⟩ := cu_kick_fields2 h1 h2 _ a1
  obtain ⟨c1, _, _, c4, _, c6⟩ := cu_kick_fields1 h1 h2 _ b1
  have a2' : (kick h1 h2 (chain_start h1 t k)).table.table1.slots =
      t.table1.slots.set (h1 k % t.size) k := a2
  have a3' : (kick h1 h2 (chain_start h1 t k)).table.table1.inuse = t.table1.inuse := a3
  have a4' : (kick h1 h2 (chain_start h1 t k)).table.table2 = t.table2 := a4
  have a5' : (kick h1 h2 (chain_start h1 t k)).table.size = t.size := a5
  have a6' : (kick h1 h2 (chain_start h1 t k)).H =
      h2 (t.table1.slots.getD (h1 k % t.size) 0) % t.size := a6
  have g0' : t.table1.inuse.getD (h1 k % t.size) false = true := g0.1
  have g1' : t.table2.inuse.getD (h2 (t.table1.slots.getD (h1 k % t.size) 0) % t.size) false
      = true := by
    have := g1.1
    unfold CuckooHashTable.inner at this
    rw [a1, if_neg (by decide), a4', a6'] at this
    exact this
  rw [a4', a6', a5'] at b5
  have g2' : t.table1.inuse.getD (h1 (t.table2.slots.getD
      (h2 (t.table1.slots.getD (h1 k % t.size) 0) % t.size) 0) % t.size) false = true := by
    have := g2.1
    unfold CuckooHashTable.inner at this
    rw [b1, if_pos rfl, b3, a3', b5] at this
    exact this
  rw [b3, a2', b5, b4, a5'] at c6
  have g3' : t.table2.inuse.getD (h2 ((t.table1.slots.set (h1 k % t.size) k).getD
      (h1 (t.table2.slots.getD (h2 (t.table1.slots.getD (h1 k % t.size) 0) % t.size) 0)
        % t.size) 0) % t.size) false = true := by
    have := g3.1
    unfold CuckooHashTable.inner at this
    rw [c1, if_neg (by decide), c4, b2, a4', c6] at this
    exact this
  have hpos := hI.size_pos
  have hc1 := aux_count_pos_of_getD _ _ g0'
  have hc2 := aux_count_pos_of_getD _ _ g1'
  have hcount : t.table1.inuse.count true + t.table2.inuse.count true ≤ 2 := by
    have := hL.load_eq
    unfold inuse_count at this
    omega
  have hp := aux_count_le_one _ _ _ (by omega) g2' g0'
  rw [hp] at g3'
  have hlen : t.table1.slots.length = t.size := hI.len_s 1
  rw [aux_getD_set, if_pos ⟨rfl, by rw [hlen]; exact Nat.mod_lt _ hpos⟩] at g3'
  have hq := aux_count_le_one _ _ _ (by omega) g3' g1'
  have hu1 : h1 (t.table1.slots.getD (h1 k % t.size) 0) % t.size = h1 k % t.size :=
    hI.addr 1 _ (Nat.mod_lt _ hpos) g0'
  have hv2 : h2 (t.table2.slots.getD (h2 (t.table1.slots.getD (h1 k % t.size) 0) % t.size) 0)
      % t.size = h2 (t.table1.slots.getD (h1 k % t.size) 0) % t.size :=
    hI.addr 2 _ (Nat.mod_lt _ hpos) g1'
  have hsu : storedIn t 1 (t.table1.slots.getD (h1 k % t.size) 0) :=
    ⟨_, Nat.mod_lt _ hpos, g0', rfl⟩
  have hsv : storedIn t 2 (t.table2.slots.getD
      (h2 (t.table1.slots.getD (h1 k % t.size) 0) % t.size) 0) :=
    ⟨_, Nat.mod_lt _ hpos, g1', rfl⟩
  refine ⟨_, _, ?_, Or.inl hsu, Or.inr hsv, hu1, hp, hq.symm, ?_⟩
  · intro h
    rw [← h] at hsv
    exact hI.disj _ ⟨hsu, hsv⟩
  · rw [hv2, hq]

end Cuckoo

namespace Cuckoo

/-- The insert of a key that the table holds, when the table is not full:
one of the duplicate checks answers false and the table is kept. -/
theorem cu_insert_held {h1 h2 : Key → Nat} (junk : Nat → Key) (fuel : Nat)
    {t : CuckooHashTable} {k : Key} (hI : Inv h1 h2 t) (hfull : t.load ≠ 2 * t.size - 1)
    (hk : holds t k) :
    cuckoo_hash_table_insert_fuel h1 h2 junk (fuel + 1) t k = .ok (t, false) := by
  unfold cuckoo_hash_table_insert_fuel
  simp only
  rw [if_neg hfull]
  by_cases hd1 : t.table1.slots.getD (h1 k % t.size) 0 = k ∧
      t.table1.inuse.getD (h1 k % t.size) false = true
  · rw [if_pos hd1]
  · rw [if_neg hd1]
    rcases hk with hk | hk
    · exact absurd ((cu_storedIn_iff_target hI 1 k).mp hk) hd1
    · have hd2 : t.table2.slots.getD (h2 k % t.size) 0 = k ∧
          t.table2.inuse.getD (h2 k % t.size) false = true :=
        (cu_storedIn_iff_target hI 2 k).mp hk
      rw [if_pos hd2]

/-- A table with load at most 2 does not hold three distinct keys. -/
theorem cu_three_keys {h1 h2 : Key → Nat} {t : CuckooHashTable} (hI : Inv h1 h2 t)
    (hL : LInv h1 t) (hl : t.load ≤ 2) {x y z : Key} (hxy : x ≠ y) (hxz : x ≠ z) (hyz : y ≠ z)
    (hx : holds t x) (hy : holds t y) (hz : holds t z) : False := by
  have hnd : [x, y, z].Nodup := by simp [hxy, hxz, hyz]
  have hsub : [x, y, z] ⊆ keys t := by
    intro w hw
    simp only [List.mem_cons, List.mem_singleton, List.not_mem_nil, or_false] at hw
    rw [cu_mem_keys]
    rcases hw with rfl | rfl | rfl
    · exact hx
    · exact hy
    · exact hz
  have hlen := (List.subperm_of_subset hnd hsub).length_le
  rw [cu_keys_length hI, ← hL.load_eq] at hlen
  simp only [List.length_cons, List.length_nil] at hlen
  omega

/-- The load of a table is at most the load of a table that holds all its keys. -/
theorem cu_load_le_of_subset {h1 h2 : Key → Nat} {t t' : CuckooHashTable} (hI : Inv h1 h2 t)
    (hL : LInv h1 t) (hI' : Inv h1 h2 t') (hL' : LInv h1 t')
    (hsub : ∀ x, holds t x → holds t' x) : t.load ≤ t'.load := by
  have hs : keys t ⊆ keys t' := by
    intro w hw
    rw [cu_mem_keys] at hw ⊢
    exact hsub w hw
  have hlen := (List.subperm_of_subset (cu_keys_nodup hI) hs).length_le
  rw [cu_keys_length hI, cu_keys_length hI', ← hL.load_eq, ← hL'.load_eq] at hlen
  exact hlen

/-- The insert of a new key into a table of size at least 2 that holds at
most two keys places the key without doubling the table, unless the two keys
of the table and the new key all have the same address in array 1 and the
same address in array 2. -/
theorem cu_insert_small {h1 h2 : Key → Nat} (junk : Nat → Key) (fuel : Nat)
    {t : CuckooHashTable} {k : Key} (hI : Inv h1 h2 t) (hL : LInv h1 t) (hk : ¬ holds t k)
    (hl : t.load ≤ 2) (hs2 : 2 ≤ t.size)
    (hns : ¬ ∃ u v, u ≠ v ∧ holds t u ∧ holds t v ∧
      h1 u % t.size = h1 k % t.size ∧ h1 v % t.size = h1 k % t.size ∧
      h2 u % t.size = h2 k % t.size ∧ h2 v % t.size = h2 k % t.size) :
    ∃ t', cuckoo_hash_table_insert_fuel h1 h2 junk (fuel + 1) t k = .ok (t', true) ∧
      t'.size = t.size ∧ Inv h1 h2 t' ∧ LInv h1 t' ∧ t'.load = t.load + 1 ∧
      ∀ x, holds t' x ↔ holds t x ∨ x = k := by
  obtain ⟨s, hs, hsz, _⟩ := cu_kick_loop_total h1 h2 (2 * t.size + 1) (chain_start h1 t k)
    (by simp [chain_start]) (by simp [chain_start])
  obtain ⟨n, hn, hg, hng, htn, hK, hK2, hz, _⟩ := cu_chain_spec hI hL hk _ hs
  have hne : s.time_kicked_keys ≠ 2 * s.table.size := by
    intro heq
    apply hns
    apply cu_four_kicks hI hL hl
    intro i hi
    exact hg i (by rw [← htn, heq, hz]; omega)
  obtain ⟨hd1, hd2⟩ := cu_absent k ((cu_lookup_false_iff hI k).mpr hk)
  have hins := cu_insert_fuel_chain_retry h1 h2 junk fuel t k s (by omega) hd1 hd2 hs
  rw [if_neg hne] at hins
  obtain ⟨hI', hset, _⟩ := cu_insert_fuel_spec (fuel + 1) t _ k true hI hins
  obtain ⟨hL', hload⟩ := cu_insert_fuel_spec2 (fuel + 1) t _ k true hI hL hins
  refine ⟨place s, hins, ?_, hI', hL', by rw [hload]; simp, hset⟩
  rcases hK.tbl with h | h
  · rw [cu_place_table1 s h]; exact hz
  · rw [cu_place_table2 s h]; exact hz

end Cuckoo

namespace Cuckoo

/-- A property of the new table that every re-insertion keeps holds after the
loop of `double_cuckoo_table`. -/
theorem cu_reinsert_loop_keep
    {ins : CuckooHashTable → Key → Except Err (CuckooHashTable × Bool)}
    (P : CuckooHashTable → Prop) (K : Key → Prop)
    (hins : ∀ u k, P u → K k → ∃ u' b, ins u k = .ok (u', b) ∧ P u')
    (old1 old2 : InnerTable) :
    ∀ (is : List Nat) (u : CuckooHashTable),
      (∀ i, i ∈ is → (old1.inuse.getD i false = true → K (old1.slots.getD i 0)) ∧
        (old2.inuse.getD i false = true → K (old2.slots.getD i 0))) →
      P u → ∃ u', reinsert_loop ins old1 old2 is u = .ok u' ∧ P u' := by
  have hif : ∀ (used : Bool) (key : Key) (u : CuckooHashTable), (used = true → K key) → P u →
      ∃ u', reinsert_if ins used key u = .ok u' ∧ P u' := by
    intro used key u hK hP
    unfold reinsert_if
    by_cases hu : used = true
    · rw [if_pos hu]
      obtain ⟨u', b, hr, hP'⟩ := hins u key hP (hK hu)
      rw [hr]
      exact ⟨u', rfl, hP'⟩
    · rw [if_neg hu]
      exact ⟨u, rfl, hP⟩
  intro is
  induction is with
  | nil => intro u _ hP; exact ⟨u, rfl, hP⟩
  | cons i is ih =>
    intro u hK hP
    unfold reinsert_loop
    obtain ⟨u1, hr1, hP1⟩ := hif _ _ u (hK i (List.mem_cons_self _ _)).1 hP
    rw [hr1]
    simp only
    obtain ⟨u2, hr2, hP2⟩ := hif _ _ u1 (hK i (List.mem_cons_self _ _)).2 hP1
    rw [hr2]
    simp only
    exact ih u2 (fun j hj => hK j (List.mem_cons_of_mem _ hj)) hP2

/-- Doubling a table that holds at most two keys: no re-insertion doubles the
new table again, so the new table has exactly twice the size. -/
theorem cu_double_small {h1 h2 : Key → Nat} (junk : Nat → Key) (fuel : Nat)
    {S : CuckooHashTable} (hI : Inv h1 h2 S) (hL : LInv h1 S) (hl : S.load ≤ 2)
    (hmax : S.size * 2 < MAX_TABLE_SIZE) :
    ∃ U, double_cuckoo_table (cuckoo_hash_table_insert_fuel h1 h2 junk (fuel + 1)) junk S
        = .ok U ∧
      U.size = S.size * 2 ∧ Inv h1 h2 U ∧ LInv h1 U ∧ U.load = S.load ∧
      ∀ x, holds U x ↔ holds S x := by
  have hpos := hI.size_pos
  have hstep : ∀ u k,
      (u.size = S.size * 2 ∧ Inv h1 h2 u ∧ LInv h1 u ∧ ∀ x, holds u x → holds S x) →
      holds S k →
      ∃ u' b, cuckoo_hash_table_insert_fuel h1 h2 junk (fuel + 1) u k = .ok (u', b) ∧
        (u'.size = S.size * 2 ∧ Inv h1 h2 u' ∧ LInv h1 u' ∧ ∀ x, holds u' x → holds S x) := by
    rintro u k ⟨hz, hIu, hLu, hsub⟩ hk
    have hlu : u.load ≤ 2 := le_trans (cu_load_le_of_subset hIu hLu hI hL hsub) hl
    by_cases hku : holds u k
    · exact ⟨u, false, cu_insert_held junk fuel hIu (by omega) hku, hz, hIu, hLu, hsub⟩
    · obtain ⟨u', hr, hz', hI', hL', _, hset⟩ := cu_insert_small junk fuel hIu hLu hku hlu
        (by omega) (by
          rintro ⟨x, y, hxy, hx, hy, _⟩
          have hxk : x ≠ k := fun h => hku (h ▸ hx)
          have hyk : y ≠ k := fun h => hku (h ▸ hy)
          exact cu_three_keys hI hL hl hxy hxk hyk (hsub x hx) (hsub y hy) hk)
      refine ⟨u', true, hr, by rw [hz', hz], hI', hL', ?_⟩
      intro x hx
      rcases (hset x).mp hx with h | h
      · exact hsub x h
      · rw [h]; exact hk
  unfold double_cuckoo_table
  cases hini : initialise_cuckoo_table junk S (S.size * 2) with
  | error e =>
    unfold initialise_cuckoo_table at hini
    rw [if_pos hmax] at hini
    cases hini
  | ok fresh =>
    simp only
    obtain ⟨hIf, hnf, hzf⟩ := cu_initialise_spec h1 h2 (by omega) hini
    obtain ⟨hLf, _⟩ := cu_initialise_linv h1 hini
    obtain ⟨U, hU, hzU, hIU, hLU, _⟩ := cu_reinsert_loop_keep
      (fun u => u.size = S.size * 2 ∧ Inv h1 h2 u ∧ LInv h1 u ∧ ∀ x, holds u x → holds S x)
      (fun k => holds S k) hstep S.table1 S.table2 (List.range S.size) fresh
      (by
        intro i hi
        rw [List.mem_range] at hi
        exact ⟨fun h => Or.inl ⟨i, hi, h, rfl⟩, fun h => Or.inr ⟨i, hi, h, rfl⟩⟩)
      ⟨hzf, hIf, hLf, fun x hx => absurd hx (hnf x)⟩
    have hd : double_cuckoo_table (cuckoo_hash_table_insert_fuel h1 h2 junk (fuel + 1)) junk S
        = .ok U := by
      unfold double_cuckoo_table
      rw [hini]
      exact hU
    obtain ⟨_, hset⟩ := cu_double_spec (cu_insert_fuel_spec (fuel + 1)) hI hd
    obtain ⟨_, hload⟩ := cu_double_linv (cu_insert_fuel_spec (fuel + 1))
      (cu_insert_fuel_spec2 (fuel + 1)) hI hL.load_eq hd
    exact ⟨U, hU, hzU, hIU, hLU, hload, hset⟩

end Cuckoo

namespace Cuckoo

/-- When both slots of every key of the table and of the new key are in use,
the eviction loop of the insert never meets a free slot: it makes
`2 * size` kicks. -/
theorem cu_chain_full {h1 h2 : Key → Nat} {t : CuckooHashTable} {k : Key}
    (hI : Inv h1 h2 t) (hL : LInv h1 t) (hk : ¬ holds t k)
    (hall : ∀ n x, (n = 1 ∨ n = 2) → (holds t x ∨ x = k) →
      (t.inner n).inuse.getD (hash_of h1 h2 n x % t.size) false = true)
    {s : Kick} (fuel : Nat) (hs : kick_loop h1 h2 fuel (chain_start h1 t k) = .ok s) :
    s.time_kicked_keys = 2 * t.size := by
  obtain ⟨n, hn, hg, hng, _, _⟩ := cu_kick_loop_trace h1 h2 fuel _ s hs
  obtain ⟨hK0, hK20⟩ := cu_chain_start_inv k hI hL hk
  obtain ⟨hK, _, e1, e2, _, ez, _, eh⟩ := cu_kicks_spec n _ hK0 hK20 hg
  rw [← hn] at hK e1 e2 ez eh
  have ez' : s.table.size = t.size := ez
  have hkey : holds t s.key ∨ s.key = k := (eh s.key).mp (Or.inr rfl)
  have hin : (s.table.inner s.insert_table).inuse = (t.inner s.insert_table).inuse := by
    rcases hK.tbl with h | h
    · rw [h]; exact e1
    · rw [h]; exact e2
  have huse : (s.table.inner s.insert_table).inuse.getD s.H false = true := by
    rw [hin, hK.addr, ez']
    exact hall _ _ hK.tbl hkey
  by_contra hne
  exact hng ⟨huse, by rw [ez']; exact hne⟩

/-- The first two inserts of distinct keys into `new_cuckoo_hash_table 2`. -/
theorem cu_scenario_two (h1 h2 : Key → Nat) (junk : Nat → Key) (a b : Key) (hab : a ≠ b) :
    ∃ t0 t1 t2, new_cuckoo_hash_table junk 2 = .ok t0 ∧
      cuckoo_hash_table_insert h1 h2 junk t0 a = .ok (t1, true) ∧
      cuckoo_hash_table_insert h1 h2 junk t1 b = .ok (t2, true) ∧
      t2.size = 2 ∧ t2.load = 2 ∧ Inv h1 h2 t2 ∧ LInv h1 t2 ∧
      ∀ x, holds t2 x ↔ x = a ∨ x = b := by
  cases h0 : new_cuckoo_hash_table junk 2 with
  | error e =>
    unfold new_cuckoo_hash_table initialise_cuckoo_table at h0
    rw [if_pos (by decide)] at h0
    cases h0
  | ok t0 =>
    obtain ⟨hI0, hn0, hz0⟩ := cu_initialise_spec h1 h2 (by omega) h0
    obtain ⟨hL0, hl0⟩ := cu_initialise_linv h1 h0
    obtain ⟨t1, hr1, hz1, hI1, hL1, hl1, hset1⟩ := cu_insert_small junk 27 hI0 hL0 (hn0 a)
      (by omega) (by omega) (by rintro ⟨x, _, _, hx, _⟩; exact hn0 x hx)
    have hna : ¬ holds t1 b := by
      rw [hset1]
      rintro (h | h)
      · exact hn0 b h
      · exact hab h.symm
    obtain ⟨t2, hr2, hz2, hI2, hL2, hl2, hset2⟩ := cu_insert_small junk 27 hI1 hL1 hna
      (by omega) (by omega) (by
        rintro ⟨x, y, hxy, hx, hy, _⟩
        rw [hset1] at hx hy
        rcases hx with hx | hx
        · exact hn0 x hx
        · rcases hy with hy | hy
          · exact hn0 y hy
          · exact hxy (hx.trans hy.symm))
    have hr1' : cuckoo_hash_table_insert h1 h2 junk t0 a = .ok (t1, true) := hr1
    have hr2' : cuckoo_hash_table_insert h1 h2 junk t1 b = .ok (t2, true) := hr2
    refine ⟨t0, t1, t2, rfl, hr1', hr2', by omega, by omega, hI2, hL2, ?_⟩
    · intro x
      rw [hset2, hset1]
      constructor
      · rintro ((h | h) | h)
        · exact absurd h (hn0 x)
        · exact Or.inl h
        · exact Or.inr h
      · rintro (h | h)
        · exact Or.inl (Or.inr h)
        · exact Or.inr h

/-- In a table that holds two distinct keys with the same address in array 1
and the same address in array 2, both addresses are in use. -/
theorem cu_both_in_use {h1 h2 : Key → Nat} {t : CuckooHashTable} (hI : Inv h1 h2 t)
    {a b : Key} (hab : a ≠ b) (ha : holds t a) (hb : holds t b)
    (e1 : h1 a % t.size = h1 b % t.size) (e2 : h2 a % t.size = h2 b % t.size) :
    t.table1.inuse.getD (h1 a % t.size) false = true ∧
    t.table2.inuse.getD (h2 a % t.size) false = true := by
  have t1 : ∀ x, storedIn t 1 x ↔ (t.table1.slots.getD (h1 x % t.size) 0 = x ∧
      t.table1.inuse.getD (h1 x % t.size) false = true) := fun x =>
    cu_storedIn_iff_target hI 1 x
  have t2 : ∀ x, storedIn t 2 x ↔ (t.table2.slots.getD (h2 x % t.size) 0 = x ∧
      t.table2.inuse.getD (h2 x % t.size) false = true) := fun x =>
    cu_storedIn_iff_target hI 2 x
  rcases ha with ha | ha <;> rcases hb with hb | hb
  · exfalso
    have h1a := (t1 a).mp ha
    have h1b := (t1 b).mp hb
    rw [← e1] at h1b
    exact hab (h1a.1.symm.trans h1b.1)
  · have h1a := (t1 a).mp ha
    have h2b := (t2 b).mp hb
    rw [← e2] at h2b
    exact ⟨h1a.2, h2b.2⟩
  · have h2a := (t2 a).mp ha
    have h1b := (t1 b).mp hb
    rw [← e1] at h1b
    exact ⟨h1b.2, h2a.2⟩
  · exfalso
    have h2a := (t2 a).mp ha
    have h2b := (t2 b).mp hb
    rw [← e2] at h2b
    exact hab (h2a.1.symm.trans h2b.1)

end Cuckoo

/-- C23. Scenario C: let `a`, `b`, `c` be three distinct keys that have the
same address modulo 2 under `h1` and the same address modulo 2 under `h2`,
but not all the same pair of addresses modulo 4.  Inserting them into
`new_cuckoo_hash_table 2` returns true three times.  The eviction loop of the
third insert makes 4 kicks (`2 * size`), so the insert declares a cycle and
retries on the doubled table; the table is doubled exactly once (the doubled
table has size 4 and the nested insert keeps that size), the final table has
size 4 and load 3, and lookup returns true for all three keys. -/
theorem cuckoo_scenario_c (h1 h2 : Key → Nat) (junk : Nat → Key) (a b c : Key)
    (hab : a ≠ b) (hac : a ≠ c) (hbc : b ≠ c)
    (h1ab : h1 a % 2 = h1 b % 2) (h1ac : h1 a % 2 = h1 c % 2)
    (h2ab : h2 a % 2 = h2 b % 2) (h2ac : h2 a % 2 = h2 c % 2)
    (hns : ¬ (h1 a % 4 = h1 b % 4 ∧ h1 a % 4 = h1 c % 4 ∧
      h2 a % 4 = h2 b % 4 ∧ h2 a % 4 = h2 c % 4)) :
    ∃ t0 t2 t3 s u,
      Cuckoo.new_cuckoo_hash_table junk 2 = .ok t0 ∧
      Cuckoo.insert_all h1 h2 junk t0 [a, b, c] = .ok (t3, [true, true, true]) ∧
      Cuckoo.insert_all h1 h2 junk t0 [a, b] = .ok (t2, [true, true]) ∧
      t2.size = 2 ∧
      Cuckoo.kick_loop h1 h2 (2 * t2.size + 1) (Cuckoo.chain_start h1 t2 c) = .ok s ∧
      s.time_kicked_keys = 4 ∧
      Cuckoo.cuckoo_hash_table_insert h1 h2 junk t2 c
        = Cuckoo.retry h1 h2 junk 27 s.table s.key ∧
      Cuckoo.double_cuckoo_table (Cuckoo.cuckoo_hash_table_insert_fuel h1 h2 junk 27) junk
        s.table = .ok u ∧
      u.size = 4 ∧
      Cuckoo.cuckoo_hash_table_insert_fuel h1 h2 junk 27 u s.key = .ok (t3, true) ∧
      t3.size = 4 ∧ t3.load = 3 ∧
      Cuckoo.cuckoo_hash_table_lookup h1 h2 t3 a = true ∧
      Cuckoo.cuckoo_hash_table_lookup h1 h2 t3 b = true ∧
      Cuckoo.cuckoo_hash_table_lookup h1 h2 t3 c = true := by
  obtain ⟨t0, t1, t2, h0, hr1, hr2, hz2, hl2, hI2, hL2, hset2⟩ :=
    Cuckoo.cu_scenario_two h1 h2 junk a b hab
  have hc : ¬ Cuckoo.holds t2 c := by
    rw [hset2]
    rintro (h | h)
    · exact hac h.symm
    · exact hbc h.symm
  obtain ⟨s, hs, _, _⟩ := Cuckoo.cu_kick_loop_total h1 h2 (2 * t2.size + 1)
    (Cuckoo.chain_start h1 t2 c) (by simp [Cuckoo.chain_start])
    (by simp [Cuckoo.chain_start])
  -- both addresses of the three keys are in use
  obtain ⟨hu1, hu2⟩ := Cuckoo.cu_both_in_use hI2 hab ((hset2 a).mpr (Or.inl rfl))
    ((hset2 b).mpr (Or.inr rfl)) (by rw [hz2]; exact h1ab) (by rw [hz2]; exact h2ab)
  rw [hz2] at hu1 hu2
  have hall : ∀ n x, (n = 1 ∨ n = 2) → (Cuckoo.holds t2 x ∨ x = c) →
      (t2.inner n).inuse.getD (Cuckoo.hash_of h1 h2 n x % t2.size) false = true := by
    intro n x hn hx
    rw [hset2] at hx
    rw [hz2]
    rcases hn with rfl | rfl
    · have e : Cuckoo.hash_of h1 h2 1 x % 2 = h1 a % 2 := by
        show h1 x % 2 = h1 a % 2
        rcases hx with (rfl | rfl) | rfl
        · rfl
        · exact h1ab.symm
        · exact h1ac.symm
      rw [e]; exact hu1
    · have e : Cuckoo.hash_of h1 h2 2 x % 2 = h2 a % 2 := by
        show h2 x % 2 = h2 a % 2
        rcases hx with (rfl | rfl) | rfl
        · rfl
        · exact h2ab.symm
        · exact h2ac.symm
      rw [e]; exact hu2
  have htime : s.time_kicked_keys = 4 := by
    rw [Cuckoo.cu_chain_full hI2 hL2 hc hall _ hs, hz2]
  obtain ⟨n, _, _, _, _, hK, hK2, hzS, hlS, _, hcS, ehS⟩ :=
    Cuckoo.cu_chain_spec hI2 hL2 hc _ hs
  obtain ⟨hd1, hd2⟩ := Cuckoo.cu_absent c ((Cuckoo.cu_lookup_false_iff hI2 c).mpr hc)
  have hins := Cuckoo.cu_insert_fuel_chain_retry h1 h2 junk 27 t2 c s (by omega) hd1 hd2 hs
  rw [if_pos (by rw [htime, hzS, hz2])] at hins
  have hIS := hK.inv
  have hLS : Cuckoo.LInv h1 s.table :=
    ⟨by rw [hlS, hcS]; exact hL2.load_eq, by rw [hlS, hzS]; exact hL2.load_le, hK2.kicked⟩
  obtain ⟨u, hd, hzu, hIu, hLu, hlu, hsetu⟩ := Cuckoo.cu_double_small junk 26 hIS hLS
    (by omega) (by rw [hzS, hz2]; decide)
  have hu4 : u.size = 4 := by rw [hzu, hzS, hz2]
  have hmem : ∀ z, (Cuckoo.holds s.table z ∨ z = s.key) → z = a ∨ z = b ∨ z = c := by
    intro z hz
    rcases (ehS z).mp hz with h | h
    · rcases (hset2 z).mp h with h | h
      · exact Or.inl h
      · exact Or.inr (Or.inl h)
    · exact Or.inr (Or.inr h)
  have hfresh : ¬ Cuckoo.holds u s.key := by rw [hsetu]; exact hK.fresh
  obtain ⟨t3, hr3, hz3, hI3, _, hl3, hset3⟩ := Cuckoo.cu_insert_small junk 26 hIu hLu hfresh
    (by omega) (by omega) (by
      rintro ⟨x, y, hxy, hx, hy, e1x, e1y, e2x, e2y⟩
      rw [hu4] at e1x e1y e2x e2y
      have hxS := (hsetu x).mp hx
      have hyS := (hsetu y).mp hy
      have hxk : x ≠ s.key := fun h => hK.fresh (h ▸ hxS)
      have hyk : y ≠ s.key := fun h => hK.fresh (h ▸ hyS)
      have hx' := hmem x (Or.inl hxS)
      have hy' := hmem y (Or.inl hyS)
      have hk' := hmem s.key (Or.inr rfl)
      rcases hx' with rfl | rfl | rfl <;> rcases hy' with rfl | rfl | rfl <;>
        rcases hk' with hk | hk | hk <;>
        first
        | exact absurd rfl hxy
        | exact absurd hk.symm hxk
        | exact absurd hk.symm hyk
        | (rw [hk] at e1x e1y e2x e2y
           exact hns ⟨by omega, by omega, by omega, by omega⟩))
  have hr3' : Cuckoo.cuckoo_hash_table_insert h1 h2 junk t2 c = .ok (t3, true) := by
    have : Cuckoo.cuckoo_hash_table_insert h1 h2 junk t2 c =
        Cuckoo.retry h1 h2 junk 27 s.table s.key := hins
    rw [this]
    unfold Cuckoo.retry
    rw [hd]
    exact hr3
  have hall3 : ∀ z, (z = a ∨ z = b ∨ z = c) → Cuckoo.cuckoo_hash_table_lookup h1 h2 t3 z = true := by
    intro z hz
    rw [Cuckoo.cu_lookup_iff_holds hI3, hset3, hsetu, ehS, hset2]
    rcases hz with h | h | h
    · exact Or.inl (Or.inl h)
    · exact Or.inl (Or.inr h)
    · exact Or.inr h
  refine ⟨t0, t2, t3, s, u, h0, ?_, ?_, hz2, hs, htime, hins, hd, hu4, hr3, by omega,
    by omega, hall3 a (Or.inl rfl), hall3 b (Or.inr (Or.inl rfl)),
    hall3 c (Or.inr (Or.inr rfl))⟩
  · simp only [Cuckoo.insert_all, hr1, hr2, hr3']
  · simp only [Cuckoo.insert_all, hr1, hr2]

/-! ### Releasing the buckets -/

namespace Xuckoo

theorem xu_free_loop_eq (T : InnerTable) (is : List Nat) :
    free_loop T is =
      (is.filter (fun i => decide ((T.bucket i).id = i))).map (fun i => T.buckets.getD i 0) := by
  induction is with
  | nil => rfl
  | cons i is ih =>
    unfold free_loop
    by_cases h : (T.bucket i).id = i
    · rw [if_pos h, ih, List.filter_cons_of_pos (by simpa using h)]
      rfl
    · rw [if_neg h, ih, List.filter_cons_of_neg (by simpa using h)]

/-- In a well-formed directory every referenced bucket has exactly one index
that references it and equals its id. -/
theorem xu_first_reference {T : InnerTable} (hD : Dir T) (j : Nat) (hj : j < T.size) :
    ∃! i, i < T.size ∧ T.buckets.getD i 0 = T.buckets.getD j 0 ∧ (T.bucket i).id = i := by
  have hid := hD.id_eq j hj
  have hle : (T.bucket j).id ≤ j := by rw [hid]; exact Nat.mod_le _ _
  have hlt : (T.bucket j).id < T.size := by omega
  have hp : T.buckets.getD (T.bucket j).id 0 = T.buckets.getD j 0 := by
    apply hD.aliased j (T.bucket j).id hj hlt
    rw [hid, Nat.mod_mod]
  refine ⟨(T.bucket j).id, ⟨hlt, hp, ?_⟩, ?_⟩
  · rw [same_ptr_bucket T _ _ hp]
  · rintro i ⟨_, hpi, hii⟩
    rw [← hii, same_ptr_bucket T _ _ hpi]

theorem xu_free_spec {T : InnerTable} (hD : Dir T) :
    (free_xuckoo_innertable T).Nodup ∧
    ∀ p, p ∈ free_xuckoo_innertable T ↔ ∃ j, j < T.size ∧ T.buckets.getD j 0 = p := by
  unfold free_xuckoo_innertable
  rw [xu_free_loop_eq]
  constructor
  · apply List.Nodup.map_on
    · intro x hx y hy hxy
      simp only [List.mem_filter, List.mem_reverse, List.mem_range, decide_eq_true_eq] at hx hy
      have hb := same_ptr_bucket T _ _ hxy
      rw [← hx.2, ← hy.2, hb]
    · exact (List.nodup_reverse.mpr (List.nodup_range T.size)).filter _
  · intro p
    simp only [List.mem_map, List.mem_filter, List.mem_reverse, List.mem_range,
      decide_eq_true_eq]
    constructor
    · rintro ⟨i, ⟨hi, _⟩, hp⟩
      exact ⟨i, hi, hp⟩
    · rintro ⟨j, hj, hp⟩
      obtain ⟨i, ⟨hi, hpi, hii⟩, _⟩ := xu_first_reference hD j hj
      exact ⟨i, ⟨hi, hii⟩, by rw [hpi, hp]⟩

end Xuckoo

/-- C27. Buckets are released exactly once: in both directories of every
reachable extendible cuckoo table, for each bucket referenced by the
directory there is exactly one index `i` below the directory size whose
pointer is that bucket and whose bucket has `id = i`; so the pointers that
the loop of `free_xuckoo_innertable` hands to `free` are pairwise distinct
(none twice) and are exactly the pointers of the directory (none skipped). -/
theorem xuckoo_free_once (h1 h2 : Key → Nat) (junk : Nat → Key)
    (t : Xuckoo.XuckooHashTable) (n : Nat) (hr : Xuckoo.Reachable h1 h2 junk t) :
    (∀ j, j < (t.inner n).size →
      ∃! i, i < (t.inner n).size ∧
        (t.inner n).buckets.getD i 0 = (t.inner n).buckets.getD j 0 ∧
        ((t.inner n).bucket i).id = i) ∧
    (Xuckoo.free_xuckoo_innertable (t.inner n)).Nodup ∧
    ∀ p, p ∈ Xuckoo.free_xuckoo_innertable (t.inner n) ↔
      ∃ j, j < (t.inner n).size ∧ (t.inner n).buckets.getD j 0 = p := by
  have hD := (Xuckoo.xu_reachable_inv hr).dir n
  exact ⟨Xuckoo.xu_first_reference hD, Xuckoo.xu_free_spec hD⟩

namespace Xuckoo

/-- A run of the splitting loop ends on a bucket that is not full. -/
theorem xu_split_run_end {h1 h2 : Key → Nat} {junk : Nat → Key} {s s' : Cursor}
    (h : SplitRun h1 h2 junk s s') :
    ((s'.table.inner s'.innertable).bucket s'.address).full = false := by
  induction h with
  | stop s h => exact h
  | pass s s1 s' _ _ _ ih => exact ih

/-- The state after the eviction loop of an insert of an absent key into a
table that satisfies the invariant has well-formed directories of the sizes
of the table. -/
theorem xu_chain_dir {h1 h2 : Key → Nat} {t : XuckooHashTable} {k : Key} {s : Cursor}
    (hI : Inv h1 h2 t) (hk : ¬ holds t k)
    (hs : kick_loop h1 h2 (2 * t.table1.size + 1) (chain_start h1 t k) = .ok s) :
    (∀ n, Dir (s.table.inner n)) ∧ ∀ n, (s.table.inner n).size = (t.inner n).size := by
  obtain ⟨s1, hkl, hsz⟩ := xu_kick_loop_total h1 h2 (2 * t.table1.size + 1)
    (chain_start h1 t k) (by simp [chain_start]) (by simp [chain_start])
  rw [hs] at hkl
  simp only [Except.ok.injEq] at hkl
  subst hkl
  obtain ⟨hX1, _, _, _⟩ := xu_kick_loop_spec _ _ _
    (⟨hI, Or.inl rfl, by simp only [chain_start]; split <;> simp, rfl, hk⟩ :
      XInv h1 h2 (chain_start h1 t k))
    (by intro h; simp [chain_start] at h) (by intro h; simp [chain_start] at h) hs
  exact ⟨hX1.inv.dir, hsz⟩

end Xuckoo

/-- C28. ExtendibleCuckooTable insert terminates: for arbitrary hash
functions, on every reachable table and for every key,
`xuckoo_hash_table_insert` returns a result or trips the size assertion of
`double_table`.  A key found by lookup is answered at the duplicate checks.
For any other key the eviction loop ends after `n ≤ 2 * size1` kicks; after
fewer kicks the key is placed, and after `2 * size1` kicks the splitting loop
makes finitely many passes (fewer than `SPLIT_FUEL`), after which its target
bucket is not full and the key is placed, or the size assertion fails. -/
theorem xuckoo_insert_terminates (h1 h2 : Key → Nat) (junk : Nat → Key)
    (t : Xuckoo.XuckooHashTable) (k : Key) (hr : Xuckoo.Reachable h1 h2 junk t) :
    ((∃ t' b, Xuckoo.xuckoo_hash_table_insert h1 h2 junk t k = .ok (t', b)) ∨
      Xuckoo.xuckoo_hash_table_insert h1 h2 junk t k = .error .assertion) ∧
    (Xuckoo.xuckoo_hash_table_lookup h1 h2 t k = true →
      Xuckoo.xuckoo_hash_table_insert h1 h2 junk t k = .ok (t, false)) ∧
    (Xuckoo.xuckoo_hash_table_lookup h1 h2 t k = false →
      ∃ n s, n ≤ 2 * t.table1.size ∧
        Xuckoo.kick_loop h1 h2 (2 * t.table1.size + 1) (Xuckoo.chain_start h1 t k) = .ok s ∧
        s = Xuckoo.kicks h1 h2 n (Xuckoo.chain_start h1 t k) ∧ ¬ Xuckoo.kick_guard s ∧
        (n < 2 * t.table1.size →
          Xuckoo.xuckoo_hash_table_insert h1 h2 junk t k = .ok (Xuckoo.place s, true)) ∧
        (n = 2 * t.table1.size →
          (∃ s', Xuckoo.split_loop h1 h2 junk Xuckoo.SPLIT_FUEL s = .ok s' ∧
            Xuckoo.SplitRun h1 h2 junk s s' ∧
            ((s'.table.inner s'.innertable).bucket s'.address).full = false ∧
            Xuckoo.xuckoo_hash_table_insert h1 h2 junk t k = .ok (Xuckoo.place s', true)) ∨
          (Xuckoo.split_loop h1 h2 junk Xuckoo.SPLIT_FUEL s = .error .assertion ∧
            Xuckoo.xuckoo_hash_table_insert h1 h2 junk t k = .error .assertion))) := by
  refine ⟨Xuckoo.xu_insert_returns h1 h2 junk t k hr, Xuckoo.xu_present h1 h2 junk t k, ?_⟩
  intro hk
  have hI := Xuckoo.xu_reachable_inv hr
  have hB := Xuckoo.xu_reachable_bounded hr
  have hnk : ¬ Xuckoo.holds t k := (Xuckoo.xu_lookup_false_iff hI k).mp hk
  obtain ⟨hd1, hd2⟩ := Xuckoo.xu_absent k hk
  obtain ⟨n, s, hn, hs, hsn, _, hng, htot, hz⟩ := Xuckoo.xu_chain_total h1 h2 t k
  have hfs := Xuckoo.xu_find_slot_eq h1 h2 junk t k s hs
  refine ⟨n, s, hn, hs, hsn, hng, ?_, ?_⟩
  · intro hlt
    rw [if_neg (by rw [htot, hz]; omega)] at hfs
    exact Xuckoo.xu_insert_eq h1 h2 junk t k s hd1 hd2 hfs
  · intro heq
    rw [if_pos (by rw [htot, hz]; exact heq)] at hfs
    obtain ⟨hDs, hszs⟩ := Xuckoo.xu_chain_dir hI hnk hs
    have hBs : ∀ q, (s.table.inner q).size < MAX_TABLE_SIZE := fun q => by
      rw [hszs q]; exact hB q
    rcases Xuckoo.xu_split_loop_total h1 h2 junk Xuckoo.SPLIT_FUEL s hDs hBs
      (by unfold Xuckoo.SPLIT_FUEL; omega) with ⟨s', hsl, _⟩ | herr
    · left
      have hrun := Xuckoo.xu_split_loop_run h1 h2 junk _ _ _ hsl
      refine ⟨s', hsl, hrun, Xuckoo.xu_split_run_end hrun, ?_⟩
      rw [hsl] at hfs
      exact Xuckoo.xu_insert_eq h1 h2 junk t k s' hd1 hd2 hfs
    · right
      refine ⟨herr, ?_⟩
      rw [herr] at hfs
      exact Xuckoo.xu_insert_error h1 h2 junk t k _ hd1 hd2 hfs

namespace Xuckoo

/-- The two ways of `split_bucket`: on a bucket as deep as the directory it
doubles the directory and goes on as on the doubled directory; on a shallower
bucket it splits the pointers of the directory as it is. -/
theorem xu_split_bucket_cases {h1 h2 : Key → Nat} {junk : Nat → Key} {T T' : InnerTable}
    {a n : Nat} (hD : Dir T) (ha : a < T.size)
    (hr : split_bucket h1 h2 junk T a n = .ok T') :
    ∃ T0, (((T.bucket a).depth = T.depth ∧ double_table T = .ok T0) ∨
        ((T.bucket a).depth ≠ T.depth ∧ T0 = T)) ∧
      Dir T0 ∧ a < T0.size ∧ T0.bucket a = T.bucket a ∧ (T0.bucket a).depth < T0.depth ∧
      split_bucket h1 h2 junk T0 a n = .ok T' ∧
      T' = reinsert_key h1 h2 (split_cleared junk T0 a)
        ((split_pointers junk T0 a).1.deref (split_pointers junk T0 a).2).key n := by
  by_cases hc : (T.bucket a).depth = T.depth
  · have hr' := hr
    unfold split_bucket at hr
    rw [if_pos hc] at hr
    cases hd : double_table T with
    | error e => rw [hd] at hr; simp at hr
    | ok T0 =>
      rw [hd] at hr
      simp only [Except.ok.injEq] at hr
      obtain ⟨hD0, _, _, _, hbk0⟩ := dir_double hD hd
      obtain ⟨hs0, hd0, _, _, _, _⟩ := xu_double_table_spec hD hd
      have hlt : (T0.bucket a).depth < T0.depth := by rw [hbk0 a ha, hd0, hc]; omega
      refine ⟨T0, Or.inl ⟨hc, rfl⟩, hD0, by omega, hbk0 a ha, hlt, ?_, ?_⟩
      · unfold split_bucket
        rw [if_neg (by omega)]
        simp only
        rw [← hr]
      · rw [← hr]; rfl
  · have hr' := hr
    unfold split_bucket at hr
    rw [if_neg hc] at hr
    simp only [Except.ok.injEq] at hr
    refine ⟨T, Or.inr ⟨hc, rfl⟩, hD, ha, rfl, ?_, hr', ?_⟩
    · have := hD.depth_le a ha; omega
    · rw [← hr]; rfl

/-- The size and the depth of the directory after `split_bucket`. -/
theorem xu_split_bucket_size {h1 h2 : Key → Nat} {junk : Nat → Key} {T T' : InnerTable}
    {a n : Nat} (hD : Dir T) (ha : a < T.size)
    (hr : split_bucket h1 h2 junk T a n = .ok T') :
    ((T.bucket a).depth = T.depth → T'.size = 2 * T.size ∧ T'.depth = T.depth + 1) ∧
    ((T.bucket a).depth ≠ T.depth → T'.size = T.size ∧ T'.depth = T.depth) := by
  obtain ⟨T0, hcase, hD0, ha0, _, hlt0, _, hT'⟩ := xu_split_bucket_cases hD ha hr
  obtain ⟨_, hsz, hdp, _⟩ := split_cleared_spec junk hD0 a ha0 hlt0
  obtain ⟨_, hrs, hrd, _⟩ := reinsert_key_fields h1 h2 (split_cleared junk T0 a)
    ((split_pointers junk T0 a).1.deref (split_pointers junk T0 a).2).key n
  rw [← hT'] at hrs hrd
  rcases hcase with ⟨hc, hd⟩ | ⟨hc, rfl⟩
  · obtain ⟨hs0, hd0, _⟩ := xu_double_table_spec hD hd
    refine ⟨fun _ => ⟨by rw [hrs, hsz, hs0]; omega, by rw [hrd, hdp, hd0]⟩,
      fun hn => absurd hc hn⟩
  · exact ⟨fun h => absurd h hc, fun _ => ⟨by rw [hrs, hsz], by rw [hrd, hdp]⟩⟩

end Xuckoo

/-- C29. Directory doubling in a split.  `double_table` on a well-formed
directory of size `s` and depth `g` returns or trips the size assertion, and
what it returns has size `2 * s` and depth `g + 1`, entry `s + i` equal to
entry `i` and entries `0..s-1` unchanged.  `split_bucket` at an address of a
well-formed directory doubles the directory (its result has size `2 * s` and
depth `g + 1`, and is the result of `split_bucket` on the doubled directory)
if and only if the local depth of the bucket at the address equals `g`;
otherwise size and depth are kept.  In every reachable table the size of each
directory is `2 ^ depth`. -/
theorem xuckoo_split_doubling (h1 h2 : Key → Nat) (junk : Nat → Key) :
    (∀ T : Xuckoo.InnerTable, Xuckoo.Dir T →
      ((∃ T0, Xuckoo.double_table T = .ok T0) ∨
        Xuckoo.double_table T = .error .assertion) ∧
      ∀ T0, Xuckoo.double_table T = .ok T0 →
        T0.size = 2 * T.size ∧ T0.depth = T.depth + 1 ∧ T0.buckets.length = 2 * T.size ∧
        T0.mem = T.mem ∧
        ∀ i, i < T.size → T0.buckets.getD (T.size + i) 0 = T.buckets.getD i 0 ∧
          T0.buckets.getD i 0 = T.buckets.getD i 0) ∧
    (∀ (T T' : Xuckoo.InnerTable) (a n : Nat), Xuckoo.Dir T → a < T.size →
      Xuckoo.split_bucket h1 h2 junk T a n = .ok T' →
      (T'.size = 2 * T.size ∧ T'.depth = T.depth + 1 ↔ (T.bucket a).depth = T.depth) ∧
      ((T.bucket a).depth = T.depth →
        ∃ T0, Xuckoo.double_table T = .ok T0 ∧
          Xuckoo.split_bucket h1 h2 junk T0 a n = .ok T') ∧
      ((T.bucket a).depth ≠ T.depth → T'.size = T.size ∧ T'.depth = T.depth)) ∧
    (∀ t, Xuckoo.Reachable h1 h2 junk t →
      t.table1.size = 2 ^ t.table1.depth ∧ t.table2.size = 2 ^ t.table2.depth) := by
  refine ⟨?_, ?_, ?_⟩
  · intro T hD
    constructor
    · unfold Xuckoo.double_table
      simp only
      by_cases h : T.size * 2 < MAX_TABLE_SIZE
      · rw [if_pos h]; exact Or.inl ⟨_, rfl⟩
      · rw [if_neg h]; exact Or.inr rfl
    · intro T0 hd
      obtain ⟨hs0, hd0, hm0, _, hl0, hb0⟩ := Xuckoo.xu_double_table_spec hD hd
      have hpos : 0 < T.size := by rw [hD.size_eq]; exact Nat.pos_pow_of_pos _ (by omega)
      refine ⟨by omega, hd0, by omega, hm0, ?_⟩
      intro i hi
      constructor
      · rw [hb0 (T.size + i) (by omega), Nat.add_mod_left, Nat.mod_eq_of_lt hi]
      · rw [hb0 i (by omega), Nat.mod_eq_of_lt hi]
  · intro T T' a n hD ha hr
    obtain ⟨heq, hne⟩ := Xuckoo.xu_split_bucket_size hD ha hr
    have hpos : 0 < T.size := by rw [hD.size_eq]; exact Nat.pos_pow_of_pos _ (by omega)
    refine ⟨⟨?_, heq⟩, ?_, hne⟩
    · rintro ⟨hsz, _⟩
      by_contra hc
      have := (hne hc).1
      omega
    · intro hc
      obtain ⟨T0, hcase, _, _, _, _, hsp, _⟩ := Xuckoo.xu_split_bucket_cases hD ha hr
      rcases hcase with ⟨_, hd⟩ | ⟨hc', _⟩
      · exact ⟨T0, hd, hsp⟩
      · exact absurd hc hc'
  · intro t hr
    have hI := Xuckoo.xu_reachable_inv hr
    exact ⟨(hI.dir 1).size_eq, (hI.dir 2).size_eq⟩

namespace Xuckoo

/-- The table after `split_bucket` on a full bucket, cell by cell: `x` is the
hash of the key of the bucket. -/
theorem xu_split_sibling {h1 h2 : Key → Nat} {junk : Nat → Key} {T T' : InnerTable}
    {a n : Nat} (hD : Dir T) (hK : KeysAt (if n = 2 then h2 else h1) T) (ha : a < T.size)
    (hf : (T.bucket a).full = true) (hr : split_bucket h1 h2 junk T a n = .ok T') :
    T'.mem.length = T.mem.length + 1 ∧
    (∀ j, j < T'.size → T'.buckets.getD j 0 =
      if j % 2 ^ ((T.bucket a).depth + 1) = 2 ^ (T.bucket a).depth + (T.bucket a).id
      then T.mem.length else T.buckets.getD (j % T.size) 0) ∧
    (∀ r, r ≠ T.buckets.getD a 0 → r < T.mem.length → T'.deref r = T.deref r) ∧
    T'.deref (T.buckets.getD a 0) =
      { id := (T.bucket a).id, depth := (T.bucket a).depth + 1,
        full := decide (¬ (if n = 2 then h2 else h1) (T.bucket a).key %
          2 ^ ((T.bucket a).depth + 1) = 2 ^ (T.bucket a).depth + (T.bucket a).id),
        key := (T.bucket a).key } ∧
    T'.deref T.mem.length =
      { id := 2 ^ (T.bucket a).depth + (T.bucket a).id, depth := (T.bucket a).depth + 1,
        full := decide ((if n = 2 then h2 else h1) (T.bucket a).key %
          2 ^ ((T.bucket a).depth + 1) = 2 ^ (T.bucket a).depth + (T.bucket a).id),
        key := if (if n = 2 then h2 else h1) (T.bucket a).key %
          2 ^ ((T.bucket a).depth + 1) = 2 ^ (T.bucket a).depth + (T.bucket a).id
          then (T.bucket a).key else junk T.mem.length } ∧
    (T'.buckets.getD ((if n = 2 then h2 else h1) (T.bucket a).key % 2 ^ T'.depth) 0 =
      if (if n = 2 then h2 else h1) (T.bucket a).key %
          2 ^ ((T.bucket a).depth + 1) = 2 ^ (T.bucket a).depth + (T.bucket a).id
      then T.mem.length else T.buckets.getD a 0) ∧
    (if n = 2 then h2 else h1) (T.bucket a).key % 2 ^ T'.depth < T'.size := by
  obtain ⟨T0, hcase, hD0, ha0, hbk, hlt0, _, hT'⟩ := xu_split_bucket_cases hD ha hr
  have hpos : 0 < T.size := by rw [hD.size_eq]; exact Nat.pos_pow_of_pos _ (by omega)
  have hfacts : T0.mem = T.mem ∧ T0.buckets.getD a 0 = T.buckets.getD a 0 ∧
      (∀ j, j < T0.size → T0.buckets.getD j 0 = T.buckets.getD (j % T.size) 0) ∧
      KeysAt (if n = 2 then h2 else h1) T0 := by
    rcases hcase with ⟨_, hd⟩ | ⟨_, rfl⟩
    · obtain ⟨hs0, _, hm0, _, _, hb0⟩ := xu_double_table_spec hD hd
      obtain ⟨_, hK0, _, hp0, _⟩ := dir_double hD hd
      exact ⟨hm0, hp0 a ha, fun j hj => hb0 j (by omega), hK0 _ hK⟩
    · exact ⟨rfl, rfl, fun j hj => by rw [Nat.mod_eq_of_lt hj], hK⟩
  obtain ⟨hmem0, hold0, hbk0, hK0⟩ := hfacts
  obtain ⟨hkey, hsz, hdp, _, _, hml, hptr, hold, hnew, hoth⟩ :=
    split_cleared_spec junk hD0 a ha0 hlt0
  rw [hbk] at hkey hptr hold hnew
  rw [hmem0] at hml hptr hnew hoth
  rw [hold0] at hold hoth
  obtain ⟨rb, rs, rd, _, rm⟩ := reinsert_key_fields h1 h2 (split_cleared junk T0 a)
    ((split_pointers junk T0 a).1.deref (split_pointers junk T0 a).2).key n
  rw [← hT'] at rb rs rd rm
  rw [hkey] at rm
  rw [aux_rightmostnbits, hdp] at rm
  -- the address of the key
  have hf0 : (T0.bucket a).full = true := by rw [hbk]; exact hf
  have hxd := hK0 a ha0 hf0
  rw [hbk] at hxd
  have hdle : (T.bucket a).depth + 1 ≤ T0.depth := by rw [hbk] at hlt0; omega
  have haddr : (if n = 2 then h2 else h1) (T.bucket a).key % 2 ^ T0.depth < T0.size :=
    target_lt hD0 _
  have hptr0 : T0.buckets.getD ((if n = 2 then h2 else h1) (T.bucket a).key % 2 ^ T0.depth) 0
      = T.buckets.getD a 0 := by
    rw [← hold0]
    apply (ptr_eq_iff hD0 a _ ha0 haddr).mpr
    rw [hbk, aux_mod_mod_pow _ _ _ (by omega)]
    exact hxd
  have haddr' := hptr _ haddr
  rw [aux_mod_mod_pow _ _ _ hdle, hptr0] at haddr'
  have holdlt : T.buckets.getD a 0 < T.mem.length := hD.ptr_lt a ha
  have hbadr : (split_cleared junk T0 a).bucket
      ((if n = 2 then h2 else h1) (T.bucket a).key % 2 ^ T0.depth) =
      (split_cleared junk T0 a).deref ((split_cleared junk T0 a).buckets.getD
        ((if n = 2 then h2 else h1) (T.bucket a).key % 2 ^ T0.depth) 0) := rfl
  rw [hbadr, haddr'] at rm
  have hderef : ∀ r, T'.deref r =
      if (if (if n = 2 then h2 else h1) (T.bucket a).key % 2 ^ ((T.bucket a).depth + 1) =
            2 ^ (T.bucket a).depth + (T.bucket a).id
          then T.mem.length else T.buckets.getD a 0) = r ∧
          (if (if n = 2 then h2 else h1) (T.bucket a).key % 2 ^ ((T.bucket a).depth + 1) =
            2 ^ (T.bucket a).depth + (T.bucket a).id
          then T.mem.length else T.buckets.getD a 0) < T.mem.length + 1
      then { (split_cleared junk T0 a).deref
          (if (if n = 2 then h2 else h1) (T.bucket a).key % 2 ^ ((T.bucket a).depth + 1) =
            2 ^ (T.bucket a).depth + (T.bucket a).id
          then T.mem.length else T.buckets.getD a 0) with
          key := (T.bucket a).key, full := true }
      else (split_cleared junk T0 a).deref r := by
    intro r
    unfold InnerTable.deref
    rw [rm, aux_getD_set, hml]
    rfl
  refine ⟨?_, ?_, ?_, ?_, ?_, ?_, ?_⟩
  · rw [rm, List.length_set, hml]
  · intro j hj
    rw [rs, hsz] at hj
    rw [rb, hptr j hj, hbk0 j hj]
  · intro r hr1 hr2
    rw [hderef r]
    by_cases hx : (if n = 2 then h2 else h1) (T.bucket a).key % 2 ^ ((T.bucket a).depth + 1) =
        2 ^ (T.bucket a).depth + (T.bucket a).id
    · rw [if_pos hx, if_neg (by rintro ⟨h, _⟩; omega), hoth r hr1 hr2]
      unfold InnerTable.deref; rw [hmem0]
    · rw [if_neg hx, if_neg (by rintro ⟨h, _⟩; exact hr1 h.symm), hoth r hr1 hr2]
      unfold InnerTable.deref; rw [hmem0]
  · rw [hderef]
    by_cases hx : (if n = 2 then h2 else h1) (T.bucket a).key % 2 ^ ((T.bucket a).depth + 1) =
        2 ^ (T.bucket a).depth + (T.bucket a).id
    · rw [if_pos hx, if_neg (by rintro ⟨h, _⟩; omega), hold]
      simp [hx]
    · rw [if_neg hx, if_pos ⟨rfl, by omega⟩, hold]
      simp [hx]
  · rw [hderef]
    by_cases hx : (if n = 2 then h2 else h1) (T.bucket a).key % 2 ^ ((T.bucket a).depth + 1) =
        2 ^ (T.bucket a).depth + (T.bucket a).id
    · rw [if_pos hx, if_pos ⟨rfl, by omega⟩, hnew]
      simp [hx]
    · rw [if_neg hx, if_neg (by rintro ⟨h, _⟩; omega), hnew]
      simp [hx]
  · rw [rb, rd, hdp]
    exact haddr'
  · rw [rd, hdp, rs, hsz]
    exact haddr

end Xuckoo

/-- C30. Sibling creation in a split: let a well-formed directory whose keys
sit at their addresses have a full bucket with id `f`, local depth `d` and
key `k` at address `a`.  After `split_bucket` the old bucket has id `f` and
depth `d + 1`; a new bucket (a fresh cell) has id `f + 2^d` and depth
`d + 1`; a directory index `j` references the new bucket exactly when
`j mod 2^(d+1) = f + 2^d`, every other entry is the entry of the directory
before the split (of index `j mod size` when the directory was doubled), and
no other bucket is written; the entry selected by the low directory-depth
bits of the hash of `k` is the old or the new bucket, that bucket is full
and holds `k`, and the other of the two is empty. -/
theorem xuckoo_split_sibling (h1 h2 : Key → Nat) (junk : Nat → Key)
    (T T' : Xuckoo.InnerTable) (a n : Nat) (hD : Xuckoo.Dir T)
    (hK : Xuckoo.KeysAt (if n = 2 then h2 else h1) T) (ha : a < T.size)
    (hf : (T.bucket a).full = true)
    (hr : Xuckoo.split_bucket h1 h2 junk T a n = .ok T') :
    (T'.deref (T.buckets.getD a 0)).id = (T.bucket a).id ∧
    (T'.deref (T.buckets.getD a 0)).depth = (T.bucket a).depth + 1 ∧
    T'.mem.length = T.mem.length + 1 ∧
    (T'.deref T.mem.length).id = (T.bucket a).id + 2 ^ (T.bucket a).depth ∧
    (T'.deref T.mem.length).depth = (T.bucket a).depth + 1 ∧
    (∀ j, j < T'.size → (T'.buckets.getD j 0 = T.mem.length ↔
      j % 2 ^ ((T.bucket a).depth + 1) = (T.bucket a).id + 2 ^ (T.bucket a).depth)) ∧
    (∀ j, j < T'.size →
      j % 2 ^ ((T.bucket a).depth + 1) ≠ (T.bucket a).id + 2 ^ (T.bucket a).depth →
      T'.buckets.getD j 0 = T.buckets.getD (j % T.size) 0) ∧
    (∀ r, r ≠ T.buckets.getD a 0 → r < T.mem.length → T'.deref r = T.deref r) ∧
    Xuckoo.rightmostnbits T'.depth ((if n = 2 then h2 else h1) (T.bucket a).key) < T'.size ∧
    (T'.bucket (Xuckoo.rightmostnbits T'.depth
      ((if n = 2 then h2 else h1) (T.bucket a).key))).full = true ∧
    (T'.bucket (Xuckoo.rightmostnbits T'.depth
      ((if n = 2 then h2 else h1) (T.bucket a).key))).key = (T.bucket a).key ∧
    ((T'.buckets.getD (Xuckoo.rightmostnbits T'.depth
          ((if n = 2 then h2 else h1) (T.bucket a).key)) 0 = T.buckets.getD a 0 ∧
        (T'.deref T.mem.length).full = false) ∨
      (T'.buckets.getD (Xuckoo.rightmostnbits T'.depth
          ((if n = 2 then h2 else h1) (T.bucket a).key)) 0 = T.mem.length ∧
        (T'.deref (T.buckets.getD a 0)).full = false)) := by
  obtain ⟨hml, hptr, hoth, hold, hnew, haddr, hlt⟩ := Xuckoo.xu_split_sibling hD hK ha hf hr
  have holdlt : T.buckets.getD a 0 < T.mem.length := hD.ptr_lt a ha
  have hpos : 0 < T.size := by rw [hD.size_eq]; exact Nat.pos_pow_of_pos _ (by omega)
  simp only [aux_rightmostnbits]
  have hb : ∀ x, T'.bucket x = T'.deref (T'.buckets.getD x 0) := fun _ => rfl
  refine ⟨by rw [hold], by rw [hold], hml, by rw [hnew]; exact Nat.add_comm _ _, by rw [hnew],
    ?_, ?_, hoth,
    hlt, ?_, ?_, ?_⟩
  · intro j hj
    rw [hptr j hj, Nat.add_comm (T.bucket a).id]
    constructor
    · intro h
      by_contra hc
      rw [if_neg hc] at h
      have := hD.ptr_lt (j % T.size) (Nat.mod_lt _ hpos)
      omega
    · intro h; rw [if_pos h]
  · intro j hj hne
    rw [hptr j hj, if_neg (fun h => hne (h.trans (Nat.add_comm _ _)))]
  · rw [hb, haddr]
    by_cases hx : (if n = 2 then h2 else h1) (T.bucket a).key % 2 ^ ((T.bucket a).depth + 1) =
        2 ^ (T.bucket a).depth + (T.bucket a).id
    · rw [if_pos hx, hnew]; simp [hx]
    · rw [if_neg hx, hold]; simp [hx]
  · rw [hb, haddr]
    by_cases hx : (if n = 2 then h2 else h1) (T.bucket a).key % 2 ^ ((T.bucket a).depth + 1) =
        2 ^ (T.bucket a).depth + (T.bucket a).id
    · rw [if_pos hx, hnew]; simp [hx]
    · rw [if_neg hx, hold]
  · rw [haddr]
    by_cases hx : (if n = 2 then h2 else h1) (T.bucket a).key % 2 ^ ((T.bucket a).depth + 1) =
        2 ^ (T.bucket a).depth + (T.bucket a).id
    · right
      rw [if_pos hx, hold]
      exact ⟨rfl, by simp [hx]⟩
    · left
      rw [if_neg hx, hnew]
      exact ⟨rfl, by simp [hx]⟩

/-! ### Worked examples for Scenario C and the extendible cuckoo table -/

/-- Witness for C23: with `h1 k = h2 k = 2 * k` the keys 1, 2, 3 have address
0 modulo 2 in both arrays, and addresses 2, 0, 2 modulo 4. -/
theorem cuckoo_scenario_c_witness :
    (((1 : Key) ≠ 2 ∧ (1 : Key) ≠ 3 ∧ (2 : Key) ≠ 3) ∧
      ((fun k : Key => 2 * k) 1 % 2 = (fun k : Key => 2 * k) 2 % 2 ∧
        (fun k : Key => 2 * k) 1 % 2 = (fun k : Key => 2 * k) 3 % 2) ∧
      ¬ ((fun k : Key => 2 * k) 1 % 4 = (fun k : Key => 2 * k) 2 % 4 ∧
        (fun k : Key => 2 * k) 1 % 4 = (fun k : Key => 2 * k) 3 % 4 ∧
        (fun k : Key => 2 * k) 1 % 4 = (fun k : Key => 2 * k) 2 % 4 ∧
        (fun k : Key => 2 * k) 1 % 4 = (fun k : Key => 2 * k) 3 % 4)) ∧
    ∃ t0 t2 t3 s u,
      Cuckoo.new_cuckoo_hash_table (fun _ => 0) 2 = .ok t0 ∧
      Cuckoo.insert_all (fun k => 2 * k) (fun k => 2 * k) (fun _ => 0) t0 [1, 2, 3]
        = .ok (t3, [true, true, true]) ∧
      Cuckoo.insert_all (fun k => 2 * k) (fun k => 2 * k) (fun _ => 0) t0 [1, 2]
        = .ok (t2, [true, true]) ∧
      t2.size = 2 ∧
      Cuckoo.kick_loop (fun k => 2 * k) (fun k => 2 * k) (2 * t2.size + 1)
        (Cuckoo.chain_start (fun k => 2 * k) t2 3) = .ok s ∧
      s.time_kicked_keys = 4 ∧
      Cuckoo.cuckoo_hash_table_insert (fun k => 2 * k) (fun k => 2 * k) (fun _ => 0) t2 3
        = Cuckoo.retry (fun k => 2 * k) (fun k => 2 * k) (fun _ => 0) 27 s.table s.key ∧
      Cuckoo.double_cuckoo_table
        (Cuckoo.cuckoo_hash_table_insert_fuel (fun k => 2 * k) (fun k => 2 * k) (fun _ => 0) 27)
        (fun _ => 0) s.table = .ok u ∧
      u.size = 4 ∧
      Cuckoo.cuckoo_hash_table_insert_fuel (fun k => 2 * k) (fun k => 2 * k) (fun _ => 0) 27
        u s.key = .ok (t3, true) ∧
      t3.size = 4 ∧ t3.load = 3 ∧
      Cuckoo.cuckoo_hash_table_lookup (fun k => 2 * k) (fun k => 2 * k) t3 1 = true ∧
      Cuckoo.cuckoo_hash_table_lookup (fun k => 2 * k) (fun k => 2 * k) t3 2 = true ∧
      Cuckoo.cuckoo_hash_table_lookup (fun k => 2 * k) (fun k => 2 * k) t3 3 = true :=
  ⟨⟨⟨by decide, by decide, by decide⟩, ⟨by decide, by decide⟩, by decide⟩,
    cuckoo_scenario_c (fun k => 2 * k) (fun k => 2 * k) (fun _ => 0) 1 2 3
      (by decide) (by decide) (by decide) (by decide) (by decide) (by decide) (by decide)
      (by decide)⟩

/-- Witness for C27: directory 1 of the table after the inserts of 0, 1, 3
has four entries and three buckets; the loop releases the pointers 2, 1, 0. -/
theorem xuckoo_free_once_witness :
    Xuckoo.Reachable (fun k => k) (fun k => k / 4) (fun _ => 0) Xuckoo.demo_three ∧
    Xuckoo.free_xuckoo_innertable (Xuckoo.demo_three.inner 1) = [2, 1, 0] ∧
    (Xuckoo.free_xuckoo_innertable (Xuckoo.demo_three.inner 1)).Nodup :=
  ⟨Xuckoo.Reachable.step Xuckoo.demo_two Xuckoo.demo_three 3 true
      (Xuckoo.Reachable.step Xuckoo.demo_one Xuckoo.demo_two 1 true
        (Xuckoo.Reachable.step _ Xuckoo.demo_one 0 true Xuckoo.Reachable.init (by rfl))
        (by rfl)) (by rfl),
    by rfl,
    (xuckoo_free_once (fun k => k) (fun k => k / 4) (fun _ => 0) Xuckoo.demo_three 1
      (Xuckoo.Reachable.step Xuckoo.demo_two Xuckoo.demo_three 3 true
        (Xuckoo.Reachable.step Xuckoo.demo_one Xuckoo.demo_two 1 true
          (Xuckoo.Reachable.step _ Xuckoo.demo_one 0 true Xuckoo.Reachable.init (by rfl))
          (by rfl)) (by rfl))).2.1⟩

/-- Witness for C28: the insert of 3 into the table that holds 0 and 1, which
kicks twice and then splits three times, returns the table `demo_three`. -/
theorem xuckoo_insert_terminates_witness :
    Xuckoo.Reachable (fun k => k) (fun k => k / 4) (fun _ => 0) Xuckoo.demo_two ∧
    Xuckoo.xuckoo_hash_table_insert (fun k => k) (fun k => k / 4) (fun _ => 0)
      Xuckoo.demo_two 3 = .ok (Xuckoo.demo_three, true) ∧
    ((∃ t' b, Xuckoo.xuckoo_hash_table_insert (fun k => k) (fun k => k / 4) (fun _ => 0)
        Xuckoo.demo_two 3 = .ok (t', b)) ∨
      Xuckoo.xuckoo_hash_table_insert (fun k => k) (fun k => k / 4) (fun _ => 0)
        Xuckoo.demo_two 3 = .error .assertion) :=
  ⟨Xuckoo.Reachable.step Xuckoo.demo_one Xuckoo.demo_two 1 true
      (Xuckoo.Reachable.step _ Xuckoo.demo_one 0 true Xuckoo.Reachable.init (by rfl))
      (by rfl),
    by rfl,
    (xuckoo_insert_terminates (fun k => k) (fun k => k / 4) (fun _ => 0) Xuckoo.demo_two 3
      (Xuckoo.Reachable.step Xuckoo.demo_one Xuckoo.demo_two 1 true
        (Xuckoo.Reachable.step _ Xuckoo.demo_one 0 true Xuckoo.Reachable.init (by rfl))
        (by rfl))).1⟩

/-- Witness for C29: the bucket at address 0 of directory 1 of `demo_two` is
as deep as the directory (depth 0); `split_bucket` doubles the directory. -/
theorem xuckoo_split_doubling_witness :
    (Xuckoo.Dir Xuckoo.demo_two.table1 ∧ 0 < Xuckoo.demo_two.table1.size ∧
      Xuckoo.split_bucket (fun k => k) (fun k => k / 4) (fun _ => 0)
        Xuckoo.demo_two.table1 0 1 = .ok Xuckoo.demo_split) ∧
    (Xuckoo.demo_split.size = 2 * Xuckoo.demo_two.table1.size ∧
      Xuckoo.demo_split.depth = Xuckoo.demo_two.table1.depth + 1 ↔
      (Xuckoo.demo_two.table1.bucket 0).depth = Xuckoo.demo_two.table1.depth) :=
  ⟨⟨(Xuckoo.xu_reachable_inv
        (Xuckoo.Reachable.step Xuckoo.demo_one Xuckoo.demo_two 1 true
          (Xuckoo.Reachable.step _ Xuckoo.demo_one 0 true
            (Xuckoo.Reachable.init : Xuckoo.Reachable (fun k => k) (fun k => k / 4)
              (fun _ => 0) _) (by rfl))
          (by rfl))).dir 1, by decide, by rfl⟩,
    ((xuckoo_split_doubling (fun k => k) (fun k => k / 4) (fun _ => 0)).2.1
      Xuckoo.demo_two.table1 Xuckoo.demo_split 0 1
      ((Xuckoo.xu_reachable_inv
        (Xuckoo.Reachable.step Xuckoo.demo_one Xuckoo.demo_two 1 true
          (Xuckoo.Reachable.step _ Xuckoo.demo_one 0 true
            (Xuckoo.Reachable.init : Xuckoo.Reachable (fun k => k) (fun k => k / 4)
              (fun _ => 0) _) (by rfl))
          (by rfl))).dir 1) (by decide) (by rfl)).1⟩

/-- Witness for C30: the bucket at address 0 of directory 1 of `demo_four` is
full, with id 0 and depth 1; `split_bucket` makes the sibling with id 2. -/
theorem xuckoo_split_sibling_witness :
    (Xuckoo.Dir Xuckoo.demo_four.table1 ∧
      Xuckoo.KeysAt (if (1 : Nat) = 2 then (fun k => k / 4) else (fun k => k))
        Xuckoo.demo_four.table1 ∧
      0 < Xuckoo.demo_four.table1.size ∧
      (Xuckoo.demo_four.table1.bucket 0).full = true ∧
      Xuckoo.split_bucket (fun k => k) (fun k => k / 4) (fun _ => 0)
        Xuckoo.demo_four.table1 0 1 = .ok Xuckoo.demo_sibling) ∧
    (Xuckoo.demo_sibling.deref (Xuckoo.demo_four.table1.buckets.getD 0 0)).id
      = (Xuckoo.demo_four.table1.bucket 0).id ∧
    (Xuckoo.demo_sibling.deref Xuckoo.demo_four.table1.mem.length).id
      = (Xuckoo.demo_four.table1.bucket 0).id + 2 ^ (Xuckoo.demo_four.table1.bucket 0).depth := by
  have hr : Xuckoo.Reachable (fun k => k) (fun k => k / 4) (fun _ => 0) Xuckoo.demo_four :=
    Xuckoo.Reachable.step Xuckoo.demo_three Xuckoo.demo_four 4 true
      (Xuckoo.Reachable.step Xuckoo.demo_two Xuckoo.demo_three 3 true
        (Xuckoo.Reachable.step Xuckoo.demo_one Xuckoo.demo_two 1 true
          (Xuckoo.Reachable.step _ Xuckoo.demo_one 0 true Xuckoo.Reachable.init (by rfl))
          (by rfl)) (by rfl)) (by rfl)
  have hD : Xuckoo.Dir Xuckoo.demo_four.table1 := (Xuckoo.xu_reachable_inv hr).dir 1
  have hK : Xuckoo.KeysAt (if (1 : Nat) = 2 then (fun k => k / 4) else (fun k => k))
      Xuckoo.demo_four.table1 := (Xuckoo.xu_reachable_inv hr).keys 1
  have h := xuckoo_split_sibling (fun k => k) (fun k => k / 4) (fun _ => 0)
    Xuckoo.demo_four.table1 Xuckoo.demo_sibling 0 1 hD hK (by decide) (by rfl) (by rfl)
  exact ⟨⟨hD, hK, by decide, by rfl, by rfl⟩, h.1, h.2.2.2.1⟩

/-! ### The per-array counters of cuckoo.c -/

namespace Cuckoo

/-- A kick writes one key cell and nothing else: counters, load, size and the
in-use flags are kept. -/
theorem cu_kick_counters (h1 h2 : Key → Nat) (s : Kick) :
    (kick h1 h2 s).table.stats = s.table.stats ∧
    (kick h1 h2 s).table.load = s.table.load ∧
    (kick h1 h2 s).table.size = s.table.size ∧
    (kick h1 h2 s).table.table1.inuse = s.table.table1.inuse ∧
    (kick h1 h2 s).table.table2.inuse = s.table.table2.inuse := by
  obtain ⟨_, _, _, ht⟩ := cu_kick_fields h1 h2 s
  rw [ht]
  unfold CuckooHashTable.setInner CuckooHashTable.inner
  by_cases h : s.insert_table = 1
  · simp [h]
  · simp [h]

theorem cu_kicks_counters (h1 h2 : Key → Nat) :
    ∀ n (s : Kick),
      (kicks h1 h2 n s).table.stats = s.table.stats ∧
      (kicks h1 h2 n s).table.load = s.table.load ∧
      (kicks h1 h2 n s).table.size = s.table.size ∧
      (kicks h1 h2 n s).table.table1.inuse = s.table.table1.inuse ∧
      (kicks h1 h2 n s).table.table2.inuse = s.table.table2.inuse := by
  intro n
  induction n with
  | zero => intro s; exact ⟨rfl, rfl, rfl, rfl, rfl⟩
  | succ n ih =>
    intro s
    obtain ⟨a1, a2, a3, a4, a5⟩ := ih (kick h1 h2 s)
    obtain ⟨b1, b2, b3, b4, b5⟩ := cu_kick_counters h1 h2 s
    rw [kicks]
    exact ⟨a1.trans b1, a2.trans b2, a3.trans b3, a4.trans b4, a5.trans b5⟩

/-- The eviction loop keeps counters, load, size and in-use flags. -/
theorem cu_kick_loop_counters (h1 h2 : Key → Nat) (fuel : Nat) (s s' : Kick)
    (hr : kick_loop h1 h2 fuel s = .ok s') :
    s'.table.stats = s.table.stats ∧ s'.table.load = s.table.load ∧
    s'.table.size = s.table.size ∧
    s'.table.table1.inuse = s.table.table1.inuse ∧
    s'.table.table2.inuse = s.table.table2.inuse := by
  obtain ⟨n, hn, _⟩ := cu_kick_loop_trace h1 h2 fuel s s' hr
  rw [hn]
  exact cu_kicks_counters h1 h2 n s

/-- Storing the held key in the free slot under the cursor counts it in the
counter of the array that received it. -/
theorem cu_place_cinv {h1 h2 : Key → Nat} {s : Kick} (hK : KInv h1 h2 s)
    (hfree : (s.table.inner s.insert_table).inuse.getD s.H false = false)
    (hC : CInv s.table) : CInv (place s) := by
  have hHlt : s.H < s.table.size := by rw [hK.addr]; exact Nat.mod_lt _ hK.inv.size_pos
  have l1 : s.table.table1.inuse.length = s.table.size := hK.inv.len_u 1
  have l2 : s.table.table2.inuse.length = s.table.size := hK.inv.len_u 2
  rcases hK.tbl with h1t | h2t
  · rw [h1t] at hfree
    have hfr : s.table.table1.inuse.getD s.H false = false := hfree
    rw [cu_place_table1 s h1t]
    constructor
    · show s.table.stats.load_table1 + 1 = (s.table.table1.inuse.set s.H true).count true
      rw [aux_count_set_true _ _ (by rw [l1]; exact hHlt) hfr, hC.1]
    · exact hC.2
  · rw [h2t] at hfree
    have hfr : s.table.table2.inuse.getD s.H false = false := hfree
    rw [cu_place_table2 s h2t]
    constructor
    · exact hC.1
    · show s.table.stats.load_table2 + 1 = (s.table.table2.inuse.set s.H true).count true
      rw [aux_count_set_true _ _ (by rw [l2]; exact hHlt) hfr, hC.2]

theorem cu_initialise_cinv {junk : Nat → Key} {t t' : CuckooHashTable}
    {size : Nat} (hr : initialise_cuckoo_table junk t size = .ok t') : CInv t' := by
  unfold initialise_cuckoo_table at hr
  by_cases hc : size < MAX_TABLE_SIZE
  · rw [if_pos hc] at hr
    simp only [Except.ok.injEq] at hr
    subst hr
    constructor <;> simp [List.count_replicate]
  · rw [if_neg hc] at hr; simp at hr

theorem cu_reinsert_if_cinv {h1 h2 : Key → Nat}
    {ins : CuckooHashTable → Key → Except Err (CuckooHashTable × Bool)}
    (hins3 : InsSpec3 h1 h2 ins) {t t' : CuckooHashTable} (used : Bool)
    (key : Key) (hI : Inv h1 h2 t) (hL : LInv h1 t) (hC : CInv t)
    (hr : reinsert_if ins used key t = .ok t') : CInv t' := by
  unfold reinsert_if at hr
  by_cases hu : used = true
  · rw [if_pos hu] at hr
    cases hi : ins t key with
    | error e => rw [hi] at hr; simp at hr
    | ok r =>
      obtain ⟨t1, b⟩ := r
      rw [hi] at hr
      simp only [Except.ok.injEq] at hr
      subst hr
      exact hins3 t t1 key b hI hL hC hi
  · rw [if_neg hu] at hr
    simp only [Except.ok.injEq] at hr
    subst hr
    exact hC

theorem cu_reinsert_loop_cinv {h1 h2 : Key → Nat}
    {ins : CuckooHashTable → Key → Except Err (CuckooHashTable × Bool)}
    (hins : InsSpec h1 h2 ins) (hins2 : InsSpec2 h1 h2 ins) (hins3 : InsSpec3 h1 h2 ins)
    (old1 old2 : InnerTable) :
    ∀ (is : List Nat) (t t' : CuckooHashTable), Inv h1 h2 t → LInv h1 t → CInv t →
      reinsert_loop ins old1 old2 is t = .ok t' → CInv t' := by
  intro is
  induction is with
  | nil =>
    intro t t' _ _ hC hr
    simp only [reinsert_loop, Except.ok.injEq] at hr
    subst hr
    exact hC
  | cons i is ih =>
    intro t t' hI hL hC hr
    unfold reinsert_loop at hr
    cases ha : reinsert_if ins (old1.inuse.getD i false) (old1.slots.getD i 0) t with
    | error e => rw [ha] at hr; simp at hr
    | ok ta =>
      rw [ha] at hr
      simp only at hr
      cases hb : reinsert_if ins (old2.inuse.getD i false) (old2.slots.getD i 0) ta with
      | error e => rw [hb] at hr; simp at hr
      | ok tb =>
        rw [hb] at hr
        simp only at hr
        obtain ⟨hIa, _⟩ := cu_reinsert_if_spec hins _ _ hI ha
        obtain ⟨hIb, _⟩ := cu_reinsert_if_spec hins _ _ hIa hb
        have hLa := cu_reinsert_if_linv hins2 _ _ hI hL ha
        have hLb := cu_reinsert_if_linv hins2 _ _ hIa hLa hb
        have hCa := cu_reinsert_if_cinv hins3 _ _ hI hL hC ha
        have hCb := cu_reinsert_if_cinv hins3 _ _ hIa hLa hCa hb
        exact ih tb t' hIb hLb hCb hr

/-- Doubling resets the counters and the re-insertions count every key again. -/
theorem cu_double_cinv {h1 h2 : Key → Nat} {junk : Nat → Key}
    {ins : CuckooHashTable → Key → Except Err (CuckooHashTable × Bool)}
    (hins : InsSpec h1 h2 ins) (hins2 : InsSpec2 h1 h2 ins) (hins3 : InsSpec3 h1 h2 ins)
    {t t' : CuckooHashTable} (hI : Inv h1 h2 t)
    (hr : double_cuckoo_table ins junk t = .ok t') : CInv t' := by
  unfold double_cuckoo_table at hr
  cases hi : initialise_cuckoo_table junk t (t.size * 2) with
  | error e => rw [hi] at hr; simp at hr
  | ok fresh =>
    rw [hi] at hr
    simp only at hr
    obtain ⟨hIf, _, _⟩ := cu_initialise_spec h1 h2 (by have := hI.size_pos; omega) hi
    obtain ⟨hLf, _⟩ := cu_initialise_linv h1 hi
    exact cu_reinsert_loop_cinv hins hins2 hins3 _ _ _ _ _ hIf hLf (cu_initialise_cinv hi) hr

theorem cu_insert_fuel_spec3 {h1 h2 : Key → Nat} {junk : Nat → Key} :
    ∀ fuel, InsSpec3 h1 h2 (cuckoo_hash_table_insert_fuel h1 h2 junk fuel) := by
  intro fuel
  induction fuel with
  | zero => intro t t' k b _ _ _ hr; simp [cuckoo_hash_table_insert_fuel] at hr
  | succ fuel ih =>
    intro t t' k b hI hL hC hr0
    have hspec : InsSpec h1 h2 (cuckoo_hash_table_insert_fuel h1 h2 junk fuel) :=
      cu_insert_fuel_spec fuel
    have hspec2 : InsSpec2 h1 h2 (cuckoo_hash_table_insert_fuel h1 h2 junk fuel) :=
      cu_insert_fuel_spec2 fuel
    by_cases hfull : t.load = 2 * t.size - 1
    · rw [cu_insert_fuel_full h1 h2 junk fuel t k hfull] at hr0
      unfold retry at hr0
      cases hd : double_cuckoo_table (cuckoo_hash_table_insert_fuel h1 h2 junk fuel) junk t with
      | error e => rw [hd] at hr0; simp at hr0
      | ok t2 =>
        rw [hd] at hr0
        simp only at hr0
        obtain ⟨hI2, _⟩ := cu_double_spec hspec hI hd
        obtain ⟨hL2, _⟩ := cu_double_linv hspec hspec2 hI hL.load_eq hd
        exact ih t2 t' k b hI2 hL2 (cu_double_cinv hspec hspec2 ih hI hd) hr0
    · by_cases hk : holds t k
      · rw [cu_insert_held junk fuel hI hfull hk] at hr0
        simp only [Except.ok.injEq, Prod.mk.injEq] at hr0
        rw [← hr0.1]; exact hC
      · obtain ⟨hd1, hd2⟩ := cu_absent k ((cu_lookup_false_iff hI k).mpr hk)
        cases hkl : kick_loop h1 h2 (2 * t.size + 1) (chain_start h1 t k) with
        | error e =>
          obtain ⟨s, hs, _⟩ := cu_kick_loop_total h1 h2 (2 * t.size + 1) (chain_start h1 t k)
            (by simp [chain_start]) (by simp [chain_start])
          rw [hs] at hkl; cases hkl
        | ok s =>
          rw [cu_insert_fuel_chain_retry h1 h2 junk fuel t k s hfull hd1 hd2 hkl] at hr0
          obtain ⟨n, _, _, hng, _, hK, hK2, ez, el, es, ec, _⟩ := cu_chain_spec hI hL hk _ hkl
          obtain ⟨_, _, _, u1, u2⟩ := cu_kick_loop_counters h1 h2 _ _ _ hkl
          have hCs : CInv s.table := by
            constructor
            · rw [es, u1]; exact hC.1
            · rw [es, u2]; exact hC.2
          by_cases hcyc : s.time_kicked_keys = 2 * s.table.size
          · rw [if_pos hcyc] at hr0
            unfold retry at hr0
            cases hd : double_cuckoo_table (cuckoo_hash_table_insert_fuel h1 h2 junk fuel)
                junk s.table with
            | error e => rw [hd] at hr0; simp at hr0
            | ok t2 =>
              rw [hd] at hr0
              simp only at hr0
              obtain ⟨hI2, _⟩ := cu_double_spec hspec hK.inv hd
              obtain ⟨hL2, _⟩ := cu_double_linv hspec hspec2 hK.inv
                (by rw [el, ec]; exact hL.load_eq) hd
              exact ih t2 t' s.key b hI2 hL2 (cu_double_cinv hspec hspec2 ih hK.inv hd) hr0
          · rw [if_neg hcyc] at hr0
            simp only [Except.ok.injEq, Prod.mk.injEq] at hr0
            rw [← hr0.1]
            have hfree : (s.table.inner s.insert_table).inuse.getD s.H false = false := by
              by_contra hcon
              exact hng ⟨by simpa using hcon, hcyc⟩
            exact cu_place_cinv hK hfree hCs

theorem cu_reachable_cinv {h1 h2 : Key → Nat} {junk : Nat → Key} {t : CuckooHashTable}
    (hr : Reachable h1 h2 junk t) : CInv t := by
  induction hr with
  | init size t hs h => exact cu_initialise_cinv h
  | step t t' k b hr h ih =>
    exact cu_insert_fuel_spec3 _ _ _ _ _ (cu_reachable_inv hr) (cu_reachable_linv hr) ih h

end Cuckoo

/-! ### The address invariant of cuckoo.c in the words of the specification -/

namespace Cuckoo

theorem cu_address_of_inv {h1 h2 : Key → Nat} {t : CuckooHashTable} (hI : Inv h1 h2 t) :
    Shape t ∧ AddressInv h1 h2 t := by
  have a1 : ∀ i, i < t.size → t.table1.inuse.getD i false = true →
      h1 (t.table1.slots.getD i 0) % t.size = i := fun i hi hu => hI.addr 1 i hi hu
  have a2 : ∀ j, j < t.size → t.table2.inuse.getD j false = true →
      h2 (t.table2.slots.getD j 0) % t.size = j := fun j hj hu => hI.addr 2 j hj hu
  refine ⟨⟨hI.size_pos, hI.len_s 1, hI.len_u 1, hI.len_s 2, hI.len_u 2⟩, a1, a2, ?_, ?_, ?_⟩
  · intro i j hi hj hui huj he
    rw [← a1 i hi hui, ← a1 j hj huj, he]
  · intro i j hi hj hui huj he
    rw [← a2 i hi hui, ← a2 j hj huj, he]
  · intro i j hi hj hui huj he
    exact hI.disj _ ⟨⟨i, hi, hui, rfl⟩, ⟨j, hj, huj, he.symm⟩⟩

theorem cu_inv_of_address {h1 h2 : Key → Nat} {t : CuckooHashTable} (hS : Shape t)
    (hA : AddressInv h1 h2 t) : Inv h1 h2 t := by
  obtain ⟨hpos, s1, u1, s2, u2⟩ := hS
  obtain ⟨a1, a2, _, _, a5⟩ := hA
  refine ⟨hpos, ?_, ?_, ?_, ?_⟩
  · intro n
    unfold CuckooHashTable.inner
    by_cases h : n = 1
    · rw [if_pos h]; exact s1
    · rw [if_neg h]; exact s2
  · intro n
    unfold CuckooHashTable.inner
    by_cases h : n = 1
    · rw [if_pos h]; exact u1
    · rw [if_neg h]; exact u2
  · intro n i hi hu
    unfold CuckooHashTable.inner at hu ⊢
    unfold hash_of
    by_cases h : n = 1
    · rw [if_pos h] at hu ⊢
      rw [if_pos h]
      exact a1 i hi hu
    · rw [if_neg h] at hu ⊢
      rw [if_neg h]
      exact a2 i hi hu
  · rintro k ⟨⟨i, hi, hui, hki⟩, ⟨j, hj, huj, hkj⟩⟩
    exact a5 i j hi hj hui huj (hki.trans hkj.symm)

end Cuckoo

/-! ### The nested calls of `cuckoo_hash_table_insert` -/

namespace Cuckoo

theorem cu_insert_fuel_step (h1 h2 : Key → Nat) (junk : Nat → Key) (fuel : Nat)
    (t : CuckooHashTable) (k : Key) :
    cuckoo_hash_table_insert_fuel h1 h2 junk (fuel + 1) t k =
      insert_step h1 h2 junk (cuckoo_hash_table_insert_fuel h1 h2 junk fuel) t k := by
  rw [cuckoo_hash_table_insert_fuel]
  rfl

theorem cu_reinsert_loop_size
    {ins : CuckooHashTable → Key → Except Err (CuckooHashTable × Bool)}
    (hm : ∀ t t' k b, ins t k = .ok (t', b) → t.size ≤ t'.size) (old1 old2 : InnerTable) :
    ∀ (is : List Nat) (u u' : CuckooHashTable),
      reinsert_loop ins old1 old2 is u = .ok u' → u.size ≤ u'.size := by
  have hif : ∀ (used : Bool) (key : Key) (u u' : CuckooHashTable),
      reinsert_if ins used key u = .ok u' → u.size ≤ u'.size := by
    intro used key u u' hr
    unfold reinsert_if at hr
    by_cases hu : used = true
    · rw [if_pos hu] at hr
      cases hi : ins u key with
      | error e => rw [hi] at hr; simp at hr
      | ok r =>
        obtain ⟨t1, b⟩ := r
        rw [hi] at hr
        simp only [Except.ok.injEq] at hr
        subst hr
        exact hm _ _ _ _ hi
    · rw [if_neg hu] at hr
      simp only [Except.ok.injEq] at hr
      rw [hr]
  intro is
  induction is with
  | nil =>
    intro u u' hr
    simp only [reinsert_loop, Except.ok.injEq] at hr
    rw [hr]
  | cons i is ih =>
    intro u u' hr
    unfold reinsert_loop at hr
    cases ha : reinsert_if ins (old1.inuse.getD i false) (old1.slots.getD i 0) u with
    | error e => rw [ha] at hr; simp at hr
    | ok ua =>
      rw [ha] at hr
      simp only at hr
      cases hb : reinsert_if ins (old2.inuse.getD i false) (old2.slots.getD i 0) ua with
      | error e => rw [hb] at hr; simp at hr
      | ok ub =>
        rw [hb] at hr
        simp only at hr
        exact (hif _ _ _ _ ha).trans ((hif _ _ _ _ hb).trans (ih ub u' hr))

theorem cu_double_size {junk : Nat → Key}
    {ins : CuckooHashTable → Key → Except Err (CuckooHashTable × Bool)}
    (hm : ∀ t t' k b, ins t k = .ok (t', b) → t.size ≤ t'.size) {t t' : CuckooHashTable}
    (hr : double_cuckoo_table ins junk t = .ok t') : t.size * 2 ≤ t'.size := by
  unfold double_cuckoo_table at hr
  cases hi : initialise_cuckoo_table junk t (t.size * 2) with
  | error e => rw [hi] at hr; simp at hr
  | ok fresh =>
    rw [hi] at hr
    simp only at hr
    have hz : fresh.size = t.size * 2 := by
      unfold initialise_cuckoo_table at hi
      by_cases hc : t.size * 2 < MAX_TABLE_SIZE
      · rw [if_pos hc] at hi
        simp only [Except.ok.injEq] at hi
        rw [← hi]
      · rw [if_neg hc] at hi; simp at hi
    rw [← hz]
    exact cu_reinsert_loop_size hm _ _ _ _ _ hr

/-- A completed call of `cuckoo_hash_table_insert` returns a table that is
not smaller. -/
theorem cu_insert_fuel_size_le (h1 h2 : Key → Nat) (junk : Nat → Key) :
    ∀ fuel (t t' : CuckooHashTable) (k : Key) (b : Bool),
      cuckoo_hash_table_insert_fuel h1 h2 junk fuel t k = .ok (t', b) → t.size ≤ t'.size := by
  intro fuel
  induction fuel with
  | zero => intro t t' k b hr; simp [cuckoo_hash_table_insert_fuel] at hr
  | succ fuel ih =>
    intro t t' k b hr
    by_cases hfull : t.load = 2 * t.size - 1
    · rw [cu_insert_fuel_full h1 h2 junk fuel t k hfull] at hr
      unfold retry at hr
      cases hd : double_cuckoo_table (cuckoo_hash_table_insert_fuel h1 h2 junk fuel) junk t with
      | error e => rw [hd] at hr; simp at hr
      | ok t2 =>
        rw [hd] at hr
        simp only at hr
        have := cu_double_size ih hd
        have := ih _ _ _ _ hr
        omega
    · by_cases hd1 : t.table1.slots.getD (h1 k % t.size) 0 = k ∧
          t.table1.inuse.getD (h1 k % t.size) false = true
      · rw [cuckoo_hash_table_insert_fuel] at hr
        simp only at hr
        rw [if_neg hfull, if_pos hd1] at hr
        simp only [Except.ok.injEq, Prod.mk.injEq] at hr
        rw [hr.1]
      · by_cases hd2 : t.table2.slots.getD (h2 k % t.size) 0 = k ∧
            t.table2.inuse.getD (h2 k % t.size) false = true
        · rw [cuckoo_hash_table_insert_fuel] at hr
          simp only at hr
          rw [if_neg hfull, if_neg hd1, if_pos hd2] at hr
          simp only [Except.ok.injEq, Prod.mk.injEq] at hr
          rw [hr.1]
        · cases hkl : kick_loop h1 h2 (2 * t.size + 1) (chain_start h1 t k) with
          | error e =>
            rw [cuckoo_hash_table_insert_fuel] at hr
            simp only at hr
            unfold chain_start at hkl
            rw [if_neg hfull, if_neg hd1, if_neg hd2, hkl] at hr
            simp at hr
          | ok s =>
            rw [cu_insert_fuel_chain_retry h1 h2 junk fuel t k s hfull hd1 hd2 hkl] at hr
            obtain ⟨_, _, hz, _, _⟩ := cu_kick_loop_counters h1 h2 _ _ _ hkl
            have hz' : s.table.size = t.size := hz
            by_cases hcyc : s.time_kicked_keys = 2 * s.table.size
            · rw [if_pos hcyc] at hr
              unfold retry at hr
              cases hd : double_cuckoo_table (cuckoo_hash_table_insert_fuel h1 h2 junk fuel)
                  junk s.table with
              | error e => rw [hd] at hr; simp at hr
              | ok t2 =>
                rw [hd] at hr
                simp only at hr
                have := cu_double_size ih hd
                have := ih _ _ _ _ hr
                omega
            · rw [if_neg hcyc] at hr
              simp only [Except.ok.injEq, Prod.mk.injEq] at hr
              rw [← hr.1]
              have hp : (place s).size = s.table.size := by
                unfold place
                simp only
                split
                · exact cu_setInner_size _ _ _
                · split
                  · exact cu_setInner_size _ _ _
                  · exact cu_setInner_size _ _ _
              omega

theorem cu_reinsert_loop_guarded
    {ins : CuckooHashTable → Key → Except Err (CuckooHashTable × Bool)}
    (hm : ∀ t t' k b, ins t k = .ok (t', b) → t.size ≤ t'.size) (n : Nat)
    (old1 old2 : InnerTable) :
    ∀ (is : List Nat) (u : CuckooHashTable), n < u.size →
      reinsert_loop (guarded n ins) old1 old2 is u = reinsert_loop ins old1 old2 is u := by
  have hif : ∀ (used : Bool) (key : Key) (u : CuckooHashTable), n < u.size →
      reinsert_if (guarded n ins) used key u = reinsert_if ins used key u ∧
      ∀ u', reinsert_if ins used key u = .ok u' → n < u'.size := by
    intro used key u hu
    unfold reinsert_if guarded
    by_cases hus : used = true
    · rw [if_pos hus, if_pos hus, if_pos hu]
      refine ⟨rfl, ?_⟩
      intro u' hr
      cases hi : ins u key with
      | error e => rw [hi] at hr; simp at hr
      | ok r =>
        obtain ⟨t1, b⟩ := r
        rw [hi] at hr
        simp only [Except.ok.injEq] at hr
        subst hr
        have := hm _ _ _ _ hi
        omega
    · rw [if_neg hus, if_neg hus]
      refine ⟨rfl, ?_⟩
      intro u' hr
      simp only [Except.ok.injEq] at hr
      rw [← hr]; exact hu
  intro is
  induction is with
  | nil => intro u _; rfl
  | cons i is ih =>
    intro u hu
    unfold reinsert_loop
    obtain ⟨e1, m1⟩ := hif (old1.inuse.getD i false) (old1.slots.getD i 0) u hu
    rw [e1]
    cases ha : reinsert_if ins (old1.inuse.getD i false) (old1.slots.getD i 0) u with
    | error e => rfl
    | ok ua =>
      simp only
      obtain ⟨e2, m2⟩ := hif (old2.inuse.getD i false) (old2.slots.getD i 0) ua (m1 ua ha)
      rw [e2]
      cases hb : reinsert_if ins (old2.inuse.getD i false) (old2.slots.getD i 0) ua with
      | error e => rfl
      | ok ub =>
        simp only
        exact ih ub (m2 ub hb)

theorem cu_double_guarded {junk : Nat → Key}
    {ins : CuckooHashTable → Key → Except Err (CuckooHashTable × Bool)}
    (hm : ∀ t t' k b, ins t k = .ok (t', b) → t.size ≤ t'.size) (t : CuckooHashTable)
    (hpos : 0 < t.size) :
    double_cuckoo_table (guarded t.size ins) junk t = double_cuckoo_table ins junk t := by
  unfold double_cuckoo_table
  cases hi : initialise_cuckoo_table junk t (t.size * 2) with
  | error e => rfl
  | ok fresh =>
    simp only
    have hz : fresh.size = t.size * 2 := by
      unfold initialise_cuckoo_table at hi
      by_cases hc : t.size * 2 < MAX_TABLE_SIZE
      · rw [if_pos hc] at hi
        simp only [Except.ok.injEq] at hi
        rw [← hi]
      · rw [if_neg hc] at hi; simp at hi
    exact cu_reinsert_loop_guarded hm _ _ _ _ _ (by omega)

end Cuckoo

namespace Cuckoo

theorem cu_guarded_pass
    (ins : CuckooHashTable → Key → Except Err (CuckooHashTable × Bool)) (n : Nat)
    (u : CuckooHashTable) (k : Key) (h : n < u.size) : guarded n ins u k = ins u k := by
  unfold guarded
  rw [if_pos h]

/-- One invocation of `cuckoo_hash_table_insert` on a table of size `n ≥ 1`
makes its recursive calls on tables larger than `n` only. -/
theorem cu_insert_step_guarded (h1 h2 : Key → Nat) (junk : Nat → Key)
    {ins : CuckooHashTable → Key → Except Err (CuckooHashTable × Bool)}
    (hm : ∀ t t' k b, ins t k = .ok (t', b) → t.size ≤ t'.size) (t : CuckooHashTable)
    (k : Key) (hpos : 0 < t.size) :
    insert_step h1 h2 junk (guarded t.size ins) t k = insert_step h1 h2 junk ins t k := by
  unfold insert_step
  simp only
  by_cases hfull : t.load = 2 * t.size - 1
  · rw [if_pos hfull, if_pos hfull, cu_double_guarded hm t hpos]
    cases hd : double_cuckoo_table ins junk t with
    | error e => rfl
    | ok t2 =>
      simp only
      have := cu_double_size hm hd
      exact cu_guarded_pass ins _ _ _ (by omega)
  · rw [if_neg hfull, if_neg hfull]
    by_cases hd1 : t.table1.slots.getD (h1 k % t.size) 0 = k ∧
        t.table1.inuse.getD (h1 k % t.size) false = true
    · rw [if_pos hd1, if_pos hd1]
    · rw [if_neg hd1, if_neg hd1]
      by_cases hd2 : t.table2.slots.getD (h2 k % t.size) 0 = k ∧
          t.table2.inuse.getD (h2 k % t.size) false = true
      · rw [if_pos hd2, if_pos hd2]
      · rw [if_neg hd2, if_neg hd2]
        cases hkl : kick_loop h1 h2 (2 * t.size + 1)
            { table := t, key := k, H := h1 k % t.size, insert_table := 1,
              time_kicked_keys := 0 } with
        | error e => rfl
        | ok s =>
          simp only
          obtain ⟨_, _, hz, _, _⟩ := cu_kick_loop_counters h1 h2 _ _ _ hkl
          have hz' : s.table.size = t.size := hz
          by_cases hcyc : s.time_kicked_keys = 2 * s.table.size
          · rw [if_pos hcyc, if_pos hcyc, ← hz', cu_double_guarded hm s.table (by omega)]
            cases hd : double_cuckoo_table ins junk s.table with
            | error e => rfl
            | ok t2 =>
              simp only
              have := cu_double_size hm hd
              exact cu_guarded_pass ins _ _ _ (by omega)
          · rw [if_neg hcyc, if_neg hcyc]

/-- Checking that every recursive call is made on a strictly larger table
never stops a call of `cuckoo_hash_table_insert` on a table of size `≥ 1`. -/
theorem cu_insert_checked_eq (h1 h2 : Key → Nat) (junk : Nat → Key) :
    ∀ fuel (t : CuckooHashTable) (k : Key), 0 < t.size →
      insert_checked h1 h2 junk fuel t k = cuckoo_hash_table_insert_fuel h1 h2 junk fuel t k := by
  intro fuel
  induction fuel with
  | zero => intro t k _; rfl
  | succ fuel ih =>
    intro t k hpos
    have hg : guarded t.size (insert_checked h1 h2 junk fuel) =
        guarded t.size (cuckoo_hash_table_insert_fuel h1 h2 junk fuel) := by
      funext u key
      unfold guarded
      by_cases h : t.size < u.size
      · rw [if_pos h, if_pos h]
        exact ih u key (by omega)
      · rw [if_neg h, if_neg h]
    rw [insert_checked, hg, cu_insert_fuel_step,
      cu_insert_step_guarded h1 h2 junk (cu_insert_fuel_size_le h1 h2 junk fuel) t k hpos]

end Cuckoo

/-- C32. CuckooTable address invariant: every reachable table has well-formed
arrays and satisfies the address invariant (every in-use slot `i` of array 1
holds a key with `h1 k % size = i`, every in-use slot `j` of array 2 a key
with `h2 k % size = j`, no key is held by two in-use slots).  From every
table with well-formed arrays that satisfies it (the tables of nested calls
included), the table left by the kick chain of an insert of a key that lookup
does not find, the table returned by a doubling, and the table returned by an
insert satisfy it again. -/
theorem cuckoo_address_invariant (h1 h2 : Key → Nat) (junk : Nat → Key)
    (t : Cuckoo.CuckooHashTable) (hr : Cuckoo.Reachable h1 h2 junk t) :
    (Cuckoo.Shape t ∧ Cuckoo.AddressInv h1 h2 t) ∧
    ∀ T, Cuckoo.Shape T → Cuckoo.AddressInv h1 h2 T →
      (∀ k fuel s, Cuckoo.cuckoo_hash_table_lookup h1 h2 T k = false →
        Cuckoo.kick_loop h1 h2 fuel (Cuckoo.chain_start h1 T k) = .ok s →
        Cuckoo.Shape s.table ∧ Cuckoo.AddressInv h1 h2 s.table) ∧
      (∀ fuel T', Cuckoo.double_cuckoo_table
          (Cuckoo.cuckoo_hash_table_insert_fuel h1 h2 junk fuel) junk T = .ok T' →
        Cuckoo.Shape T' ∧ Cuckoo.AddressInv h1 h2 T') ∧
      (∀ fuel k T' b, Cuckoo.cuckoo_hash_table_insert_fuel h1 h2 junk fuel T k = .ok (T', b) →
        Cuckoo.Shape T' ∧ Cuckoo.AddressInv h1 h2 T') := by
  refine ⟨Cuckoo.cu_address_of_inv (Cuckoo.cu_reachable_inv hr), ?_⟩
  intro T hS hA
  have hI := Cuckoo.cu_inv_of_address hS hA
  refine ⟨?_, ?_, ?_⟩
  · intro k fuel s hk hs
    have hnk : ¬ Cuckoo.holds T k := (Cuckoo.cu_lookup_false_iff hI k).mp hk
    obtain ⟨hK, _⟩ := Cuckoo.cu_kick_loop_spec fuel _ s
      ⟨hI, Or.inl rfl, rfl, hnk⟩ hs
    exact Cuckoo.cu_address_of_inv hK.inv
  · intro fuel T' hd
    exact Cuckoo.cu_address_of_inv (Cuckoo.cu_double_spec (Cuckoo.cu_insert_fuel_spec fuel) hI hd).1
  · intro fuel k T' b hi
    exact Cuckoo.cu_address_of_inv (Cuckoo.cu_insert_fuel_spec fuel T T' k b hI hi).1

/-- C35. CuckooTable per-table counters: in every reachable table
`stats.load_table1` is the number of in-use slots of array 1,
`stats.load_table2` the number of in-use slots of array 2, and `load` is
their sum; a kick keeps the counters, the load and the in-use flags, and so
does the whole kick chain of an insert. -/
theorem cuckoo_table_counters (h1 h2 : Key → Nat) (junk : Nat → Key)
    (t : Cuckoo.CuckooHashTable) (hr : Cuckoo.Reachable h1 h2 junk t) :
    t.stats.load_table1 = t.table1.inuse.count true ∧
    t.stats.load_table2 = t.table2.inuse.count true ∧
    t.load = t.stats.load_table1 + t.stats.load_table2 ∧
    (∀ s : Cuckoo.Kick, (Cuckoo.kick h1 h2 s).table.stats = s.table.stats ∧
      (Cuckoo.kick h1 h2 s).table.load = s.table.load ∧
      (Cuckoo.kick h1 h2 s).table.table1.inuse = s.table.table1.inuse ∧
      (Cuckoo.kick h1 h2 s).table.table2.inuse = s.table.table2.inuse) ∧
    (∀ k fuel s, Cuckoo.kick_loop h1 h2 fuel (Cuckoo.chain_start h1 t k) = .ok s →
      s.table.stats = t.stats ∧ s.table.load = t.load ∧
      s.table.table1.inuse = t.table1.inuse ∧ s.table.table2.inuse = t.table2.inuse) := by
  have hC := Cuckoo.cu_reachable_cinv hr
  have hL := Cuckoo.cu_reachable_linv hr
  refine ⟨hC.1, hC.2, ?_, ?_, ?_⟩
  · rw [hL.load_eq, hC.1, hC.2]; rfl
  · intro s
    obtain ⟨a, b, _, c, d⟩ := Cuckoo.cu_kick_counters h1 h2 s
    exact ⟨a, b, c, d⟩
  · intro k fuel s hs
    obtain ⟨a, b, _, c, d⟩ := Cuckoo.cu_kick_loop_counters h1 h2 fuel _ s hs
    exact ⟨a, b, c, d⟩

/-- C33. CuckooTable insert terminates: for arbitrary hash functions, on every
reachable table and for every key, `cuckoo_hash_table_insert` returns a
result (a table that is not smaller and whose size is below
`MAX_TABLE_SIZE`) or trips the size assertion; no budget of the model is
exhausted.  The function is `insert_step` applied to itself, and the run in
which every recursive call, direct or nested in `double_cuckoo_table`, is
checked to be made on a table strictly larger than the table of the calling
invocation gives the same result: no call is made on a table that is not
larger. -/
theorem cuckoo_insert_terminates (h1 h2 : Key → Nat) (junk : Nat → Key)
    (t : Cuckoo.CuckooHashTable) (k : Key) (hr : Cuckoo.Reachable h1 h2 junk t) :
    ((∃ t' b, Cuckoo.cuckoo_hash_table_insert h1 h2 junk t k = .ok (t', b) ∧
        t.size ≤ t'.size ∧ t'.size < MAX_TABLE_SIZE) ∨
      Cuckoo.cuckoo_hash_table_insert h1 h2 junk t k = .error .assertion) ∧
    t.size < MAX_TABLE_SIZE ∧
    (∀ fuel T key, Cuckoo.cuckoo_hash_table_insert_fuel h1 h2 junk (fuel + 1) T key =
      Cuckoo.insert_step h1 h2 junk (Cuckoo.cuckoo_hash_table_insert_fuel h1 h2 junk fuel)
        T key) ∧
    Cuckoo.insert_checked h1 h2 junk INSERT_DEPTH t k =
      Cuckoo.cuckoo_hash_table_insert h1 h2 junk t k := by
  have hb := Cuckoo.cu_reachable_bounded hr
  exact ⟨Cuckoo.cu_insert_total h1 h2 junk t k hb.1 hb.2, hb.2,
    Cuckoo.cu_insert_fuel_step h1 h2 junk,
    Cuckoo.cu_insert_checked_eq h1 h2 junk INSERT_DEPTH t k hb.1⟩

/-! ### At most one doubling per insert of linear.c -/

namespace Linear

theorem lin_insert_fuel_eq (h1 : Key → Nat) (junk : Nat → Key) (fuel : Nat)
    (t : LinearHashTable) (k : Key) (p : Probe)
    (hp : insert_loop k (t.size + 1) t (h1 k % t.size) 0 = .ok p) :
    linear_hash_table_insert_fuel h1 junk (fuel + 1) t k =
      if p.found = true then .ok (p.table, false)
      else if p.steps = p.table.size then
        match double_table h1 junk
            { p.table with stats := { p.table.stats with is_recorded_collisions := 1 } } with
        | .error e => .error e
        | .ok table => linear_hash_table_insert_fuel h1 junk fuel table k
      else .ok (place p k, true) := by
  rw [linear_hash_table_insert_fuel, hp]
  rfl

/-- On a table with a free slot the insert of a new key stops probing before
a full revolution and stores the key without doubling. -/
theorem lin_insert_free_slot {h1 : Key → Nat} (junk : Nat → Key) (fuel : Nat)
    {t : LinearHashTable} {k : Key} (hI : Inv h1 t) (hu : used t < t.size)
    (hk : ¬ holds t k) :
    ∃ p, insert_loop k (t.size + 1) t (h1 k % t.size) 0 = .ok p ∧ p.found = false ∧
      p.steps < t.size ∧
      linear_hash_table_insert_fuel h1 junk (fuel + 1) t k = .ok (place p k, true) := by
  obtain ⟨p, hp, _, _, hpz, _, hfound, hnot⟩ :=
    lin_insert_loop_spec k (h1 k) (t.size + 1) t 0 (by omega) (by omega)
      (by intro s hs; omega)
  have hp' : insert_loop k (t.size + 1) t (h1 k % t.size) 0 = .ok p := by simpa using hp
  have hf : p.found = false := by
    cases h : p.found with
    | false => rfl
    | true => exact absurd ((lin_holds_iff_foundAt hI k).mpr (hfound.mp h)) hk
  obtain ⟨_, hle, hrun, _⟩ := hnot hf
  have hlt : p.steps < t.size := by
    by_contra hge
    have heq : p.steps = t.size := by omega
    have hall : ∀ i, i < t.inuse.length → t.inuse.getD i false = true := by
      intro i hi
      rw [hI.inuse_len] at hi
      obtain ⟨j, hj, hji⟩ := aux_offset_exists (h1 k) i t.size hi
      have := hrun j (by rw [heq]; exact hj)
      rw [hji] at this
      exact this
    have hcount := aux_count_all_true t.inuse hall
    rw [hI.inuse_len] at hcount
    unfold used at hu
    omega
  refine ⟨p, hp', hf, hlt, ?_⟩
  rw [lin_insert_fuel_eq h1 junk fuel t k p hp', if_neg (by rw [hf]; simp),
    if_neg (by rw [hpz]; omega)]

end Linear

/-- C34. LinearTable doubles at most once per insert.  On a reachable table of
size `n`, let `p` be the state in which the probing loop of
`linear_hash_table_insert` stops.  When the loop found the key, or a free
slot in fewer than `n` steps, the call returns without calling
`double_table`.  Otherwise it calls `double_table` once: either the size
assertion fails, or every `reinsert_key` finds a free slot (`double_table`
returns, no probing loop runs out of its budget) and the table has size
`2 * n`; the retried insert then stops probing at a free slot after fewer
than `2 * n` steps and returns true, storing the key there without a second
doubling. -/
theorem linear_double_once (h1 : Key → Nat) (junk : Nat → Key)
    (t : Linear.LinearHashTable) (k : Key) (hr : Linear.Reachable h1 junk t) :
    ∃ p, Linear.insert_loop k (t.size + 1) t (h1 k % t.size) 0 = .ok p ∧
      (p.found = true → Linear.linear_hash_table_insert h1 junk t k = .ok (p.table, false)) ∧
      (p.found = false → p.steps < t.size →
        Linear.linear_hash_table_insert h1 junk t k = .ok (Linear.place p k, true)) ∧
      (p.found = false → ¬ p.steps < t.size →
        (Linear.double_table h1 junk
            { p.table with stats := { p.table.stats with is_recorded_collisions := 1 } }
            = .error .assertion ∧
          Linear.linear_hash_table_insert h1 junk t k = .error .assertion) ∨
        ∃ t2 p2, Linear.double_table h1 junk
            { p.table with stats := { p.table.stats with is_recorded_collisions := 1 } }
            = .ok t2 ∧
          t2.size = 2 * t.size ∧
          Linear.insert_loop k (t2.size + 1) t2 (h1 k % t2.size) 0 = .ok p2 ∧
          p2.found = false ∧ p2.steps < 2 * t.size ∧
          Linear.linear_hash_table_insert h1 junk t k = .ok (Linear.place p2 k, true)) := by
  have hI := Linear.lin_reachable_inv hr
  obtain ⟨p, hp, hps, hpu, hpz, _, hfound, hnot⟩ :=
    Linear.lin_insert_loop_spec k (h1 k) (t.size + 1) t 0 (by omega) (by omega)
      (by intro s hs; omega)
  have hp' : Linear.insert_loop k (t.size + 1) t (h1 k % t.size) 0 = .ok p := by simpa using hp
  have heq := Linear.lin_insert_fuel_eq h1 junk 27 t k p hp'
  have heq' : Linear.linear_hash_table_insert h1 junk t k = _ := heq
  refine ⟨p, hp', ?_, ?_, ?_⟩
  · intro hf
    rw [heq', if_pos hf]
  · intro hf hlt
    rw [heq', if_neg (by rw [hf]; simp), if_neg (by rw [hpz]; omega)]
  · intro hf hge
    obtain ⟨_, hle, hrun, _⟩ := hnot hf
    have hfull : p.steps = p.table.size := by rw [hpz]; omega
    rw [if_neg (by rw [hf]; simp), if_pos hfull] at heq'
    have hnk : ¬ Linear.holds t k := fun hk =>
      absurd (hfound.mpr ((Linear.lin_holds_iff_foundAt hI k).mp hk)) (by rw [hf]; simp)
    have hIT : Linear.Inv h1
        { p.table with stats := { p.table.stats with is_recorded_collisions := 1 } } := by
      refine ⟨by show 0 < p.table.size; rw [hpz]; exact hI.size_pos,
        by show p.table.slots.length = p.table.size; rw [hps, hpz]; exact hI.slots_len,
        by show p.table.inuse.length = p.table.size; rw [hpu, hpz]; exact hI.inuse_len, ?_⟩
      intro i hi hiu j hj hji j' hj'
      have hi' : i < t.size := by rw [← hpz]; exact hi
      have hiu' : t.inuse.getD i false = true := by rw [← hpu]; exact hiu
      have hj2 : j < t.size := by rw [← hpz]; exact hj
      have hji' : (h1 (t.slots.getD i 0) + j) % t.size = i := by
        rw [← hps, ← hpz]; exact hji
      have := hI.nogap i hi' hiu' j hj2 hji' j' hj'
      show p.table.inuse.getD ((h1 (p.table.slots.getD i 0) + j') % p.table.size) false = true
      rw [hps, hpu, hpz]; exact this
    rcases Linear.lin_double_table_total h1 junk
        { p.table with stats := { p.table.stats with is_recorded_collisions := 1 } }
        hIT.size_pos with ⟨t2, hd, hz2, _, hu2, _⟩ | hd
    · right
      obtain ⟨hI2, hh2, _⟩ := Linear.lin_double_table_spec hIT hd
      have hz2' : t2.size = 2 * t.size := by
        rw [hz2]; show p.table.size * 2 = 2 * t.size; rw [hpz]; omega
      have hu2' : Linear.used t2 ≤ t.size := by
        have : Linear.used t2 ≤ p.table.size := hu2
        rw [hpz] at this; exact this
      have hnk2 : ¬ Linear.holds t2 k := by
        rw [hh2]
        rintro ⟨i, hi, hiu, hk⟩
        exact hnk ⟨i, by rw [← hpz]; exact hi, by rw [← hpu]; exact hiu,
          by rw [← hps]; exact hk⟩
      have hpos := hI.size_pos
      obtain ⟨p2, hp2, hf2, hlt2, hins2⟩ := Linear.lin_insert_free_slot junk 26 hI2
        (by omega) hnk2
      refine ⟨t2, p2, hd, hz2', hp2, hf2, by omega, ?_⟩
      rw [heq', hd]
      exact hins2
    · left
      refine ⟨hd, ?_⟩
      rw [heq', hd]

/-! ### The buckets passed to `split_bucket` -/

namespace Xuckoo

/-- The traced splitting loop returns what the splitting loop returns. -/
theorem xu_split_trace_fst (h1 h2 : Key → Nat) (junk : Nat → Key) :
    ∀ fuel (s : Cursor), (split_trace h1 h2 junk fuel s).1 = split_loop h1 h2 junk fuel s := by
  intro fuel
  induction fuel with
  | zero => intro s; rfl
  | succ fuel ih =>
    intro s
    unfold split_trace split_loop
    by_cases hc : ((s.table.inner s.innertable).bucket s.address).full = true
    · rw [if_pos hc, if_pos hc]
      by_cases hsz : s.table.table1.size ≤ s.table.table2.size
      · rw [if_pos hsz, if_pos hsz]
        simp only
        cases hsp : split_bucket h1 h2 junk s.table.table1
            (rightmostnbits s.table.table1.depth (h1 s.key)) 1 with
        | error e => rfl
        | ok T' => simp only; exact ih _
      · rw [if_neg hsz, if_neg hsz]
        simp only
        cases hsp : split_bucket h1 h2 junk s.table.table2
            (rightmostnbits s.table.table2.depth (h2 s.key)) 2 with
        | error e => rfl
        | ok T' => simp only; exact ih _
    · rw [if_neg hc, if_neg hc]

/-- Every call of `split_bucket` made by the splitting loop is on a full
bucket: the target buckets of the held key in both directories are full. -/
theorem xu_split_trace_full {h1 h2 : Key → Nat} {junk : Nat → Key} :
    ∀ fuel (s : Cursor), XInv h1 h2 s → OtherFull h1 h2 s →
      ∀ c, c ∈ (split_trace h1 h2 junk fuel s).2 →
        c.2 < c.1.size ∧ (c.1.bucket c.2).full = true := by
  intro fuel
  induction fuel with
  | zero => intro s _ _ c hc; simp [split_trace] at hc
  | succ fuel ih =>
    intro s hX hof c hcm
    unfold split_trace at hcm
    by_cases hc : ((s.table.inner s.innertable).bucket s.address).full = true
    · rw [if_pos hc] at hcm
      have hcur : TargetFull h1 h2 s.table s.innertable s.key := by
        unfold TargetFull; rw [← hX.addr]; exact hc
      have hT1 : TargetFull h1 h2 s.table 1 s.key := by
        rcases hX.tbl with h | h
        · rw [h] at hcur; exact hcur
        · unfold OtherFull at hof; rw [h] at hof; exact hof
      have hT2 : TargetFull h1 h2 s.table 2 s.key := by
        rcases hX.tbl with h | h
        · unfold OtherFull at hof; rw [h] at hof; exact hof
        · rw [h] at hcur; exact hcur
      have hf1 : (s.table.table1.bucket
          (rightmostnbits s.table.table1.depth (h1 s.key))).full = true := hT1
      have hf2 : (s.table.table2.bucket
          (rightmostnbits s.table.table2.depth (h2 s.key))).full = true := hT2
      have hl1 : rightmostnbits s.table.table1.depth (h1 s.key) < s.table.table1.size := by
        rw [aux_rightmostnbits]; exact target_lt (hX.inv.dir 1) _
      have hl2 : rightmostnbits s.table.table2.depth (h2 s.key) < s.table.table2.size := by
        rw [aux_rightmostnbits]; exact target_lt (hX.inv.dir 2) _
      by_cases hsz : s.table.table1.size ≤ s.table.table2.size
      · rw [if_pos hsz] at hcm
        simp only at hcm
        cases hsp : split_bucket h1 h2 junk s.table.table1
            (rightmostnbits s.table.table1.depth (h1 s.key)) 1 with
        | error e =>
          rw [hsp] at hcm
          simp only [List.mem_singleton] at hcm
          rw [hcm]
          exact ⟨hl1, hf1⟩
        | ok T' =>
          rw [hsp] at hcm
          simp only [List.mem_cons] at hcm
          rcases hcm with hcm | hcm
          · rw [hcm]
            exact ⟨hl1, hf1⟩
          · obtain ⟨hI', hh', htf'⟩ := split_table hX.inv { s.table with table1 := T' } 1 2
              (Or.inl ⟨rfl, rfl⟩) s.key T' hT1 hsp rfl rfl
            exact ih
              { s with table := { s.table with table1 := T' }, innertable := 1,
                       address := rightmostnbits T'.depth (h1 s.key), insert_table := 1 }
              ⟨hI', Or.inl rfl, Or.inl rfl, rfl, fun h => hX.fresh ((hh' _).mp h)⟩
              (htf' hT2) c hcm
      · rw [if_neg hsz] at hcm
        simp only at hcm
        cases hsp : split_bucket h1 h2 junk s.table.table2
            (rightmostnbits s.table.table2.depth (h2 s.key)) 2 with
        | error e =>
          rw [hsp] at hcm
          simp only [List.mem_singleton] at hcm
          rw [hcm]
          exact ⟨hl2, hf2⟩
        | ok T' =>
          rw [hsp] at hcm
          simp only [List.mem_cons] at hcm
          rcases hcm with hcm | hcm
          · rw [hcm]
            exact ⟨hl2, hf2⟩
          · obtain ⟨hI', hh', htf'⟩ := split_table hX.inv { s.table with table2 := T' } 2 1
              (Or.inr ⟨rfl, rfl⟩) s.key T' hT2 hsp rfl rfl
            exact ih
              { s with table := { s.table with table2 := T' }, innertable := 2,
                       address := rightmostnbits T'.depth (h2 s.key), insert_table := 2 }
              ⟨hI', Or.inr rfl, Or.inr rfl, rfl, fun h => hX.fresh ((hh' _).mp h)⟩
              (htf' hT1) c hcm
    · rw [if_neg hc] at hcm
      simp at hcm

end Xuckoo

/-- C31. Splits only hit full buckets: let `k` be a key that lookup does not
find in a reachable table (for any other key the insert returns at a
duplicate check and splits nothing), and let the eviction loop of
`xuckoo_hash_table_insert` stop after `2 * size1` kicks in state `s`.  The
splitting loop started in `s` returns or trips the size assertion, the traced
loop returns the same, and every pair of a directory and an address that the
loop passes to `split_bucket` is, at the moment of the call, a valid address
of a full bucket; so the key that `split_bucket` removes and reinserts is a
key stored in that directory. -/
theorem xuckoo_split_full (h1 h2 : Key → Nat) (junk : Nat → Key)
    (t : Xuckoo.XuckooHashTable) (k : Key) (s : Xuckoo.Cursor)
    (hr : Xuckoo.Reachable h1 h2 junk t)
    (hk : Xuckoo.xuckoo_hash_table_lookup h1 h2 t k = false)
    (hs : Xuckoo.kick_loop h1 h2 (2 * t.table1.size + 1) (Xuckoo.chain_start h1 t k) = .ok s)
    (hcyc : s.total_kicked_keys = 2 * s.table.table1.size) :
    Xuckoo.find_slot h1 h2 junk t k = Xuckoo.split_loop h1 h2 junk Xuckoo.SPLIT_FUEL s ∧
    ((∃ s', Xuckoo.split_loop h1 h2 junk Xuckoo.SPLIT_FUEL s = .ok s') ∨
      Xuckoo.split_loop h1 h2 junk Xuckoo.SPLIT_FUEL s = .error .assertion) ∧
    (Xuckoo.split_trace h1 h2 junk Xuckoo.SPLIT_FUEL s).1 =
      Xuckoo.split_loop h1 h2 junk Xuckoo.SPLIT_FUEL s ∧
    ∀ c, c ∈ (Xuckoo.split_trace h1 h2 junk Xuckoo.SPLIT_FUEL s).2 →
      c.2 < c.1.size ∧ (c.1.bucket c.2).full = true ∧
      Xuckoo.stored c.1 (c.1.bucket c.2).key := by
  have hI := Xuckoo.xu_reachable_inv hr
  have hB := Xuckoo.xu_reachable_bounded hr
  have hnk : ¬ Xuckoo.holds t k := (Xuckoo.xu_lookup_false_iff hI k).mp hk
  have hfs := Xuckoo.xu_find_slot_eq h1 h2 junk t k s hs
  rw [if_pos hcyc] at hfs
  obtain ⟨hX1, hof1, _, _⟩ := Xuckoo.xu_kick_loop_spec _ _ _
    (⟨hI, Or.inl rfl, by simp only [Xuckoo.chain_start]; split <;> simp, rfl, hnk⟩ :
      Xuckoo.XInv h1 h2 (Xuckoo.chain_start h1 t k))
    (by intro h; simp [Xuckoo.chain_start] at h)
    (by intro h; simp [Xuckoo.chain_start] at h) hs
  obtain ⟨hDs, hszs⟩ := Xuckoo.xu_chain_dir hI hnk hs
  have hBs : ∀ q, (s.table.inner q).size < MAX_TABLE_SIZE := fun q => by
    rw [hszs q]; exact hB q
  have hpos := Xuckoo.dir_pos (hX1.inv.dir 1)
  rw [Xuckoo.xu_inner_one] at hpos
  refine ⟨hfs, ?_, Xuckoo.xu_split_trace_fst h1 h2 junk _ s, ?_⟩
  · rcases Xuckoo.xu_split_loop_total h1 h2 junk Xuckoo.SPLIT_FUEL s hDs hBs
      (by unfold Xuckoo.SPLIT_FUEL; omega) with ⟨s', hsl, _⟩ | herr
    · exact Or.inl ⟨s', hsl⟩
    · exact Or.inr herr
  · intro c hc
    obtain ⟨hlt, hfull⟩ := Xuckoo.xu_split_trace_full _ s hX1 (hof1 (by omega)) c hc
    exact ⟨hlt, hfull, ⟨c.2, hlt, hfull, rfl⟩⟩

/-! ### Worked examples for the last claims -/

/-- Witness for C31: the insert of 3 into the table that holds 0 and 1
(`h1 k = k`, `h2 k = k / 4`) makes two kicks and then splits; every bucket it
splits is full. -/
theorem xuckoo_split_full_witness :
    (Xuckoo.Reachable (fun k => k) (fun k => k / 4) (fun _ => 0) Xuckoo.demo_two ∧
      Xuckoo.xuckoo_hash_table_lookup (fun k => k) (fun k => k / 4) Xuckoo.demo_two 3 = false ∧
      Xuckoo.kick_loop (fun k => k) (fun k => k / 4) (2 * Xuckoo.demo_two.table1.size + 1)
        (Xuckoo.chain_start (fun k => k) Xuckoo.demo_two 3) = .ok Xuckoo.demo_chain_end ∧
      Xuckoo.demo_chain_end.total_kicked_keys = 2 * Xuckoo.demo_chain_end.table.table1.size) ∧
    ∀ c, c ∈ (Xuckoo.split_trace (fun k => k) (fun k => k / 4) (fun _ => 0) Xuckoo.SPLIT_FUEL
        Xuckoo.demo_chain_end).2 →
      c.2 < c.1.size ∧ (c.1.bucket c.2).full = true ∧
      Xuckoo.stored c.1 (c.1.bucket c.2).key :=
  ⟨⟨Xuckoo.Reachable.step Xuckoo.demo_one Xuckoo.demo_two 1 true
      (Xuckoo.Reachable.step _ Xuckoo.demo_one 0 true Xuckoo.Reachable.init (by rfl))
      (by rfl), by rfl, by rfl, by rfl⟩,
    (xuckoo_split_full (fun k => k) (fun k => k / 4) (fun _ => 0) Xuckoo.demo_two 3
      Xuckoo.demo_chain_end
      (Xuckoo.Reachable.step Xuckoo.demo_one Xuckoo.demo_two 1 true
        (Xuckoo.Reachable.step _ Xuckoo.demo_one 0 true Xuckoo.Reachable.init (by rfl))
        (by rfl)) (by rfl) (by rfl) (by rfl)).2.2.2⟩

/-- Witness for C32: the table of size 2 that holds keys 1 and 2 (both hash
functions `2 * k`) satisfies the address invariant. -/
theorem cuckoo_address_invariant_witness :
    Cuckoo.Reachable (fun k => 2 * k) (fun k => 2 * k) (fun _ => 0) Cuckoo.demo_cycle ∧
    (Cuckoo.Shape Cuckoo.demo_cycle ∧
      Cuckoo.AddressInv (fun k => 2 * k) (fun k => 2 * k) Cuckoo.demo_cycle) :=
  ⟨Cuckoo.Reachable.step Cuckoo.demo_cycle_one Cuckoo.demo_cycle 2 true
      (Cuckoo.Reachable.step Cuckoo.demo_cycle_empty Cuckoo.demo_cycle_one 1 true
        (Cuckoo.Reachable.init 2 Cuckoo.demo_cycle_empty (by decide) (by rfl)) (by rfl))
      (by rfl),
    (cuckoo_address_invariant (fun k => 2 * k) (fun k => 2 * k) (fun _ => 0) Cuckoo.demo_cycle
      (Cuckoo.Reachable.step Cuckoo.demo_cycle_one Cuckoo.demo_cycle 2 true
        (Cuckoo.Reachable.step Cuckoo.demo_cycle_empty Cuckoo.demo_cycle_one 1 true
          (Cuckoo.Reachable.init 2 Cuckoo.demo_cycle_empty (by decide) (by rfl)) (by rfl))
        (by rfl))).1⟩

/-- Witness for C33: the insert of key 3 into the table of size 2 that holds
1 and 2 (both hash functions `2 * k`) doubles the table after a cycle; the
checked run returns the same table of size 4. -/
theorem cuckoo_insert_terminates_witness :
    Cuckoo.Reachable (fun k => 2 * k) (fun k => 2 * k) (fun _ => 0) Cuckoo.demo_cycle ∧
    Cuckoo.cuckoo_hash_table_insert (fun k => 2 * k) (fun k => 2 * k) (fun _ => 0)
      Cuckoo.demo_cycle 3 = .ok (Cuckoo.demo_cycle_three, true) ∧
    Cuckoo.insert_checked (fun k => 2 * k) (fun k => 2 * k) (fun _ => 0) INSERT_DEPTH
      Cuckoo.demo_cycle 3 =
      Cuckoo.cuckoo_hash_table_insert (fun k => 2 * k) (fun k => 2 * k) (fun _ => 0)
        Cuckoo.demo_cycle 3 :=
  ⟨Cuckoo.Reachable.step Cuckoo.demo_cycle_one Cuckoo.demo_cycle 2 true
      (Cuckoo.Reachable.step Cuckoo.demo_cycle_empty Cuckoo.demo_cycle_one 1 true
        (Cuckoo.Reachable.init 2 Cuckoo.demo_cycle_empty (by decide) (by rfl)) (by rfl))
      (by rfl),
    by rfl,
    (cuckoo_insert_terminates (fun k => 2 * k) (fun k => 2 * k) (fun _ => 0) Cuckoo.demo_cycle 3
      (Cuckoo.Reachable.step Cuckoo.demo_cycle_one Cuckoo.demo_cycle 2 true
        (Cuckoo.Reachable.step Cuckoo.demo_cycle_empty Cuckoo.demo_cycle_one 1 true
          (Cuckoo.Reachable.init 2 Cuckoo.demo_cycle_empty (by decide) (by rfl)) (by rfl))
        (by rfl))).2.2.2⟩

/-- Witness for C34: the insert of 3 into the full table of size 1 that holds
1 (`h1 k = k`) doubles once and returns the table `demo_two` of size 2. -/
theorem linear_double_once_witness :
    (Linear.Reachable (fun k => k) (fun _ => 0) Linear.demo_one ∧
      Linear.linear_hash_table_insert (fun k => k) (fun _ => 0) Linear.demo_one 3
        = .ok (Linear.demo_two, true)) ∧
    ∃ p, Linear.insert_loop 3 (Linear.demo_one.size + 1) Linear.demo_one
        ((fun k => k) 3 % Linear.demo_one.size) 0 = .ok p ∧
      (p.found = true → Linear.linear_hash_table_insert (fun k => k) (fun _ => 0)
        Linear.demo_one 3 = .ok (p.table, false)) ∧
      (p.found = false → p.steps < Linear.demo_one.size →
        Linear.linear_hash_table_insert (fun k => k) (fun _ => 0) Linear.demo_one 3
          = .ok (Linear.place p 3, true)) ∧
      (p.found = false → ¬ p.steps < Linear.demo_one.size →
        (Linear.double_table (fun k => k) (fun _ => 0)
            { p.table with stats := { p.table.stats with is_recorded_collisions := 1 } }
            = .error .assertion ∧
          Linear.linear_hash_table_insert (fun k => k) (fun _ => 0) Linear.demo_one 3
            = .error .assertion) ∨
        ∃ t2 p2, Linear.double_table (fun k => k) (fun _ => 0)
            { p.table with stats := { p.table.stats with is_recorded_collisions := 1 } }
            = .ok t2 ∧
          t2.size = 2 * Linear.demo_one.size ∧
          Linear.insert_loop 3 (t2.size + 1) t2 ((fun k => k) 3 % t2.size) 0 = .ok p2 ∧
          p2.found = false ∧ p2.steps < 2 * Linear.demo_one.size ∧
          Linear.linear_hash_table_insert (fun k => k) (fun _ => 0) Linear.demo_one 3
            = .ok (Linear.place p2 3, true)) :=
  ⟨⟨Linear.Reachable.step Linear.demo_empty Linear.demo_one 1 true
      (Linear.Reachable.init 1 Linear.demo_empty (by decide) (by rfl)) (by rfl), by rfl⟩,
    linear_double_once (fun k => k) (fun _ => 0) Linear.demo_one 3
      (Linear.Reachable.step Linear.demo_empty Linear.demo_one 1 true
        (Linear.Reachable.init 1 Linear.demo_empty (by decide) (by rfl)) (by rfl))⟩

/-- Witness for C35: in the table after the inserts of 1 and 3 (`h1 k = k`,
`h2 k = k / 2`) each array has one in-use slot, the counters are 1 and 1 and
the load is 2. -/
theorem cuckoo_table_counters_witness :
    Cuckoo.Reachable (fun k => k) (fun k => k / 2) (fun _ => 0) Cuckoo.demo_two ∧
    (Cuckoo.demo_two.stats.load_table1 = Cuckoo.demo_two.table1.inuse.count true ∧
      Cuckoo.demo_two.stats.load_table2 = Cuckoo.demo_two.table2.inuse.count true ∧
      Cuckoo.demo_two.load
        = Cuckoo.demo_two.stats.load_table1 + Cuckoo.demo_two.stats.load_table2) :=
  ⟨Cuckoo.Reachable.step Cuckoo.demo_one Cuckoo.demo_two 3 true
      (Cuckoo.Reachable.step Cuckoo.demo_empty Cuckoo.demo_one 1 true
        (Cuckoo.Reachable.init 1 Cuckoo.demo_empty (by decide) (by rfl)) (by rfl))
      (by rfl),
    (cuckoo_table_counters (fun k => k) (fun k => k / 2) (fun _ => 0) Cuckoo.demo_two
      (Cuckoo.Reachable.step Cuckoo.demo_one Cuckoo.demo_two 3 true
        (Cuckoo.Reachable.step Cuckoo.demo_empty Cuckoo.demo_one 1 true
          (Cuckoo.Reachable.init 1 Cuckoo.demo_empty (by decide) (by rfl)) (by rfl))
        (by rfl))).1,
    (cuckoo_table_counters (fun k => k) (fun k => k / 2) (fun _ => 0) Cuckoo.demo_two
      (Cuckoo.Reachable.step Cuckoo.demo_one Cuckoo.demo_two 3 true
        (Cuckoo.Reachable.step Cuckoo.demo_empty Cuckoo.demo_one 1 true
          (Cuckoo.Reachable.init 1 Cuckoo.demo_empty (by decide) (by rfl)) (by rfl))
        (by rfl))).2.1,
    (cuckoo_table_counters (fun k => k) (fun k => k / 2) (fun _ => 0) Cuckoo.demo_two
      (Cuckoo.Reachable.step Cuckoo.demo_one Cuckoo.demo_two 3 true
        (Cuckoo.Reachable.step Cuckoo.demo_empty Cuckoo.demo_one 1 true
          (Cuckoo.Reachable.init 1 Cuckoo.demo_empty (by decide) (by rfl)) (by rfl))
        (by rfl))).2.2.1⟩

/-! ### Rounding to binary64 -/

namespace CDouble

theorem fp_two_cast : ((2 : ℕ) : ℚ) = 2 := by norm_num

theorem fp_zpow_log_le {q : ℚ} (hq : 0 < q) : (2 : ℚ) ^ Int.log 2 q ≤ q := by
  have h := Int.zpow_log_le_self (R := ℚ) (b := 2) (by norm_num) hq
  rwa [fp_two_cast] at h

theorem fp_lt_zpow_log (q : ℚ) : q < (2 : ℚ) ^ (Int.log 2 q + 1) := by
  have h := Int.lt_zpow_succ_log_self (R := ℚ) (b := 2) (by norm_num) q
  rwa [fp_two_cast] at h

theorem fp_log_eq {v : ℚ} {k : ℤ} (hv : 0 < v) (h1 : (2 : ℚ) ^ k ≤ v)
    (h2 : v < (2 : ℚ) ^ (k + 1)) : Int.log 2 v = k := by
  have a := (Int.zpow_le_iff_le_log (R := ℚ) (b := 2) (by norm_num) (x := k) hv).mp
    (by rwa [fp_two_cast])
  have b := (Int.lt_zpow_iff_log_lt (R := ℚ) (b := 2) (by norm_num) (x := k + 1) hv).mp
    (by rwa [fp_two_cast])
  omega

theorem fp_log_le_of_le {v : ℚ} {k : ℤ} (hv : 0 < v) (h : v ≤ (2 : ℚ) ^ k) :
    Int.log 2 v ≤ k := by
  have a := Int.log_mono_right (R := ℚ) (b := 2) hv h
  have b := Int.log_zpow (R := ℚ) (b := 2) (by norm_num) k
  rw [fp_two_cast] at b
  rw [b] at a
  exact a

theorem fp_zpow_split (a b : ℤ) : (2 : ℚ) ^ (a + b) = 2 ^ a * 2 ^ b :=
  zpow_add₀ (by norm_num) a b

theorem fp_zpow_mono {a b : ℤ} (h : a ≤ b) : (2 : ℚ) ^ a ≤ 2 ^ b :=
  zpow_le_zpow_right₀ (by norm_num) h

theorem fp_zpow_pos (a : ℤ) : (0 : ℚ) < 2 ^ a := zpow_pos (by norm_num) a

/-- An integer is rounded to itself. -/
theorem fp_rne_int (z : ℤ) : rne (z : ℚ) = z := by
  unfold rne
  simp

/-- The rounded integer is the floor or its successor. -/
theorem fp_rne_cases (m : ℚ) :
    (rne m = ⌊m⌋ ∧ 2 * (m - ⌊m⌋) ≤ 1) ∨ (rne m = ⌊m⌋ + 1 ∧ 1 ≤ 2 * (m - ⌊m⌋)) := by
  unfold rne
  by_cases h1 : 2 * (m - ⌊m⌋) < 1
  · rw [if_pos h1]; exact Or.inl ⟨rfl, le_of_lt h1⟩
  · rw [if_neg h1]
    by_cases h2 : 1 < 2 * (m - ⌊m⌋)
    · rw [if_pos h2]; exact Or.inr ⟨rfl, le_of_lt h2⟩
    · rw [if_neg h2]
      have heq : 2 * (m - ⌊m⌋) = 1 := le_antisymm (not_lt.mp h2) (not_lt.mp h1)
      by_cases h3 : ⌊m⌋ % 2 = 0
      · rw [if_pos h3]; exact Or.inl ⟨rfl, le_of_eq heq⟩
      · rw [if_neg h3]; exact Or.inr ⟨rfl, le_of_eq heq.symm⟩

/-- Rounding moves a number by at most one half. -/
theorem fp_rne_near (m : ℚ) : |(rne m : ℚ) - m| ≤ 1 / 2 := by
  have hf := Int.floor_le m
  have hl := Int.lt_floor_add_one m
  rw [abs_le]
  rcases fp_rne_cases m with ⟨h, hb⟩ | ⟨h, hb⟩
  · rw [h]; constructor <;> linarith
  · rw [h]; push_cast; constructor <;> linarith

theorem fp_rne_le {m : ℚ} {N : ℤ} (h : m ≤ N) : rne m ≤ N := by
  have hf := Int.floor_le m
  rcases fp_rne_cases m with ⟨h1, _⟩ | ⟨h1, hb⟩
  · rw [h1]; exact_mod_cast le_trans hf h
  · rw [h1]
    have hlt : (⌊m⌋ : ℚ) < N := by linarith
    have : ⌊m⌋ < N := by exact_mod_cast hlt
    omega

theorem fp_le_rne {m : ℚ} {N : ℤ} (h : (N : ℚ) ≤ m) : N ≤ rne m := by
  have hN : N ≤ ⌊m⌋ := Int.le_floor.mpr h
  rcases fp_rne_cases m with ⟨h1, _⟩ | ⟨h1, _⟩ <;> rw [h1] <;> omega

theorem fp_ulp_pos (q : ℚ) : 0 < ulp q := fp_zpow_pos _

/-- The exponent used for the spacing is at least `-1022`. -/
theorem fp_ulp_eq (q : ℚ) : ∃ e : ℤ, -1022 ≤ e ∧ Int.log 2 q ≤ e ∧
    (e = Int.log 2 q ∨ e = -1022) ∧ ulp q = 2 ^ (e - 52) := by
  refine ⟨max (Int.log 2 q) (-1022), le_max_right _ _, le_max_left _ _, ?_, rfl⟩
  rcases le_total (Int.log 2 q) (-1022) with h | h
  · right; exact max_eq_right h
  · left; exact max_eq_left h

/-- A positive rational is less than `2 ^ 53` spacings. -/
theorem fp_div_ulp_lt {q : ℚ} : q / ulp q < ((2 ^ 53 : ℤ) : ℚ) := by
  obtain ⟨e, _, hle, _, hu⟩ := fp_ulp_eq q
  rw [div_lt_iff₀ (fp_ulp_pos q), hu]
  have h1 := fp_lt_zpow_log q
  have h2 : (2 : ℚ) ^ (Int.log 2 q + 1) ≤ 2 ^ (e + 1) := fp_zpow_mono (by omega)
  have h3 : (2 : ℚ) ^ (e + 1) = ((2 ^ 53 : ℤ) : ℚ) * 2 ^ (e - 52) := by
    have : e + 1 = 53 + (e - 52) := by omega
    rw [this, fp_zpow_split]
    norm_num
  linarith

end CDouble

namespace CDouble

theorem fp_round_pos {q : ℚ} (hq : 0 < q) :
    round q = if (rne (q / ulp q) : ℚ) * ulp q < 2 ^ 1024 then
      .finite ((rne (q / ulp q) : ℚ) * ulp q) else .infinite := by
  unfold round
  rw [if_neg (ne_of_gt hq)]

theorem fp_rne_div_nonneg {q : ℚ} (hq : 0 < q) : 0 ≤ rne (q / ulp q) :=
  fp_le_rne (by
    have := div_pos hq (fp_ulp_pos q)
    simpa using le_of_lt this)

theorem fp_rne_div_le {q : ℚ} : rne (q / ulp q) ≤ 2 ^ 53 :=
  fp_rne_le (le_of_lt fp_div_ulp_lt)

/-- The rounded value is at most `2 ^ (e + 1)` for the exponent `e` of the
spacing. -/
theorem fp_value_le {q : ℚ} {e : ℤ} (hu : ulp q = 2 ^ (e - 52)) :
    (rne (q / ulp q) : ℚ) * ulp q ≤ 2 ^ (e + 1) := by
  have h1 : (rne (q / ulp q) : ℚ) ≤ ((2 ^ 53 : ℤ) : ℚ) := by exact_mod_cast fp_rne_div_le
  have h3 : (2 : ℚ) ^ (e + 1) = ((2 ^ 53 : ℤ) : ℚ) * 2 ^ (e - 52) := by
    have : e + 1 = 53 + (e - 52) := by omega
    rw [this, fp_zpow_split]
    norm_num
  rw [h3, ← hu]
  exact mul_le_mul_of_nonneg_right h1 (le_of_lt (fp_ulp_pos q))

/-- Below `2 ^ 1023` rounding gives a finite double, at most half a spacing
away. -/
theorem fp_round_finite {q : ℚ} (hq : 0 < q) (hlt : q < 2 ^ 1023) :
    ∃ v, round q = .finite v ∧ |v - q| ≤ ulp q / 2 := by
  obtain ⟨e, _, _, hcase, hu⟩ := fp_ulp_eq q
  have hL : Int.log 2 q < 1023 :=
    (Int.lt_zpow_iff_log_lt (R := ℚ) (b := 2) (by norm_num) (x := 1023) hq).mp
      (by rw [fp_two_cast, show (1023 : ℤ) = ((1023 : ℕ) : ℤ) from rfl, zpow_natCast]; exact hlt)
  have he : e + 1 ≤ 1023 := by rcases hcase with h | h <;> omega
  have hv := fp_value_le hu
  have hv2 : (2 : ℚ) ^ (e + 1) ≤ 2 ^ (1023 : ℤ) := fp_zpow_mono he
  have hv3 : (2 : ℚ) ^ (1023 : ℤ) < 2 ^ 1024 := by
    rw [← zpow_natCast]
    exact zpow_lt_zpow_right₀ (by norm_num) (by norm_num)
  refine ⟨(rne (q / ulp q) : ℚ) * ulp q, ?_, ?_⟩
  · rw [fp_round_pos hq, if_pos (by linarith)]
  · have hn := fp_rne_near (q / ulp q)
    have hup := fp_ulp_pos q
    have : (rne (q / ulp q) : ℚ) * ulp q - q = ((rne (q / ulp q) : ℚ) - q / ulp q) * ulp q := by
      field_simp
    rw [this, abs_mul, abs_of_pos hup]
    calc |(rne (q / ulp q) : ℚ) - q / ulp q| * ulp q ≤ 1 / 2 * ulp q :=
          mul_le_mul_of_nonneg_right hn (le_of_lt hup)
      _ = ulp q / 2 := by ring

/-- In the normal range the spacing is at most `q / 2 ^ 52`. -/
theorem fp_ulp_le {q : ℚ} (hq : 0 < q) (hn : (2 : ℚ) ^ (-1022 : ℤ) ≤ q) :
    ulp q ≤ q / 2 ^ 52 := by
  have hL : (-1022 : ℤ) ≤ Int.log 2 q :=
    (Int.zpow_le_iff_le_log (R := ℚ) (b := 2) (by norm_num) (x := -1022) hq).mp
      (by rw [fp_two_cast]; exact hn)
  unfold ulp
  rw [max_eq_left hL]
  have h1 := fp_zpow_log_le hq
  have h2 : (2 : ℚ) ^ (Int.log 2 q - 52) = 2 ^ Int.log 2 q / 2 ^ 52 := by
    have : Int.log 2 q - 52 = Int.log 2 q + (-52) := by omega
    rw [this, fp_zpow_split, zpow_neg, div_eq_mul_inv,
      show (52 : ℤ) = ((52 : ℕ) : ℤ) from rfl, zpow_natCast]
  rw [h2]
  exact div_le_div_of_nonneg_right h1 (by norm_num)

/-- A multiple `z * 2 ^ (e - 52)` of a spacing, with `0 < z ≤ 2 ^ 53` and
`-1022 ≤ e`, is a double: rounding leaves it as it is (below `2 ^ 1024`). -/
theorem fp_round_multiple (z e : ℤ) (hz : 0 < z) (hz2 : z ≤ 2 ^ 53) (he : -1022 ≤ e)
    (hnorm : e = -1022 ∨ 2 ^ 52 ≤ z)
    (hfin : (z : ℚ) * 2 ^ (e - 52) < 2 ^ 1024) :
    round ((z : ℚ) * 2 ^ (e - 52)) = .finite ((z : ℚ) * 2 ^ (e - 52)) := by
  have hup : (0 : ℚ) < 2 ^ (e - 52) := fp_zpow_pos _
  have hzq : (0 : ℚ) < z := by exact_mod_cast hz
  have hv : (0 : ℚ) < (z : ℚ) * 2 ^ (e - 52) := mul_pos hzq hup
  have h53 : (2 : ℚ) ^ (e + 1) = ((2 ^ 53 : ℤ) : ℚ) * 2 ^ (e - 52) := by
    have : e + 1 = 53 + (e - 52) := by omega
    rw [this, fp_zpow_split]
    norm_num
  have h52 : (2 : ℚ) ^ e = ((2 ^ 52 : ℤ) : ℚ) * 2 ^ (e - 52) := by
    have : e = 52 + (e - 52) := by omega
    nth_rewrite 1 [this]
    rw [fp_zpow_split]
    norm_num
  -- the value divided by its spacing is an integer
  have key : ∃ w : ℤ, (z : ℚ) * 2 ^ (e - 52) / ulp ((z : ℚ) * 2 ^ (e - 52)) = (w : ℚ) ∧
      (w : ℚ) * ulp ((z : ℚ) * 2 ^ (e - 52)) = (z : ℚ) * 2 ^ (e - 52) := by
    by_cases htop : z = 2 ^ 53
    · -- the value is the power `2 ^ (e + 1)`
      have hval : (z : ℚ) * 2 ^ (e - 52) = 2 ^ (e + 1) := by rw [h53, htop]
      have hlog : Int.log 2 ((z : ℚ) * 2 ^ (e - 52)) = e + 1 := by
        rw [hval]
        have b := Int.log_zpow (R := ℚ) (b := 2) (by norm_num) (e + 1)
        rwa [fp_two_cast] at b
      have hulp : ulp ((z : ℚ) * 2 ^ (e - 52)) = 2 ^ (e + 1 - 52) := by
        unfold ulp
        rw [hlog, max_eq_left (by omega)]
      have h2 : (2 : ℚ) ^ (e + 1) = ((2 ^ 52 : ℤ) : ℚ) * 2 ^ (e + 1 - 52) := by
        have : e + 1 = 52 + (e + 1 - 52) := by omega
        nth_rewrite 1 [this]
        rw [fp_zpow_split]
        norm_num
      refine ⟨2 ^ 52, ?_, ?_⟩
      · rw [hulp, hval, h2]
        field_simp
      · rw [hulp, hval, h2]
    · have hzlt : z < 2 ^ 53 := lt_of_le_of_ne hz2 htop
      have hlt : (z : ℚ) * 2 ^ (e - 52) < 2 ^ (e + 1) := by
        rw [h53]
        exact mul_lt_mul_of_pos_right (by exact_mod_cast hzlt) hup
      have hmax : max (Int.log 2 ((z : ℚ) * 2 ^ (e - 52))) (-1022) = e := by
        rcases hnorm with hsub | hbig
        · have hle : (z : ℚ) * 2 ^ (e - 52) ≤ 2 ^ (e + 1) := le_of_lt hlt
          have hl1 : Int.log 2 ((z : ℚ) * 2 ^ (e - 52)) < e + 1 :=
            (Int.lt_zpow_iff_log_lt (R := ℚ) (b := 2) (by norm_num) (x := e + 1) hv).mp
              (by rw [fp_two_cast]; exact hlt)
          rw [hsub] at hl1 ⊢
          exact max_eq_right (by omega)
        · have hge : (2 : ℚ) ^ e ≤ (z : ℚ) * 2 ^ (e - 52) := by
            rw [h52]
            exact mul_le_mul_of_nonneg_right (by exact_mod_cast hbig) (le_of_lt hup)
          rw [fp_log_eq hv hge hlt]
          exact max_eq_left he
      have hulp : ulp ((z : ℚ) * 2 ^ (e - 52)) = 2 ^ (e - 52) := by
        unfold ulp
        rw [hmax]
      refine ⟨z, ?_, ?_⟩
      · rw [hulp]; field_simp
      · rw [hulp]
  obtain ⟨w, hw1, hw2⟩ := key
  rw [fp_round_pos hv, hw1, fp_rne_int, hw2, if_pos hfin]

/-- What rounding returns is a double: rounding it again changes nothing. -/
theorem fp_round_idem {q v : ℚ} (hq : 0 ≤ q) (h : round q = .finite v) :
    round v = .finite v := by
  rcases eq_or_lt_of_le hq with h0 | hpos
  · rw [← h0] at h
    have : v = 0 := by
      unfold round at h
      rw [if_pos rfl] at h
      injection h with h
      exact h.symm
    rw [this]
    unfold round
    rw [if_pos rfl]
  · rw [fp_round_pos hpos] at h
    by_cases hfin : (rne (q / ulp q) : ℚ) * ulp q < 2 ^ 1024
    · rw [if_pos hfin] at h
      injection h with h
      obtain ⟨e, he, hLe, hcase, hu⟩ := fp_ulp_eq q
      have hz0 := fp_rne_div_nonneg hpos
      have hz2 := fp_rne_div_le (q := q)
      have hbig : e = Int.log 2 q → 2 ^ 52 ≤ rne (q / ulp q) := by
        intro hL
        apply fp_le_rne
        rw [le_div_iff₀ (fp_ulp_pos q), hu]
        have h1 := fp_zpow_log_le hpos
        have h52 : (2 : ℚ) ^ e = ((2 ^ 52 : ℤ) : ℚ) * 2 ^ (e - 52) := by
          have : e = 52 + (e - 52) := by omega
          nth_rewrite 1 [this]
          rw [fp_zpow_split]
          norm_num
        rw [← h52, hL]
        exact h1
      generalize rne (q / ulp q) = z at h hfin hz0 hz2 hbig
      rw [hu] at h hfin
      rcases eq_or_lt_of_le hz0 with hzz | hzpos
      · rw [← hzz] at h
        have : v = 0 := by rw [← h]; simp
        rw [this]
        unfold round
        rw [if_pos rfl]
      · rw [← h]
        refine fp_round_multiple z e hzpos hz2 he ?_ hfin
        rcases hcase with hL | hsub
        · right; exact hbig hL
        · left; exact hsub
    · rw [if_neg hfin] at h
      cases h

end CDouble

namespace CDouble

/-- The quotient `5 / 3` is rounded to the double `7505999378950827 / 2 ^ 52`
(printed by C as 1.6666666666666667). -/
theorem fp_round_five_thirds :
    round (5 / 3) = .finite (7505999378950827 / 4503599627370496) := by
  have hl : Int.log 2 (5 / 3 : ℚ) = 0 :=
    fp_log_eq (by norm_num) (by norm_num) (by norm_num)
  have hu : ulp (5 / 3) = 1 / 4503599627370496 := by
    unfold ulp
    rw [hl]
    norm_num [zpow_neg]
  have hm : (5 / 3 : ℚ) / (1 / 4503599627370496) = 22517998136852480 / 3 := by norm_num
  have hfl : ⌊(22517998136852480 / 3 : ℚ)⌋ = 7505999378950826 := by
    rw [Int.floor_eq_iff]; norm_num
  have hr : rne (22517998136852480 / 3 : ℚ) = 7505999378950827 := by
    unfold rne
    rw [hfl]
    norm_num
  have hv : ((7505999378950827 : ℤ) : ℚ) * (1 / 4503599627370496)
      = 7505999378950827 / 4503599627370496 := by norm_num
  have hlt : (7505999378950827 / 4503599627370496 : ℚ) < 2 ^ 1024 :=
    lt_of_lt_of_le (b := 2 ^ 1) (by norm_num) (pow_le_pow_right₀ (by norm_num) (by norm_num))
  rw [fp_round_pos (by norm_num), hu, hm, hr, hv, if_pos hlt]

end CDouble

/-! ### The probe counter of linear.c -/

namespace Linear

/-- The probing loop of `linear_hash_table_insert` does not touch
`total_probe`. -/
theorem lin_insert_loop_probe (key : Key) :
    ∀ fuel (table : LinearHashTable) h steps p,
      insert_loop key fuel table h steps = .ok p →
      p.table.stats.total_probe = table.stats.total_probe := by
  intro fuel
  induction fuel with
  | zero => intro table h steps p hp; simp [insert_loop] at hp
  | succ fuel ih =>
    intro table h steps p hp
    unfold insert_loop at hp
    by_cases hc : table.inuse.getD h false = true ∧ steps < table.size
    · rw [if_pos hc] at hp
      by_cases hk : table.slots.getD h 0 = key
      · rw [if_pos hk] at hp
        simp only [Except.ok.injEq] at hp
        rw [← hp]
      · rw [if_neg hk] at hp
        simp only at hp
        have := ih _ _ _ _ hp
        rw [this]
        split <;> rfl
    · rw [if_neg hc] at hp
      simp only [Except.ok.injEq] at hp
      rw [← hp]

/-- The loop of `reinsert_key` makes fewer steps than its budget allows. -/
theorem lin_reinsert_loop_steps (table : LinearHashTable) :
    ∀ fuel h steps h' s, reinsert_loop table fuel h steps = .ok (h', s) →
      s < steps + fuel := by
  intro fuel
  induction fuel with
  | zero => intro h steps h' s hr; simp [reinsert_loop] at hr
  | succ fuel ih =>
    intro h steps h' s hr
    unfold reinsert_loop at hr
    by_cases hc : table.inuse.getD h false = true
    · rw [if_pos hc] at hr
      have := ih _ _ _ _ hr
      omega
    · rw [if_neg hc] at hr
      simp only [Except.ok.injEq, Prod.mk.injEq] at hr
      omega

/-- One `reinsert_key` on a table with a free cell: one more cell in use, one
more key counted, between 1 and `size + 1` probes added. -/
theorem lin_reinsert_key_probe {h1 : Key → Nat} {t t' : LinearHashTable} (key : Key)
    (hpos : 0 < t.size) (hlen : t.inuse.length = t.size) (hcnt : used t < t.size)
    (hr : reinsert_key h1 t key = .ok t') :
    t'.size = t.size ∧ t'.inuse.length = t'.size ∧ used t' = used t + 1 ∧
    t'.load = t.load + 1 ∧
    t.stats.total_probe + 1 ≤ t'.stats.total_probe ∧
    t'.stats.total_probe ≤ t.stats.total_probe + (t.size + 1) := by
  obtain ⟨t'', hk, hs, hl, hu⟩ := lin_reinsert_key_total h1 t key hpos hlen hcnt
  rw [hr] at hk
  simp only [Except.ok.injEq] at hk
  subst hk
  refine ⟨hs, hl, hu, lin_reinsert_key_load key hr, ?_⟩
  unfold reinsert_key at hr
  cases hloop : reinsert_loop t (t.size + 1) (h1 key % t.size) 0 with
  | error e => rw [hloop] at hr; simp at hr
  | ok hs' =>
    obtain ⟨h, s⟩ := hs'
    rw [hloop] at hr
    simp only [Except.ok.injEq] at hr
    have hst := lin_reinsert_loop_steps t _ _ _ _ _ hloop
    rw [← hr]
    simp only
    omega

/-- The loop of `double_table`: the load grows with the cells in use, and
each key that is put back adds between 1 and `size + 1` probes. -/
theorem lin_rehash_loop_probe {h1 : Key → Nat} (os : List Key) (ou : List Bool) :
    ∀ (is : List Nat) (t t' : LinearHashTable), 0 < t.size → t.inuse.length = t.size →
      used t + is.length < t.size + 1 →
      rehash_loop h1 os ou is t = .ok t' →
      t'.size = t.size ∧ t'.inuse.length = t'.size ∧
      used t ≤ used t' ∧ used t' ≤ used t + is.length ∧
      t'.load + used t = t.load + used t' ∧
      t.stats.total_probe + used t' ≤ t'.stats.total_probe + used t ∧
      t'.stats.total_probe + used t * (t.size + 1)
        ≤ t.stats.total_probe + used t' * (t.size + 1) := by
  intro is
  induction is with
  | nil =>
    intro t t' _ hlen _ hr
    simp only [rehash_loop, Except.ok.injEq] at hr
    subst hr
    exact ⟨rfl, hlen, le_refl _, by simp, rfl, le_refl _, le_refl _⟩
  | cons i is ih =>
    intro t t' hpos hlen hcnt hr
    simp only [List.length_cons] at hcnt
    unfold rehash_loop at hr
    by_cases hc : ou.getD i false = true
    · rw [if_pos hc] at hr
      cases hk : reinsert_key h1 t (os.getD i 0) with
      | error e => rw [hk] at hr; simp at hr
      | ok t1 =>
        rw [hk] at hr
        simp only at hr
        obtain ⟨hs1, hl1, hu1, hd1, hp1, hq1⟩ :=
          lin_reinsert_key_probe _ hpos hlen (by omega) hk
        obtain ⟨hs2, hl2, hu2, hv2, hd2, hp2, hq2⟩ :=
          ih t1 t' (by omega) hl1 (by omega) hr
        rw [hs1] at hs2 hq2
        rw [hu1] at hu2 hv2 hd2 hp2 hq2
        refine ⟨hs2, hl2, by omega, by simp only [List.length_cons]; omega, by omega,
          by omega, ?_⟩
        have : (used t + 1) * (t.size + 1) = used t * (t.size + 1) + (t.size + 1) := by ring
        rw [this] at hq2
        omega
    · rw [if_neg hc] at hr
      obtain ⟨hs2, hl2, hu2, hv2, hd2, hp2, hq2⟩ := ih t t' hpos hlen (by omega) hr
      exact ⟨hs2, hl2, hu2, by simp only [List.length_cons]; omega, hd2, hp2, hq2⟩

/-- Function `double_table` keeps `total_probe` and adds to it the probes of
the keys it puts back; the load is again the number of cells in use. -/
theorem lin_double_table_probe {h1 : Key → Nat} {junk : Nat → Key} {t t' : LinearHashTable}
    (hpos : 0 < t.size) (hr : double_table h1 junk t = .ok t') :
    t'.size = t.size * 2 ∧ t'.inuse.length = t'.size ∧ t'.size < MAX_TABLE_SIZE ∧
    t'.load = used t' ∧ used t' ≤ t.size ∧
    t.stats.total_probe + used t' ≤ t'.stats.total_probe ∧
    t'.stats.total_probe ≤ t.stats.total_probe + used t' * (t.size * 2 + 1) := by
  unfold double_table initialise_table at hr
  by_cases hc : t.size * 2 < MAX_TABLE_SIZE
  · rw [if_pos hc] at hr
    simp only at hr
    have h0 : used { t with slots := (List.range (t.size * 2)).map junk
                            inuse := List.replicate (t.size * 2) false
                            size := t.size * 2, load := 0 } = 0 := by
      simp [used, List.count_replicate]
    obtain ⟨hs, hl, hu, hv, hd, hp, hq⟩ := lin_rehash_loop_probe _ _ _ _ _
      (by simp only; omega) (by simp) (by rw [h0]; simp only [List.length_range]; omega) hr
    rw [h0] at hu hv hd hp hq
    simp only [List.length_range, Nat.zero_add, Nat.add_zero, Nat.zero_mul] at hv hd hp hq
    exact ⟨hs, hl, by rw [hs]; exact hc, hd, hv, hp, hq⟩
  · rw [if_neg hc] at hr; simp at hr

end Linear

namespace Linear

/-- Every completed `linear_hash_table_insert` keeps the counters consistent
with the arrays. -/
theorem lin_insert_fuel_probe (h1 : Key → Nat) (junk : Nat → Key) :
    ∀ fuel (t t' : LinearHashTable) (k : Key) (b : Bool), ProbeInv t →
      linear_hash_table_insert_fuel h1 junk fuel t k = .ok (t', b) → ProbeInv t' := by
  intro fuel
  induction fuel with
  | zero => intro t t' k b _ hr; simp [linear_hash_table_insert_fuel] at hr
  | succ fuel ih =>
    intro t t' k b hP hr
    obtain ⟨hpos, hlen, hmax, hload, hlow, hup⟩ := hP
    obtain ⟨p, hp, _, hpu, hpz, hpl, _, hnot⟩ :=
      lin_insert_loop_spec k (h1 k) (t.size + 1) t 0 (by omega) (by omega)
        (by intro s hs; omega)
    have hp' : insert_loop k (t.size + 1) t (h1 k % t.size) 0 = .ok p := by simpa using hp
    have hpp := lin_insert_loop_probe k _ _ _ _ _ hp'
    have hused : used p.table = used t := by unfold used; rw [hpu]
    rw [lin_insert_fuel_eq h1 junk fuel t k p hp'] at hr
    by_cases hf : p.found = true
    · rw [if_pos hf] at hr
      simp only [Except.ok.injEq, Prod.mk.injEq] at hr
      obtain ⟨rfl, _⟩ := hr
      exact ⟨by rw [hpz]; exact hpos, by rw [hpu, hpz]; exact hlen, by rw [hpz]; exact hmax,
        by rw [hpl, hused]; exact hload, by rw [hpl, hpp]; exact hlow,
        by rw [hpp, hused, hpz]; exact hup⟩
    · rw [if_neg hf] at hr
      obtain ⟨hph, hple, hprun, hpfree⟩ := hnot (by simpa using hf)
      by_cases hfull : p.steps = p.table.size
      · rw [if_pos hfull] at hr
        cases hd : double_table h1 junk { p.table with
            stats := { p.table.stats with is_recorded_collisions := 1 } } with
        | error e => rw [hd] at hr; simp at hr
        | ok t2 =>
          rw [hd] at hr
          simp only at hr
          have hall : ∀ i, i < t.inuse.length → t.inuse.getD i false = true := by
            intro i hi
            rw [hlen] at hi
            obtain ⟨j, hj, hji⟩ := aux_offset_exists (h1 k) i t.size hi
            have := hprun j (by rw [hfull, hpz]; exact hj)
            rw [hji] at this
            exact this
          have hcount : used t = t.size := by
            unfold used
            rw [aux_count_all_true t.inuse hall, hlen]
          obtain ⟨hs2, hl2, hm2, hd2, hu2, hlo2, hup2⟩ :=
            lin_double_table_probe (t := { p.table with
              stats := { p.table.stats with is_recorded_collisions := 1 } })
              (by show 0 < p.table.size; rw [hpz]; exact hpos) hd
          have e1 : ({ p.table with stats := { p.table.stats with
              is_recorded_collisions := 1 } } : LinearHashTable).size = t.size := hpz
          have e2 : ({ p.table with stats := { p.table.stats with
              is_recorded_collisions := 1 } } : LinearHashTable).stats.total_probe
              = t.stats.total_probe := hpp
          rw [e1] at hs2 hu2 hup2
          rw [e2] at hlo2 hup2
          rw [hcount] at hup
          refine ih t2 t' k b ⟨by omega, hl2, hm2, hd2, by omega, ?_⟩ hr
          rw [hs2]
          have h3 : t.size ≤ t.size * t.size := Nat.le_mul_self t.size
          have h4 : t.size * (t.size + 1) = t.size * t.size + t.size := by ring
          have h5 : t.size * 2 * (t.size * 2) = 4 * (t.size * t.size) := by ring
          rw [h4] at hup
          rw [h5]
          omega
      · rw [if_neg hfull] at hr
        simp only [Except.ok.injEq, Prod.mk.injEq] at hr
        obtain ⟨rfl, _⟩ := hr
        have hfree := hpfree (by rw [← hpz]; exact hfull)
        have hlt : p.h < p.table.inuse.length := by
          rw [hpu, hlen, hph]; exact Nat.mod_lt _ hpos
        have hfree' : p.table.inuse.getD p.h false = false := by rw [hpu]; exact hfree
        have hu' : used (place p k) = used t + 1 := by
          unfold used place
          simp only
          rw [aux_count_set_true _ _ hlt hfree', hpu]
        have hsteps : p.steps < t.size := by
          rw [hpz] at hfull
          omega
        refine ⟨by show 0 < p.table.size; rw [hpz]; exact hpos,
          by show (p.table.inuse.set p.h true).length = p.table.size
             rw [List.length_set, hpu, hpz]; exact hlen,
          by show p.table.size < MAX_TABLE_SIZE; rw [hpz]; exact hmax,
          by rw [hu']; show p.table.load + 1 = used t + 1; rw [hpl, hload],
          by show p.table.load + 1 ≤ p.table.stats.total_probe + (p.steps + 1)
             rw [hpl, hpp]; omega, ?_⟩
        rw [hu']
        show p.table.stats.total_probe + (p.steps + 1)
          ≤ (used t + 1) * (p.table.size + 1) + p.table.size * p.table.size
        rw [hpp, hpz]
        have : (used t + 1) * (t.size + 1) = used t * (t.size + 1) + (t.size + 1) := by ring
        rw [this]
        omega

/-- On every reachable table the counters are consistent with the arrays. -/
theorem lin_reachable_probe_inv {h1 : Key → Nat} {junk : Nat → Key} {t : LinearHashTable}
    (hr : Reachable h1 junk t) : ProbeInv t := by
  induction hr with
  | init size t hs h =>
    unfold new_linear_hash_table initialise_table at h
    by_cases hc : size < MAX_TABLE_SIZE
    · rw [if_pos hc] at h
      simp only [Except.ok.injEq] at h
      subst h
      refine ⟨hs, by simp, hc, ?_, le_refl _, Nat.zero_le _⟩
      simp [used, List.count_replicate]
    · rw [if_neg hc] at h; simp at h
  | step t t' k b _ h ih => exact lin_insert_fuel_probe h1 junk _ t t' k b ih h

/-- On a reachable table the probe counter is at least the load and below
`2 ^ 56`. -/
theorem lin_reachable_probe_bound {h1 : Key → Nat} {junk : Nat → Key} {t : LinearHashTable}
    (hr : Reachable h1 junk t) :
    t.load ≤ t.stats.total_probe ∧ t.stats.total_probe < 2 ^ 56 := by
  obtain ⟨_, hlen, hmax, _, hlow, hup⟩ := lin_reachable_probe_inv hr
  refine ⟨hlow, ?_⟩
  have hu : used t ≤ t.size := by
    unfold used
    rw [← hlen]
    exact List.count_le_length _ _
  unfold MAX_TABLE_SIZE at hmax
  have h1' : used t * (t.size + 1) ≤ 134217728 * 134217728 :=
    Nat.mul_le_mul (by omega) (by omega)
  have h2' : t.size * t.size ≤ 134217728 * 134217728 :=
    Nat.mul_le_mul (by omega) (by omega)
  norm_num at h1' h2' ⊢
  omega

end Linear

namespace Linear

/-- The average probe of the table `probe_three`, with load 3 and
`total_probe` 5, is the double `7505999378950827 / 2 ^ 52`. -/
theorem lin_probe_three_average :
    (linear_hash_table_stats probe_three).average_probe
      = CDouble.finite (7505999378950827 / 4503599627370496) := by
  show ((CDouble.finite ((5 : ℕ) : ℚ)).div ((3 : ℕ) : ℚ)).mul 1 = _
  have h3 : (((3 : ℕ) : ℚ)) ≠ 0 := by norm_num
  have h53 : (((5 : ℕ) : ℚ)) / ((3 : ℕ) : ℚ) = 5 / 3 := by norm_num
  simp only [CDouble.div]
  rw [if_neg h3, h53, CDouble.fp_round_five_thirds]
  simp only [CDouble.mul]
  rw [mul_one]
  exact CDouble.fp_round_idem (by norm_num) CDouble.fp_round_five_thirds

end Linear

/-- C26 (amended). LinearTable statistics: `linear_hash_table_stats` has no
guard for `load == 0`; it divides `total_probe` by `load` for every table.
On a reachable table with load 0 both operands are zero and the quotient is
not a number.  On a reachable table with keys the divisor is not zero and the
result is a finite double; as long as `total_probe` is below `2 ^ 53`, where
a double holds the sum of the probes exactly, it is the quotient
`total_probe / load` rounded to the nearest double, which differs from the
quotient by at most the fraction `2 ^ (-53)` of it. -/
theorem linear_stats_average (h1 : Key → Nat) (junk : Nat → Key)
    (t : Linear.LinearHashTable) (hr : Linear.Reachable h1 junk t) :
    (t.load = 0 → (Linear.linear_hash_table_stats t).average_probe = CDouble.nan) ∧
    (t.load ≠ 0 → ∃ q : ℚ,
      (Linear.linear_hash_table_stats t).average_probe = CDouble.finite q) ∧
    (t.load ≠ 0 → t.stats.total_probe < 2 ^ 53 → ∃ q : ℚ,
      (Linear.linear_hash_table_stats t).average_probe = CDouble.finite q ∧
      CDouble.round ((t.stats.total_probe : ℚ) / (t.load : ℚ)) = CDouble.finite q ∧
      |q - (t.stats.total_probe : ℚ) / (t.load : ℚ)|
        ≤ (t.stats.total_probe : ℚ) / (t.load : ℚ) / 2 ^ 53) := by
  have main : t.load ≠ 0 → ∃ q : ℚ,
      (Linear.linear_hash_table_stats t).average_probe = CDouble.finite q ∧
      CDouble.round ((t.stats.total_probe : ℚ) / (t.load : ℚ)) = CDouble.finite q ∧
      |q - (t.stats.total_probe : ℚ) / (t.load : ℚ)|
        ≤ (t.stats.total_probe : ℚ) / (t.load : ℚ) / 2 ^ 53 := by
    intro hl
    obtain ⟨hlow, hup⟩ := Linear.lin_reachable_probe_bound hr
    have hq : (t.load : ℚ) ≠ 0 := by exact_mod_cast hl
    have hl1 : (1 : ℚ) ≤ (t.load : ℚ) := by exact_mod_cast Nat.one_le_iff_ne_zero.mpr hl
    have hlpos : (0 : ℚ) < (t.load : ℚ) := by linarith
    have hx1 : (1 : ℚ) ≤ (t.stats.total_probe : ℚ) / (t.load : ℚ) :=
      (one_le_div hlpos).mpr (by exact_mod_cast hlow)
    have hxpos : (0 : ℚ) < (t.stats.total_probe : ℚ) / (t.load : ℚ) := by linarith
    have hxlt : (t.stats.total_probe : ℚ) / (t.load : ℚ) < 2 ^ 1023 := by
      have a : (t.stats.total_probe : ℚ) / (t.load : ℚ) ≤ (t.stats.total_probe : ℚ) :=
        div_le_self (by exact_mod_cast Nat.zero_le _) hl1
      have b : (t.stats.total_probe : ℚ) < 2 ^ 56 := by exact_mod_cast hup
      have c : (2 : ℚ) ^ 56 < 2 ^ 1023 := pow_lt_pow_right₀ (by norm_num) (by norm_num)
      linarith
    obtain ⟨v, hv, herr⟩ := CDouble.fp_round_finite hxpos hxlt
    have hid := CDouble.fp_round_idem (le_of_lt hxpos) hv
    have hnorm : (2 : ℚ) ^ (-1022 : ℤ) ≤ (t.stats.total_probe : ℚ) / (t.load : ℚ) := by
      have : (2 : ℚ) ^ (-1022 : ℤ) ≤ 2 ^ (0 : ℤ) := CDouble.fp_zpow_mono (by norm_num)
      rw [zpow_zero] at this
      linarith
    have hulp := CDouble.fp_ulp_le hxpos hnorm
    refine ⟨v, ?_, hv, ?_⟩
    · show (((CDouble.finite (t.stats.total_probe : ℚ)).div (t.load : ℚ)).mul 1)
        = CDouble.finite v
      simp only [CDouble.div]
      rw [if_neg hq, hv]
      simp only [CDouble.mul]
      rw [mul_one, hid]
    · calc |v - (t.stats.total_probe : ℚ) / (t.load : ℚ)|
          ≤ CDouble.ulp ((t.stats.total_probe : ℚ) / (t.load : ℚ)) / 2 := herr
        _ ≤ (t.stats.total_probe : ℚ) / (t.load : ℚ) / 2 ^ 52 / 2 :=
          div_le_div_of_nonneg_right hulp (by norm_num)
        _ = (t.stats.total_probe : ℚ) / (t.load : ℚ) / 2 ^ 53 := by ring
  refine ⟨?_, ?_, fun hl _ => main hl⟩
  · intro hl
    have hp := Linear.lin_reachable_probe hr hl
    simp [Linear.linear_hash_table_stats, CDouble.div, CDouble.mul, hl, hp]
  · intro hl
    obtain ⟨q, hq, _⟩ := main hl
    exact ⟨q, hq⟩

/-- Counterexample for C26: on the fresh table `new_linear_hash_table 1` the
load is 0 and `linear_hash_table_stats` divides by it: the average probe is
the quotient of `0.0` by zero, which is not a number. -/
theorem linear_stats_average_counterexample :
    Linear.new_linear_hash_table (fun _ => 0) 1 = .ok Linear.demo_empty ∧
    Linear.demo_empty.load = 0 ∧
    (Linear.linear_hash_table_stats Linear.demo_empty).average_probe
      = ((CDouble.finite 0).div 0).mul 1 ∧
    (Linear.linear_hash_table_stats Linear.demo_empty).average_probe = CDouble.nan := by
  refine ⟨rfl, rfl, ?_, ?_⟩ <;>
    simp [Linear.linear_hash_table_stats, CDouble.div, CDouble.mul, Linear.demo_empty]

/-- Witness for C26 (amended): the fresh table of size 1 has load 0 and its
average probe is not a number; the table of size 4 after the inserts of 0, 4
and 1 (`h1 k = k`) has load 3 and `total_probe` 5, and its average probe is
the double `7505999378950827 / 2 ^ 52` that `5 / 3` is rounded to. -/
theorem linear_stats_average_witness :
    (Linear.Reachable (fun k => k) (fun _ => 0) Linear.demo_empty ∧
      Linear.demo_empty.load = 0 ∧
      (Linear.linear_hash_table_stats Linear.demo_empty).average_probe = CDouble.nan) ∧
    Linear.Reachable (fun k => k) (fun _ => 0) Linear.probe_three ∧
    Linear.probe_three.load ≠ 0 ∧ Linear.probe_three.stats.total_probe < 2 ^ 53 ∧
    (Linear.linear_hash_table_stats Linear.probe_three).average_probe
      = CDouble.finite (7505999378950827 / 4503599627370496) ∧
    ∃ q : ℚ, (Linear.linear_hash_table_stats Linear.probe_three).average_probe
        = CDouble.finite q ∧
      CDouble.round ((Linear.probe_three.stats.total_probe : ℚ) /
        (Linear.probe_three.load : ℚ)) = CDouble.finite q ∧
      |q - (Linear.probe_three.stats.total_probe : ℚ) / (Linear.probe_three.load : ℚ)|
        ≤ (Linear.probe_three.stats.total_probe : ℚ) / (Linear.probe_three.load : ℚ)
          / 2 ^ 53 :=
  ⟨⟨Linear.Reachable.init 1 Linear.demo_empty (by decide) (by rfl), by rfl,
    (linear_stats_average (fun k => k) (fun _ => 0) Linear.demo_empty
      (Linear.Reachable.init 1 Linear.demo_empty (by decide) (by rfl))).1 (by rfl)⟩,
    Linear.Reachable.step Linear.probe_two Linear.probe_three 1 true
      (Linear.Reachable.step Linear.probe_one Linear.probe_two 4 true
        (Linear.Reachable.step Linear.scenario_a_empty Linear.probe_one 0 true
          (Linear.Reachable.init 4 Linear.scenario_a_empty (by decide) (by rfl)) (by rfl))
        (by rfl))
      (by rfl),
    by decide, by decide, Linear.lin_probe_three_average,
    (linear_stats_average (fun k => k) (fun _ => 0) Linear.probe_three
      (Linear.Reachable.step Linear.probe_two Linear.probe_three 1 true
        (Linear.Reachable.step Linear.probe_one Linear.probe_two 4 true
          (Linear.Reachable.step Linear.scenario_a_empty Linear.probe_one 0 true
            (Linear.Reachable.init 4 Linear.scenario_a_empty (by decide) (by rfl)) (by rfl))
          (by rfl))
        (by rfl))).2.2 (by decide) (by decide)⟩
